import Mathlib

/-!
# CPU scheduling simulator (`scheduler.c`): model and verified properties

A shallow embedding of the four scheduling policies of `scheduler.c`
(`simulate_FCFS`, `simulate_SJF`, `simulate_RR`, `simulate_RR_with_penalty`)
together with `reset_processes`.

Modelling conventions.

* `Process p[]` with its length `n` is a `List Process`; `n` is `p.length`.
* C `int`.  Each policy is given twice.  The definitions under the names of the
  source (`fcfsLoop`, `sjfIter`, `rrTick`, `rrSettle`, ...) compute over the
  integers, as if no operation overflowed.  The definitions with the suffix `32`
  (`fcfsLoop32`, `sjfIter32`, `rrTick32`, `rrSettle32`, ...) reduce the result of
  every arithmetic operation on the clock and on the fields of a record to 32
  bits (`wrap`), which is what the compiled program does; signed overflow is
  undefined in ISO C.  The two agree on every run whose exact values fit in an
  `int` (section "The 32-bit policies against the exact ones").  What is stated of
  the values of the clock and of the metrics is stated of the 32-bit definitions,
  for runs in which nothing has overflowed (`FitsFCFS`, `FitsSJF`, `FitsRR`,
  `FitsRRP`); what does not depend on the size of the clock is stated of the
  definitions over the integers.
* A `while` loop is run with a bound on the number of iterations (`fuel`); the
  bounded runner returns the state reached, and the state says whether the loop
  has left (`completed < n` is false) or not.
* The arrays `queue` and `in_queue` have `MAX_PROCESSES` cells.  The model keeps
  every value written (`queue` is the list of all cells written so far, so that
  `tail` is `queue.length`) and raises the flag `oob` when an access uses an
  index outside the array.  A run that raised the flag has no defined result in
  C; `simulate_RR` and `simulate_RR_with_penalty` report it as `Outcome.overflow`,
  and what the model computes after the flag is raised says nothing about the
  program.
* `print_stats` only prints and is left out.
-/

namespace Scheduler

/-- Capacity of the `queue` and `in_queue` arrays (`#define MAX_PROCESSES 100`). -/
def MAX_PROCESSES : Nat := 100

/-- The `Process` record of `scheduler.c`. -/
structure Process where
  pid : Int
  arrival_time : Int
  burst_time : Int
  priority : Int
  remaining_time : Int
  waiting_time : Int
  turnaround_time : Int
  finish_time : Int
  is_completed : Int
deriving DecidableEq

instance : Inhabited Process := ⟨⟨0, 0, 0, 0, 0, 0, 0, 0, 0⟩⟩

/-- A process as `main` sets it up (pid, arrival, burst) before the first reset. -/
def mkProcess (pid arrival burst : Int) : Process :=
  ⟨pid, arrival, burst, 0, 0, 0, 0, 0, 0⟩

/-- The body of the loop of `reset_processes` for one process. -/
def resetProcess (x : Process) : Process :=
  { x with remaining_time := x.burst_time, waiting_time := 0, turnaround_time := 0,
           finish_time := 0, is_completed := 0 }

/-- `reset_processes`: restore the mutable fields of every process. -/
def reset_processes (p : List Process) : List Process := p.map resetProcess

/-! ## FCFS -/

/-- The `for` loop of `simulate_FCFS`, from the process at hand onwards, with the
clock `current_time` as it stands on entry to the iteration.  The arithmetic is
that of the integers; `fcfsLoop32` is the loop in 32-bit arithmetic. -/
def fcfsLoop : List Process → Int → List Process
  | [], _ => []
  | x :: rest, current_time =>
    let start := if current_time < x.arrival_time then x.arrival_time else current_time
    let fin := start + x.burst_time
    { x with waiting_time := start - x.arrival_time, finish_time := fin,
             turnaround_time := fin - x.arrival_time } :: fcfsLoop rest fin

/-- `simulate_FCFS`: the process array after the run. -/
def simulate_FCFS (p : List Process) : List Process := fcfsLoop p 0

/-! ## SJF (non-preemptive) -/

/-- The local variables of `simulate_SJF` together with the process array. -/
structure SJFState where
  p : List Process
  current_time : Int
  completed : Nat

/-- The selection scan of `simulate_SJF` from index `i` onwards; the accumulator
is `(idx, min_burst)`, with `none` for `idx = -1`. -/
def sjfScan (current_time : Int) : List Process → Nat → Option Nat × Int → Option Nat × Int
  | [], _, acc => acc
  | x :: rest, i, acc =>
    sjfScan current_time rest (i + 1)
      (if x.arrival_time ≤ current_time ∧ x.is_completed = 0 ∧ x.burst_time < acc.2
       then (some i, x.burst_time) else acc)

/-- The index chosen by the scan of `simulate_SJF` (`none` for `idx = -1`). -/
def sjfSelect (s : SJFState) : Option Nat :=
  (sjfScan s.current_time s.p 0 (none, 99999)).1

/-- One iteration of the `while` loop of `simulate_SJF`.  The arithmetic is that
of the integers; `sjfIter32` is the iteration in 32-bit arithmetic. -/
def sjfIter (s : SJFState) : SJFState :=
  match sjfSelect s with
  | some idx =>
    let x := s.p.getD idx default
    let fin := s.current_time + x.burst_time
    { p := s.p.set idx { x with waiting_time := s.current_time - x.arrival_time,
                                finish_time := fin,
                                turnaround_time := fin - x.arrival_time,
                                is_completed := 1 },
      current_time := fin,
      completed := s.completed + 1 }
  | none => { s with current_time := s.current_time + 1 }

/-- The `while (completed < n)` loop of `simulate_SJF`, cut after `fuel` iterations. -/
def sjfRun : Nat → SJFState → SJFState
  | 0, s => s
  | fuel + 1, s => if s.completed < s.p.length then sjfRun fuel (sjfIter s) else s

/-- The state of `simulate_SJF` on entry to its loop. -/
def sjfInit (p : List Process) : SJFState := ⟨p, 0, 0⟩

/-- `simulate_SJF`: the process array after the run, `none` when the loop has not
left within `fuel` iterations. -/
def simulate_SJF (p : List Process) (fuel : Nat) : Option (List Process) :=
  let s := sjfRun fuel (sjfInit p)
  if s.completed < s.p.length then none else some s.p

/-! ## Round Robin, plain and with context-switch penalty -/

/-- The local variables of `simulate_RR` and `simulate_RR_with_penalty` together
with the process array.  `queue` holds the cells `queue[0 .. tail)`, so `tail` is
`queue.length`; `last_pid` is used by `simulate_RR_with_penalty` only; `oob`
records that an index left `0 .. MAX_PROCESSES - 1`. -/
structure SimState where
  p : List Process
  current_time : Int
  completed : Nat
  queue : List Nat
  head : Nat
  in_queue : Nat → Bool
  last_pid : Int
  oob : Bool

/-- An access to `in_queue[i]`. -/
def touch (s : SimState) (i : Nat) : SimState :=
  { s with oob := s.oob || decide (MAX_PROCESSES ≤ i) }

/-- The statement `queue[tail++] = i`.  The list takes the cell whatever its
index, so that `tail` stays `queue.length`; a write at an index from
`MAX_PROCESSES` on is outside the array and raises `oob`, after which the state
no longer stands for a state of the program. -/
def push (s : SimState) (i : Nat) : SimState :=
  { s with queue := s.queue ++ [i], oob := s.oob || decide (MAX_PROCESSES ≤ s.queue.length) }

/-- The statements `queue[tail++] = i; in_queue[i] = 1`. -/
def enqueue (s : SimState) (i : Nat) : SimState :=
  let s1 := push s i
  { s1 with in_queue := Function.update s1.in_queue i true,
            oob := s1.oob || decide (MAX_PROCESSES ≤ i) }

/-- A loop `for (i = ..; i < n; i++)` whose body reads `p[i]` and does not write to
the process array: the processes still to visit, the index of the first one. -/
def forProcs (body : Nat → Process → SimState → SimState) :
    List Process → Nat → SimState → SimState
  | [], _, s => s
  | x :: rest, i, s => forProcs body rest (i + 1) (body i x s)

/-- Body of the initial arrival loop: `if (p[i].arrival_time <= current_time)`. -/
def arriveInit (i : Nat) (x : Process) (s : SimState) : SimState :=
  if x.arrival_time ≤ s.current_time then enqueue s i else s

/-- Body of the arrival loop of the idle branch of `simulate_RR` and of the
penalty branch of `simulate_RR_with_penalty`:
`if (p[i].arrival_time <= current_time && !in_queue[i] && !p[i].is_completed)`. -/
def arriveLate (i : Nat) (x : Process) (s : SimState) : SimState :=
  if x.arrival_time ≤ s.current_time then
    if s.in_queue i = false ∧ x.is_completed = 0 then enqueue (touch s i) i else touch s i
  else s

/-- Body of the arrival loop inside a time slice:
`if (p[i].arrival_time == current_time && !in_queue[i])`. -/
def arriveTick (i : Nat) (x : Process) (s : SimState) : SimState :=
  if x.arrival_time = s.current_time then
    if s.in_queue i = false then enqueue (touch s i) i else touch s i
  else s

/-- The state on entry to the `while` loop: locals initialised and the arrivals of
time 0 queued. -/
def rrInit (p : List Process) : SimState :=
  forProcs arriveInit p 0
    { p := p, current_time := 0, completed := 0, queue := [], head := 0,
      in_queue := fun _ => false, last_pid := -1, oob := false }

/-- The idle branch of `simulate_RR`: one tick, then the arrival loop. -/
def rrIdle (s : SimState) : SimState :=
  let s1 := { s with current_time := s.current_time + 1 }
  forProcs arriveLate s1.p 0 s1

/-- One tick of a time slice: `current_time++`, then the arrival loop.  The
increment is that of the integers; `rrTick32` is the tick in 32-bit arithmetic. -/
def rrTick (s : SimState) : SimState :=
  let s1 := { s with current_time := s.current_time + 1 }
  forProcs arriveTick s1.p 0 s1

/-- The loop `for (t = 0; t < slice; t++)` for a slice of `k` ticks. -/
def rrTicks : Nat → SimState → SimState
  | 0, s => s
  | k + 1, s => rrTicks k (rrTick s)

/-- The value `slice` for a process: `remaining_time > quantum ? quantum : remaining_time`. -/
def sliceOf (quantum : Int) (x : Process) : Int :=
  if x.remaining_time > quantum then quantum else x.remaining_time

/-- What follows the tick loop: `p[idx].remaining_time -= slice`, then either the
completion record or the re-queueing of `idx`. -/
def rrSettle (s : SimState) (idx : Nat) (slice : Int) : SimState :=
  let x := s.p.getD idx default
  let rem := x.remaining_time - slice
  if rem = 0 then
    { s with p := s.p.set idx { x with remaining_time := rem,
                                       finish_time := s.current_time,
                                       turnaround_time := s.current_time - x.arrival_time,
                                       waiting_time := s.current_time - x.arrival_time - x.burst_time,
                                       is_completed := 1 },
             completed := s.completed + 1 }
  else push { s with p := s.p.set idx { x with remaining_time := rem } } idx

/-- The part shared by both Round Robin variants once `idx` is chosen: compute
`slice`, run the ticks, settle. -/
def runSlice (quantum : Int) (s : SimState) (idx : Nat) : SimState :=
  let slice := sliceOf quantum (s.p.getD idx default)
  rrSettle (rrTicks slice.toNat s) idx slice

/-- The dispatch branch of `simulate_RR`: `idx = queue[head++]` and the slice. -/
def rrDispatch (quantum : Int) (s : SimState) : SimState :=
  let idx := s.queue.getD s.head 0
  runSlice quantum { s with head := s.head + 1 } idx

/-- One iteration of the `while` loop of `simulate_RR`. -/
def rrIter (quantum : Int) (s : SimState) : SimState :=
  if s.head = s.queue.length then rrIdle s else rrDispatch quantum s

/-- The `while (completed < n)` loop of `simulate_RR`, cut after `fuel` iterations. -/
def rrRun (quantum : Int) : Nat → SimState → SimState
  | 0, s => s
  | fuel + 1, s => if s.completed < s.p.length then rrRun quantum fuel (rrIter quantum s) else s

/-- Result of a bounded run of a Round Robin variant. -/
inductive Outcome where
  | finished (p : List Process)
  | overflow
  | running
deriving DecidableEq

/-- Read the outcome off the state a bounded run has reached. -/
def outcomeOf (s : SimState) : Outcome :=
  if s.completed < s.p.length then Outcome.running
  else if s.oob then Outcome.overflow
  else Outcome.finished s.p

/-- `simulate_RR`: the process array after the run. -/
def simulate_RR (p : List Process) (quantum : Int) (fuel : Nat) : Outcome :=
  outcomeOf (rrRun quantum fuel (rrInit p))

/-- The idle branch of `simulate_RR_with_penalty`: `current_time++; continue;`. -/
def rrpIdle (s : SimState) : SimState :=
  { s with current_time := s.current_time + 1 }

/-- The context-switch block of `simulate_RR_with_penalty` for the process `idx`
just taken from the queue, up to and including `last_pid = p[idx].pid`. -/
def rrpSwitch (penalty : Int) (s : SimState) (idx : Nat) : SimState :=
  let pid := (s.p.getD idx default).pid
  let s1 :=
    if s.last_pid ≠ -1 ∧ pid ≠ s.last_pid then
      let s2 := { s with current_time := s.current_time + penalty }
      forProcs arriveLate s2.p 0 s2
    else s
  { s1 with last_pid := pid }

/-- The dispatch branch of `simulate_RR_with_penalty`. -/
def rrpDispatch (quantum penalty : Int) (s : SimState) : SimState :=
  let idx := s.queue.getD s.head 0
  runSlice quantum (rrpSwitch penalty { s with head := s.head + 1 } idx) idx

/-- One iteration of the `while` loop of `simulate_RR_with_penalty`. -/
def rrpIter (quantum penalty : Int) (s : SimState) : SimState :=
  if s.head = s.queue.length then rrpIdle s else rrpDispatch quantum penalty s

/-- The `while (completed < n)` loop of `simulate_RR_with_penalty`, cut after
`fuel` iterations. -/
def rrpRun (quantum penalty : Int) : Nat → SimState → SimState
  | 0, s => s
  | fuel + 1, s =>
    if s.completed < s.p.length then rrpRun quantum penalty fuel (rrpIter quantum penalty s)
    else s

/-- `simulate_RR_with_penalty`: the process array after the run. -/
def simulate_RR_with_penalty (p : List Process) (quantum penalty : Int) (fuel : Nat) : Outcome :=
  outcomeOf (rrpRun quantum penalty fuel (rrInit p))

/-! ## The four policies in 32-bit arithmetic

The definitions above compute over the integers.  The compiled program keeps
`current_time` and the fields of a record in 32-bit `int`s, and an operation
whose exact result does not fit leaves the result reduced modulo 2^32 (signed
overflow, undefined in ISO C).  The definitions of this section repeat the loop
bodies with every result of `+`, `-`, `++`, `+=` and `-=` on these values
reduced by `wrap`; what does no arithmetic on them (`sjfSelect`, the arrival
loops, `sliceOf`, `rrInit`, `outcomeOf`) is shared.  The counters `completed`,
`head`, `tail` and `t` stay below 2^31 in every run considered and are natural
numbers in both versions. -/

/-- Least value of an `int` (`INT_MIN`). -/
def INT_MIN : Int := -2147483648

/-- Greatest value of an `int` (`INT_MAX`). -/
def INT_MAX : Int := 2147483647

/-- The value an `int` takes when the exact result of an operation is `z`: the
representative of `z` modulo 2^32 between `INT_MIN` and `INT_MAX`. -/
def wrap (z : Int) : Int := (z + 2147483648) % 4294967296 - 2147483648

/-- The `for` loop of `simulate_FCFS` in 32-bit arithmetic. -/
def fcfsLoop32 : List Process → Int → List Process
  | [], _ => []
  | x :: rest, current_time =>
    let start := if current_time < x.arrival_time then x.arrival_time else current_time
    let fin := wrap (start + x.burst_time)
    { x with waiting_time := wrap (start - x.arrival_time), finish_time := fin,
             turnaround_time := wrap (fin - x.arrival_time) } :: fcfsLoop32 rest fin

/-- `simulate_FCFS` in 32-bit arithmetic: the process array after the run. -/
def simulate_FCFS32 (p : List Process) : List Process := fcfsLoop32 p 0

/-- One iteration of the `while` loop of `simulate_SJF` in 32-bit arithmetic. -/
def sjfIter32 (s : SJFState) : SJFState :=
  match sjfSelect s with
  | some idx =>
    let x := s.p.getD idx default
    let fin := wrap (s.current_time + x.burst_time)
    { p := s.p.set idx { x with waiting_time := wrap (s.current_time - x.arrival_time),
                                finish_time := fin,
                                turnaround_time := wrap (fin - x.arrival_time),
                                is_completed := 1 },
      current_time := fin,
      completed := s.completed + 1 }
  | none => { s with current_time := wrap (s.current_time + 1) }

/-- The `while (completed < n)` loop of `simulate_SJF` in 32-bit arithmetic, cut
after `fuel` iterations. -/
def sjfRun32 : Nat → SJFState → SJFState
  | 0, s => s
  | fuel + 1, s => if s.completed < s.p.length then sjfRun32 fuel (sjfIter32 s) else s

/-- `simulate_SJF` in 32-bit arithmetic: the process array after the run, `none`
when the loop has not left within `fuel` iterations. -/
def simulate_SJF32 (p : List Process) (fuel : Nat) : Option (List Process) :=
  let s := sjfRun32 fuel (sjfInit p)
  if s.completed < s.p.length then none else some s.p

/-- The idle branch of `simulate_RR` in 32-bit arithmetic. -/
def rrIdle32 (s : SimState) : SimState :=
  let s1 := { s with current_time := wrap (s.current_time + 1) }
  forProcs arriveLate s1.p 0 s1

/-- One tick of a time slice in 32-bit arithmetic. -/
def rrTick32 (s : SimState) : SimState :=
  let s1 := { s with current_time := wrap (s.current_time + 1) }
  forProcs arriveTick s1.p 0 s1

/-- The loop `for (t = 0; t < slice; t++)` in 32-bit arithmetic, for a slice of
`k` ticks. -/
def rrTicks32 : Nat → SimState → SimState
  | 0, s => s
  | k + 1, s => rrTicks32 k (rrTick32 s)

/-- What follows the tick loop, in 32-bit arithmetic: `p[idx].remaining_time -= slice`,
then either the completion record or the re-queueing of `idx`. -/
def rrSettle32 (s : SimState) (idx : Nat) (slice : Int) : SimState :=
  let x := s.p.getD idx default
  let rem := wrap (x.remaining_time - slice)
  if rem = 0 then
    let tat := wrap (s.current_time - x.arrival_time)
    { s with p := s.p.set idx { x with remaining_time := rem,
                                       finish_time := s.current_time,
                                       turnaround_time := tat,
                                       waiting_time := wrap (tat - x.burst_time),
                                       is_completed := 1 },
             completed := s.completed + 1 }
  else push { s with p := s.p.set idx { x with remaining_time := rem } } idx

/-- The part shared by both Round Robin variants once `idx` is chosen, in 32-bit
arithmetic. -/
def runSlice32 (quantum : Int) (s : SimState) (idx : Nat) : SimState :=
  let slice := sliceOf quantum (s.p.getD idx default)
  rrSettle32 (rrTicks32 slice.toNat s) idx slice

/-- The dispatch branch of `simulate_RR` in 32-bit arithmetic. -/
def rrDispatch32 (quantum : Int) (s : SimState) : SimState :=
  let idx := s.queue.getD s.head 0
  runSlice32 quantum { s with head := s.head + 1 } idx

/-- One iteration of the `while` loop of `simulate_RR` in 32-bit arithmetic. -/
def rrIter32 (quantum : Int) (s : SimState) : SimState :=
  if s.head = s.queue.length then rrIdle32 s else rrDispatch32 quantum s

/-- The `while (completed < n)` loop of `simulate_RR` in 32-bit arithmetic, cut
after `fuel` iterations. -/
def rrRun32 (quantum : Int) : Nat → SimState → SimState
  | 0, s => s
  | fuel + 1, s =>
    if s.completed < s.p.length then rrRun32 quantum fuel (rrIter32 quantum s) else s

/-- `simulate_RR` in 32-bit arithmetic: the process array after the run. -/
def simulate_RR32 (p : List Process) (quantum : Int) (fuel : Nat) : Outcome :=
  outcomeOf (rrRun32 quantum fuel (rrInit p))

/-- The idle branch of `simulate_RR_with_penalty` in 32-bit arithmetic. -/
def rrpIdle32 (s : SimState) : SimState :=
  { s with current_time := wrap (s.current_time + 1) }

/-- The context-switch block of `simulate_RR_with_penalty` in 32-bit arithmetic. -/
def rrpSwitch32 (penalty : Int) (s : SimState) (idx : Nat) : SimState :=
  let pid := (s.p.getD idx default).pid
  let s1 :=
    if s.last_pid ≠ -1 ∧ pid ≠ s.last_pid then
      let s2 := { s with current_time := wrap (s.current_time + penalty) }
      forProcs arriveLate s2.p 0 s2
    else s
  { s1 with last_pid := pid }

/-- The dispatch branch of `simulate_RR_with_penalty` in 32-bit arithmetic. -/
def rrpDispatch32 (quantum penalty : Int) (s : SimState) : SimState :=
  let idx := s.queue.getD s.head 0
  runSlice32 quantum (rrpSwitch32 penalty { s with head := s.head + 1 } idx) idx

/-- One iteration of the `while` loop of `simulate_RR_with_penalty` in 32-bit
arithmetic. -/
def rrpIter32 (quantum penalty : Int) (s : SimState) : SimState :=
  if s.head = s.queue.length then rrpIdle32 s else rrpDispatch32 quantum penalty s

/-- The `while (completed < n)` loop of `simulate_RR_with_penalty` in 32-bit
arithmetic, cut after `fuel` iterations. -/
def rrpRun32 (quantum penalty : Int) : Nat → SimState → SimState
  | 0, s => s
  | fuel + 1, s =>
    if s.completed < s.p.length then rrpRun32 quantum penalty fuel (rrpIter32 quantum penalty s)
    else s

/-- `simulate_RR_with_penalty` in 32-bit arithmetic: the process array after the
run. -/
def simulate_RR_with_penalty32 (p : List Process) (quantum penalty : Int) (fuel : Nat) :
    Outcome :=
  outcomeOf (rrpRun32 quantum penalty fuel (rrInit p))

/-- The value `z` is one an `int` holds. -/
def FitsInt (z : Int) : Prop := INT_MIN ≤ z ∧ z ≤ INT_MAX

instance (z : Int) : Decidable (FitsInt z) := by unfold FitsInt; infer_instance

/-- The fields of a record that the policies compute hold values of an `int`. -/
def FitsRec (x : Process) : Prop :=
  FitsInt x.remaining_time ∧ FitsInt x.waiting_time ∧ FitsInt x.turnaround_time ∧
  FitsInt x.finish_time

instance (x : Process) : Decidable (FitsRec x) := by unfold FitsRec; infer_instance

/-- No `int` operation of `simulate_FCFS` on `p` overflows: the values the loop
computes over the integers all fit. -/
def FitsFCFS (p : List Process) : Prop := ∀ x ∈ simulate_FCFS p, FitsRec x

instance (p : List Process) : Decidable (FitsFCFS p) := by unfold FitsFCFS; infer_instance

/-- The clock and the records of a state of `simulate_SJF` hold values of an `int`. -/
def FitsSJFState (s : SJFState) : Prop := FitsInt s.current_time ∧ ∀ x ∈ s.p, FitsRec x

instance (s : SJFState) : Decidable (FitsSJFState s) := by
  unfold FitsSJFState; infer_instance

/-- The clock and the records of a state of a Round Robin variant hold values of
an `int`. -/
def FitsState (s : SimState) : Prop := FitsInt s.current_time ∧ ∀ x ∈ s.p, FitsRec x

instance (s : SimState) : Decidable (FitsState s) := by unfold FitsState; infer_instance

/-- No `int` operation overflows in the first `fuel` iterations of `simulate_SJF`
on `p`: the values computed over the integers all fit. -/
def FitsSJF (p : List Process) (fuel : Nat) : Prop :=
  ∀ k, k ≤ fuel → FitsSJFState (sjfRun k (sjfInit p))

/-- No `int` operation overflows in the first `fuel` iterations of `simulate_RR`
on `p`: the values computed over the integers all fit. -/
def FitsRR (p : List Process) (quantum : Int) (fuel : Nat) : Prop :=
  ∀ k, k ≤ fuel → FitsState (rrRun quantum k (rrInit p))

/-- No `int` operation overflows in the first `fuel` iterations of
`simulate_RR_with_penalty` on `p`: the values computed over the integers all fit. -/
def FitsRRP (p : List Process) (quantum penalty : Int) (fuel : Nat) : Prop :=
  ∀ k, k ≤ fuel → FitsState (rrpRun quantum penalty k (rrInit p))

instance (p : List Process) (fuel : Nat) : Decidable (FitsSJF p fuel) := by
  unfold FitsSJF; infer_instance

instance (p : List Process) (quantum : Int) (fuel : Nat) : Decidable (FitsRR p quantum fuel) := by
  unfold FitsRR; infer_instance

instance (p : List Process) (quantum penalty : Int) (fuel : Nat) :
    Decidable (FitsRRP p quantum penalty fuel) := by
  unfold FitsRRP; infer_instance

/-! ## Vocabulary of the statements -/

/-- The conservation law on one process record. -/
def Conserved (x : Process) : Prop :=
  x.turnaround_time = x.finish_time - x.arrival_time ∧
  x.waiting_time = x.turnaround_time - x.burst_time

/-- A process does not finish before its arrival plus its burst. -/
def NotEarly (x : Process) : Prop :=
  x.arrival_time + x.burst_time ≤ x.finish_time ∧ 0 ≤ x.waiting_time

/-- The finish time of the predecessor of position `i` in `r`, and `0` for the
first position. -/
def prevFinish (r : List Process) (i : Nat) : Int :=
  if i = 0 then 0 else (r.getD (i - 1) default).finish_time

/-- The record FCFS is to leave for `x` when the CPU becomes free at `free`. -/
def fcfsRecord (x : Process) (free : Int) : Process :=
  { x with waiting_time := max free x.arrival_time - x.arrival_time,
           finish_time := max free x.arrival_time + x.burst_time,
           turnaround_time := max free x.arrival_time + x.burst_time - x.arrival_time }

/-! ## FCFS: lemmas -/

theorem fcfsLoop_mem (p : List Process) (t : Int) :
    ∀ x ∈ fcfsLoop p t, Conserved x ∧ x.arrival_time + x.burst_time ≤ x.finish_time := by
  induction p generalizing t with
  | nil => intro x hx; simp [fcfsLoop] at hx
  | cons y rest ih =>
    intro x hx
    simp only [fcfsLoop, List.mem_cons] at hx
    rcases hx with rfl | hx
    · refine ⟨⟨rfl, ?_⟩, ?_⟩
      · simp only; ring
      · simp only; split <;> omega
    · exact ih _ x hx

theorem fcfsLoop_length (p : List Process) (t : Int) : (fcfsLoop p t).length = p.length := by
  induction p generalizing t with
  | nil => rfl
  | cons y rest ih => simp [fcfsLoop, ih]

theorem fcfsLoop_head (y : Process) (rest : List Process) (t : Int) :
    fcfsLoop (y :: rest) t
      = fcfsRecord y t :: fcfsLoop rest (max t y.arrival_time + y.burst_time) := by
  have h : (if t < y.arrival_time then y.arrival_time else t) = max t y.arrival_time := by
    split
    · rw [max_eq_right]; omega
    · rw [max_eq_left]; omega
  simp only [fcfsLoop, fcfsRecord, h]

theorem fcfsLoop_get (p : List Process) (t : Int) (i : Nat) (x : Process)
    (hx : p[i]? = some x) :
    (fcfsLoop p t)[i]? = some (fcfsRecord x
      (if i = 0 then t else ((fcfsLoop p t).getD (i - 1) default).finish_time)) := by
  induction p generalizing t i with
  | nil => simp at hx
  | cons y rest ih =>
    rw [fcfsLoop_head]
    cases i with
    | zero =>
      simp only [List.getElem?_cons_zero, Option.some.injEq] at hx
      simp [hx]
    | succ j =>
      simp only [List.getElem?_cons_succ] at hx
      have h := ih (max t y.arrival_time + y.burst_time) j hx
      simp only [List.getElem?_cons_succ, h, Nat.succ_ne_zero, if_false, Nat.add_sub_cancel]
      cases j with
      | zero => simp [fcfsRecord]
      | succ k => simp

/-! ## SJF: lemmas -/

/-- A process has arrived by `t` and is not completed: it takes part in the
selection scan of `simulate_SJF`. -/
def Eligible (t : Int) (x : Process) : Prop :=
  x.arrival_time ≤ t ∧ x.is_completed = 0

instance (t : Int) (x : Process) : Decidable (Eligible t x) := by
  unfold Eligible; infer_instance

theorem sjfScan_spec (t : Int) (l : List Process) (i0 : Nat) (acc : Option Nat × Int) :
    (sjfScan t l i0 acc = acc ∧ ∀ y ∈ l, Eligible t y → acc.2 ≤ y.burst_time) ∨
    (∃ k z, sjfScan t l i0 acc = (some (i0 + k), z.burst_time) ∧ l[k]? = some z ∧
      Eligible t z ∧ z.burst_time < acc.2 ∧
      ∀ j y, l[j]? = some y → Eligible t y →
        z.burst_time ≤ y.burst_time ∧ (y.burst_time = z.burst_time → k ≤ j)) := by
  induction l generalizing i0 acc with
  | nil => left; simp [sjfScan]
  | cons x rest ih =>
    simp only [sjfScan]
    by_cases hx : x.arrival_time ≤ t ∧ x.is_completed = 0 ∧ x.burst_time < acc.2
    · rw [if_pos hx]
      rcases ih (i0 + 1) (some i0, x.burst_time) with ⟨h1, h2⟩ | ⟨k, z, h1, h2, h3, h4, h5⟩
      · right
        refine ⟨0, x, by simpa using h1, by simp, ⟨hx.1, hx.2.1⟩, hx.2.2, ?_⟩
        intro j y hj hy
        cases j with
        | zero =>
          simp only [List.getElem?_cons_zero, Option.some.injEq] at hj
          subst hj; simp
        | succ j =>
          simp only [List.getElem?_cons_succ] at hj
          have := h2 y (List.getElem?_mem hj) hy
          simp only at this
          exact ⟨this, fun _ => Nat.zero_le _⟩
      · right
        refine ⟨k + 1, z, by rw [h1]; congr 2; omega, by simpa using h2, h3,
          lt_trans h4 hx.2.2, ?_⟩
        intro j y hj hy
        cases j with
        | zero =>
          simp only [List.getElem?_cons_zero, Option.some.injEq] at hj
          subst hj
          simp only at h4
          exact ⟨le_of_lt h4, fun h => absurd h (ne_of_gt h4)⟩
        | succ j =>
          simp only [List.getElem?_cons_succ] at hj
          have := h5 j y hj hy
          exact ⟨this.1, fun h => Nat.succ_le_succ (this.2 h)⟩
    · rw [if_neg hx]
      rcases ih (i0 + 1) acc with ⟨h1, h2⟩ | ⟨k, z, h1, h2, h3, h4, h5⟩
      · left
        refine ⟨h1, ?_⟩
        intro y hy he
        rcases List.mem_cons.1 hy with rfl | hy
        · by_contra hlt
          exact hx ⟨he.1, he.2, lt_of_not_le hlt⟩
        · exact h2 y hy he
      · right
        refine ⟨k + 1, z, by rw [h1]; congr 2; omega, by simpa using h2, h3, h4, ?_⟩
        intro j y hj hy
        cases j with
        | zero =>
          simp only [List.getElem?_cons_zero, Option.some.injEq] at hj
          rw [← hj] at hy ⊢
          have hge : acc.2 ≤ x.burst_time := by
            by_contra hlt
            exact hx ⟨hy.1, hy.2, lt_of_not_le hlt⟩
          exact ⟨le_of_lt (lt_of_lt_of_le h4 hge),
            fun h => absurd h (ne_of_gt (lt_of_lt_of_le h4 hge))⟩
        | succ j =>
          simp only [List.getElem?_cons_succ] at hj
          have := h5 j y hj hy
          exact ⟨this.1, fun h => Nat.succ_le_succ (this.2 h)⟩

/-- What the scan of `simulate_SJF` returns when it returns an index: an eligible
process of least burst, below the initial `min_burst`, and the first such. -/
theorem sjfSelect_some (s : SJFState) (idx : Nat) (h : sjfSelect s = some idx) :
    ∃ z, s.p[idx]? = some z ∧ Eligible s.current_time z ∧ z.burst_time < 99999 ∧
      ∀ j y, s.p[j]? = some y → Eligible s.current_time y →
        z.burst_time ≤ y.burst_time ∧ (y.burst_time = z.burst_time → idx ≤ j) := by
  unfold sjfSelect at h
  rcases sjfScan_spec s.current_time s.p 0 (none, 99999) with ⟨h1, _⟩ | ⟨k, z, h1, h2, h3, h4, h5⟩
  · rw [h1] at h; simp at h
  · rw [h1] at h
    simp only [zero_add, Option.some.injEq] at h
    subst h
    exact ⟨z, h2, h3, h4, h5⟩

/-- The scan of `simulate_SJF` returns no index exactly when every eligible
process has a burst of at least the initial `min_burst`. -/
theorem sjfSelect_none (s : SJFState) :
    sjfSelect s = none ↔ ∀ y ∈ s.p, Eligible s.current_time y → 99999 ≤ y.burst_time := by
  unfold sjfSelect
  rcases sjfScan_spec s.current_time s.p 0 (none, 99999) with ⟨h1, h2⟩ | ⟨k, z, h1, h2, h3, h4, _⟩
  · rw [h1]; simpa using h2
  · rw [h1]
    simp only at h4
    constructor
    · intro h; simp at h
    · intro h
      exact absurd (h z (List.getElem?_mem h2) h3) (not_le.2 h4)

/-- The record `simulate_SJF` leaves for `x` when it dispatches it at time `t`. -/
def sjfRecord (x : Process) (t : Int) : Process :=
  { x with waiting_time := t - x.arrival_time, finish_time := t + x.burst_time,
           turnaround_time := t + x.burst_time - x.arrival_time, is_completed := 1 }

theorem getD_of_getElem? {l : List Process} {i : Nat} {z : Process} (h : l[i]? = some z) :
    l.getD i default = z := by
  simp [h]

theorem sjfIter_some (s : SJFState) (idx : Nat) (z : Process) (h : sjfSelect s = some idx)
    (hz : s.p[idx]? = some z) :
    sjfIter s = ⟨s.p.set idx (sjfRecord z s.current_time), s.current_time + z.burst_time,
      s.completed + 1⟩ := by
  unfold sjfIter
  rw [h]
  simp only [getD_of_getElem? hz, sjfRecord]

theorem sjfIter_none (s : SJFState) (h : sjfSelect s = none) :
    sjfIter s = ⟨s.p, s.current_time + 1, s.completed⟩ := by
  unfold sjfIter
  rw [h]

/-- Induction along the `while` loop of `simulate_SJF`. -/
theorem sjfRun_induct (P : SJFState → Prop)
    (hstep : ∀ s, P s → s.completed < s.p.length → P (sjfIter s)) :
    ∀ fuel s, P s → P (sjfRun fuel s) := by
  intro fuel
  induction fuel with
  | zero => intro s hs; exact hs
  | succ k ih =>
    intro s hs
    simp only [sjfRun]
    split
    · next h => exact ih _ (hstep s hs h)
    · exact hs

theorem sjfRun_add (a b : Nat) (s : SJFState) :
    sjfRun (a + b) s = sjfRun b (sjfRun a s) := by
  induction a generalizing s with
  | zero => simp [sjfRun]
  | succ k ih =>
    rw [Nat.succ_add]
    simp only [sjfRun]
    split
    · exact ih _
    · next h =>
      cases b with
      | zero => rfl
      | succ b => simp [sjfRun, h]

theorem sjfRun_done (k : Nat) (s : SJFState) (h : ¬ s.completed < s.p.length) :
    sjfRun k s = s := by
  cases k with
  | zero => rfl
  | succ k => simp [sjfRun, h]

/-- Once `simulate_SJF` has returned a result, more fuel returns the same. -/
theorem simulate_SJF_mono (p : List Process) (f g : Nat) (res : List Process)
    (h : simulate_SJF p f = some res) (hfg : f ≤ g) : simulate_SJF p g = some res := by
  obtain ⟨d, rfl⟩ := Nat.exists_eq_add_of_le hfg
  unfold simulate_SJF at h ⊢
  rw [sjfRun_add]
  by_cases hc : (sjfRun f (sjfInit p)).completed < (sjfRun f (sjfInit p)).p.length
  · simp [hc] at h
  · rw [sjfRun_done d _ hc]
    exact h

/-- Every record `simulate_SJF` has completed obeys the conservation law and is
not early; the records start uncompleted. -/
def SJFDone (s : SJFState) : Prop :=
  ∀ x ∈ s.p, x.is_completed ≠ 0 → Conserved x ∧ NotEarly x

theorem sjfRecord_ok (z : Process) (t : Int) (h : z.arrival_time ≤ t) :
    Conserved (sjfRecord z t) ∧ NotEarly (sjfRecord z t) := by
  refine ⟨⟨rfl, ?_⟩, ?_, ?_⟩
  · simp only [sjfRecord]; ring
  · simp only [sjfRecord]; omega
  · simp only [sjfRecord]; omega

theorem sjfDone_iter (s : SJFState) (h : SJFDone s) : SJFDone (sjfIter s) := by
  cases hsel : sjfSelect s with
  | none => rw [sjfIter_none s hsel]; exact h
  | some idx =>
    obtain ⟨z, hz, he, _, _⟩ := sjfSelect_some s idx hsel
    rw [sjfIter_some s idx z hsel hz]
    intro x hx hc
    rcases List.mem_or_eq_of_mem_set hx with hx | rfl
    · exact h x hx hc
    · exact sjfRecord_ok z s.current_time he.1

theorem reset_uncompleted (p : List Process) : ∀ x ∈ reset_processes p, x.is_completed = 0 := by
  intro x hx
  simp only [reset_processes, List.mem_map] at hx
  obtain ⟨y, _, rfl⟩ := hx
  rfl

theorem sjfDone_run (p : List Process) (fuel : Nat) :
    SJFDone (sjfRun fuel (sjfInit (reset_processes p))) := by
  apply sjfRun_induct SJFDone (fun s hs _ => sjfDone_iter s hs)
  intro x hx hc
  exact absurd (reset_uncompleted p x hx) hc

/-! ### SJF: termination -/

/-- The test "not completed" as the loops of the simulator read it. -/
def pending (x : Process) : Bool := decide (x.is_completed = 0)

theorem countP_set_drop {α : Type} (q : α → Bool) (l : List α) (i : Nat) (z y : α)
    (hz : l[i]? = some z) (hq : q z = true) (hy : q y = false) :
    (l.set i y).countP q + 1 = l.countP q := by
  induction l generalizing i with
  | nil => simp at hz
  | cons a rest ih =>
    cases i with
    | zero =>
      simp only [List.getElem?_cons_zero, Option.some.injEq] at hz
      subst hz
      simp [List.set, List.countP_cons, hq, hy]
    | succ k =>
      simp only [List.getElem?_cons_succ] at hz
      have := ih k hz
      simp only [List.set, List.countP_cons]
      omega

/-- An upper bound of the arrival times of a process set. -/
def maxArrival : List Process → Int
  | [] => 0
  | x :: rest => max x.arrival_time (maxArrival rest)

theorem le_maxArrival (p : List Process) : ∀ x ∈ p, x.arrival_time ≤ maxArrival p := by
  induction p with
  | nil => intro x hx; simp at hx
  | cons a rest ih =>
    intro x hx
    rcases List.mem_cons.1 hx with rfl | hx
    · exact le_max_left _ _
    · exact le_trans (ih x hx) (le_max_right _ _)

theorem maxArrival_nonneg (p : List Process) : 0 ≤ maxArrival p := by
  induction p with
  | nil => simp [maxArrival]
  | cons a rest ih => exact le_trans ih (le_max_right _ _)

/-- Facts about the state of `simulate_SJF` that make its loop end: `completed`
counts the completed records, bursts lie strictly between 0 and the initial
`min_burst`, and arrivals are bounded by `A`. -/
structure SJFInv (A : Int) (s : SJFState) : Prop where
  count : s.completed + s.p.countP pending = s.p.length
  burst : ∀ x ∈ s.p, 0 < x.burst_time ∧ x.burst_time < 99999
  arr : ∀ x ∈ s.p, x.arrival_time ≤ A

/-- The variant of the loop of `simulate_SJF`. -/
def sjfMeasure (A : Int) (s : SJFState) : Nat :=
  s.p.countP pending + (A - s.current_time).toNat

theorem sjfInv_iter (A : Int) (s : SJFState) (h : SJFInv A s)
    (hc : s.completed < s.p.length) :
    SJFInv A (sjfIter s) ∧ sjfMeasure A (sjfIter s) < sjfMeasure A s := by
  cases hsel : sjfSelect s with
  | none =>
    rw [sjfIter_none s hsel]
    refine ⟨⟨h.count, h.burst, h.arr⟩, ?_⟩
    have hpos : 0 < s.p.countP pending := by have := h.count; omega
    obtain ⟨x, hx, hxp⟩ := List.countP_pos_iff.1 hpos
    have hxe : ¬ Eligible s.current_time x := by
      intro he
      have := (sjfSelect_none s).1 hsel x hx he
      have := (h.burst x hx).2
      omega
    have hxa : s.current_time < x.arrival_time := by
      by_contra hle
      exact hxe ⟨not_lt.1 hle, by simpa [pending] using hxp⟩
    have := h.arr x hx
    simp only [sjfMeasure]
    omega
  | some idx =>
    obtain ⟨z, hz, he, _, _⟩ := sjfSelect_some s idx hsel
    rw [sjfIter_some s idx z hsel hz]
    have hcnt := countP_set_drop pending s.p idx z (sjfRecord z s.current_time) hz
      (by simpa [pending] using he.2) (by simp [pending, sjfRecord])
    have hzb := h.burst z (List.getElem?_mem hz)
    refine ⟨⟨?_, ?_, ?_⟩, ?_⟩
    · have := h.count
      simp only [List.length_set]
      omega
    · intro x hx
      rcases List.mem_or_eq_of_mem_set hx with hx | rfl
      · exact h.burst x hx
      · exact hzb
    · intro x hx
      rcases List.mem_or_eq_of_mem_set hx with hx | rfl
      · exact h.arr x hx
      · exact h.arr z (List.getElem?_mem hz)
    · simp only [sjfMeasure]
      omega

theorem sjfRun_inv (A : Int) (fuel : Nat) (s : SJFState) (h : SJFInv A s) :
    SJFInv A (sjfRun fuel s) :=
  sjfRun_induct (SJFInv A) (fun s hs hc => (sjfInv_iter A s hs hc).1) fuel s h

theorem sjfRun_terminates (A : Int) (fuel : Nat) (s : SJFState) (h : SJFInv A s)
    (hm : sjfMeasure A s ≤ fuel) :
    ¬ (sjfRun fuel s).completed < (sjfRun fuel s).p.length := by
  induction fuel generalizing s with
  | zero =>
    simp only [sjfRun]
    have := h.count
    simp only [sjfMeasure] at hm
    omega
  | succ k ih =>
    simp only [sjfRun]
    split
    · next hc =>
      have := sjfInv_iter A s h hc
      exact ih _ this.1 (by omega)
    · next hc => exact hc

theorem sjfInv_init (p : List Process)
    (hb : ∀ x ∈ p, 0 < x.burst_time ∧ x.burst_time < 99999) :
    SJFInv (maxArrival (reset_processes p)) (sjfInit (reset_processes p)) := by
  refine ⟨?_, ?_, le_maxArrival _⟩
  · have : (reset_processes p).countP pending = (reset_processes p).length := by
      rw [List.countP_eq_length]
      intro x hx
      simpa [pending] using reset_uncompleted p x hx
    simp only [sjfInit, this, zero_add]
  · intro x hx
    simp only [sjfInit, reset_processes, List.mem_map] at hx
    obtain ⟨y, hy, rfl⟩ := hx
    exact hb y hy

/-- With bursts strictly between 0 and 99999, `simulate_SJF` returns, and every
record of its result is marked completed. -/
theorem simulate_SJF_terminates (p : List Process)
    (hb : ∀ x ∈ p, 0 < x.burst_time ∧ x.burst_time < 99999) :
    ∃ fuel res, simulate_SJF (reset_processes p) fuel = some res ∧
      res = (sjfRun fuel (sjfInit (reset_processes p))).p ∧
      ∀ x ∈ res, x.is_completed ≠ 0 := by
  let A := maxArrival (reset_processes p)
  let fuel := sjfMeasure A (sjfInit (reset_processes p))
  have hinv := sjfInv_init p hb
  have hdone := sjfRun_terminates A fuel _ hinv (le_refl _)
  have hfin := sjfRun_inv A fuel _ hinv
  refine ⟨fuel, (sjfRun fuel (sjfInit (reset_processes p))).p, ?_, rfl, ?_⟩
  · simp only [simulate_SJF, if_neg hdone]
  · have hz : (sjfRun fuel (sjfInit (reset_processes p))).p.countP pending = 0 := by
      have := hfin.count
      omega
    intro x hx hx0
    exact List.countP_eq_zero.1 hz x hx (by simpa [pending] using hx0)

/-! ### SJF: order of two processes of equal burst -/

/-- Relation between the records at positions `i` and `j` on which the tie-break
rests: both have arrived, they have the same positive burst, `j` is completed
only after `i`, and a completed `i` finished no later than the clock. -/
def TieOrder (i j : Nat) (s : SJFState) : Prop :=
  ∃ yi yj, s.p[i]? = some yi ∧ s.p[j]? = some yj ∧
    yi.arrival_time ≤ s.current_time ∧ yj.arrival_time ≤ s.current_time ∧
    yi.burst_time = yj.burst_time ∧ 0 < yj.burst_time ∧
    (yj.is_completed ≠ 0 → yi.is_completed ≠ 0 ∧ yi.finish_time < yj.finish_time) ∧
    (yi.is_completed ≠ 0 → yi.finish_time ≤ s.current_time)

theorem tieOrder_iter (i j : Nat) (hij : i < j) (s : SJFState)
    (hpos : ∀ x ∈ s.p, 0 < x.burst_time) (h : TieOrder i j s) :
    TieOrder i j (sjfIter s) := by
  obtain ⟨yi, yj, hi, hj, hai, haj, hb, hbj, hji, hfi⟩ := h
  cases hsel : sjfSelect s with
  | none =>
    rw [sjfIter_none s hsel]
    exact ⟨yi, yj, hi, hj, by simp only; omega, by simp only; omega, hb, hbj, hji,
      fun hc => by have := hfi hc; simp only; omega⟩
  | some idx =>
    obtain ⟨z, hz, he, _, hmin⟩ := sjfSelect_some s idx hsel
    rw [sjfIter_some s idx z hsel hz]
    have hzb := hpos z (List.getElem?_mem hz)
    have hlen : idx < s.p.length := (List.getElem?_eq_some.1 hz).1
    by_cases hxj : idx = j
    · -- `j` is dispatched: `i` must be completed already
      subst hxj
      have hzj : z = yj := by rw [hz] at hj; exact Option.some.inj hj
      subst hzj
      have hic : yi.is_completed ≠ 0 := by
        intro hc
        have := (hmin i yi hi ⟨hai, hc⟩).2 hb
        omega
      refine ⟨yi, sjfRecord z s.current_time, ?_, ?_, ?_, ?_, hb, hbj, ?_, ?_⟩
      · simpa [List.getElem?_set_ne (Nat.ne_of_gt hij)] using hi
      · simp [List.getElem?_set, hlen]
      · simp only; omega
      · simp only [sjfRecord]; omega
      · intro _
        refine ⟨hic, ?_⟩
        have := hfi hic
        simp only [sjfRecord]; omega
      · intro hc
        have := hfi hc
        simp only; omega
    · by_cases hxi : idx = i
      · -- `i` is dispatched: `j` is still uncompleted
        subst hxi
        have hzi : z = yi := by rw [hz] at hi; exact Option.some.inj hi
        subst hzi
        refine ⟨sjfRecord z s.current_time, yj, ?_, ?_, ?_, ?_, hb, hbj, ?_, ?_⟩
        · simp [List.getElem?_set, hlen]
        · simpa [List.getElem?_set_ne hxj] using hj
        · simp only [sjfRecord]; omega
        · simp only; omega
        · intro hc
          exact absurd he.2 (hji hc).1
        · intro _
          simp only [sjfRecord]; omega
      · refine ⟨yi, yj, ?_, ?_, ?_, ?_, hb, hbj, hji, ?_⟩
        · simpa [List.getElem?_set_ne hxi] using hi
        · simpa [List.getElem?_set_ne hxj] using hj
        · simp only; omega
        · simp only; omega
        · intro hc
          have := hfi hc
          simp only; omega

theorem sjfIter_burst_pos (s : SJFState) (hpos : ∀ x ∈ s.p, 0 < x.burst_time) :
    ∀ x ∈ (sjfIter s).p, 0 < x.burst_time := by
  cases hsel : sjfSelect s with
  | none => rw [sjfIter_none s hsel]; exact hpos
  | some idx =>
    obtain ⟨z, hz, _, _, _⟩ := sjfSelect_some s idx hsel
    rw [sjfIter_some s idx z hsel hz]
    intro x hx
    rcases List.mem_or_eq_of_mem_set hx with hx | rfl
    · exact hpos x hx
    · exact hpos z (List.getElem?_mem hz)

theorem tieOrder_run (i j : Nat) (hij : i < j) (m : Nat) (s : SJFState)
    (hpos : ∀ x ∈ s.p, 0 < x.burst_time) (h : TieOrder i j s) :
    TieOrder i j (sjfRun m s) := by
  have := sjfRun_induct (fun s => (∀ x ∈ s.p, 0 < x.burst_time) ∧ TieOrder i j s)
    (fun s hs _ => ⟨sjfIter_burst_pos s hs.1, tieOrder_iter i j hij s hs.1 hs.2⟩) m s ⟨hpos, h⟩
  exact this.2

theorem sjfRun_burst_pos (p : List Process) (hb : ∀ x ∈ p, 0 < x.burst_time) (k : Nat) :
    ∀ x ∈ (sjfRun k (sjfInit (reset_processes p))).p, 0 < x.burst_time := by
  apply sjfRun_induct (fun s => ∀ x ∈ s.p, 0 < x.burst_time)
    (fun s hs _ => sjfIter_burst_pos s hs)
  intro x hx
  simp only [sjfInit, reset_processes, List.mem_map] at hx
  obtain ⟨y, hy, rfl⟩ := hx
  exact hb y hy

/-! ## Round Robin: the arrival loops -/

@[simp] theorem touch_p (s : SimState) (i : Nat) : (touch s i).p = s.p := rfl
@[simp] theorem touch_current_time (s : SimState) (i : Nat) :
    (touch s i).current_time = s.current_time := rfl
@[simp] theorem touch_completed (s : SimState) (i : Nat) :
    (touch s i).completed = s.completed := rfl
@[simp] theorem touch_queue (s : SimState) (i : Nat) : (touch s i).queue = s.queue := rfl
@[simp] theorem touch_head (s : SimState) (i : Nat) : (touch s i).head = s.head := rfl
@[simp] theorem touch_in_queue (s : SimState) (i : Nat) :
    (touch s i).in_queue = s.in_queue := rfl
@[simp] theorem touch_last_pid (s : SimState) (i : Nat) :
    (touch s i).last_pid = s.last_pid := rfl

@[simp] theorem push_p (s : SimState) (i : Nat) : (push s i).p = s.p := rfl
@[simp] theorem push_current_time (s : SimState) (i : Nat) :
    (push s i).current_time = s.current_time := rfl
@[simp] theorem push_completed (s : SimState) (i : Nat) :
    (push s i).completed = s.completed := rfl
@[simp] theorem push_queue (s : SimState) (i : Nat) : (push s i).queue = s.queue ++ [i] := rfl
@[simp] theorem push_head (s : SimState) (i : Nat) : (push s i).head = s.head := rfl
@[simp] theorem push_in_queue (s : SimState) (i : Nat) :
    (push s i).in_queue = s.in_queue := rfl
@[simp] theorem push_last_pid (s : SimState) (i : Nat) :
    (push s i).last_pid = s.last_pid := rfl

@[simp] theorem enqueue_p (s : SimState) (i : Nat) : (enqueue s i).p = s.p := rfl
@[simp] theorem enqueue_current_time (s : SimState) (i : Nat) :
    (enqueue s i).current_time = s.current_time := rfl
@[simp] theorem enqueue_completed (s : SimState) (i : Nat) :
    (enqueue s i).completed = s.completed := rfl
@[simp] theorem enqueue_queue (s : SimState) (i : Nat) :
    (enqueue s i).queue = s.queue ++ [i] := rfl
@[simp] theorem enqueue_head (s : SimState) (i : Nat) : (enqueue s i).head = s.head := rfl
@[simp] theorem enqueue_in_queue (s : SimState) (i : Nat) :
    (enqueue s i).in_queue = Function.update s.in_queue i true := rfl
@[simp] theorem enqueue_last_pid (s : SimState) (i : Nat) :
    (enqueue s i).last_pid = s.last_pid := rfl

/-- The three loop bodies that queue arrivals. -/
inductive ArrivalBody : (Nat → Process → SimState → SimState) → Prop where
  | init : ArrivalBody arriveInit
  | late : ArrivalBody arriveLate
  | tick : ArrivalBody arriveTick

/-- What one pass of an arrival loop body does to the state: nothing, an access to
`in_queue[i]`, or that access followed by the queueing of `i`. -/
theorem arrivalBody_cases {body : Nat → Process → SimState → SimState}
    (hb : ArrivalBody body) (i : Nat) (x : Process) (s : SimState) :
    body i x s = s ∨ body i x s = touch s i ∨
      ((body i x s = enqueue s i ∨ body i x s = enqueue (touch s i) i) ∧
        x.arrival_time ≤ s.current_time) := by
  cases hb with
  | init =>
    unfold arriveInit
    split
    · next h => exact Or.inr (Or.inr ⟨Or.inl rfl, h⟩)
    · exact Or.inl rfl
  | late =>
    unfold arriveLate
    split
    · next h =>
      split
      · exact Or.inr (Or.inr ⟨Or.inr rfl, h⟩)
      · exact Or.inr (Or.inl rfl)
    · exact Or.inl rfl
  | tick =>
    unfold arriveTick
    split
    · next h =>
      split
      · exact Or.inr (Or.inr ⟨Or.inr rfl, le_of_eq h⟩)
      · exact Or.inr (Or.inl rfl)
    · exact Or.inl rfl

/-- Induction along a `for` loop over the processes, with the loop index. -/
theorem forProcs_induct (body : Nat → Process → SimState → SimState)
    (P : Nat → SimState → Prop) (l : List Process) (i : Nat) (s : SimState) (h0 : P i s)
    (hstep : ∀ k x t, l[k]? = some x → P (i + k) t → P (i + k + 1) (body (i + k) x t)) :
    P (i + l.length) (forProcs body l i s) := by
  induction l generalizing i s with
  | nil => simpa [forProcs] using h0
  | cons a rest ih =>
    simp only [forProcs, List.length_cons]
    have h1 : P (i + 1) (body i a s) := by
      have := hstep 0 a s (by simp) (by simpa using h0)
      simpa using this
    have := ih (i + 1) (body i a s) h1 (by
      intro k x t hx ht
      have hk : i + 1 + k = i + (k + 1) := by omega
      rw [hk] at ht ⊢
      exact hstep (k + 1) x t (by simpa using hx) ht)
    have hk : i + 1 + rest.length = i + (rest.length + 1) := by omega
    rw [hk] at this
    exact this

/-- Induction along a `for` loop over the processes, for a property that does not
depend on the loop index. -/
theorem forProcs_keeps (body : Nat → Process → SimState → SimState)
    (P : SimState → Prop) (l : List Process) (i : Nat) (s : SimState) (h0 : P s)
    (hstep : ∀ k x t, l[k]? = some x → P t → P (body (i + k) x t)) :
    P (forProcs body l i s) :=
  forProcs_induct body (fun _ t => P t) l i s h0 hstep

/-- The part of the state an arrival loop leaves alone. -/
def SameFrame (s t : SimState) : Prop :=
  t.p = s.p ∧ t.current_time = s.current_time ∧ t.completed = s.completed ∧
  t.head = s.head ∧ t.last_pid = s.last_pid

theorem arrivalBody_frame {body : Nat → Process → SimState → SimState}
    (hb : ArrivalBody body) (i : Nat) (x : Process) (s : SimState) :
    SameFrame s (body i x s) := by
  rcases arrivalBody_cases hb i x s with h | h | ⟨h | h, _⟩ <;> rw [h] <;>
    exact ⟨rfl, rfl, rfl, rfl, rfl⟩

theorem forProcs_frame {body : Nat → Process → SimState → SimState}
    (hb : ArrivalBody body) (l : List Process) (i : Nat) (s : SimState) :
    SameFrame s (forProcs body l i s) := by
  apply forProcs_keeps body (fun t => SameFrame s t) l i s ⟨rfl, rfl, rfl, rfl, rfl⟩
  intro k x t _ ht
  obtain ⟨h1, h2, h3, h4, h5⟩ := arrivalBody_frame hb (i + k) x t
  obtain ⟨g1, g2, g3, g4, g5⟩ := ht
  exact ⟨h1.trans g1, h2.trans g2, h3.trans g3, h4.trans g4, h5.trans g5⟩

/-! ## Round Robin: work done against time elapsed -/

/-- Invariant of both Round Robin loops relating the clock to the work done:
a process not yet flagged in `in_queue` has all its burst left, a flagged one has
not received more CPU time than has elapsed since its arrival, a completed record
obeys the conservation law and is not early, every queue cell holds a flagged
index, and `head` does not pass `tail`. -/
structure WorkInv (s : SimState) : Prop where
  fresh : ∀ i x, s.p[i]? = some x → s.in_queue i = false →
    x.remaining_time = x.burst_time
  worked : ∀ i x, s.p[i]? = some x → s.in_queue i = true →
    x.arrival_time + x.burst_time ≤ s.current_time + x.remaining_time
  done : ∀ x ∈ s.p, x.is_completed ≠ 0 → Conserved x ∧ NotEarly x
  flagged : ∀ j ∈ s.queue, s.in_queue j = true
  hd : s.head ≤ s.queue.length

theorem workInv_touch (s : SimState) (i : Nat) (h : WorkInv s) : WorkInv (touch s i) :=
  ⟨h.fresh, h.worked, h.done, h.flagged, h.hd⟩

theorem workInv_enqueue (s : SimState) (i : Nat) (x : Process) (h : WorkInv s)
    (hx : s.p[i]? = some x) (ha : x.arrival_time ≤ s.current_time) :
    WorkInv (enqueue s i) := by
  refine ⟨?_, ?_, h.done, ?_, ?_⟩
  · intro k y hy hk
    simp only [enqueue_in_queue] at hk
    by_cases hki : k = i
    · subst hki; simp at hk
    · rw [Function.update_noteq hki] at hk
      exact h.fresh k y hy hk
  · intro k y hy hk
    simp only [enqueue_in_queue, enqueue_current_time] at hk ⊢
    by_cases hki : k = i
    · subst hki
      have hyx : y = x := by
        simp only [enqueue_p] at hy
        rw [hx] at hy; exact (Option.some.inj hy).symm
      subst hyx
      cases hq : s.in_queue k with
      | false => have := h.fresh k y hx hq; omega
      | true => exact h.worked k y hx hq
    · rw [Function.update_noteq hki] at hk
      exact h.worked k y hy hk
  · intro j hj
    simp only [enqueue_queue, List.mem_append, List.mem_singleton] at hj
    simp only [enqueue_in_queue]
    by_cases hji : j = i
    · subst hji; simp
    · rw [Function.update_noteq hji]
      rcases hj with hj | hj
      · exact h.flagged j hj
      · exact absurd hj hji
  · simp only [enqueue_head, enqueue_queue, List.length_append, List.length_singleton]
    have := h.hd
    omega

theorem workInv_body {body : Nat → Process → SimState → SimState} (hb : ArrivalBody body)
    (s : SimState) (i : Nat) (x : Process) (h : WorkInv s) (hx : s.p[i]? = some x) :
    WorkInv (body i x s) := by
  rcases arrivalBody_cases hb i x s with e | e | ⟨e | e, ha⟩ <;> rw [e]
  · exact h
  · exact workInv_touch s i h
  · exact workInv_enqueue s i x h hx ha
  · exact workInv_enqueue (touch s i) i x (workInv_touch s i h) hx ha

/-- An arrival loop over the whole process array keeps `WorkInv`. -/
theorem workInv_scan {body : Nat → Process → SimState → SimState} (hb : ArrivalBody body)
    (s : SimState) (h : WorkInv s) : WorkInv (forProcs body s.p 0 s) := by
  have := forProcs_keeps body (fun t => WorkInv t ∧ t.p = s.p) s.p 0 s ⟨h, rfl⟩ (by
    intro k x t hx ht
    refine ⟨workInv_body hb t (0 + k) x ht.1 (by rw [ht.2]; simpa using hx), ?_⟩
    rw [(arrivalBody_frame hb (0 + k) x t).1]
    exact ht.2)
  exact this.1

/-- Letting the clock advance keeps `WorkInv`. -/
theorem workInv_advance (s : SimState) (d : Int) (hd : 0 ≤ d) (h : WorkInv s) :
    WorkInv { s with current_time := s.current_time + d } := by
  refine ⟨h.fresh, ?_, h.done, h.flagged, h.hd⟩
  intro i x hx hq
  have := h.worked i x hx hq
  simp only
  omega

theorem rrTick_frame (s : SimState) :
    (rrTick s).p = s.p ∧ (rrTick s).current_time = s.current_time + 1 ∧
    (rrTick s).completed = s.completed ∧ (rrTick s).head = s.head ∧
    (rrTick s).last_pid = s.last_pid := by
  obtain ⟨h1, h2, h3, h4, h5⟩ := forProcs_frame ArrivalBody.tick
    s.p 0 { s with current_time := s.current_time + 1 }
  exact ⟨h1, h2, h3, h4, h5⟩

theorem rrTicks_frame (k : Nat) (s : SimState) :
    (rrTicks k s).p = s.p ∧ (rrTicks k s).current_time = s.current_time + k ∧
    (rrTicks k s).completed = s.completed ∧ (rrTicks k s).head = s.head ∧
    (rrTicks k s).last_pid = s.last_pid := by
  induction k generalizing s with
  | zero => simp [rrTicks]
  | succ k ih =>
    obtain ⟨h1, h2, h3, h4, h5⟩ := ih (rrTick s)
    obtain ⟨g1, g2, g3, g4, g5⟩ := rrTick_frame s
    simp only [rrTicks]
    refine ⟨h1.trans g1, ?_, h3.trans g3, h4.trans g4, h5.trans g5⟩
    rw [h2, g2]; push_cast; ring

theorem workInv_tick (s : SimState) (h : WorkInv s) : WorkInv (rrTick s) :=
  workInv_scan ArrivalBody.tick _ (workInv_advance s 1 (by omega) h)

theorem workInv_ticks (k : Nat) (s : SimState) (h : WorkInv s) : WorkInv (rrTicks k s) := by
  induction k generalizing s with
  | zero => exact h
  | succ k ih => exact ih _ (workInv_tick s h)

theorem getElem?_set_cases {l : List Process} {i k : Nat} {y z : Process}
    (h : (l.set i y)[k]? = some z) :
    (k = i ∧ z = y ∧ i < l.length) ∨ (k ≠ i ∧ l[k]? = some z) := by
  rw [List.getElem?_set] at h
  by_cases hik : i = k
  · rw [if_pos hik] at h
    by_cases hl : i < l.length
    · rw [if_pos hl] at h
      exact Or.inl ⟨hik.symm, (Option.some.inj h).symm, hl⟩
    · rw [if_neg hl] at h; simp at h
  · rw [if_neg hik] at h
    exact Or.inr ⟨fun e => hik e.symm, h⟩

/-- The completion record `rrSettle` writes for `x` at time `t`. -/
def rrRecord (x : Process) (t : Int) : Process :=
  { x with remaining_time := 0, finish_time := t,
           turnaround_time := t - x.arrival_time,
           waiting_time := t - x.arrival_time - x.burst_time, is_completed := 1 }

theorem rrSettle_done (s : SimState) (idx : Nat) (slice : Int)
    (h : (s.p.getD idx default).remaining_time - slice = 0) :
    rrSettle s idx slice =
      { s with p := s.p.set idx (rrRecord (s.p.getD idx default) s.current_time),
               completed := s.completed + 1 } := by
  unfold rrSettle
  simp only [h, if_true, rrRecord]

theorem rrSettle_again (s : SimState) (idx : Nat) (slice : Int)
    (h : (s.p.getD idx default).remaining_time - slice ≠ 0) :
    rrSettle s idx slice =
      push { s with p := s.p.set idx { s.p.getD idx default with
        remaining_time := (s.p.getD idx default).remaining_time - slice } } idx := by
  unfold rrSettle
  simp only [h, if_false]

theorem workInv_settle (s : SimState) (idx : Nat) (slice : Int) (h : WorkInv s)
    (hq : s.in_queue idx = true)
    (hw : ∀ x, s.p[idx]? = some x →
      x.arrival_time + x.burst_time + slice ≤ s.current_time + x.remaining_time) :
    WorkInv (rrSettle s idx slice) := by
  cases hx : s.p[idx]? with
  | none =>
    have hlen : s.p.length ≤ idx := by
      by_contra hlt
      have := List.getElem?_eq_getElem (not_le.1 hlt)
      rw [hx] at this; simp at this
    by_cases hr : (s.p.getD idx default).remaining_time - slice = 0
    · rw [rrSettle_done s idx slice hr, List.set_eq_of_length_le hlen]
      exact ⟨h.fresh, h.worked, h.done, h.flagged, h.hd⟩
    · rw [rrSettle_again s idx slice hr, List.set_eq_of_length_le hlen]
      refine ⟨h.fresh, h.worked, h.done, ?_, ?_⟩
      · intro j hj
        simp only [push_queue, List.mem_append, List.mem_singleton] at hj
        rcases hj with hj | rfl
        · exact h.flagged j hj
        · exact hq
      · simp only [push_head, push_queue, List.length_append, List.length_singleton]
        have := h.hd
        omega
  | some x =>
    have hg : s.p.getD idx default = x := getD_of_getElem? hx
    have hwx := hw x hx
    by_cases hr : (s.p.getD idx default).remaining_time - slice = 0
    · rw [rrSettle_done s idx slice hr, hg]
      rw [hg] at hr
      refine ⟨?_, ?_, ?_, h.flagged, h.hd⟩
      · intro k y hy hk
        rcases getElem?_set_cases hy with ⟨rfl, _, _⟩ | ⟨_, hy⟩
        · simp only at hk; rw [hq] at hk; simp at hk
        · exact h.fresh k y hy hk
      · intro k y hy hk
        rcases getElem?_set_cases hy with ⟨rfl, rfl, _⟩ | ⟨_, hy⟩
        · simp only [rrRecord]; omega
        · exact h.worked k y hy hk
      · intro y hy hc
        rcases List.mem_or_eq_of_mem_set hy with hy | rfl
        · exact h.done y hy hc
        · refine ⟨⟨rfl, rfl⟩, ?_, ?_⟩
          · simp only [rrRecord]; omega
          · simp only [rrRecord]; omega
    · rw [rrSettle_again s idx slice hr, hg]
      refine ⟨?_, ?_, ?_, ?_, ?_⟩
      · intro k y hy hk
        rcases getElem?_set_cases hy with ⟨rfl, _, _⟩ | ⟨_, hy⟩
        · simp only [push_in_queue] at hk; rw [hq] at hk; simp at hk
        · exact h.fresh k y hy hk
      · intro k y hy hk
        rcases getElem?_set_cases hy with ⟨rfl, rfl, _⟩ | ⟨_, hy⟩
        · simp only [push_current_time]; omega
        · exact h.worked k y hy hk
      · intro y hy hc
        rcases List.mem_or_eq_of_mem_set hy with hy | rfl
        · exact h.done y hy hc
        · exact h.done x (List.getElem?_mem hx) hc
      · intro j hj
        simp only [push_queue, List.mem_append, List.mem_singleton] at hj
        rcases hj with hj | rfl
        · exact h.flagged j hj
        · exact hq
      · simp only [push_head, push_queue, List.length_append, List.length_singleton]
        have := h.hd
        omega

theorem arrivalBody_flag_mono {body : Nat → Process → SimState → SimState}
    (hb : ArrivalBody body) (i : Nat) (x : Process) (s : SimState) (j : Nat)
    (h : s.in_queue j = true) : (body i x s).in_queue j = true := by
  rcases arrivalBody_cases hb i x s with e | e | ⟨e | e, _⟩ <;> rw [e]
  · exact h
  · exact h
  · simp only [enqueue_in_queue]
    by_cases hji : j = i
    · subst hji; simp
    · rw [Function.update_noteq hji]; exact h
  · simp only [enqueue_in_queue, touch_in_queue]
    by_cases hji : j = i
    · subst hji; simp
    · rw [Function.update_noteq hji]; exact h

theorem forProcs_flag_mono {body : Nat → Process → SimState → SimState}
    (hb : ArrivalBody body) (l : List Process) (i : Nat) (s : SimState) (j : Nat)
    (h : s.in_queue j = true) : (forProcs body l i s).in_queue j = true :=
  forProcs_keeps body (fun t => t.in_queue j = true) l i s h
    (fun k x t _ ht => arrivalBody_flag_mono hb (i + k) x t j ht)

theorem rrTicks_flag_mono (k : Nat) (s : SimState) (j : Nat) (h : s.in_queue j = true) :
    (rrTicks k s).in_queue j = true := by
  induction k generalizing s with
  | zero => exact h
  | succ k ih => exact ih _ (forProcs_flag_mono ArrivalBody.tick _ 0 _ j h)

/-- The slice part of a dispatch keeps `WorkInv`, for a flagged process. -/
theorem workInv_runSlice (quantum : Int) (s : SimState) (idx : Nat) (h : WorkInv s)
    (hq : s.in_queue idx = true) : WorkInv (runSlice quantum s idx) := by
  unfold runSlice
  obtain ⟨hp, hct, _, _, _⟩ := rrTicks_frame (sliceOf quantum (s.p.getD idx default)).toNat s
  apply workInv_settle _ idx _ (workInv_ticks _ s h) (rrTicks_flag_mono _ s idx hq)
  intro x hx
  rw [hp] at hx
  rw [hct]
  have := h.worked idx x hx hq
  have := Int.self_le_toNat (sliceOf quantum (s.p.getD idx default))
  omega

theorem workInv_rrIter (quantum : Int) (s : SimState) (h : WorkInv s) :
    WorkInv (rrIter quantum s) := by
  unfold rrIter
  split
  · exact workInv_scan ArrivalBody.late _ (workInv_advance s 1 (by omega) h)
  · next hne =>
    have hlt : s.head < s.queue.length := lt_of_le_of_ne h.hd hne
    have hq : s.in_queue (s.queue.getD s.head 0) = true := by
      apply h.flagged
      rw [List.getD_eq_getElem _ _ hlt]
      exact List.getElem_mem _
    unfold rrDispatch
    exact workInv_runSlice quantum _ _
      ⟨h.fresh, h.worked, h.done, h.flagged, hlt⟩ hq

theorem workInv_rrpIter (quantum penalty : Int) (hpen : 0 ≤ penalty) (s : SimState)
    (h : WorkInv s) : WorkInv (rrpIter quantum penalty s) := by
  unfold rrpIter
  split
  · exact workInv_advance s 1 (by omega) h
  · next hne =>
    have hlt : s.head < s.queue.length := lt_of_le_of_ne h.hd hne
    have hq : s.in_queue (s.queue.getD s.head 0) = true := by
      apply h.flagged
      rw [List.getD_eq_getElem _ _ hlt]
      exact List.getElem_mem _
    have h1 : WorkInv { s with head := s.head + 1 } :=
      ⟨h.fresh, h.worked, h.done, h.flagged, hlt⟩
    unfold rrpDispatch
    apply workInv_runSlice
    · unfold rrpSwitch
      simp only
      split
      · have := workInv_scan ArrivalBody.late _
          (workInv_advance { s with head := s.head + 1 } penalty hpen h1)
        exact ⟨this.fresh, this.worked, this.done, this.flagged, this.hd⟩
      · exact ⟨h1.fresh, h1.worked, h1.done, h1.flagged, h1.hd⟩
    · unfold rrpSwitch
      simp only
      split
      · exact forProcs_flag_mono ArrivalBody.late _ 0 _ _ hq
      · exact hq

/-- Induction along the `while` loop of `simulate_RR`. -/
theorem rrRun_induct (quantum : Int) (P : SimState → Prop)
    (hstep : ∀ s, P s → s.completed < s.p.length → P (rrIter quantum s)) :
    ∀ fuel s, P s → P (rrRun quantum fuel s) := by
  intro fuel
  induction fuel with
  | zero => intro s hs; exact hs
  | succ k ih =>
    intro s hs
    simp only [rrRun]
    split
    · next h => exact ih _ (hstep s hs h)
    · exact hs

/-- Induction along the `while` loop of `simulate_RR_with_penalty`. -/
theorem rrpRun_induct (quantum penalty : Int) (P : SimState → Prop)
    (hstep : ∀ s, P s → s.completed < s.p.length → P (rrpIter quantum penalty s)) :
    ∀ fuel s, P s → P (rrpRun quantum penalty fuel s) := by
  intro fuel
  induction fuel with
  | zero => intro s hs; exact hs
  | succ k ih =>
    intro s hs
    simp only [rrpRun]
    split
    · next h => exact ih _ (hstep s hs h)
    · exact hs

/-- The locals of the Round Robin functions before the initial arrival loop. -/
def rrStart (p : List Process) : SimState :=
  { p := p, current_time := 0, completed := 0, queue := [], head := 0,
    in_queue := fun _ => false, last_pid := -1, oob := false }

theorem rrInit_eq (p : List Process) : rrInit p = forProcs arriveInit p 0 (rrStart p) := rfl

theorem reset_getElem? (p : List Process) (i : Nat) (x : Process)
    (h : (reset_processes p)[i]? = some x) : ∃ y, p[i]? = some y ∧ x = resetProcess y := by
  simp only [reset_processes, List.getElem?_map, Option.map_eq_some'] at h
  obtain ⟨y, hy, rfl⟩ := h
  exact ⟨y, hy, rfl⟩

theorem workInv_init (p : List Process) : WorkInv (rrInit (reset_processes p)) := by
  rw [rrInit_eq]
  apply workInv_scan ArrivalBody.init (rrStart (reset_processes p))
  refine ⟨?_, ?_, ?_, ?_, ?_⟩
  · intro i x hx _
    obtain ⟨y, _, rfl⟩ := reset_getElem? p i x hx
    rfl
  · intro i x _ hq
    simp [rrStart] at hq
  · intro x hx hc
    exact absurd (reset_uncompleted p x hx) hc
  · intro j hj
    simp [rrStart] at hj
  · simp [rrStart]

theorem workInv_rrRun (p : List Process) (quantum : Int) (fuel : Nat) :
    WorkInv (rrRun quantum fuel (rrInit (reset_processes p))) :=
  rrRun_induct quantum WorkInv (fun s hs _ => workInv_rrIter quantum s hs) fuel _
    (workInv_init p)

theorem workInv_rrpRun (p : List Process) (quantum penalty : Int) (hpen : 0 ≤ penalty)
    (fuel : Nat) : WorkInv (rrpRun quantum penalty fuel (rrInit (reset_processes p))) :=
  rrpRun_induct quantum penalty WorkInv
    (fun s hs _ => workInv_rrpIter quantum penalty hpen s hs) fuel _ (workInv_init p)

/-! ## Round Robin: what one dispatch does to the process array and the clock -/

/-- The record `runSlice` leaves at `idx` for the record `x` found there, when the
slice starts at time `t`. -/
def afterSlice (quantum : Int) (x : Process) (t : Int) : Process :=
  if x.remaining_time - sliceOf quantum x = 0
  then rrRecord x (t + (sliceOf quantum x).toNat)
  else { x with remaining_time := x.remaining_time - sliceOf quantum x }

theorem runSlice_effect (quantum : Int) (s : SimState) (idx : Nat) :
    (runSlice quantum s idx).p
        = s.p.set idx (afterSlice quantum (s.p.getD idx default) s.current_time) ∧
    (runSlice quantum s idx).current_time
        = s.current_time + (sliceOf quantum (s.p.getD idx default)).toNat ∧
    (runSlice quantum s idx).head = s.head ∧
    (runSlice quantum s idx).last_pid = s.last_pid := by
  obtain ⟨hp, hct, _, hh, hl⟩ := rrTicks_frame (sliceOf quantum (s.p.getD idx default)).toNat s
  unfold runSlice
  simp only
  by_cases hr : (s.p.getD idx default).remaining_time - sliceOf quantum (s.p.getD idx default) = 0
  · rw [rrSettle_done _ idx _ (by rw [hp]; exact hr)]
    simp only [hp, hct, hh, hl, afterSlice, hr, if_true, and_self]
  · rw [rrSettle_again _ idx _ (by rw [hp]; exact hr)]
    simp only [push_p, push_current_time, push_head, push_last_pid, hp, hct, hh, hl,
      afterSlice, hr, if_false, and_self]

theorem rrpSwitch_frame (penalty : Int) (s : SimState) (idx : Nat) :
    (rrpSwitch penalty s idx).p = s.p ∧ (rrpSwitch penalty s idx).head = s.head ∧
    (rrpSwitch penalty s idx).completed = s.completed ∧
    ((rrpSwitch penalty s idx).current_time = s.current_time ∨
      (rrpSwitch penalty s idx).current_time = s.current_time + penalty) := by
  unfold rrpSwitch
  simp only
  split
  · obtain ⟨h1, h2, h3, h4, _⟩ := forProcs_frame ArrivalBody.late s.p 0
      { s with current_time := s.current_time + penalty }
    exact ⟨h1, h4, h3, Or.inr h2⟩
  · exact ⟨rfl, rfl, rfl, Or.inl rfl⟩

/-- The process array after one iteration of the loop of `simulate_RR`. -/
theorem rrIter_p (quantum : Int) (s : SimState) :
    (rrIter quantum s).p =
      if s.head = s.queue.length then s.p
      else s.p.set (s.queue.getD s.head 0)
        (afterSlice quantum (s.p.getD (s.queue.getD s.head 0) default) s.current_time) := by
  unfold rrIter
  split
  · exact (forProcs_frame ArrivalBody.late _ 0 _).1
  · exact (runSlice_effect quantum _ _).1

/-- The process array after one iteration of the loop of
`simulate_RR_with_penalty`; `t` is the time at which the slice starts. -/
theorem rrpIter_p (quantum penalty : Int) (s : SimState) :
    ∃ t, (rrpIter quantum penalty s).p =
      if s.head = s.queue.length then s.p
      else s.p.set (s.queue.getD s.head 0)
        (afterSlice quantum (s.p.getD (s.queue.getD s.head 0) default) t) := by
  unfold rrpIter
  split
  · exact ⟨0, rfl⟩
  · unfold rrpDispatch
    obtain ⟨hp, _, _, _⟩ := rrpSwitch_frame penalty { s with head := s.head + 1 }
      (s.queue.getD s.head 0)
    refine ⟨(rrpSwitch penalty { s with head := s.head + 1 } (s.queue.getD s.head 0)).current_time, ?_⟩
    rw [(runSlice_effect quantum _ _).1, hp]

/-- A property of single records that a slice keeps is kept by every record of the
array when it is replaced by what a slice leaves. -/
theorem set_afterSlice_keeps (Q : Process → Prop) (quantum : Int)
    (hQ : ∀ x t, Q x → Q (afterSlice quantum x t)) (l : List Process) (idx : Nat) (t : Int)
    (h : ∀ x ∈ l, Q x) :
    ∀ x ∈ l.set idx (afterSlice quantum (l.getD idx default) t), Q x := by
  intro x hx
  cases hi : l[idx]? with
  | none =>
    have hlen : l.length ≤ idx := by
      by_contra hlt
      have := List.getElem?_eq_getElem (not_le.1 hlt)
      rw [hi] at this; simp at this
    rw [List.set_eq_of_length_le hlen] at hx
    exact h x hx
  | some z =>
    rw [getD_of_getElem? hi] at hx
    rcases List.mem_or_eq_of_mem_set hx with hx | rfl
    · exact h x hx
    · exact hQ z t (h z (List.getElem?_mem hi))

theorem rrIter_keeps (Q : Process → Prop) (quantum : Int)
    (hQ : ∀ x t, Q x → Q (afterSlice quantum x t)) (s : SimState) (h : ∀ x ∈ s.p, Q x) :
    ∀ x ∈ (rrIter quantum s).p, Q x := by
  rw [rrIter_p]
  split
  · exact h
  · exact set_afterSlice_keeps Q quantum hQ s.p _ _ h

theorem rrpIter_keeps (Q : Process → Prop) (quantum penalty : Int)
    (hQ : ∀ x t, Q x → Q (afterSlice quantum x t)) (s : SimState) (h : ∀ x ∈ s.p, Q x) :
    ∀ x ∈ (rrpIter quantum penalty s).p, Q x := by
  obtain ⟨t, ht⟩ := rrpIter_p quantum penalty s
  rw [ht]
  split
  · exact h
  · exact set_afterSlice_keeps Q quantum hQ s.p _ _ h

theorem rrInit_p (p : List Process) : (rrInit p).p = p :=
  (forProcs_frame ArrivalBody.init p 0 (rrStart p)).1

theorem rrRun_keeps (Q : Process → Prop) (quantum : Int)
    (hQ : ∀ x t, Q x → Q (afterSlice quantum x t)) (p : List Process) (h : ∀ x ∈ p, Q x)
    (fuel : Nat) : ∀ x ∈ (rrRun quantum fuel (rrInit p)).p, Q x :=
  rrRun_induct quantum (fun s => ∀ x ∈ s.p, Q x)
    (fun s hs _ => rrIter_keeps Q quantum hQ s hs) fuel _ (by show ∀ x ∈ (rrInit p).p, Q x; rw [rrInit_p]; exact h)

theorem rrpRun_keeps (Q : Process → Prop) (quantum penalty : Int)
    (hQ : ∀ x t, Q x → Q (afterSlice quantum x t)) (p : List Process) (h : ∀ x ∈ p, Q x)
    (fuel : Nat) : ∀ x ∈ (rrpRun quantum penalty fuel (rrInit p)).p, Q x :=
  rrpRun_induct quantum penalty (fun s => ∀ x ∈ s.p, Q x)
    (fun s hs _ => rrpIter_keeps Q quantum penalty hQ s hs) fuel _ (by show ∀ x ∈ (rrInit p).p, Q x; rw [rrInit_p]; exact h)

/-- A slice keeps "completed records obey the conservation law". -/
theorem afterSlice_conserved (quantum : Int) (x : Process) (t : Int)
    (h : x.is_completed ≠ 0 → Conserved x) :
    (afterSlice quantum x t).is_completed ≠ 0 → Conserved (afterSlice quantum x t) := by
  unfold afterSlice
  split
  · intro _; exact ⟨rfl, rfl⟩
  · exact h

/-- A slice keeps "the remaining time is not negative, and is 0 once completed",
for a positive quantum. -/
theorem afterSlice_remaining (quantum : Int) (hq : 0 < quantum) (x : Process) (t : Int)
    (h : 0 ≤ x.remaining_time ∧ (x.is_completed ≠ 0 → x.remaining_time = 0)) :
    0 ≤ (afterSlice quantum x t).remaining_time ∧
    ((afterSlice quantum x t).is_completed ≠ 0 → (afterSlice quantum x t).remaining_time = 0) := by
  unfold afterSlice
  split
  · exact ⟨le_refl _, fun _ => rfl⟩
  · refine ⟨?_, ?_⟩
    · simp only [sliceOf]; split <;> omega
    · intro hc
      have := h.2 hc
      simp only [sliceOf, this] at *
      split <;> omega

/-! ## Round Robin: the slices a process is given -/

/-- The record of the process at the head of the queue. -/
def headProc (s : SimState) : Process := s.p.getD (s.queue.getD s.head 0) default

/-- The slice the loop iteration that starts in state `s` hands to process `i`:
`slice` when the iteration dispatches `i`, and 0 when it idles or dispatches
another process. -/
def slicePart (quantum : Int) (s : SimState) (i : Nat) : Int :=
  if s.head ≠ s.queue.length ∧ s.queue.getD s.head 0 = i
  then sliceOf quantum (s.p.getD i default) else 0

/-- The sum of the slices process `i` is given during the first `fuel` iterations
of the loop of `simulate_RR` started in `s`. -/
def rrGiven (quantum : Int) (i : Nat) : Nat → SimState → Int
  | 0, _ => 0
  | fuel + 1, s =>
    if s.completed < s.p.length
    then slicePart quantum s i + rrGiven quantum i fuel (rrIter quantum s) else 0

/-- The sum of the slices process `i` is given during the first `fuel` iterations
of the loop of `simulate_RR_with_penalty` started in `s`. -/
def rrpGiven (quantum penalty : Int) (i : Nat) : Nat → SimState → Int
  | 0, _ => 0
  | fuel + 1, s =>
    if s.completed < s.p.length
    then slicePart quantum s i + rrpGiven quantum penalty i fuel (rrpIter quantum penalty s)
    else 0

theorem afterSlice_fields (quantum : Int) (x : Process) (t : Int) :
    (afterSlice quantum x t).burst_time = x.burst_time ∧
    (afterSlice quantum x t).arrival_time = x.arrival_time ∧
    (afterSlice quantum x t).pid = x.pid ∧
    (afterSlice quantum x t).remaining_time = x.remaining_time - sliceOf quantum x := by
  unfold afterSlice
  split
  · next h => simp only [rrRecord, true_and]; omega
  · exact ⟨rfl, rfl, rfl, rfl⟩

/-- What a replacement of the dispatched record by `afterSlice` does to the
record at position `i`. -/
theorem set_afterSlice_get (quantum : Int) (s : SimState) (t : Int) (i : Nat) (x : Process)
    (hne : s.head ≠ s.queue.length) (hx : s.p[i]? = some x) :
    ∃ y, (s.p.set (s.queue.getD s.head 0)
        (afterSlice quantum (s.p.getD (s.queue.getD s.head 0) default) t))[i]? = some y ∧
      y.burst_time = x.burst_time ∧
      y.remaining_time = x.remaining_time - slicePart quantum s i := by
  have hlen : i < s.p.length := (List.getElem?_eq_some.1 hx).1
  by_cases hi : s.queue.getD s.head 0 = i
  · rw [hi, getD_of_getElem? hx]
    refine ⟨afterSlice quantum x t, by simp [List.getElem?_set, hlen], ?_, ?_⟩
    · exact (afterSlice_fields quantum x t).1
    · rw [(afterSlice_fields quantum x t).2.2.2]
      simp only [slicePart, hne, hi, ne_eq, not_false_eq_true, and_self, if_true,
        getD_of_getElem? hx]
  · refine ⟨x, by rw [List.getElem?_set_ne hi]; exact hx, rfl, ?_⟩
    simp only [slicePart, hi, and_false, if_false, sub_zero]

theorem rrIter_remaining (quantum : Int) (s : SimState) (i : Nat) (x : Process)
    (hx : s.p[i]? = some x) :
    ∃ y, (rrIter quantum s).p[i]? = some y ∧ y.burst_time = x.burst_time ∧
      y.remaining_time = x.remaining_time - slicePart quantum s i := by
  rw [rrIter_p]
  split
  · next he => exact ⟨x, hx, rfl, by simp [slicePart, he]⟩
  · next hne => exact set_afterSlice_get quantum s _ i x hne hx

theorem rrpIter_remaining (quantum penalty : Int) (s : SimState) (i : Nat) (x : Process)
    (hx : s.p[i]? = some x) :
    ∃ y, (rrpIter quantum penalty s).p[i]? = some y ∧ y.burst_time = x.burst_time ∧
      y.remaining_time = x.remaining_time - slicePart quantum s i := by
  obtain ⟨t, ht⟩ := rrpIter_p quantum penalty s
  rw [ht]
  split
  · next he => exact ⟨x, hx, rfl, by simp [slicePart, he]⟩
  · next hne => exact set_afterSlice_get quantum s _ i x hne hx

theorem rrGiven_run (quantum : Int) (i : Nat) (fuel : Nat) (s : SimState) (x : Process)
    (hx : s.p[i]? = some x) :
    ∃ y, (rrRun quantum fuel s).p[i]? = some y ∧ y.burst_time = x.burst_time ∧
      rrGiven quantum i fuel s = x.remaining_time - y.remaining_time := by
  induction fuel generalizing s x with
  | zero => exact ⟨x, hx, rfl, by simp [rrGiven]⟩
  | succ k ih =>
    simp only [rrRun, rrGiven]
    split
    · obtain ⟨y, hy, hyb, hyr⟩ := rrIter_remaining quantum s i x hx
      obtain ⟨z, hz, hzb, hzr⟩ := ih (rrIter quantum s) y hy
      exact ⟨z, hz, hzb.trans hyb, by rw [hzr, hyr]; ring⟩
    · exact ⟨x, hx, rfl, by simp⟩

theorem rrpGiven_run (quantum penalty : Int) (i : Nat) (fuel : Nat) (s : SimState)
    (x : Process) (hx : s.p[i]? = some x) :
    ∃ y, (rrpRun quantum penalty fuel s).p[i]? = some y ∧ y.burst_time = x.burst_time ∧
      rrpGiven quantum penalty i fuel s = x.remaining_time - y.remaining_time := by
  induction fuel generalizing s x with
  | zero => exact ⟨x, hx, rfl, by simp [rrpGiven]⟩
  | succ k ih =>
    simp only [rrpRun, rrpGiven]
    split
    · obtain ⟨y, hy, hyb, hyr⟩ := rrpIter_remaining quantum penalty s i x hx
      obtain ⟨z, hz, hzb, hzr⟩ := ih (rrpIter quantum penalty s) y hy
      exact ⟨z, hz, hzb.trans hyb, by rw [hzr, hyr]; ring⟩
    · exact ⟨x, hx, rfl, by simp⟩

/-- In a state whose records have a remaining time that is not negative, the slice
of the process at the head of the queue is `min remaining_time quantum` and is not
negative. -/
theorem sliceOf_headProc (quantum : Int) (hq : 0 < quantum) (s : SimState)
    (h : ∀ x ∈ s.p, 0 ≤ x.remaining_time) :
    sliceOf quantum (headProc s) = min (headProc s).remaining_time quantum ∧
    0 ≤ sliceOf quantum (headProc s) := by
  have hrem : 0 ≤ (headProc s).remaining_time := by
    unfold headProc
    cases hi : s.p[s.queue.getD s.head 0]? with
    | none => rw [List.getD_eq_getElem?_getD, hi]; exact le_of_eq rfl
    | some z => rw [getD_of_getElem? hi]; exact h z (List.getElem?_mem hi)
  unfold sliceOf
  refine ⟨?_, ?_⟩
  · split
    · next hgt => rw [min_eq_right (le_of_lt hgt)]
    · next hle => rw [min_eq_left (not_lt.1 hle)]
  · split <;> omega

theorem rrIter_clock (quantum : Int) (s : SimState) (hne : s.head ≠ s.queue.length)
    (h0 : 0 ≤ sliceOf quantum (headProc s)) :
    (rrIter quantum s).current_time = s.current_time + sliceOf quantum (headProc s) := by
  unfold rrIter
  rw [if_neg hne]
  unfold rrDispatch
  rw [(runSlice_effect quantum _ _).2.1]
  simp only [headProc] at h0 ⊢
  rw [Int.toNat_of_nonneg h0]

theorem rrpIter_clock (quantum penalty : Int) (s : SimState) (hne : s.head ≠ s.queue.length)
    (h0 : 0 ≤ sliceOf quantum (headProc s)) :
    (rrpIter quantum penalty s).current_time =
      (rrpSwitch penalty { s with head := s.head + 1 } (s.queue.getD s.head 0)).current_time
        + sliceOf quantum (headProc s) := by
  unfold rrpIter
  rw [if_neg hne]
  unfold rrpDispatch
  rw [(runSlice_effect quantum _ _).2.1, (rrpSwitch_frame penalty _ _).1]
  simp only [headProc] at h0 ⊢
  rw [Int.toNat_of_nonneg h0]

theorem rrIter_length (quantum : Int) (s : SimState) :
    (rrIter quantum s).p.length = s.p.length := by
  rw [rrIter_p]; split <;> simp

theorem rrpIter_length (quantum penalty : Int) (s : SimState) :
    (rrpIter quantum penalty s).p.length = s.p.length := by
  obtain ⟨t, ht⟩ := rrpIter_p quantum penalty s
  rw [ht]; split <;> simp

theorem rrRun_length (quantum : Int) (fuel : Nat) (s : SimState) :
    (rrRun quantum fuel s).p.length = s.p.length :=
  rrRun_induct quantum (fun t => t.p.length = s.p.length)
    (fun t ht _ => (rrIter_length quantum t).trans ht) fuel s rfl

theorem rrpRun_length (quantum penalty : Int) (fuel : Nat) (s : SimState) :
    (rrpRun quantum penalty fuel s).p.length = s.p.length :=
  rrpRun_induct quantum penalty (fun t => t.p.length = s.p.length)
    (fun t ht _ => (rrpIter_length quantum penalty t).trans ht) fuel s rfl

theorem reset_remaining (p : List Process) (hb : ∀ x ∈ p, 0 < x.burst_time) :
    ∀ x ∈ reset_processes p,
      0 ≤ x.remaining_time ∧ (x.is_completed ≠ 0 → x.remaining_time = 0) := by
  intro x hx
  simp only [reset_processes, List.mem_map] at hx
  obtain ⟨y, hy, rfl⟩ := hx
  exact ⟨le_of_lt (hb y hy), fun hc => absurd rfl hc⟩

/-- The slices process `i` has been given add up to the part of its burst that is
no longer remaining, in a run that starts from a reset process array. -/
theorem given_eq_worked (p : List Process) (i : Nat) (y : Process) (t : SimState)
    (g : Int) (hlen : t.p.length = (rrInit (reset_processes p)).p.length)
    (hrun : ∀ x, (rrInit (reset_processes p)).p[i]? = some x →
      ∃ z, t.p[i]? = some z ∧ z.burst_time = x.burst_time ∧
        g = x.remaining_time - z.remaining_time)
    (hy : t.p[i]? = some y) : g = y.burst_time - y.remaining_time := by
  have hi : i < (rrInit (reset_processes p)).p.length := by
    rw [← hlen]; exact (List.getElem?_eq_some.1 hy).1
  obtain ⟨x, hx⟩ : ∃ x, (rrInit (reset_processes p)).p[i]? = some x :=
    ⟨_, List.getElem?_eq_getElem hi⟩
  obtain ⟨z, hz, hzb, hg⟩ := hrun x hx
  rw [hy] at hz
  obtain rfl := Option.some.inj hz
  have hmem : x ∈ (rrInit (reset_processes p)).p := List.getElem?_mem hx
  rw [rrInit_p] at hmem
  simp only [reset_processes, List.mem_map] at hmem
  obtain ⟨w, _, rfl⟩ := hmem
  rw [hg, hzb]
  rfl

/-! ## Round Robin: the queue only grows, and arrivals of a slice come first -/

theorem arrivalBody_queue {body : Nat → Process → SimState → SimState}
    (hb : ArrivalBody body) (i : Nat) (x : Process) (s : SimState) :
    (body i x s).queue = s.queue ∨ (body i x s).queue = s.queue ++ [i] := by
  rcases arrivalBody_cases hb i x s with e | e | ⟨e | e, _⟩ <;> rw [e]
  · exact Or.inl rfl
  · exact Or.inl rfl
  · exact Or.inr rfl
  · exact Or.inr rfl

theorem forProcs_queue {body : Nat → Process → SimState → SimState}
    (hb : ArrivalBody body) (l : List Process) (i : Nat) (s : SimState) :
    ∃ c, (forProcs body l i s).queue = s.queue ++ c := by
  apply forProcs_keeps body (fun t => ∃ c, t.queue = s.queue ++ c) l i s ⟨[], by simp⟩
  rintro k x t _ ⟨c, hc⟩
  rcases arrivalBody_queue hb (i + k) x t with e | e
  · exact ⟨c, by rw [e, hc]⟩
  · exact ⟨c ++ [i + k], by rw [e, hc, List.append_assoc]⟩

theorem rrTicks_queue (k : Nat) (s : SimState) :
    ∃ c, (rrTicks k s).queue = s.queue ++ c := by
  induction k generalizing s with
  | zero => exact ⟨[], by simp [rrTicks]⟩
  | succ k ih =>
    obtain ⟨c, hc⟩ := ih (rrTick s)
    obtain ⟨d, hd⟩ := forProcs_queue ArrivalBody.tick s.p 0
      { s with current_time := s.current_time + 1 }
    refine ⟨d ++ c, ?_⟩
    simp only [rrTicks]
    rw [hc]
    unfold rrTick
    rw [hd, List.append_assoc]

/-- The body of the arrival loop of a slice, at an index other than `j`, leaves the
flag of `j` alone. -/
theorem arriveTick_other (i j : Nat) (hij : i ≠ j) (x : Process) (s : SimState) :
    (arriveTick i x s).in_queue j = s.in_queue j := by
  unfold arriveTick
  split
  · split
    · simp only [enqueue_in_queue, touch_in_queue]
      exact Function.update_noteq (fun e => hij e.symm) _ _
    · rfl
  · rfl

/-- A tick at which `j` does not arrive leaves the flag of `j` as it is. -/
theorem rrTick_not_arrival (s : SimState) (j : Nat)
    (hy : ∀ y, s.p[j]? = some y → y.arrival_time ≠ s.current_time + 1) :
    (rrTick s).in_queue j = s.in_queue j := by
  unfold rrTick
  refine (forProcs_keeps arriveTick
    (fun t => t.in_queue j = s.in_queue j ∧ t.current_time = s.current_time + 1) s.p 0
    { s with current_time := s.current_time + 1 } ⟨rfl, rfl⟩ ?_).1
  intro k x t hx ht
  refine ⟨?_, ?_⟩
  · by_cases hkj : 0 + k = j
    · have hne : x.arrival_time ≠ t.current_time := by
        rw [ht.2]
        apply hy
        rw [← hkj]; simpa using hx
      unfold arriveTick
      rw [if_neg hne]
      exact ht.1
    · rw [arriveTick_other _ _ hkj]; exact ht.1
  · rw [(arrivalBody_frame ArrivalBody.tick (0 + k) x t).2.1]; exact ht.2

/-- The tick at which `j` arrives, unflagged, appends `j` to the queue. -/
theorem rrTick_arrival (s : SimState) (j : Nat) (y : Process) (hy : s.p[j]? = some y)
    (harr : y.arrival_time = s.current_time + 1) (hq : s.in_queue j = false) :
    ∃ a b, (rrTick s).queue = s.queue ++ a ++ [j] ++ b := by
  have hlen : j < s.p.length := (List.getElem?_eq_some.1 hy).1
  have key := forProcs_induct arriveTick
    (fun k t => t.current_time = s.current_time + 1 ∧
      (k ≤ j → t.in_queue j = false ∧ ∃ c, t.queue = s.queue ++ c) ∧
      (j < k → ∃ a b, t.queue = s.queue ++ a ++ [j] ++ b))
    s.p 0 { s with current_time := s.current_time + 1 }
    ⟨rfl, fun _ => ⟨hq, [], by simp⟩, fun h => absurd h (by omega)⟩
    (by
      intro k x t hx ht
      obtain ⟨hct, hle, hgt⟩ := ht
      refine ⟨?_, ?_, ?_⟩
      · rw [(arrivalBody_frame ArrivalBody.tick (0 + k) x t).2.1]; exact hct
      · intro hk
        obtain ⟨hf, c, hc⟩ := hle (by omega)
        refine ⟨?_, ?_⟩
        · rw [arriveTick_other _ _ (by omega)]; exact hf
        · rcases arrivalBody_queue ArrivalBody.tick (0 + k) x t with e | e
          · exact ⟨c, by rw [e, hc]⟩
          · exact ⟨c ++ [0 + k], by rw [e, hc, List.append_assoc]⟩
      · intro hk
        by_cases hkj : 0 + k = j
        · obtain ⟨hf, c, hc⟩ := hle (by omega)
          have hxy : x = y := by
            have : s.p[j]? = some x := by rw [← hkj]; simpa using hx
            rw [hy] at this; exact (Option.some.inj this).symm
          subst hxy
          refine ⟨c, [], ?_⟩
          unfold arriveTick
          rw [if_pos (by rw [hct]; exact harr), hkj, if_pos hf]
          simp only [enqueue_queue, touch_queue, hc, List.append_nil]
        · obtain ⟨a, b, hab⟩ := hgt (by omega)
          rcases arrivalBody_queue ArrivalBody.tick (0 + k) x t with e | e
          · exact ⟨a, b, by rw [e, hab]⟩
          · exact ⟨a, b ++ [0 + k], by rw [e, hab]; simp⟩)
  simp only [zero_add] at key
  exact key.2.2 hlen

/-- A process that arrives, unflagged, at one of the `k` ticks of a slice is in the
part of the queue the slice appends. -/
theorem rrTicks_arrival (k : Nat) (s : SimState) (j : Nat) (y : Process) (t : Nat)
    (hy : s.p[j]? = some y) (ht1 : 1 ≤ t) (ht2 : t ≤ k)
    (harr : y.arrival_time = s.current_time + t) (hq : s.in_queue j = false) :
    ∃ a b, (rrTicks k s).queue = s.queue ++ a ++ [j] ++ b := by
  induction k generalizing s t with
  | zero => omega
  | succ k ih =>
    simp only [rrTicks]
    obtain ⟨hp, hct, _, _, _⟩ := rrTick_frame s
    by_cases h1 : t = 1
    · subst h1
      obtain ⟨a, b, hab⟩ := rrTick_arrival s j y hy (by simpa using harr) hq
      obtain ⟨c, hc⟩ := rrTicks_queue k (rrTick s)
      exact ⟨a, b ++ c, by rw [hc, hab]; simp⟩
    · have hq1 : (rrTick s).in_queue j = false := by
        rw [rrTick_not_arrival s j]
        · exact hq
        · intro z hz
          rw [hy] at hz
          obtain rfl := Option.some.inj hz
          omega
      obtain ⟨a, b, hab⟩ := ih (rrTick s) (t - 1) (by rw [hp]; exact hy) (by omega) (by omega)
        (by rw [hct, harr]; push_cast [Nat.cast_sub (by omega : 1 ≤ t)]; ring) hq1
      obtain ⟨c, hc⟩ := forProcs_queue ArrivalBody.tick s.p 0
        { s with current_time := s.current_time + 1 }
      have hc : (rrTick s).queue = s.queue ++ c := hc
      exact ⟨c ++ a, b, by rw [hab, hc]; simp⟩

theorem rrIter_queue (quantum : Int) (s : SimState) :
    ∃ c, (rrIter quantum s).queue = s.queue ++ c := by
  unfold rrIter
  split
  · exact forProcs_queue ArrivalBody.late _ 0 _
  · unfold rrDispatch runSlice rrSettle
    simp only
    obtain ⟨c, hc⟩ := rrTicks_queue
      (sliceOf quantum (s.p.getD (s.queue.getD s.head 0) default)).toNat
      { s with head := s.head + 1 }
    split
    · exact ⟨c, hc⟩
    · exact ⟨c ++ [s.queue.getD s.head 0], by simp only [push_queue]; rw [hc]; simp⟩

/-- The queue of `simulate_RR` is never rewritten: later states extend it. -/
theorem rrRun_queue (quantum : Int) (fuel : Nat) (s : SimState) :
    ∃ c, (rrRun quantum fuel s).queue = s.queue ++ c := by
  apply rrRun_induct quantum (fun t => ∃ c, t.queue = s.queue ++ c) _ fuel s ⟨[], by simp⟩
  rintro t ⟨c, hc⟩ _
  obtain ⟨d, hd⟩ := rrIter_queue quantum t
  exact ⟨c ++ d, by rw [hd, hc, List.append_assoc]⟩

theorem rrRun_add (quantum : Int) (a b : Nat) (s : SimState) :
    rrRun quantum (a + b) s = rrRun quantum b (rrRun quantum a s) := by
  induction a generalizing s with
  | zero => simp [rrRun]
  | succ k ih =>
    rw [Nat.succ_add]
    simp only [rrRun]
    split
    · exact ih _
    · next h =>
      cases b with
      | zero => rfl
      | succ b => simp [rrRun, h]

theorem rrRun_done (quantum : Int) (k : Nat) (s : SimState)
    (h : ¬ s.completed < s.p.length) : rrRun quantum k s = s := by
  cases k with
  | zero => rfl
  | succ k => simp [rrRun, h]

/-- A dispatch in which the process does not finish appends the arrivals of the
slice and then the process itself. -/
theorem rrDispatch_requeue (quantum : Int) (s : SimState) (j : Nat) (y : Process) (t : Int)
    (hy : s.p[j]? = some y) (hq : s.in_queue j = false) (ht1 : 1 ≤ t)
    (ht2 : t ≤ sliceOf quantum (headProc s)) (harr : y.arrival_time = s.current_time + t)
    (hunf : (headProc s).remaining_time - sliceOf quantum (headProc s) ≠ 0) :
    ∃ a b, (rrDispatch quantum s).queue
      = s.queue ++ a ++ [j] ++ b ++ [s.queue.getD s.head 0] := by
  unfold rrDispatch runSlice
  simp only
  obtain ⟨a, b, hab⟩ := rrTicks_arrival
    (sliceOf quantum (s.p.getD (s.queue.getD s.head 0) default)).toNat
    { s with head := s.head + 1 } j y t.toNat hy (by omega)
    (by unfold headProc at ht2; omega) (by simp only; omega) hq
  have hp := (rrTicks_frame
    (sliceOf quantum (s.p.getD (s.queue.getD s.head 0) default)).toNat
    { s with head := s.head + 1 }).1
  rw [rrSettle_again _ _ _ (by rw [hp]; exact hunf)]
  exact ⟨a, b, by simp only [push_queue, hab]⟩

/-! ## Round Robin with penalty: the idle branch -/

/-- Once the queue of `simulate_RR_with_penalty` is empty while a process is not
completed, every further iteration only advances the clock. -/
theorem rrpRun_idle (quantum penalty : Int) (fuel : Nat) (s : SimState)
    (h1 : s.head = s.queue.length) (h2 : s.completed < s.p.length) :
    rrpRun quantum penalty fuel s = { s with current_time := s.current_time + fuel } := by
  induction fuel generalizing s with
  | zero => simp [rrpRun]
  | succ k ih =>
    have hit : rrpIter quantum penalty s = { s with current_time := s.current_time + 1 } := by
      unfold rrpIter rrpIdle
      rw [if_pos h1]
    simp only [rrpRun, h2, if_true, hit]
    rw [ih { s with current_time := s.current_time + 1 } h1 h2]
    simp only [Nat.cast_add, Nat.cast_one]
    congr 1
    ring

theorem rrInit_single_late (x : Process) (h : 0 < x.arrival_time) :
    rrInit [x] = rrStart [x] := by
  simp only [rrInit, forProcs, arriveInit, rrStart]
  rw [if_neg (by omega)]

/-! ## Round Robin on a single process -/

theorem touch_small (s : SimState) (i : Nat) (h : i < MAX_PROCESSES) : touch s i = s := by
  have hd : decide (MAX_PROCESSES ≤ i) = false := decide_eq_false (by omega)
  cases s
  simp only [touch, hd, Bool.or_false]

theorem rrTick_single (z : Process) (s : SimState) (hp : s.p = [z])
    (hq : s.in_queue 0 = true) :
    rrTick s = { s with current_time := s.current_time + 1 } := by
  unfold rrTick
  simp only [hp, forProcs, arriveTick]
  split
  · rw [if_neg (by simp [hq])]
    exact touch_small _ 0 (by decide)
  · rfl

theorem rrTicks_single (z : Process) (k : Nat) (s : SimState) (hp : s.p = [z])
    (hq : s.in_queue 0 = true) :
    rrTicks k s = { s with current_time := s.current_time + k } := by
  induction k generalizing s with
  | zero => simp [rrTicks]
  | succ k ih =>
    simp only [rrTicks]
    rw [rrTick_single z s hp hq, ih { s with current_time := s.current_time + 1 } hp hq]
    simp only [Nat.cast_add, Nat.cast_one]
    congr 1
    ring

/-- A dispatch on a one-process array whose process is flagged: the ticks only
advance the clock. -/
theorem rrDispatch_single (z : Process) (quantum : Int) (s : SimState) (hp : s.p = [z])
    (hcell : s.queue.getD s.head 0 = 0) (hf : s.in_queue 0 = true) :
    rrDispatch quantum s =
      rrSettle { s with head := s.head + 1,
                        current_time := s.current_time + (sliceOf quantum z).toNat }
        0 (sliceOf quantum z) := by
  have hz : s.p.getD 0 default = z := by rw [hp]; rfl
  unfold rrDispatch runSlice
  simp only []
  rw [hcell, hz, rrTicks_single z _ { s with head := s.head + 1 } hp hf]

/-- The state of `simulate_RR` on a single process `x0` while that process is
queued with `r` ticks left: it is alone in the pending part of the queue and the
clock shows its arrival plus the work done. -/
structure SoloRun (x0 : Process) (r : Int) (s : SimState) : Prop where
  procs : s.p = [{ x0 with remaining_time := r }]
  clock : s.current_time = x0.arrival_time + x0.burst_time - r
  none_done : s.completed = 0
  one_pending : s.head + 1 = s.queue.length
  cell : s.queue.getD s.head 0 = 0
  flag : s.in_queue 0 = true
  in_bounds : s.oob = false

/-- The state of `simulate_RR` on a single process `x0` once it is completed. -/
def SoloDone (x0 : Process) (s : SimState) : Prop :=
  s.p = [rrRecord x0 (x0.arrival_time + x0.burst_time)] ∧ s.completed = 1 ∧ s.oob = false

/-- The state of `simulate_RR` on a single process `x0` before its arrival. -/
structure SoloIdle (x0 : Process) (s : SimState) : Prop where
  procs : s.p = [x0]
  early : s.current_time < x0.arrival_time
  none_done : s.completed = 0
  empty : s.queue = []
  head0 : s.head = 0
  flag : s.in_queue 0 = false
  in_bounds : s.oob = false

theorem soloRun_last (x0 : Process) (quantum r : Int) (s : SimState)
    (h : SoloRun x0 r s) (hr : 0 < r) (hrq : r ≤ quantum) :
    SoloDone x0 (rrIter quantum s) := by
  obtain ⟨hp, hc, hd, hh, hcell, hf, ho⟩ := h
  have hne : s.head ≠ s.queue.length := by omega
  unfold rrIter
  rw [if_neg hne]
  have hs : sliceOf quantum { x0 with remaining_time := r } = r := by
    simp only [sliceOf]; rw [if_neg (by omega)]
  rw [rrDispatch_single _ quantum s hp hcell hf, hs]
  rw [rrSettle_done _ _ _ (by simp [hp])]
  refine ⟨?_, ?_, ?_⟩
  · simp only [hp, List.set_cons_zero, List.getD_cons_zero, rrRecord, hc,
      Int.toNat_of_nonneg (le_of_lt hr)]
    congr 2 <;> ring
  · simp only [hd]
  · exact ho

theorem soloRun_next (x0 : Process) (quantum r : Int) (s : SimState)
    (h : SoloRun x0 r s) (hq : 0 < quantum) (hrq : quantum < r)
    (hroom : s.queue.length < MAX_PROCESSES) :
    SoloRun x0 (r - quantum) (rrIter quantum s) ∧
    (rrIter quantum s).queue.length = s.queue.length + 1 := by
  obtain ⟨hp, hc, hd, hh, hcell, hf, ho⟩ := h
  have hne : s.head ≠ s.queue.length := by omega
  unfold rrIter
  rw [if_neg hne]
  have hs : sliceOf quantum { x0 with remaining_time := r } = quantum := by
    simp only [sliceOf]; rw [if_pos (by omega)]
  rw [rrDispatch_single _ quantum s hp hcell hf, hs]
  rw [rrSettle_again _ _ _ (by simp only [hp, List.getD_cons_zero]; omega)]
  refine ⟨⟨?_, ?_, ?_, ?_, ?_, ?_, ?_⟩, ?_⟩
  · simp only [push_p, hp, List.set_cons_zero, List.getD_cons_zero]
  · simp only [push_current_time, hc, Int.toNat_of_nonneg (le_of_lt hq)]
    ring
  · simp only [push_completed, hd]
  · simp only [push_head, push_queue, List.length_append, List.length_singleton]
    omega
  · simp only [push_head, push_queue]
    rw [List.getD_eq_getElem?_getD, List.getElem?_append_right (by omega)]
    simp [← hh]
  · simp only [push_in_queue, hf]
  · simp only [push, ho, Bool.false_or, decide_eq_false_iff_not, not_le]
    exact hroom
  · simp only [push_queue, List.length_append, List.length_singleton]

theorem rrRun_succ_running (quantum : Int) (fuel : Nat) (s : SimState)
    (h : s.completed < s.p.length) :
    rrRun quantum (fuel + 1) s = rrRun quantum fuel (rrIter quantum s) := by
  simp only [rrRun, h, if_true]

/-- A single queued process with `r` ticks left is completed after its remaining
dispatches, provided the queue has room for the re-queueings. -/
theorem soloRun_finishes (x0 : Process) (quantum : Int) (hq : 0 < quantum) (need : Nat) :
    ∀ (s : SimState) (r : Int), SoloRun x0 r s → 0 < r → r ≤ need * quantum →
      s.queue.length + need ≤ MAX_PROCESSES + 1 →
      ∃ fuel, SoloDone x0 (rrRun quantum fuel s) := by
  induction need with
  | zero =>
    intro s r _ hr hle _
    simp only [Nat.cast_zero, zero_mul] at hle
    omega
  | succ n ih =>
    intro s r h hr hle hroom
    have hrunning : s.completed < s.p.length := by rw [h.none_done, h.procs]; simp
    by_cases hrq : r ≤ quantum
    · exact ⟨1, by rw [rrRun_succ_running quantum 0 s hrunning]
                   exact soloRun_last x0 quantum r s h hr hrq⟩
    · have hn : 0 < n := by
        by_contra h0
        have : n = 0 := by omega
        subst this
        simp only [zero_add, Nat.cast_one, one_mul] at hle
        omega
      obtain ⟨h1, hlen⟩ := soloRun_next x0 quantum r s h hq (by omega) (by omega)
      have hle' : r - quantum ≤ n * quantum := by
        have : ((n + 1 : Nat) : Int) * quantum = n * quantum + quantum := by
          push_cast; ring
        linarith
      obtain ⟨fuel, hfuel⟩ := ih _ (r - quantum) h1 (by omega) hle' (by omega)
      exact ⟨fuel + 1, by rw [rrRun_succ_running quantum fuel s hrunning]; exact hfuel⟩

theorem rrIdle_single (z : Process) (s : SimState) (hp : s.p = [z]) :
    rrIdle s = arriveLate 0 z { s with current_time := s.current_time + 1 } := by
  unfold rrIdle
  simp only []
  rw [hp]
  rfl

theorem soloIdle_iter (x0 : Process) (quantum : Int) (s : SimState) (h : SoloIdle x0 s)
    (hx : x0.is_completed = 0) (hrem : x0.remaining_time = x0.burst_time) :
    (s.current_time + 1 < x0.arrival_time → SoloIdle x0 (rrIter quantum s)) ∧
    (s.current_time + 1 = x0.arrival_time →
      SoloRun x0 x0.burst_time (rrIter quantum s) ∧ (rrIter quantum s).queue.length = 1) ∧
    (rrIter quantum s).current_time = s.current_time + 1 := by
  obtain ⟨hp, he, hd, hq, hh, hf, ho⟩ := h
  have heq : s.head = s.queue.length := by rw [hh, hq]; rfl
  unfold rrIter
  rw [if_pos heq, rrIdle_single x0 s hp]
  unfold arriveLate
  refine ⟨?_, ?_, ?_⟩
  · intro hlt
    rw [if_neg (by simp only []; omega)]
    exact ⟨hp, hlt, hd, hq, hh, hf, ho⟩
  · intro harr
    rw [if_pos (by simp only []; omega), if_pos ⟨hf, hx⟩, touch_small _ 0 (by decide)]
    refine ⟨⟨?_, ?_, hd, ?_, ?_, ?_, ?_⟩, ?_⟩
    · simp only [enqueue_p, hp]
      congr 1
      cases x0
      simp only at hrem
      simp only [hrem]
    · simp only [enqueue_current_time]; omega
    · simp only [enqueue_head, enqueue_queue, hh, hq]; rfl
    · simp only [enqueue_head, enqueue_queue, hh, hq]; rfl
    · simp only [enqueue_in_queue, Function.update_same]
    · simp only [enqueue, push, ho, hq]; decide
    · simp only [enqueue_queue, hq]; rfl
  · split
    · split
      · rfl
      · rfl
    · rfl

/-- Before the arrival of its single process `simulate_RR` only idles: after `k`
iterations the clock is at `k` and the queue is empty. -/
theorem soloIdle_run (x0 : Process) (quantum : Int) (hx : x0.is_completed = 0)
    (hrem : x0.remaining_time = x0.burst_time) (k : Nat) :
    ∀ s, SoloIdle x0 s → s.current_time + k < x0.arrival_time →
      SoloIdle x0 (rrRun quantum k s) ∧
      (rrRun quantum k s).current_time = s.current_time + k := by
  induction k with
  | zero => intro s h _; exact ⟨h, by simp [rrRun]⟩
  | succ k ih =>
    intro s h hlt
    have hrunning : s.completed < s.p.length := by rw [h.none_done, h.procs]; simp
    rw [rrRun_succ_running quantum k s hrunning]
    obtain ⟨h1, _, h3⟩ := soloIdle_iter x0 quantum s h hx hrem
    push_cast at hlt
    obtain ⟨h4, h5⟩ := ih _ (h1 (by omega)) (by rw [h3]; omega)
    exact ⟨h4, by rw [h5, h3]; push_cast; ring⟩

theorem outcomeOf_running (s : SimState) :
    outcomeOf s = Outcome.running ↔ s.completed < s.p.length := by
  unfold outcomeOf
  split
  · next h => simp [h]
  · next h =>
    split <;> simp [h]

/-- Once `simulate_RR` has left its loop, more fuel gives the same outcome. -/
theorem simulate_RR_mono (p : List Process) (quantum : Int) (f g : Nat)
    (h : simulate_RR p quantum f ≠ Outcome.running) (hfg : f ≤ g) :
    simulate_RR p quantum g = simulate_RR p quantum f := by
  obtain ⟨d, rfl⟩ := Nat.exists_eq_add_of_le hfg
  unfold simulate_RR at h ⊢
  rw [rrRun_add, rrRun_done quantum d _ (fun hc => h ((outcomeOf_running _).2 hc))]

/-- On a single process `simulate_RR` reaches, after the idle iterations, a state
in which the process is queued with all its burst left and the queue has one
cell. -/
theorem solo_reaches_run (x0 : Process) (quantum : Int) (ha : 0 ≤ x0.arrival_time)
    (hx : x0.is_completed = 0) (hrem : x0.remaining_time = x0.burst_time) :
    ∃ fuel, SoloRun x0 x0.burst_time (rrRun quantum fuel (rrInit [x0])) ∧
      (rrRun quantum fuel (rrInit [x0])).queue.length = 1 := by
  by_cases h0 : x0.arrival_time = 0
  · refine ⟨0, ?_⟩
    have hinit : rrInit [x0] = enqueue (rrStart [x0]) 0 := by
      simp only [rrInit, forProcs, arriveInit, rrStart]
      rw [if_pos (by omega)]
    simp only [rrRun]
    rw [hinit]
    refine ⟨⟨?_, ?_, rfl, rfl, rfl, ?_, ?_⟩, rfl⟩
    · simp only [enqueue_p, rrStart]
      congr 1
      cases x0
      simp only at hrem
      simp only [hrem]
    · simp only [enqueue_current_time, rrStart]; omega
    · simp only [enqueue_in_queue, Function.update_same]
    · rfl
  · have hpos : 0 < x0.arrival_time := by omega
    have hidle : SoloIdle x0 (rrInit [x0]) := by
      rw [rrInit_single_late x0 hpos]
      exact ⟨rfl, hpos, rfl, rfl, rfl, rfl, rfl⟩
    have hct0 : (rrInit [x0]).current_time = 0 := by
      rw [rrInit_single_late x0 hpos]; rfl
    obtain ⟨h1, h2⟩ := soloIdle_run x0 quantum hx hrem (x0.arrival_time.toNat - 1)
      (rrInit [x0]) hidle (by rw [hct0]; omega)
    have hrunning : (rrRun quantum (x0.arrival_time.toNat - 1) (rrInit [x0])).completed
        < (rrRun quantum (x0.arrival_time.toNat - 1) (rrInit [x0])).p.length := by
      rw [h1.none_done, h1.procs]; simp
    obtain ⟨_, h3, _⟩ := soloIdle_iter x0 quantum _ h1 hx hrem
    refine ⟨x0.arrival_time.toNat - 1 + 1, ?_⟩
    rw [rrRun_add, rrRun_succ_running quantum 0 _ hrunning]
    simp only [rrRun]
    exact h3 (by rw [h2, hct0]; omega)

/-! ## Round Robin: sums over the process array -/

/-- The sum of `g i p[i]` over the positions of a process array, the first of which
has index `i0`. -/
def sumIdx (g : Nat → Process → Int) : List Process → Nat → Int
  | [], _ => 0
  | x :: rest, i0 => g i0 x + sumIdx g rest (i0 + 1)

theorem sumIdx_congr (g g' : Nat → Process → Int) (l : List Process) (i0 : Nat)
    (h : ∀ k x, l[k]? = some x → g (i0 + k) x = g' (i0 + k) x) :
    sumIdx g l i0 = sumIdx g' l i0 := by
  induction l generalizing i0 with
  | nil => rfl
  | cons a rest ih =>
    simp only [sumIdx]
    have h0 := h 0 a (by simp)
    simp only [Nat.add_zero] at h0
    rw [h0, ih (i0 + 1) (fun k x hx => by
      have := h (k + 1) x (by simpa using hx)
      have e : i0 + 1 + k = i0 + (k + 1) := by omega
      rw [e]; exact this)]

/-- Changing the summand at one position changes the sum by the difference there. -/
theorem sumIdx_change (g g' : Nat → Process → Int) (l : List Process) (i0 j : Nat)
    (x : Process) (hx : l[j]? = some x)
    (h : ∀ k y, l[k]? = some y → k ≠ j → g' (i0 + k) y = g (i0 + k) y) :
    sumIdx g' l i0 = sumIdx g l i0 + (g' (i0 + j) x - g (i0 + j) x) := by
  induction l generalizing i0 j with
  | nil => simp at hx
  | cons a rest ih =>
    simp only [sumIdx]
    cases j with
    | zero =>
      simp only [List.getElem?_cons_zero, Option.some.injEq] at hx
      subst hx
      have := sumIdx_congr g' g rest (i0 + 1) (fun k y hy => by
        have := h (k + 1) y (by simpa using hy) (by omega)
        have e : i0 + 1 + k = i0 + (k + 1) := by omega
        rw [e]; exact this)
      rw [this]
      simp only [Nat.add_zero]
      ring
    | succ j =>
      simp only [List.getElem?_cons_succ] at hx
      have h0 := h 0 a (by simp) (by omega)
      simp only [Nat.add_zero] at h0
      have := ih (i0 + 1) j hx (fun k y hy hk => by
        have := h (k + 1) y (by simpa using hy) (by omega)
        have e : i0 + 1 + k = i0 + (k + 1) := by omega
        rw [e]; exact this)
      have e : i0 + 1 + j = i0 + (j + 1) := by omega
      rw [e] at this
      rw [this, h0]
      ring

/-- Replacing the record at one position changes the sum by the difference there. -/
theorem sumIdx_set (g : Nat → Process → Int) (l : List Process) (i0 j : Nat)
    (x y : Process) (hx : l[j]? = some x) :
    sumIdx g (l.set j y) i0 = sumIdx g l i0 + (g (i0 + j) y - g (i0 + j) x) := by
  induction l generalizing i0 j with
  | nil => simp at hx
  | cons a rest ih =>
    cases j with
    | zero =>
      simp only [List.getElem?_cons_zero, Option.some.injEq] at hx
      subst hx
      simp only [List.set, sumIdx, Nat.add_zero]
      ring
    | succ j =>
      simp only [List.getElem?_cons_succ] at hx
      simp only [List.set, sumIdx]
      rw [ih (i0 + 1) j hx]
      have e : i0 + 1 + j = i0 + (j + 1) := by omega
      rw [e]
      ring

theorem sumIdx_nonneg (g : Nat → Process → Int) (l : List Process) (i0 : Nat)
    (h : ∀ k x, l[k]? = some x → 0 ≤ g (i0 + k) x) : 0 ≤ sumIdx g l i0 := by
  induction l generalizing i0 with
  | nil => simp [sumIdx]
  | cons a rest ih =>
    simp only [sumIdx]
    have h0 := h 0 a (by simp)
    have := ih (i0 + 1) (fun k x hx => by
      have := h (k + 1) x (by simpa using hx)
      have e : i0 + 1 + k = i0 + (k + 1) := by omega
      rw [e]; exact this)
    simp only [Nat.add_zero] at h0
    omega

theorem sumIdx_map (f : Process → Int) (l : List Process) (i0 : Nat) :
    sumIdx (fun _ x => f x) l i0 = (l.map f).sum := by
  induction l generalizing i0 with
  | nil => rfl
  | cons a rest ih => simp only [sumIdx, List.map_cons, List.sum_cons, ih]

/-- The number of slices of `quantum` ticks a work of `a` ticks takes: `a / quantum`
rounded up. -/
def ceilDiv (a quantum : Int) : Int := (a + quantum - 1) / quantum

theorem ceilDiv_sub (a quantum : Int) (hq : 0 < quantum) :
    ceilDiv (a - quantum) quantum = ceilDiv a quantum - 1 := by
  unfold ceilDiv
  have e : a - quantum + quantum - 1 = (a + quantum - 1) + (-1) * quantum := by ring
  rw [e, Int.add_mul_ediv_right _ _ (ne_of_gt hq)]
  ring

theorem ceilDiv_pos (a quantum : Int) (hq : 0 < quantum) (ha : 0 < a) :
    1 ≤ ceilDiv a quantum := by
  unfold ceilDiv
  exact Int.le_ediv_of_mul_le hq (by omega)

theorem ceilDiv_le_one (a quantum : Int) (hq : 0 < quantum) (ha : a ≤ quantum) :
    ceilDiv a quantum ≤ 1 := by
  unfold ceilDiv
  have : (a + quantum - 1) / quantum < 2 := Int.ediv_lt_of_lt_mul hq (by omega)
  omega

/-- The number of cells of `queue` a run of `simulate_RR` writes for the process
set `p`: one per dispatch, that is, the sum of `burst_time / quantum` rounded up. -/
def queueDemand (quantum : Int) (p : List Process) : Int :=
  (p.map (fun x => ceilDiv x.burst_time quantum)).sum

/-! ## Round Robin: the ready queue -/

/-- The pending part of the queue: the cells `queue[head .. tail)`. -/
def pendingCells (s : SimState) : List Nat := s.queue.drop s.head

/-- Invariant of the ready queue of both Round Robin loops.  `r` is the process
taken from the queue and not yet settled, if any.  The pending cells are distinct
indices of uncompleted, flagged processes; a flagged process is completed, pending
or running; a completed process is flagged; `completed` counts the completed
records; an uncompleted record has work left and a completed one has none. -/
structure QueueInv (r : Option Nat) (s : SimState) : Prop where
  hd : s.head ≤ s.queue.length
  nodup : (pendingCells s).Nodup
  cells : ∀ j ∈ pendingCells s,
    ∃ x, s.p[j]? = some x ∧ x.is_completed = 0 ∧ s.in_queue j = true
  flagged_where : ∀ i x, s.p[i]? = some x → s.in_queue i = true →
    x.is_completed ≠ 0 ∨ i ∈ pendingCells s ∨ r = some i
  running : ∀ i, r = some i →
    (∃ x, s.p[i]? = some x ∧ x.is_completed = 0 ∧ s.in_queue i = true) ∧
    i ∉ pendingCells s
  done_flagged : ∀ i x, s.p[i]? = some x → x.is_completed ≠ 0 → s.in_queue i = true
  count : s.completed + s.p.countP pending = s.p.length
  rem : ∀ x ∈ s.p, (x.is_completed = 0 → 0 < x.remaining_time) ∧
    (x.is_completed ≠ 0 → x.remaining_time = 0 ∧ x.is_completed = 1)

theorem pendingCells_push (s : SimState) (i : Nat) (h : s.head ≤ s.queue.length) :
    pendingCells (push s i) = pendingCells s ++ [i] := by
  simp only [pendingCells, push_queue, push_head]
  exact List.drop_append_of_le_length h

theorem pendingCells_enqueue (s : SimState) (i : Nat) (h : s.head ≤ s.queue.length) :
    pendingCells (enqueue s i) = pendingCells s ++ [i] :=
  pendingCells_push s i h

theorem queueInv_touch (r : Option Nat) (s : SimState) (i : Nat) (h : QueueInv r s) :
    QueueInv r (touch s i) :=
  ⟨h.hd, h.nodup, h.cells, h.flagged_where, h.running, h.done_flagged, h.count, h.rem⟩

theorem queueInv_clock (r : Option Nat) (s : SimState) (t : Int) (h : QueueInv r s) :
    QueueInv r { s with current_time := t } :=
  ⟨h.hd, h.nodup, h.cells, h.flagged_where, h.running, h.done_flagged, h.count, h.rem⟩

/-- Queueing an unflagged process of the array keeps the invariant. -/
theorem queueInv_enqueue (r : Option Nat) (s : SimState) (i : Nat) (x : Process)
    (h : QueueInv r s) (hx : s.p[i]? = some x) (hf : s.in_queue i = false) :
    QueueInv r (enqueue s i) := by
  have hnot : i ∉ pendingCells s := by
    intro hi
    obtain ⟨_, _, _, hflag⟩ := h.cells i hi
    rw [hf] at hflag
    exact absurd hflag (by decide)
  have hx0 : x.is_completed = 0 := by
    by_contra hc
    have := h.done_flagged i x hx hc
    rw [hf] at this
    exact absurd this (by decide)
  have hmono : ∀ k, s.in_queue k = true → (enqueue s i).in_queue k = true := by
    intro k hk
    simp only [enqueue_in_queue]
    by_cases hki : k = i
    · subst hki; simp
    · rw [Function.update_noteq hki]; exact hk
  refine ⟨?_, ?_, ?_, ?_, ?_, ?_, h.count, h.rem⟩
  · simp only [enqueue_head, enqueue_queue, List.length_append, List.length_singleton]
    have := h.hd
    omega
  · rw [pendingCells_enqueue s i h.hd]
    exact List.nodup_append.2 ⟨h.nodup, List.nodup_singleton i, by
      intro a ha hb
      rw [List.mem_singleton] at hb
      subst hb
      exact hnot ha⟩
  · intro j hj
    rw [pendingCells_enqueue s i h.hd, List.mem_append, List.mem_singleton] at hj
    rcases hj with hj | rfl
    · obtain ⟨y, hy, hy0, hflag⟩ := h.cells j hj
      exact ⟨y, hy, hy0, hmono j hflag⟩
    · exact ⟨x, hx, hx0, by simp only [enqueue_in_queue, Function.update_same]⟩
  · intro k y hy hk
    rw [pendingCells_enqueue s i h.hd, List.mem_append, List.mem_singleton]
    by_cases hki : k = i
    · exact Or.inr (Or.inl (Or.inr hki))
    · simp only [enqueue_in_queue] at hk
      rw [Function.update_noteq hki] at hk
      rcases h.flagged_where k y hy hk with h1 | h1 | h1
      · exact Or.inl h1
      · exact Or.inr (Or.inl (Or.inl h1))
      · exact Or.inr (Or.inr h1)
  · intro k hk
    obtain ⟨⟨y, hy, hy0, hflag⟩, hnp⟩ := h.running k hk
    refine ⟨⟨y, hy, hy0, hmono k hflag⟩, ?_⟩
    rw [pendingCells_enqueue s i h.hd, List.mem_append, List.mem_singleton]
    rintro (h1 | h1)
    · exact hnp h1
    · subst h1
      rw [hf] at hflag
      exact absurd hflag (by decide)
  · intro k y hy hc
    exact hmono k (h.done_flagged k y hy hc)

/-- An arrival loop body that queues a process only when it is unflagged. -/
def Guarded (body : Nat → Process → SimState → SimState) : Prop :=
  ∀ i x s, body i x s = s ∨ body i x s = touch s i ∨
    (body i x s = enqueue (touch s i) i ∧ s.in_queue i = false)

theorem guarded_late : Guarded arriveLate := by
  intro i x s
  unfold arriveLate
  split
  · split
    · next h => exact Or.inr (Or.inr ⟨rfl, h.1⟩)
    · exact Or.inr (Or.inl rfl)
  · exact Or.inl rfl

theorem guarded_tick : Guarded arriveTick := by
  intro i x s
  unfold arriveTick
  split
  · split
    · next h => exact Or.inr (Or.inr ⟨rfl, h⟩)
    · exact Or.inr (Or.inl rfl)
  · exact Or.inl rfl

theorem guarded_frame {body : Nat → Process → SimState → SimState} (hg : Guarded body)
    (i : Nat) (x : Process) (s : SimState) : (body i x s).p = s.p := by
  rcases hg i x s with e | e | ⟨e, _⟩ <;> rw [e] <;> rfl

/-- A guarded arrival loop over the whole process array keeps the invariant. -/
theorem queueInv_scan {body : Nat → Process → SimState → SimState} (hg : Guarded body)
    (r : Option Nat) (s : SimState) (h : QueueInv r s) :
    QueueInv r (forProcs body s.p 0 s) := by
  have := forProcs_keeps body (fun t => QueueInv r t ∧ t.p = s.p) s.p 0 s ⟨h, rfl⟩ (by
    intro k x t hx ht
    refine ⟨?_, by rw [guarded_frame hg]; exact ht.2⟩
    rcases hg (0 + k) x t with e | e | ⟨e, hf⟩ <;> rw [e]
    · exact ht.1
    · exact queueInv_touch r t _ ht.1
    · exact queueInv_enqueue r (touch t (0 + k)) (0 + k) x (queueInv_touch r t _ ht.1)
        (by rw [touch_p, ht.2]; simpa using hx) hf)
  exact this.1

theorem queueInv_ticks (r : Option Nat) (k : Nat) (s : SimState) (h : QueueInv r s) :
    QueueInv r (rrTicks k s) := by
  induction k generalizing s with
  | zero => exact h
  | succ k ih =>
    exact ih _ (queueInv_scan guarded_tick r _ (queueInv_clock r s _ h))

/-- Taking the head of a queue that is not empty. -/
theorem queueInv_dequeue (s : SimState) (h : QueueInv none s)
    (hne : s.head ≠ s.queue.length) :
    QueueInv (some (s.queue.getD s.head 0)) { s with head := s.head + 1 } := by
  have hlt : s.head < s.queue.length := lt_of_le_of_ne h.hd hne
  have hidx : s.queue.getD s.head 0 = s.queue[s.head] := List.getD_eq_getElem _ _ hlt
  have hsplit : pendingCells s = s.queue[s.head] :: s.queue.drop (s.head + 1) := by
    simp only [pendingCells]
    exact List.drop_eq_getElem_cons hlt
  have hnd := h.nodup
  rw [hsplit, List.nodup_cons] at hnd
  rw [hidx]
  refine ⟨hlt, hnd.2, ?_, ?_, ?_, h.done_flagged, h.count, h.rem⟩
  · intro j hj
    exact h.cells j (by rw [hsplit]; exact List.mem_cons_of_mem _ hj)
  · intro i x hx hf
    rcases h.flagged_where i x hx hf with h1 | h1 | h1
    · exact Or.inl h1
    · rw [hsplit, List.mem_cons] at h1
      rcases h1 with h1 | h1
      · exact Or.inr (Or.inr (by rw [h1]))
      · exact Or.inr (Or.inl h1)
    · exact absurd h1 (by simp)
  · intro i hi
    obtain rfl := Option.some.inj hi
    exact ⟨h.cells _ (by rw [hsplit]; exact List.mem_cons_self _ _), hnd.1⟩

theorem countP_set_same {α : Type} (q : α → Bool) (l : List α) (i : Nat) (z y : α)
    (hz : l[i]? = some z) (hq : q y = q z) : (l.set i y).countP q = l.countP q := by
  induction l generalizing i with
  | nil => simp at hz
  | cons a rest ih =>
    cases i with
    | zero =>
      simp only [List.getElem?_cons_zero, Option.some.injEq] at hz
      subst hz
      simp [List.set, List.countP_cons, hq]
    | succ k =>
      simp only [List.getElem?_cons_succ] at hz
      simp only [List.set, List.countP_cons, ih k hz]

/-- Settling the running process, after a slice `min remaining_time quantum`, keeps
the invariant and leaves no process running. -/
theorem queueInv_settle (quantum : Int) (s : SimState) (idx : Nat)
    (h : QueueInv (some idx) s) :
    QueueInv none (rrSettle s idx (sliceOf quantum (s.p.getD idx default))) := by
  obtain ⟨⟨x, hx, hx0, hflag⟩, hnp⟩ := h.running idx rfl
  have hg : s.p.getD idx default = x := getD_of_getElem? hx
  have hrem : 0 < x.remaining_time := (h.rem x (List.getElem?_mem hx)).1 hx0
  have hother : ∀ j, j ∈ pendingCells s → j ≠ idx := fun j hj e => hnp (e ▸ hj)
  by_cases hr : (s.p.getD idx default).remaining_time
      - sliceOf quantum (s.p.getD idx default) = 0
  · rw [rrSettle_done s idx _ hr, hg]
    refine ⟨h.hd, h.nodup, ?_, ?_, ?_, ?_, ?_, ?_⟩
    · intro j hj
      obtain ⟨y, hy, hy0, hf⟩ := h.cells j hj
      exact ⟨y, by simp only [List.getElem?_set_ne (Ne.symm (hother j hj))]; exact hy, hy0, hf⟩
    · intro i y hy hf
      rcases getElem?_set_cases hy with ⟨_, rfl, _⟩ | ⟨hne, hy⟩
      · exact Or.inl (by simp [rrRecord])
      · rcases h.flagged_where i y hy hf with h1 | h1 | h1
        · exact Or.inl h1
        · exact Or.inr (Or.inl h1)
        · exact absurd (Option.some.inj h1).symm hne
    · intro i hi
      exact absurd hi (by simp)
    · intro i y hy hc
      rcases getElem?_set_cases hy with ⟨rfl, _, _⟩ | ⟨_, hy⟩
      · exact hflag
      · exact h.done_flagged i y hy hc
    · have := countP_set_drop pending s.p idx x (rrRecord x s.current_time) hx
        (by simpa [pending] using hx0) (by simp [pending, rrRecord])
      have := h.count
      simp only [List.length_set]
      omega
    · intro y hy
      rcases List.mem_or_eq_of_mem_set hy with hy | rfl
      · exact h.rem y hy
      · exact ⟨fun h0 => absurd h0 (by simp [rrRecord]), fun _ => ⟨rfl, rfl⟩⟩
  · rw [rrSettle_again s idx _ hr, hg]
    rw [hg] at hr
    have hrem' : 0 < x.remaining_time - sliceOf quantum x := by
      simp only [sliceOf] at hr ⊢
      split
      · omega
      · next hle => rw [if_neg hle] at hr; omega
    have hpend : pendingCells (push { s with p := s.p.set idx { x with
          remaining_time := x.remaining_time - sliceOf quantum x } } idx)
        = pendingCells s ++ [idx] := pendingCells_push _ idx h.hd
    refine ⟨?_, ?_, ?_, ?_, ?_, ?_, ?_, ?_⟩
    · simp only [push_head, push_queue, List.length_append, List.length_singleton]
      have := h.hd
      omega
    · rw [hpend]
      exact List.nodup_append.2 ⟨h.nodup, List.nodup_singleton idx, by
        intro a ha hb
        rw [List.mem_singleton] at hb
        subst hb
        exact hnp ha⟩
    · intro j hj
      rw [hpend, List.mem_append, List.mem_singleton] at hj
      rcases hj with hj | rfl
      · obtain ⟨y, hy, hy0, hf⟩ := h.cells j hj
        exact ⟨y, by simp only [push_p, List.getElem?_set_ne (Ne.symm (hother j hj))]; exact hy,
          hy0, hf⟩
      · exact ⟨{ x with remaining_time := x.remaining_time - sliceOf quantum x },
          by simp only [push_p, List.getElem?_set, (List.getElem?_eq_some.1 hx).1, if_true],
          hx0, hflag⟩
    · intro i y hy hf
      rw [hpend, List.mem_append, List.mem_singleton]
      by_cases hi : i = idx
      · exact Or.inr (Or.inl (Or.inr hi))
      · rcases getElem?_set_cases hy with ⟨h1, _, _⟩ | ⟨_, hy⟩
        · exact absurd h1 hi
        · rcases h.flagged_where i y hy hf with h1 | h1 | h1
          · exact Or.inl h1
          · exact Or.inr (Or.inl (Or.inl h1))
          · exact absurd (Option.some.inj h1).symm hi
    · intro i hi
      exact absurd hi (by simp)
    · intro i y hy hc
      rcases getElem?_set_cases hy with ⟨rfl, rfl, _⟩ | ⟨_, hy⟩
      · exact hflag
      · exact h.done_flagged i y hy hc
    · have := countP_set_same pending s.p idx x
        { x with remaining_time := x.remaining_time - sliceOf quantum x } hx rfl
      have := h.count
      simp only [push_p, push_completed, List.length_set]
      omega
    · intro y hy
      rcases List.mem_or_eq_of_mem_set hy with hy | rfl
      · exact h.rem y hy
      · exact ⟨fun _ => hrem', fun hc => absurd hx0 hc⟩

theorem queueInv_runSlice (quantum : Int) (s : SimState) (idx : Nat)
    (h : QueueInv (some idx) s) : QueueInv none (runSlice quantum s idx) := by
  unfold runSlice
  have hp := (rrTicks_frame (sliceOf quantum (s.p.getD idx default)).toNat s).1
  have := queueInv_settle quantum _ idx
    (queueInv_ticks (some idx) (sliceOf quantum (s.p.getD idx default)).toNat s h)
  rw [hp] at this
  exact this

/-- One iteration of the loop of `simulate_RR` keeps the queue invariant. -/
theorem queueInv_rrIter (quantum : Int) (s : SimState)
    (h : QueueInv none s) : QueueInv none (rrIter quantum s) := by
  unfold rrIter
  split
  · exact queueInv_scan guarded_late none _ (queueInv_clock none s _ h)
  · next hne =>
    unfold rrDispatch
    exact queueInv_runSlice quantum _ _ (queueInv_dequeue s h hne)

/-- One iteration of the loop of `simulate_RR_with_penalty` keeps the queue
invariant. -/
theorem queueInv_rrpIter (quantum penalty : Int) (s : SimState)
    (h : QueueInv none s) : QueueInv none (rrpIter quantum penalty s) := by
  unfold rrpIter
  split
  · exact queueInv_clock none s _ h
  · next hne =>
    unfold rrpDispatch
    apply queueInv_runSlice quantum
    have h1 := queueInv_dequeue s h hne
    unfold rrpSwitch
    simp only
    split
    · have := queueInv_scan guarded_late _ _ (queueInv_clock _ _
        (s.current_time + penalty) h1)
      exact ⟨this.hd, this.nodup, this.cells, this.flagged_where, this.running,
        this.done_flagged, this.count, this.rem⟩
    · exact ⟨h1.hd, h1.nodup, h1.cells, h1.flagged_where, h1.running,
        h1.done_flagged, h1.count, h1.rem⟩

theorem queueInv_start (p : List Process) (hb : ∀ x ∈ p, 0 < x.burst_time) :
    QueueInv none (rrStart (reset_processes p)) := by
  refine ⟨le_refl _, List.nodup_nil, ?_, ?_, ?_, ?_, ?_, ?_⟩
  · intro j hj; simp [pendingCells, rrStart] at hj
  · intro i x _ hf; simp [rrStart] at hf
  · intro i hi; exact absurd hi (by simp)
  · intro i x hx hc
    exact absurd (reset_uncompleted p x (List.getElem?_mem hx)) hc
  · have : (reset_processes p).countP pending = (reset_processes p).length := by
      rw [List.countP_eq_length]
      intro x hx
      simpa [pending] using reset_uncompleted p x hx
    simp only [rrStart, this, zero_add]
  · intro x hx
    refine ⟨fun _ => ?_, fun hc => absurd (reset_uncompleted p x hx) hc⟩
    simp only [rrStart, reset_processes, List.mem_map] at hx
    obtain ⟨y, hy, rfl⟩ := hx
    exact hb y hy

/-- The initial arrival loop, started with no flag set, keeps the queue invariant. -/
theorem queueInv_init (p : List Process) (hb : ∀ x ∈ p, 0 < x.burst_time) :
    QueueInv none (rrInit (reset_processes p)) := by
  rw [rrInit_eq]
  have := forProcs_induct arriveInit
    (fun k t => QueueInv none t ∧ t.p = reset_processes p ∧ ∀ j, k ≤ j → t.in_queue j = false)
    (reset_processes p) 0 (rrStart (reset_processes p))
    ⟨queueInv_start p hb, rfl, fun _ _ => rfl⟩ (by
      intro k x t hx ht
      obtain ⟨h1, h2, h3⟩ := ht
      unfold arriveInit
      split
      · refine ⟨queueInv_enqueue none t (0 + k) x h1 (by rw [h2]; simpa using hx)
          (h3 _ (le_refl _)), h2, ?_⟩
        intro j hj
        simp only [enqueue_in_queue]
        rw [Function.update_noteq (by omega)]
        exact h3 j (by omega)
      · exact ⟨h1, h2, fun j hj => h3 j (by omega)⟩)
  exact this.1

theorem queueInv_rrRun (p : List Process) (hb : ∀ x ∈ p, 0 < x.burst_time)
    (quantum : Int) (fuel : Nat) :
    QueueInv none (rrRun quantum fuel (rrInit (reset_processes p))) :=
  rrRun_induct quantum (QueueInv none) (fun s hs _ => queueInv_rrIter quantum s hs)
    fuel _ (queueInv_init p hb)

theorem queueInv_rrpRun (p : List Process) (hb : ∀ x ∈ p, 0 < x.burst_time)
    (quantum penalty : Int) (fuel : Nat) :
    QueueInv none (rrpRun quantum penalty fuel (rrInit (reset_processes p))) :=
  rrpRun_induct quantum penalty (QueueInv none)
    (fun s hs _ => queueInv_rrpIter quantum penalty s hs) fuel _ (queueInv_init p hb)

/-! ## Round Robin: every process that has arrived is flagged -/

/-- Every process whose arrival time has been reached is flagged in `in_queue`. -/
def Arrived (s : SimState) : Prop :=
  ∀ i x, s.p[i]? = some x → x.arrival_time ≤ s.current_time → s.in_queue i = true

/-- After an arrival loop over the whole array, the process at position `i` is
flagged if the loop body flags the processes that satisfy `c`, and it satisfies `c`. -/
theorem forProcs_covers {body : Nat → Process → SimState → SimState}
    (hb : ArrivalBody body) (c : SimState → Nat → Process → Prop)
    (hc : ∀ i x s, c s i x → (body i x s).in_queue i = true)
    (hmono : ∀ i x s k y, c s i x → c (body k y s) i x)
    (s : SimState) (i : Nat) (x : Process) (hx : s.p[i]? = some x) (hcx : c s i x) :
    (forProcs body s.p 0 s).in_queue i = true := by
  have hlen : i < s.p.length := (List.getElem?_eq_some.1 hx).1
  have := forProcs_induct body
    (fun k t => c t i x ∧ (i < k → t.in_queue i = true)) s.p 0 s
    ⟨hcx, fun h => absurd h (by omega)⟩ (by
      intro k y t hy ht
      refine ⟨hmono i x t (0 + k) y ht.1, fun hk => ?_⟩
      by_cases hki : 0 + k = i
      · have hyx : y = x := by
          have : s.p[i]? = some y := by rw [← hki]; simpa using hy
          rw [hx] at this; exact (Option.some.inj this).symm
        rw [hki, hyx]
        exact hc i x t ht.1
      · exact arrivalBody_flag_mono hb (0 + k) y t i (ht.2 (by omega)))
  simp only [zero_add] at this
  exact this.2 hlen

theorem arrived_tick (s : SimState) (h : Arrived s) : Arrived (rrTick s) := by
  intro i x hx ha
  obtain ⟨hp, hct, _, _, _⟩ := rrTick_frame s
  rw [hp] at hx
  rw [hct] at ha
  by_cases hle : x.arrival_time ≤ s.current_time
  · exact forProcs_flag_mono ArrivalBody.tick _ 0 _ i (h i x hx hle)
  · unfold rrTick
    apply forProcs_covers ArrivalBody.tick
      (fun t _ y => y.arrival_time = t.current_time) _ _
      { s with current_time := s.current_time + 1 } i x hx
    · show x.arrival_time = s.current_time + 1
      omega
    · intro k y t hk
      unfold arriveTick
      rw [if_pos hk]
      split
      · simp only [enqueue_in_queue, Function.update_same]
      · next hf => simpa using hf
    · intro k y t j z hk
      rw [(arrivalBody_frame ArrivalBody.tick j z t).2.1]
      exact hk

theorem arrived_ticks (k : Nat) (s : SimState) (h : Arrived s) : Arrived (rrTicks k s) := by
  induction k generalizing s with
  | zero => exact h
  | succ k ih => exact ih _ (arrived_tick s h)

/-- The idle branch of `simulate_RR` establishes `Arrived`: it flags the
uncompleted arrivals, and the completed ones are flagged already. -/
theorem arrived_idle (r : Option Nat) (s : SimState) (hq : QueueInv r s) :
    Arrived (rrIdle s) := by
  intro i x hx ha
  obtain ⟨hp, hct, _, _, _⟩ := forProcs_frame ArrivalBody.late s.p 0
    { s with current_time := s.current_time + 1 }
  have hp : (rrIdle s).p = s.p := hp
  have hct : (rrIdle s).current_time = s.current_time + 1 := hct
  rw [hp] at hx
  rw [hct] at ha
  by_cases hc : x.is_completed = 0
  · unfold rrIdle
    apply forProcs_covers ArrivalBody.late
      (fun t _ y => y.arrival_time ≤ t.current_time ∧ y.is_completed = 0) _ _
      { s with current_time := s.current_time + 1 } i x hx ⟨ha, hc⟩
    · intro k y t hk
      unfold arriveLate
      rw [if_pos hk.1]
      split
      · simp only [enqueue_in_queue, Function.update_same]
      · next hf =>
        simp only [not_and_or] at hf
        rcases hf with hf | hf
        · simpa using hf
        · exact absurd hk.2 hf
    · intro k y t j z hk
      rw [(arrivalBody_frame ArrivalBody.late j z t).2.1]
      exact hk
  · exact forProcs_flag_mono ArrivalBody.late _ 0 _ i (hq.done_flagged i x hx hc)

theorem rrSettle_in_queue (s : SimState) (idx : Nat) (slice : Int) :
    (rrSettle s idx slice).in_queue = s.in_queue := by
  unfold rrSettle
  simp only
  split <;> rfl

theorem arrived_runSlice (quantum : Int) (s : SimState) (idx : Nat) (h : Arrived s) :
    Arrived (runSlice quantum s idx) := by
  intro i y hy ha
  have hticks := arrived_ticks (sliceOf quantum (s.p.getD idx default)).toNat s h
  obtain ⟨hp, hct, _, _, _⟩ := rrTicks_frame (sliceOf quantum (s.p.getD idx default)).toNat s
  obtain ⟨ep, ect, _, _⟩ := runSlice_effect quantum s idx
  rw [ect, ← hct] at ha
  have hflag : (runSlice quantum s idx).in_queue
      = (rrTicks (sliceOf quantum (s.p.getD idx default)).toNat s).in_queue := by
    unfold runSlice
    exact rrSettle_in_queue _ _ _
  rw [hflag]
  rw [ep] at hy
  rcases getElem?_set_cases hy with ⟨rfl, rfl, hlen⟩ | ⟨_, hy⟩
  · have hx : s.p[i]? = some (s.p.getD i default) := by
      rw [List.getElem?_eq_getElem hlen, List.getD_eq_getElem _ _ hlen]
    rw [(afterSlice_fields quantum _ _).2.1] at ha
    exact hticks i _ (by rw [hp]; exact hx) ha
  · exact hticks i y (by rw [hp]; exact hy) ha

theorem arrived_rrIter (quantum : Int) (s : SimState) (h : Arrived s)
    (hq : QueueInv none s) : Arrived (rrIter quantum s) := by
  unfold rrIter
  split
  · exact arrived_idle none s hq
  · unfold rrDispatch
    exact arrived_runSlice quantum _ _ h

theorem arrived_init (p : List Process) : Arrived (rrInit p) := by
  intro i x hx ha
  rw [rrInit_p] at hx
  have hct : (rrInit p).current_time = 0 :=
    (forProcs_frame ArrivalBody.init p 0 (rrStart p)).2.1
  rw [hct] at ha
  rw [rrInit_eq]
  apply forProcs_covers ArrivalBody.init
    (fun t _ y => y.arrival_time ≤ t.current_time) _ _ (rrStart p) i x hx ha
  · intro k y t hk
    unfold arriveInit
    rw [if_pos hk]
    simp only [enqueue_in_queue, Function.update_same]
  · intro k y t j z hk
    rw [(arrivalBody_frame ArrivalBody.init j z t).2.1]
    exact hk

/-! ## Round Robin: termination -/

/-- The variant of the loop of `simulate_RR`: the work left plus the time until the
bound `A` on the arrivals. -/
def rrMeasure (A : Int) (s : SimState) : Int :=
  sumIdx (fun _ x => x.remaining_time) s.p 0 + (A - s.current_time).toNat

/-- What the termination of `simulate_RR` rests on. -/
structure RunInv (A : Int) (s : SimState) : Prop where
  queue : QueueInv none s
  arrived : Arrived s
  bound : ∀ x ∈ s.p, x.arrival_time ≤ A

theorem rrMeasure_nonneg (A : Int) (s : SimState) (h : QueueInv none s) :
    0 ≤ rrMeasure A s := by
  unfold rrMeasure
  have := sumIdx_nonneg (fun _ x => x.remaining_time) s.p 0 (fun k x hx => by
    have := h.rem x (List.getElem?_mem hx)
    by_cases hc : x.is_completed = 0
    · exact le_of_lt (this.1 hc)
    · exact le_of_eq (this.2 hc).1.symm)
  omega

/-- While the loop runs, a non-empty queue has an uncompleted process with work
left at its head. -/
theorem head_has_work (s : SimState) (h : QueueInv none s) (hne : s.head ≠ s.queue.length) :
    ∃ x, s.p[s.queue.getD s.head 0]? = some x ∧ x.is_completed = 0 ∧
      0 < x.remaining_time := by
  obtain ⟨⟨x, hx, hx0, _⟩, _⟩ := (queueInv_dequeue s h hne).running _ rfl
  exact ⟨x, hx, hx0, (h.rem x (List.getElem?_mem hx)).1 hx0⟩

/-- While the loop runs with an empty queue, some process has not arrived yet. -/
theorem idle_has_future (s : SimState) (h : QueueInv none s) (ha : Arrived s)
    (hc : s.completed < s.p.length) (he : s.head = s.queue.length) :
    ∃ x ∈ s.p, s.current_time < x.arrival_time := by
  have hpos : 0 < s.p.countP pending := by have := h.count; omega
  obtain ⟨x, hx, hxp⟩ := List.countP_pos_iff.1 hpos
  obtain ⟨i, hi⟩ := List.mem_iff_getElem?.1 hx
  have hx0 : x.is_completed = 0 := by simpa [pending] using hxp
  refine ⟨x, hx, ?_⟩
  by_contra hle
  have hflag := ha i x hi (not_lt.1 hle)
  rcases h.flagged_where i x hi hflag with h1 | h1 | h1
  · exact h1 hx0
  · simp [pendingCells, he] at h1
  · exact absurd h1 (by simp)

theorem rrIter_bound (quantum A : Int) (s : SimState) (h : ∀ x ∈ s.p, x.arrival_time ≤ A) :
    ∀ x ∈ (rrIter quantum s).p, x.arrival_time ≤ A :=
  rrIter_keeps (fun x => x.arrival_time ≤ A) quantum
    (fun x t hx => by
      show (afterSlice quantum x t).arrival_time ≤ A
      rw [(afterSlice_fields quantum x t).2.1]; exact hx) s h

/-- One iteration of the loop of `simulate_RR` keeps `RunInv` and decreases the
variant. -/
theorem runInv_rrIter (quantum A : Int) (hq : 0 < quantum) (s : SimState)
    (h : RunInv A s) (hc : s.completed < s.p.length) :
    RunInv A (rrIter quantum s) ∧ rrMeasure A (rrIter quantum s) + 1 ≤ rrMeasure A s := by
  refine ⟨⟨queueInv_rrIter quantum s h.queue, arrived_rrIter quantum s h.arrived h.queue,
    rrIter_bound quantum A s h.bound⟩, ?_⟩
  unfold rrMeasure
  by_cases he : s.head = s.queue.length
  · obtain ⟨x, hx, hlt⟩ := idle_has_future s h.queue h.arrived hc he
    have hA := h.bound x hx
    have hp : (rrIter quantum s).p = s.p := by rw [rrIter_p, if_pos he]
    have hct : (rrIter quantum s).current_time = s.current_time + 1 := by
      unfold rrIter
      rw [if_pos he]
      exact (forProcs_frame ArrivalBody.late s.p 0
        { s with current_time := s.current_time + 1 }).2.1
    rw [hp, hct]
    omega
  · obtain ⟨x, hx, _, hrem⟩ := head_has_work s h.queue he
    have hp : (rrIter quantum s).p = s.p.set (s.queue.getD s.head 0)
        (afterSlice quantum x s.current_time) := by
      rw [rrIter_p, if_neg he, getD_of_getElem? hx]
    have hct : (rrIter quantum s).current_time
        = s.current_time + (sliceOf quantum x).toNat := by
      unfold rrIter
      rw [if_neg he]
      unfold rrDispatch
      rw [(runSlice_effect quantum _ _).2.1]
      show s.current_time + _ = _
      rw [getD_of_getElem? hx]
    have hslice : 1 ≤ sliceOf quantum x := by
      unfold sliceOf; split <;> omega
    rw [hp, hct, sumIdx_set _ _ _ _ x _ hx, (afterSlice_fields quantum x _).2.2.2]
    omega

/-- With positive bursts and a positive quantum the loop of `simulate_RR` ends:
the state after enough iterations has `completed = n`. -/
theorem rrRun_terminates (quantum A : Int) (hq : 0 < quantum) (fuel : Nat) (s : SimState)
    (h : RunInv A s) (hm : rrMeasure A s ≤ fuel) :
    ¬ (rrRun quantum fuel s).completed < (rrRun quantum fuel s).p.length := by
  induction fuel generalizing s with
  | zero =>
    simp only [rrRun]
    intro hc
    have := (runInv_rrIter quantum A hq s h hc).2
    have := rrMeasure_nonneg A _ (queueInv_rrIter quantum s h.queue)
    simp only [Nat.cast_zero] at hm
    omega
  | succ k ih =>
    simp only [rrRun]
    split
    · next hc =>
      have := runInv_rrIter quantum A hq s h hc
      exact ih _ this.1 (by push_cast at hm; omega)
    · next hc => exact hc

theorem runInv_init (p : List Process) (hb : ∀ x ∈ p, 0 < x.burst_time) :
    RunInv (maxArrival (reset_processes p)) (rrInit (reset_processes p)) :=
  ⟨queueInv_init p hb, arrived_init _, by rw [rrInit_p]; exact le_maxArrival _⟩

theorem runInv_rrRun (quantum A : Int) (hq : 0 < quantum) (fuel : Nat) (s : SimState)
    (h : RunInv A s) : RunInv A (rrRun quantum fuel s) :=
  rrRun_induct quantum (RunInv A) (fun t ht hc => (runInv_rrIter quantum A hq t ht hc).1)
    fuel s h

/-! ## Round Robin: the number of queue cells written -/

/-- The writes to `queue` still to come for the process at position `i` with
record `x`: one per dispatch left, less the one already made if it is flagged. -/
def writesLeft (quantum : Int) (flags : Nat → Bool) (i : Nat) (x : Process) : Int :=
  if x.is_completed = 0
  then ceilDiv x.remaining_time quantum - (if flags i = true then 1 else 0) else 0

/-- The writes to `queue` still to come in state `s`. -/
def futureWrites (quantum : Int) (s : SimState) : Int :=
  sumIdx (writesLeft quantum s.in_queue) s.p 0

/-- Accounting of the queue cells: those written plus those to come make `W`, and
no access has left the arrays. -/
structure CapInv (quantum W : Int) (s : SimState) : Prop where
  writes : (s.queue.length : Int) + futureWrites quantum s = W
  in_bounds : s.oob = false

theorem futureWrites_nonneg (quantum : Int) (hq : 0 < quantum) (s : SimState)
    (hrem : ∀ x ∈ s.p, x.is_completed = 0 → 0 < x.remaining_time) :
    0 ≤ futureWrites quantum s := by
  apply sumIdx_nonneg
  intro k x hx
  unfold writesLeft
  split
  · next h0 =>
    have := ceilDiv_pos _ quantum hq (hrem x (List.getElem?_mem hx) h0)
    split <;> omega
  · exact le_refl _

theorem futureWrites_enqueue (quantum : Int) (s : SimState) (i : Nat) (x : Process)
    (hx : s.p[i]? = some x) (hx0 : x.is_completed = 0) (hf : s.in_queue i = false) :
    futureWrites quantum (enqueue s i) = futureWrites quantum s - 1 := by
  have e : writesLeft quantum (Function.update s.in_queue i true) (0 + i) x
      - writesLeft quantum s.in_queue (0 + i) x = -1 := by
    rw [Nat.zero_add]
    simp only [writesLeft, hx0, if_true, Function.update_same, hf]
    simp
  unfold futureWrites
  rw [enqueue_p, enqueue_in_queue,
    sumIdx_change (writesLeft quantum s.in_queue) _ s.p 0 i x hx (by
      intro k y _ hk
      unfold writesLeft
      rw [Function.update_noteq (by omega)]), e]
  ring

/-- Bundle of the queue invariant with the accounting of the queue cells, for a
demand `W` that fits the queue and a process array that fits `in_queue`. -/
structure Fits (quantum W : Int) (r : Option Nat) (s : SimState) : Prop where
  queue : QueueInv r s
  cap : CapInv quantum W s
  small : s.p.length ≤ MAX_PROCESSES

theorem fits_touch (quantum W : Int) (r : Option Nat) (s : SimState) (i : Nat)
    (h : Fits quantum W r s) (hi : i < s.p.length) : Fits quantum W r (touch s i) := by
  rw [touch_small s i (lt_of_lt_of_le hi h.small)]
  exact h

theorem fits_clock (quantum W : Int) (r : Option Nat) (s : SimState) (t : Int)
    (h : Fits quantum W r s) : Fits quantum W r { s with current_time := t } :=
  ⟨queueInv_clock r s t h.queue, ⟨h.cap.writes, h.cap.in_bounds⟩, h.small⟩

theorem fits_enqueue (quantum W : Int) (hq : 0 < quantum) (hW : W ≤ MAX_PROCESSES)
    (r : Option Nat) (s : SimState) (i : Nat) (x : Process) (h : Fits quantum W r s)
    (hx : s.p[i]? = some x) (hf : s.in_queue i = false) :
    Fits quantum W r (enqueue s i) := by
  have hQ := queueInv_enqueue r s i x h.queue hx hf
  have hx0 : x.is_completed = 0 := by
    by_contra hc
    have := h.queue.done_flagged i x hx hc
    rw [hf] at this
    exact absurd this (by decide)
  have hfut := futureWrites_enqueue quantum s i x hx hx0 hf
  have hnn := futureWrites_nonneg quantum hq (enqueue s i) (fun y hy => (hQ.rem y hy).1)
  have hw := h.cap.writes
  have hi : i < MAX_PROCESSES := lt_of_lt_of_le (List.getElem?_eq_some.1 hx).1 h.small
  refine ⟨hQ, ⟨?_, ?_⟩, h.small⟩
  · simp only [enqueue_queue, List.length_append, List.length_singleton, Nat.cast_add,
      Nat.cast_one, hfut]
    omega
  · have htail : s.queue.length < MAX_PROCESSES := by
      have : (s.queue.length : Int) < MAX_PROCESSES := by omega
      exact_mod_cast this
    simp only [enqueue, push, h.cap.in_bounds, Bool.false_or, Bool.or_eq_false_iff,
      decide_eq_false_iff_not, not_le]
    exact ⟨htail, hi⟩

/-- A guarded arrival loop over the whole process array keeps `Fits`. -/
theorem fits_scan {body : Nat → Process → SimState → SimState} (hg : Guarded body)
    (quantum W : Int) (hq : 0 < quantum) (hW : W ≤ MAX_PROCESSES) (r : Option Nat)
    (s : SimState) (h : Fits quantum W r s) : Fits quantum W r (forProcs body s.p 0 s) := by
  have := forProcs_keeps body (fun t => Fits quantum W r t ∧ t.p = s.p) s.p 0 s ⟨h, rfl⟩ (by
    intro k x t hx ht
    have hxt : t.p[0 + k]? = some x := by rw [ht.2]; simpa using hx
    have hk : 0 + k < t.p.length := (List.getElem?_eq_some.1 hxt).1
    refine ⟨?_, by rw [guarded_frame hg]; exact ht.2⟩
    rcases hg (0 + k) x t with e | e | ⟨e, hf⟩ <;> rw [e]
    · exact ht.1
    · exact fits_touch quantum W r t _ ht.1 hk
    · exact fits_enqueue quantum W hq hW r _ (0 + k) x (fits_touch quantum W r t _ ht.1 hk)
        hxt hf)
  exact this.1

theorem fits_ticks (quantum W : Int) (hq : 0 < quantum) (hW : W ≤ MAX_PROCESSES)
    (r : Option Nat) (k : Nat) (s : SimState) (h : Fits quantum W r s) :
    Fits quantum W r (rrTicks k s) := by
  induction k generalizing s with
  | zero => exact h
  | succ k ih =>
    exact ih _ (fits_scan guarded_tick quantum W hq hW r _ (fits_clock quantum W r s _ h))

theorem fits_dequeue (quantum W : Int) (s : SimState) (h : Fits quantum W none s)
    (hne : s.head ≠ s.queue.length) :
    Fits quantum W (some (s.queue.getD s.head 0)) { s with head := s.head + 1 } :=
  ⟨queueInv_dequeue s h.queue hne, ⟨h.cap.writes, h.cap.in_bounds⟩, h.small⟩

/-- Settling the running process keeps `Fits`: a completion writes no cell and
leaves none to come, a re-queueing writes one of those to come. -/
theorem fits_settle (quantum W : Int) (hq : 0 < quantum) (hW : W ≤ MAX_PROCESSES)
    (s : SimState) (idx : Nat) (h : Fits quantum W (some idx) s) :
    Fits quantum W none (rrSettle s idx (sliceOf quantum (s.p.getD idx default))) := by
  have hQ := queueInv_settle quantum s idx h.queue
  have hnn := futureWrites_nonneg quantum hq _ (fun y hy => (hQ.rem y hy).1)
  obtain ⟨⟨x, hx, hx0, hflag⟩, _⟩ := h.queue.running idx rfl
  have hg : s.p.getD idx default = x := getD_of_getElem? hx
  have hrem : 0 < x.remaining_time := (h.queue.rem x (List.getElem?_mem hx)).1 hx0
  have hw := h.cap.writes
  refine ⟨hQ, ?_, ?_⟩
  · by_cases hr : (s.p.getD idx default).remaining_time
        - sliceOf quantum (s.p.getD idx default) = 0
    · rw [rrSettle_done s idx _ hr] at hnn ⊢
      rw [hg] at hr hnn ⊢
      have hle : x.remaining_time ≤ quantum := by
        simp only [sliceOf] at hr
        split at hr <;> omega
      have h1 := ceilDiv_pos _ quantum hq hrem
      have h2 := ceilDiv_le_one _ quantum hq hle
      refine ⟨?_, h.cap.in_bounds⟩
      have hfut : futureWrites quantum { s with
          p := s.p.set idx (rrRecord x s.current_time), completed := s.completed + 1 }
          = futureWrites quantum s := by
        unfold futureWrites
        simp only
        rw [sumIdx_set _ _ _ _ x _ hx]
        simp only [writesLeft, hx0, hflag, if_true, zero_add, rrRecord]
        simp
        omega
      rw [hfut]
      exact hw
    · rw [rrSettle_again s idx _ hr] at hnn ⊢
      rw [hg] at hr hnn ⊢
      have hgt : quantum < x.remaining_time := by
        simp only [sliceOf] at hr
        split at hr <;> omega
      have hs : sliceOf quantum x = quantum := by
        simp only [sliceOf]; rw [if_pos hgt]
      rw [hs] at hnn ⊢
      have hfut : futureWrites quantum (push { s with p := s.p.set idx { x with
            remaining_time := x.remaining_time - quantum } } idx)
          = futureWrites quantum s - 1 := by
        unfold futureWrites
        simp only [push_p, push_in_queue]
        rw [sumIdx_set _ _ _ _ x _ hx]
        simp only [writesLeft, hx0, hflag, if_true, zero_add, ceilDiv_sub _ _ hq]
        ring
      rw [hfut] at hnn
      refine ⟨?_, ?_⟩
      · simp only [push_queue, List.length_append, List.length_singleton, Nat.cast_add,
          Nat.cast_one, hfut]
        omega
      · have htail : s.queue.length < MAX_PROCESSES := by
          have : (s.queue.length : Int) < MAX_PROCESSES := by omega
          exact_mod_cast this
        simp only [push, h.cap.in_bounds, Bool.false_or, decide_eq_false_iff_not, not_le]
        exact htail
  · have := h.small
    unfold rrSettle
    simp only
    split
    · simpa using this
    · simpa using this

theorem fits_runSlice (quantum W : Int) (hq : 0 < quantum) (hW : W ≤ MAX_PROCESSES)
    (s : SimState) (idx : Nat) (h : Fits quantum W (some idx) s) :
    Fits quantum W none (runSlice quantum s idx) := by
  unfold runSlice
  have hp := (rrTicks_frame (sliceOf quantum (s.p.getD idx default)).toNat s).1
  have := fits_settle quantum W hq hW _ idx
    (fits_ticks quantum W hq hW (some idx) (sliceOf quantum (s.p.getD idx default)).toNat s h)
  rw [hp] at this
  exact this

/-- One iteration of the loop of `simulate_RR` keeps `Fits`. -/
theorem fits_rrIter (quantum W : Int) (hq : 0 < quantum) (hW : W ≤ MAX_PROCESSES)
    (s : SimState) (h : Fits quantum W none s) : Fits quantum W none (rrIter quantum s) := by
  unfold rrIter
  split
  · exact fits_scan guarded_late quantum W hq hW none _ (fits_clock quantum W none s _ h)
  · next hne =>
    unfold rrDispatch
    exact fits_runSlice quantum W hq hW _ _ (fits_dequeue quantum W s h hne)

theorem length_le_queueDemand (quantum : Int) (hq : 0 < quantum) (p : List Process)
    (hb : ∀ x ∈ p, 0 < x.burst_time) : (p.length : Int) ≤ queueDemand quantum p := by
  induction p with
  | nil => simp [queueDemand]
  | cons a rest ih =>
    have h1 := ceilDiv_pos a.burst_time quantum hq (hb a (List.mem_cons_self _ _))
    have h2 := ih (fun x hx => hb x (List.mem_cons_of_mem _ hx))
    simp only [queueDemand, List.map_cons, List.sum_cons, List.length_cons, Nat.cast_add,
      Nat.cast_one] at h2 ⊢
    omega

theorem queueDemand_reset (quantum : Int) (p : List Process) :
    queueDemand quantum (reset_processes p) = queueDemand quantum p := by
  simp only [queueDemand, reset_processes, List.map_map]
  rfl

theorem fits_start (quantum : Int) (hq : 0 < quantum) (p : List Process)
    (hb : ∀ x ∈ p, 0 < x.burst_time) (hcap : queueDemand quantum p ≤ MAX_PROCESSES) :
    Fits quantum (queueDemand quantum p) none (rrStart (reset_processes p)) := by
  refine ⟨queueInv_start p hb, ⟨?_, rfl⟩, ?_⟩
  · have : futureWrites quantum (rrStart (reset_processes p))
        = queueDemand quantum (reset_processes p) := by
      unfold futureWrites queueDemand
      rw [← sumIdx_map _ _ 0]
      apply sumIdx_congr
      intro k x hx
      obtain ⟨y, _, rfl⟩ := reset_getElem? p k x hx
      simp [writesLeft, rrStart, resetProcess]
    rw [this, queueDemand_reset]
    simp [rrStart]
  · have := length_le_queueDemand quantum hq p hb
    have hlen : (reset_processes p).length = p.length := by simp [reset_processes]
    show (reset_processes p).length ≤ MAX_PROCESSES
    rw [hlen]
    have : (p.length : Int) ≤ MAX_PROCESSES := le_trans this hcap
    exact_mod_cast this

/-- The initial arrival loop, started with no flag set, keeps `Fits`. -/
theorem fits_init (quantum : Int) (hq : 0 < quantum) (p : List Process)
    (hb : ∀ x ∈ p, 0 < x.burst_time) (hcap : queueDemand quantum p ≤ MAX_PROCESSES) :
    Fits quantum (queueDemand quantum p) none (rrInit (reset_processes p)) := by
  rw [rrInit_eq]
  have := forProcs_induct arriveInit
    (fun k t => Fits quantum (queueDemand quantum p) none t ∧ t.p = reset_processes p ∧
      ∀ j, k ≤ j → t.in_queue j = false)
    (reset_processes p) 0 (rrStart (reset_processes p))
    ⟨fits_start quantum hq p hb hcap, rfl, fun _ _ => rfl⟩ (by
      intro k x t hx ht
      obtain ⟨h1, h2, h3⟩ := ht
      unfold arriveInit
      split
      · refine ⟨fits_enqueue quantum _ hq hcap none t (0 + k) x h1
          (by rw [h2]; simpa using hx) (h3 _ (le_refl _)), h2, ?_⟩
        intro j hj
        simp only [enqueue_in_queue]
        rw [Function.update_noteq (by omega)]
        exact h3 j (by omega)
      · exact ⟨h1, h2, fun j hj => h3 j (by omega)⟩)
  exact this.1

theorem fits_rrRun (quantum W : Int) (hq : 0 < quantum) (hW : W ≤ MAX_PROCESSES)
    (fuel : Nat) (s : SimState) (h : Fits quantum W none s) :
    Fits quantum W none (rrRun quantum fuel s) :=
  rrRun_induct quantum (Fits quantum W none)
    (fun t ht _ => fits_rrIter quantum W hq hW t ht) fuel s h

/-- When the loop has ended, every record is completed with no work left. -/
theorem all_completed (s : SimState) (h : QueueInv none s)
    (hdone : ¬ s.completed < s.p.length) :
    ∀ x ∈ s.p, x.is_completed = 1 ∧ x.remaining_time = 0 := by
  have hz : s.p.countP pending = 0 := by have := h.count; omega
  intro x hx
  have hc : x.is_completed ≠ 0 := by
    intro h0
    exact List.countP_eq_zero.1 hz x hx (by simpa [pending] using h0)
  exact ⟨((h.rem x hx).2 hc).2, ((h.rem x hx).2 hc).1⟩

/-! ## Round Robin: the ready queue, for any bursts and quantum -/

/-- The part of `QueueInv` that holds whatever the bursts and the quantum are.
`r` is the process taken from the queue and not yet settled, if any.  The pending
cells are distinct indices of uncompleted, flagged processes; a flagged process is
completed, pending or running; a completed process is flagged; `completed` counts
the completed records. -/
structure QueueCore (r : Option Nat) (s : SimState) : Prop where
  hd : s.head ≤ s.queue.length
  nodup : (pendingCells s).Nodup
  cells : ∀ j ∈ pendingCells s,
    ∃ x, s.p[j]? = some x ∧ x.is_completed = 0 ∧ s.in_queue j = true
  flagged_where : ∀ i x, s.p[i]? = some x → s.in_queue i = true →
    x.is_completed ≠ 0 ∨ i ∈ pendingCells s ∨ r = some i
  running : ∀ i, r = some i →
    (∃ x, s.p[i]? = some x ∧ x.is_completed = 0 ∧ s.in_queue i = true) ∧
    i ∉ pendingCells s
  done_flagged : ∀ i x, s.p[i]? = some x → x.is_completed ≠ 0 → s.in_queue i = true
  count : s.completed + s.p.countP pending = s.p.length

theorem queueCore_touch (r : Option Nat) (s : SimState) (i : Nat) (h : QueueCore r s) :
    QueueCore r (touch s i) :=
  ⟨h.hd, h.nodup, h.cells, h.flagged_where, h.running, h.done_flagged, h.count⟩

theorem queueCore_clock (r : Option Nat) (s : SimState) (t : Int) (h : QueueCore r s) :
    QueueCore r { s with current_time := t } :=
  ⟨h.hd, h.nodup, h.cells, h.flagged_where, h.running, h.done_flagged, h.count⟩

/-- Queueing an unflagged process of the array keeps `QueueCore`. -/
theorem queueCore_enqueue (r : Option Nat) (s : SimState) (i : Nat) (x : Process)
    (h : QueueCore r s) (hx : s.p[i]? = some x) (hf : s.in_queue i = false) :
    QueueCore r (enqueue s i) := by
  have hnot : i ∉ pendingCells s := by
    intro hi
    obtain ⟨_, _, _, hflag⟩ := h.cells i hi
    rw [hf] at hflag
    exact absurd hflag (by decide)
  have hx0 : x.is_completed = 0 := by
    by_contra hc
    have := h.done_flagged i x hx hc
    rw [hf] at this
    exact absurd this (by decide)
  have hmono : ∀ k, s.in_queue k = true → (enqueue s i).in_queue k = true := by
    intro k hk
    simp only [enqueue_in_queue]
    by_cases hki : k = i
    · subst hki; simp
    · rw [Function.update_noteq hki]; exact hk
  refine ⟨?_, ?_, ?_, ?_, ?_, ?_, h.count⟩
  · simp only [enqueue_head, enqueue_queue, List.length_append, List.length_singleton]
    have := h.hd
    omega
  · rw [pendingCells_enqueue s i h.hd]
    exact List.nodup_append.2 ⟨h.nodup, List.nodup_singleton i, by
      intro a ha hb
      rw [List.mem_singleton] at hb
      subst hb
      exact hnot ha⟩
  · intro j hj
    rw [pendingCells_enqueue s i h.hd, List.mem_append, List.mem_singleton] at hj
    rcases hj with hj | rfl
    · obtain ⟨y, hy, hy0, hflag⟩ := h.cells j hj
      exact ⟨y, hy, hy0, hmono j hflag⟩
    · exact ⟨x, hx, hx0, by simp only [enqueue_in_queue, Function.update_same]⟩
  · intro k y hy hk
    rw [pendingCells_enqueue s i h.hd, List.mem_append, List.mem_singleton]
    by_cases hki : k = i
    · exact Or.inr (Or.inl (Or.inr hki))
    · simp only [enqueue_in_queue] at hk
      rw [Function.update_noteq hki] at hk
      rcases h.flagged_where k y hy hk with h1 | h1 | h1
      · exact Or.inl h1
      · exact Or.inr (Or.inl (Or.inl h1))
      · exact Or.inr (Or.inr h1)
  · intro k hk
    obtain ⟨⟨y, hy, hy0, hflag⟩, hnp⟩ := h.running k hk
    refine ⟨⟨y, hy, hy0, hmono k hflag⟩, ?_⟩
    rw [pendingCells_enqueue s i h.hd, List.mem_append, List.mem_singleton]
    rintro (h1 | h1)
    · exact hnp h1
    · subst h1
      rw [hf] at hflag
      exact absurd hflag (by decide)
  · intro k y hy hc
    exact hmono k (h.done_flagged k y hy hc)

/-- A guarded arrival loop over the whole process array keeps `QueueCore`. -/
theorem queueCore_scan {body : Nat → Process → SimState → SimState} (hg : Guarded body)
    (r : Option Nat) (s : SimState) (h : QueueCore r s) :
    QueueCore r (forProcs body s.p 0 s) := by
  have := forProcs_keeps body (fun t => QueueCore r t ∧ t.p = s.p) s.p 0 s ⟨h, rfl⟩ (by
    intro k x t hx ht
    refine ⟨?_, by rw [guarded_frame hg]; exact ht.2⟩
    rcases hg (0 + k) x t with e | e | ⟨e, hf⟩ <;> rw [e]
    · exact ht.1
    · exact queueCore_touch r t _ ht.1
    · exact queueCore_enqueue r (touch t (0 + k)) (0 + k) x (queueCore_touch r t _ ht.1)
        (by rw [touch_p, ht.2]; simpa using hx) hf)
  exact this.1

theorem queueCore_ticks (r : Option Nat) (k : Nat) (s : SimState) (h : QueueCore r s) :
    QueueCore r (rrTicks k s) := by
  induction k generalizing s with
  | zero => exact h
  | succ k ih =>
    exact ih _ (queueCore_scan guarded_tick r _ (queueCore_clock r s _ h))

/-- Taking the head of a queue that is not empty keeps `QueueCore`. -/
theorem queueCore_dequeue (s : SimState) (h : QueueCore none s)
    (hne : s.head ≠ s.queue.length) :
    QueueCore (some (s.queue.getD s.head 0)) { s with head := s.head + 1 } := by
  have hlt : s.head < s.queue.length := lt_of_le_of_ne h.hd hne
  have hidx : s.queue.getD s.head 0 = s.queue[s.head] := List.getD_eq_getElem _ _ hlt
  have hsplit : pendingCells s = s.queue[s.head] :: s.queue.drop (s.head + 1) := by
    simp only [pendingCells]
    exact List.drop_eq_getElem_cons hlt
  have hnd := h.nodup
  rw [hsplit, List.nodup_cons] at hnd
  rw [hidx]
  refine ⟨hlt, hnd.2, ?_, ?_, ?_, h.done_flagged, h.count⟩
  · intro j hj
    exact h.cells j (by rw [hsplit]; exact List.mem_cons_of_mem _ hj)
  · intro i x hx hf
    rcases h.flagged_where i x hx hf with h1 | h1 | h1
    · exact Or.inl h1
    · rw [hsplit, List.mem_cons] at h1
      rcases h1 with h1 | h1
      · exact Or.inr (Or.inr (by rw [h1]))
      · exact Or.inr (Or.inl h1)
    · exact absurd h1 (by simp)
  · intro i hi
    obtain rfl := Option.some.inj hi
    exact ⟨h.cells _ (by rw [hsplit]; exact List.mem_cons_self _ _), hnd.1⟩

/-- Settling the running process keeps `QueueCore` and leaves no process running. -/
theorem queueCore_settle (quantum : Int) (s : SimState) (idx : Nat)
    (h : QueueCore (some idx) s) :
    QueueCore none (rrSettle s idx (sliceOf quantum (s.p.getD idx default))) := by
  obtain ⟨⟨x, hx, hx0, hflag⟩, hnp⟩ := h.running idx rfl
  have hg : s.p.getD idx default = x := getD_of_getElem? hx
  have hother : ∀ j, j ∈ pendingCells s → j ≠ idx := fun j hj e => hnp (e ▸ hj)
  by_cases hr : (s.p.getD idx default).remaining_time
      - sliceOf quantum (s.p.getD idx default) = 0
  · rw [rrSettle_done s idx _ hr, hg]
    refine ⟨h.hd, h.nodup, ?_, ?_, ?_, ?_, ?_⟩
    · intro j hj
      obtain ⟨y, hy, hy0, hf⟩ := h.cells j hj
      exact ⟨y, by simp only [List.getElem?_set_ne (Ne.symm (hother j hj))]; exact hy, hy0, hf⟩
    · intro i y hy hf
      rcases getElem?_set_cases hy with ⟨_, rfl, _⟩ | ⟨hne, hy⟩
      · exact Or.inl (by simp [rrRecord])
      · rcases h.flagged_where i y hy hf with h1 | h1 | h1
        · exact Or.inl h1
        · exact Or.inr (Or.inl h1)
        · exact absurd (Option.some.inj h1).symm hne
    · intro i hi
      exact absurd hi (by simp)
    · intro i y hy hc
      rcases getElem?_set_cases hy with ⟨rfl, _, _⟩ | ⟨_, hy⟩
      · exact hflag
      · exact h.done_flagged i y hy hc
    · have := countP_set_drop pending s.p idx x (rrRecord x s.current_time) hx
        (by simpa [pending] using hx0) (by simp [pending, rrRecord])
      have := h.count
      simp only [List.length_set]
      omega
  · rw [rrSettle_again s idx _ hr, hg]
    have hpend : pendingCells (push { s with p := s.p.set idx { x with
          remaining_time := x.remaining_time - sliceOf quantum x } } idx)
        = pendingCells s ++ [idx] := pendingCells_push _ idx h.hd
    refine ⟨?_, ?_, ?_, ?_, ?_, ?_, ?_⟩
    · simp only [push_head, push_queue, List.length_append, List.length_singleton]
      have := h.hd
      omega
    · rw [hpend]
      exact List.nodup_append.2 ⟨h.nodup, List.nodup_singleton idx, by
        intro a ha hb
        rw [List.mem_singleton] at hb
        subst hb
        exact hnp ha⟩
    · intro j hj
      rw [hpend, List.mem_append, List.mem_singleton] at hj
      rcases hj with hj | rfl
      · obtain ⟨y, hy, hy0, hf⟩ := h.cells j hj
        exact ⟨y, by simp only [push_p, List.getElem?_set_ne (Ne.symm (hother j hj))]; exact hy,
          hy0, hf⟩
      · exact ⟨{ x with remaining_time := x.remaining_time - sliceOf quantum x },
          by simp only [push_p, List.getElem?_set, (List.getElem?_eq_some.1 hx).1, if_true],
          hx0, hflag⟩
    · intro i y hy hf
      rw [hpend, List.mem_append, List.mem_singleton]
      by_cases hi : i = idx
      · exact Or.inr (Or.inl (Or.inr hi))
      · rcases getElem?_set_cases hy with ⟨h1, _, _⟩ | ⟨_, hy⟩
        · exact absurd h1 hi
        · rcases h.flagged_where i y hy hf with h1 | h1 | h1
          · exact Or.inl h1
          · exact Or.inr (Or.inl (Or.inl h1))
          · exact absurd (Option.some.inj h1).symm hi
    · intro i hi
      exact absurd hi (by simp)
    · intro i y hy hc
      rcases getElem?_set_cases hy with ⟨rfl, rfl, _⟩ | ⟨_, hy⟩
      · exact hflag
      · exact h.done_flagged i y hy hc
    · have := countP_set_same pending s.p idx x
        { x with remaining_time := x.remaining_time - sliceOf quantum x } hx rfl
      have := h.count
      simp only [push_p, push_completed, List.length_set]
      omega

theorem queueCore_runSlice (quantum : Int) (s : SimState) (idx : Nat)
    (h : QueueCore (some idx) s) : QueueCore none (runSlice quantum s idx) := by
  unfold runSlice
  have hp := (rrTicks_frame (sliceOf quantum (s.p.getD idx default)).toNat s).1
  have := queueCore_settle quantum _ idx
    (queueCore_ticks (some idx) (sliceOf quantum (s.p.getD idx default)).toNat s h)
  rw [hp] at this
  exact this

/-- One iteration of the loop of `simulate_RR` keeps `QueueCore`. -/
theorem queueCore_rrIter (quantum : Int) (s : SimState)
    (h : QueueCore none s) : QueueCore none (rrIter quantum s) := by
  unfold rrIter
  split
  · exact queueCore_scan guarded_late none _ (queueCore_clock none s _ h)
  · next hne =>
    unfold rrDispatch
    exact queueCore_runSlice quantum _ _ (queueCore_dequeue s h hne)

/-- One iteration of the loop of `simulate_RR_with_penalty` keeps `QueueCore`. -/
theorem queueCore_rrpIter (quantum penalty : Int) (s : SimState)
    (h : QueueCore none s) : QueueCore none (rrpIter quantum penalty s) := by
  unfold rrpIter
  split
  · exact queueCore_clock none s _ h
  · next hne =>
    unfold rrpDispatch
    apply queueCore_runSlice quantum
    have h1 := queueCore_dequeue s h hne
    unfold rrpSwitch
    simp only
    split
    · have := queueCore_scan guarded_late _ _ (queueCore_clock _ _
        (s.current_time + penalty) h1)
      exact ⟨this.hd, this.nodup, this.cells, this.flagged_where, this.running,
        this.done_flagged, this.count⟩
    · exact ⟨h1.hd, h1.nodup, h1.cells, h1.flagged_where, h1.running,
        h1.done_flagged, h1.count⟩

theorem queueCore_start (p : List Process) :
    QueueCore none (rrStart (reset_processes p)) := by
  refine ⟨le_refl _, List.nodup_nil, ?_, ?_, ?_, ?_, ?_⟩
  · intro j hj; simp [pendingCells, rrStart] at hj
  · intro i x _ hf; simp [rrStart] at hf
  · intro i hi; exact absurd hi (by simp)
  · intro i x hx hc
    exact absurd (reset_uncompleted p x (List.getElem?_mem hx)) hc
  · have : (reset_processes p).countP pending = (reset_processes p).length := by
      rw [List.countP_eq_length]
      intro x hx
      simpa [pending] using reset_uncompleted p x hx
    simp only [rrStart, this, zero_add]

/-- The initial arrival loop, started with no flag set, establishes `QueueCore`. -/
theorem queueCore_init (p : List Process) :
    QueueCore none (rrInit (reset_processes p)) := by
  rw [rrInit_eq]
  have := forProcs_induct arriveInit
    (fun k t => QueueCore none t ∧ t.p = reset_processes p ∧ ∀ j, k ≤ j → t.in_queue j = false)
    (reset_processes p) 0 (rrStart (reset_processes p))
    ⟨queueCore_start p, rfl, fun _ _ => rfl⟩ (by
      intro k x t hx ht
      obtain ⟨h1, h2, h3⟩ := ht
      unfold arriveInit
      split
      · refine ⟨queueCore_enqueue none t (0 + k) x h1 (by rw [h2]; simpa using hx)
          (h3 _ (le_refl _)), h2, ?_⟩
        intro j hj
        simp only [enqueue_in_queue]
        rw [Function.update_noteq (by omega)]
        exact h3 j (by omega)
      · exact ⟨h1, h2, fun j hj => h3 j (by omega)⟩)
  exact this.1

theorem queueCore_rrRun (p : List Process)
    (quantum : Int) (fuel : Nat) :
    QueueCore none (rrRun quantum fuel (rrInit (reset_processes p))) :=
  rrRun_induct quantum (QueueCore none) (fun s hs _ => queueCore_rrIter quantum s hs)
    fuel _ (queueCore_init p)

theorem queueCore_rrpRun (p : List Process)
    (quantum penalty : Int) (fuel : Nat) :
    QueueCore none (rrpRun quantum penalty fuel (rrInit (reset_processes p))) :=
  rrpRun_induct quantum penalty (QueueCore none)
    (fun s hs _ => queueCore_rrpIter quantum penalty s hs) fuel _ (queueCore_init p)

theorem QueueInv.core {r : Option Nat} {s : SimState} (h : QueueInv r s) : QueueCore r s :=
  ⟨h.hd, h.nodup, h.cells, h.flagged_where, h.running, h.done_flagged, h.count⟩

/-! ## Completed records are left alone -/

theorem fcfsLoop_append (l1 l2 : List Process) (t : Int) :
    ∃ t1, fcfsLoop (l1 ++ l2) t = fcfsLoop l1 t ++ fcfsLoop l2 t1 := by
  induction l1 generalizing t with
  | nil => exact ⟨t, rfl⟩
  | cons y rest ih =>
    obtain ⟨t1, h1⟩ := ih (max t y.arrival_time + y.burst_time)
    refine ⟨t1, ?_⟩
    rw [List.cons_append, fcfsLoop_head, fcfsLoop_head, h1, List.cons_append]

theorem fcfsLoop_uncompleted (l : List Process) (t : Int)
    (h : ∀ x ∈ l, x.is_completed = 0) : ∀ x ∈ fcfsLoop l t, x.is_completed = 0 := by
  induction l generalizing t with
  | nil => intro x hx; simp [fcfsLoop] at hx
  | cons y rest ih =>
    intro x hx
    rw [fcfsLoop_head, List.mem_cons] at hx
    rcases hx with rfl | hx
    · exact h y (List.mem_cons_self _ _)
    · exact ih _ (fun z hz => h z (List.mem_cons_of_mem _ hz)) x hx

/-- An iteration of the loop of `simulate_SJF` leaves a completed record as it is. -/
theorem sjfIter_completed_fixed (s : SJFState) (i : Nat) (x : Process)
    (hx : s.p[i]? = some x) (hc : x.is_completed ≠ 0) : (sjfIter s).p[i]? = some x := by
  cases hsel : sjfSelect s with
  | none => rw [sjfIter_none s hsel]; exact hx
  | some idx =>
    obtain ⟨z, hz, he, _⟩ := sjfSelect_some s idx hsel
    rw [sjfIter_some s idx z hsel hz]
    have hne : idx ≠ i := by
      rintro rfl
      rw [hz] at hx
      exact hc ((Option.some.inj hx) ▸ he.2)
    show (s.p.set idx _)[i]? = some x
    rw [List.getElem?_set_ne hne]
    exact hx

theorem sjfRun_completed_fixed (m : Nat) (s : SJFState) (i : Nat) (x : Process)
    (hx : s.p[i]? = some x) (hc : x.is_completed ≠ 0) : (sjfRun m s).p[i]? = some x := by
  induction m generalizing s with
  | zero => exact hx
  | succ m ih =>
    unfold sjfRun
    split
    · exact ih _ (sjfIter_completed_fixed s i x hx hc)
    · exact hx

/-- The process at the head of a queue that is not empty is not completed. -/
theorem head_uncompleted (s : SimState) (h : QueueCore none s)
    (hne : s.head ≠ s.queue.length) :
    ∃ x, s.p[s.queue.getD s.head 0]? = some x ∧ x.is_completed = 0 := by
  have hlt : s.head < s.queue.length := lt_of_le_of_ne h.hd hne
  have hmem : s.queue.getD s.head 0 ∈ pendingCells s := by
    unfold pendingCells
    rw [List.drop_eq_getElem_cons hlt, List.getD_eq_getElem _ _ hlt]
    exact List.mem_cons_self _ _
  obtain ⟨x, hx, hx0, _⟩ := h.cells _ hmem
  exact ⟨x, hx, hx0⟩

/-- An iteration of the loop of `simulate_RR` leaves a completed record as it is. -/
theorem rrIter_completed_fixed (quantum : Int) (s : SimState) (h : QueueCore none s)
    (i : Nat) (x : Process) (hx : s.p[i]? = some x) (hc : x.is_completed ≠ 0) :
    (rrIter quantum s).p[i]? = some x := by
  rw [rrIter_p]
  split
  · exact hx
  · next hne =>
    obtain ⟨z, hz, hz0⟩ := head_uncompleted s h hne
    have hne : s.queue.getD s.head 0 ≠ i := by
      intro e
      rw [e, hx] at hz
      exact hc ((Option.some.inj hz) ▸ hz0)
    rw [List.getElem?_set_ne hne]
    exact hx

/-- An iteration of the loop of `simulate_RR_with_penalty` leaves a completed
record as it is. -/
theorem rrpIter_completed_fixed (quantum penalty : Int) (s : SimState)
    (h : QueueCore none s) (i : Nat) (x : Process) (hx : s.p[i]? = some x)
    (hc : x.is_completed ≠ 0) : (rrpIter quantum penalty s).p[i]? = some x := by
  obtain ⟨t, ht⟩ := rrpIter_p quantum penalty s
  rw [ht]
  split
  · exact hx
  · next hne =>
    obtain ⟨z, hz, hz0⟩ := head_uncompleted s h hne
    have hne : s.queue.getD s.head 0 ≠ i := by
      intro e
      rw [e, hx] at hz
      exact hc ((Option.some.inj hz) ▸ hz0)
    rw [List.getElem?_set_ne hne]
    exact hx

theorem rrRun_completed_fixed (quantum : Int) (m : Nat) (s : SimState)
    (h : QueueCore none s) (i : Nat) (x : Process) (hx : s.p[i]? = some x)
    (hc : x.is_completed ≠ 0) : (rrRun quantum m s).p[i]? = some x := by
  induction m generalizing s with
  | zero => exact hx
  | succ m ih =>
    unfold rrRun
    split
    · exact ih _ (queueCore_rrIter quantum s h) (rrIter_completed_fixed quantum s h i x hx hc)
    · exact hx

theorem rrpRun_add (quantum penalty : Int) (a b : Nat) (s : SimState) :
    rrpRun quantum penalty (a + b) s = rrpRun quantum penalty b (rrpRun quantum penalty a s) := by
  induction a generalizing s with
  | zero => rw [Nat.zero_add]; rfl
  | succ a ih =>
    rw [Nat.succ_add]
    show (if s.completed < s.p.length then _ else s) = rrpRun quantum penalty b
      (if s.completed < s.p.length then _ else s)
    split
    · exact ih _
    · next hd =>
      cases b with
      | zero => rfl
      | succ b => show s = (if s.completed < s.p.length then _ else s); rw [if_neg hd]

theorem rrpRun_completed_fixed (quantum penalty : Int) (m : Nat) (s : SimState)
    (h : QueueCore none s) (i : Nat) (x : Process) (hx : s.p[i]? = some x)
    (hc : x.is_completed ≠ 0) : (rrpRun quantum penalty m s).p[i]? = some x := by
  induction m generalizing s with
  | zero => exact hx
  | succ m ih =>
    unfold rrpRun
    split
    · exact ih _ (queueCore_rrpIter quantum penalty s h)
        (rrpIter_completed_fixed quantum penalty s h i x hx hc)
    · exact hx

/-- The counter `completed` is the number of records marked completed. -/
theorem completed_count (s : SimState) (h : QueueCore none s) :
    s.completed = s.p.countP (fun y => decide (y.is_completed ≠ 0)) := by
  have h1 := h.count
  have h2 := List.length_eq_countP_add_countP pending s.p
  have h3 : s.p.countP (fun y => decide (y.is_completed ≠ 0))
      = s.p.countP (fun a => decide ¬ pending a = true) := by
    congr 1
    funext y
    simp [pending]
  omega

/-! ## The flag `is_completed` when a loop leaves -/

/-- The flag `is_completed` holds 0 or 1. -/
def FlagSet (x : Process) : Prop := x.is_completed = 0 ∨ x.is_completed = 1

/-- The counter of SJF counts the completed records, and the flags hold 0 or 1. -/
def SJFMarks (s : SJFState) : Prop :=
  s.completed + s.p.countP pending = s.p.length ∧ ∀ x ∈ s.p, FlagSet x

theorem sjfMarks_iter (s : SJFState) (h : SJFMarks s) : SJFMarks (sjfIter s) := by
  cases hsel : sjfSelect s with
  | none => rw [sjfIter_none s hsel]; exact h
  | some idx =>
    obtain ⟨z, hz, he, _⟩ := sjfSelect_some s idx hsel
    rw [sjfIter_some s idx z hsel hz]
    have hcount := countP_set_drop pending s.p idx z (sjfRecord z s.current_time) hz
      (by simp [pending, he.2]) (by simp [pending, sjfRecord])
    refine ⟨?_, ?_⟩
    · have := h.1
      simp only [List.length_set]
      omega
    · intro x hx
      rcases List.mem_or_eq_of_mem_set hx with hx | rfl
      · exact h.2 x hx
      · exact Or.inr rfl

theorem sjfMarks_run (p : List Process) (fuel : Nat) :
    SJFMarks (sjfRun fuel (sjfInit (reset_processes p))) := by
  apply sjfRun_induct SJFMarks (fun s hs _ => sjfMarks_iter s hs)
  refine ⟨?_, fun x hx => Or.inl (reset_uncompleted p x hx)⟩
  have : (reset_processes p).countP pending = (reset_processes p).length := by
    rw [List.countP_eq_length]
    intro x hx
    simpa [pending] using reset_uncompleted p x hx
  simp only [sjfInit, this, zero_add]

/-- When the counter has reached the number of processes, every flag is 1. -/
theorem all_marked (l : List Process) (completed : Nat)
    (hcount : completed + l.countP pending = l.length) (hflag : ∀ x ∈ l, FlagSet x)
    (hdone : ¬ completed < l.length) : ∀ x ∈ l, x.is_completed = 1 := by
  intro x hx
  have h0 : l.countP pending = 0 := by omega
  rw [List.countP_eq_zero] at h0
  rcases hflag x hx with h | h
  · exact absurd (by simp [pending, h]) (h0 x hx)
  · exact h

theorem afterSlice_flagSet (quantum : Int) (x : Process) (t : Int) (h : FlagSet x) :
    FlagSet (afterSlice quantum x t) := by
  unfold afterSlice
  split
  · exact Or.inr rfl
  · exact h

/-! ## Round Robin: the final value of `tail` -/

/-- Accounting of the queue cells with no bound on the demand: the cells written
plus those to come make `W`, and a write past the end of `queue` has raised `oob`. -/
structure Tally (quantum W : Int) (r : Option Nat) (s : SimState) : Prop where
  queue : QueueInv r s
  writes : (s.queue.length : Int) + futureWrites quantum s = W
  spill : MAX_PROCESSES < s.queue.length → s.oob = true

theorem tally_touch (quantum W : Int) (r : Option Nat) (s : SimState) (i : Nat)
    (h : Tally quantum W r s) : Tally quantum W r (touch s i) :=
  ⟨queueInv_touch r s i h.queue, h.writes, fun hl => by
    simp only [touch, h.spill hl, Bool.true_or]⟩

theorem tally_clock (quantum W : Int) (r : Option Nat) (s : SimState) (t : Int)
    (h : Tally quantum W r s) : Tally quantum W r { s with current_time := t } :=
  ⟨queueInv_clock r s t h.queue, h.writes, h.spill⟩

theorem push_spill (s : SimState) (i : Nat) :
    MAX_PROCESSES < (push s i).queue.length → (push s i).oob = true := by
  intro hl
  simp only [push, List.length_append, List.length_singleton] at hl ⊢
  have : MAX_PROCESSES ≤ s.queue.length := by omega
  simp [this]

theorem tally_enqueue (quantum W : Int) (r : Option Nat) (s : SimState) (i : Nat)
    (x : Process) (h : Tally quantum W r s) (hx : s.p[i]? = some x)
    (hf : s.in_queue i = false) : Tally quantum W r (enqueue s i) := by
  have hQ := queueInv_enqueue r s i x h.queue hx hf
  have hx0 : x.is_completed = 0 := by
    by_contra hc
    have := h.queue.done_flagged i x hx hc
    rw [hf] at this
    exact absurd this (by decide)
  have hfut := futureWrites_enqueue quantum s i x hx hx0 hf
  have hw := h.writes
  refine ⟨hQ, ?_, ?_⟩
  · simp only [enqueue_queue, List.length_append, List.length_singleton, Nat.cast_add,
      Nat.cast_one, hfut]
    omega
  · intro hl
    have := push_spill s i (by simpa [enqueue, push] using hl)
    simp only [enqueue, this, Bool.true_or]

/-- A guarded arrival loop over the whole process array keeps `Tally`. -/
theorem tally_scan {body : Nat → Process → SimState → SimState} (hg : Guarded body)
    (quantum W : Int) (r : Option Nat) (s : SimState) (h : Tally quantum W r s) :
    Tally quantum W r (forProcs body s.p 0 s) := by
  have := forProcs_keeps body (fun t => Tally quantum W r t ∧ t.p = s.p) s.p 0 s ⟨h, rfl⟩ (by
    intro k x t hx ht
    have hxt : t.p[0 + k]? = some x := by rw [ht.2]; simpa using hx
    refine ⟨?_, by rw [guarded_frame hg]; exact ht.2⟩
    rcases hg (0 + k) x t with e | e | ⟨e, hf⟩ <;> rw [e]
    · exact ht.1
    · exact tally_touch quantum W r t _ ht.1
    · exact tally_enqueue quantum W r _ (0 + k) x (tally_touch quantum W r t _ ht.1)
        hxt hf)
  exact this.1

theorem tally_ticks (quantum W : Int) (r : Option Nat) (k : Nat) (s : SimState)
    (h : Tally quantum W r s) : Tally quantum W r (rrTicks k s) := by
  induction k generalizing s with
  | zero => exact h
  | succ k ih =>
    exact ih _ (tally_scan guarded_tick quantum W r _ (tally_clock quantum W r s _ h))

theorem tally_dequeue (quantum W : Int) (s : SimState) (h : Tally quantum W none s)
    (hne : s.head ≠ s.queue.length) :
    Tally quantum W (some (s.queue.getD s.head 0)) { s with head := s.head + 1 } :=
  ⟨queueInv_dequeue s h.queue hne, h.writes, h.spill⟩

/-- Settling the running process keeps `Tally`: a completion writes no cell and
leaves none to come, a re-queueing writes one of those to come. -/
theorem tally_settle (quantum W : Int) (hq : 0 < quantum) (s : SimState) (idx : Nat)
    (h : Tally quantum W (some idx) s) :
    Tally quantum W none (rrSettle s idx (sliceOf quantum (s.p.getD idx default))) := by
  have hQ := queueInv_settle quantum s idx h.queue
  obtain ⟨⟨x, hx, hx0, hflag⟩, _⟩ := h.queue.running idx rfl
  have hg : s.p.getD idx default = x := getD_of_getElem? hx
  have hrem : 0 < x.remaining_time := (h.queue.rem x (List.getElem?_mem hx)).1 hx0
  have hw := h.writes
  refine ⟨hQ, ?_, ?_⟩
  · by_cases hr : (s.p.getD idx default).remaining_time
        - sliceOf quantum (s.p.getD idx default) = 0
    · rw [rrSettle_done s idx _ hr]
      rw [hg] at hr ⊢
      have hle : x.remaining_time ≤ quantum := by
        simp only [sliceOf] at hr
        split at hr <;> omega
      have h1 := ceilDiv_pos _ quantum hq hrem
      have h2 := ceilDiv_le_one _ quantum hq hle
      have hfut : futureWrites quantum { s with
          p := s.p.set idx (rrRecord x s.current_time), completed := s.completed + 1 }
          = futureWrites quantum s := by
        unfold futureWrites
        simp only
        rw [sumIdx_set _ _ _ _ x _ hx]
        simp only [writesLeft, hx0, hflag, if_true, zero_add, rrRecord]
        simp
        omega
      rw [hfut]
      exact hw
    · rw [rrSettle_again s idx _ hr]
      rw [hg] at hr ⊢
      have hgt : quantum < x.remaining_time := by
        simp only [sliceOf] at hr
        split at hr <;> omega
      have hs : sliceOf quantum x = quantum := by
        simp only [sliceOf]; rw [if_pos hgt]
      rw [hs]
      have hfut : futureWrites quantum (push { s with p := s.p.set idx { x with
            remaining_time := x.remaining_time - quantum } } idx)
          = futureWrites quantum s - 1 := by
        unfold futureWrites
        simp only [push_p, push_in_queue]
        rw [sumIdx_set _ _ _ _ x _ hx]
        simp only [writesLeft, hx0, hflag, if_true, zero_add, ceilDiv_sub _ _ hq]
        ring
      simp only [push_queue, List.length_append, List.length_singleton, Nat.cast_add,
        Nat.cast_one, hfut]
      omega
  · unfold rrSettle
    simp only
    split
    · exact h.spill
    · exact push_spill _ idx

theorem tally_runSlice (quantum W : Int) (hq : 0 < quantum) (s : SimState) (idx : Nat)
    (h : Tally quantum W (some idx) s) : Tally quantum W none (runSlice quantum s idx) := by
  unfold runSlice
  have hp := (rrTicks_frame (sliceOf quantum (s.p.getD idx default)).toNat s).1
  have := tally_settle quantum W hq _ idx
    (tally_ticks quantum W (some idx) (sliceOf quantum (s.p.getD idx default)).toNat s h)
  rw [hp] at this
  exact this

/-- One iteration of the loop of `simulate_RR` keeps `Tally`. -/
theorem tally_rrIter (quantum W : Int) (hq : 0 < quantum) (s : SimState)
    (h : Tally quantum W none s) : Tally quantum W none (rrIter quantum s) := by
  unfold rrIter
  split
  · exact tally_scan guarded_late quantum W none _ (tally_clock quantum W none s _ h)
  · next hne =>
    unfold rrDispatch
    exact tally_runSlice quantum W hq _ _ (tally_dequeue quantum W s h hne)

theorem tally_start (quantum : Int) (p : List Process) (hb : ∀ x ∈ p, 0 < x.burst_time) :
    Tally quantum (queueDemand quantum p) none (rrStart (reset_processes p)) := by
  refine ⟨queueInv_start p hb, ?_, fun hl => absurd hl (by simp [rrStart])⟩
  have : futureWrites quantum (rrStart (reset_processes p))
      = queueDemand quantum (reset_processes p) := by
    unfold futureWrites queueDemand
    rw [← sumIdx_map _ _ 0]
    apply sumIdx_congr
    intro k x hx
    obtain ⟨y, _, rfl⟩ := reset_getElem? p k x hx
    simp [writesLeft, rrStart, resetProcess]
  rw [this, queueDemand_reset]
  simp [rrStart]

/-- The initial arrival loop, started with no flag set, keeps `Tally`. -/
theorem tally_init (quantum : Int) (p : List Process) (hb : ∀ x ∈ p, 0 < x.burst_time) :
    Tally quantum (queueDemand quantum p) none (rrInit (reset_processes p)) := by
  rw [rrInit_eq]
  have := forProcs_induct arriveInit
    (fun k t => Tally quantum (queueDemand quantum p) none t ∧ t.p = reset_processes p ∧
      ∀ j, k ≤ j → t.in_queue j = false)
    (reset_processes p) 0 (rrStart (reset_processes p))
    ⟨tally_start quantum p hb, rfl, fun _ _ => rfl⟩ (by
      intro k x t hx ht
      obtain ⟨h1, h2, h3⟩ := ht
      unfold arriveInit
      split
      · refine ⟨tally_enqueue quantum _ none t (0 + k) x h1
          (by rw [h2]; simpa using hx) (h3 _ (le_refl _)), h2, ?_⟩
        intro j hj
        simp only [enqueue_in_queue]
        rw [Function.update_noteq (by omega)]
        exact h3 j (by omega)
      · exact ⟨h1, h2, fun j hj => h3 j (by omega)⟩)
  exact this.1

theorem tally_rrRun (quantum : Int) (hq : 0 < quantum) (p : List Process)
    (hb : ∀ x ∈ p, 0 < x.burst_time) (fuel : Nat) :
    Tally quantum (queueDemand quantum p) none
      (rrRun quantum fuel (rrInit (reset_processes p))) :=
  rrRun_induct quantum (Tally quantum (queueDemand quantum p) none)
    (fun t ht _ => tally_rrIter quantum _ hq t ht) fuel _ (tally_init quantum p hb)

/-- When the loop has ended no write to `queue` is still to come. -/
theorem futureWrites_done (quantum : Int) (s : SimState) (h : QueueInv none s)
    (hdone : ¬ s.completed < s.p.length) : futureWrites quantum s = 0 := by
  have hall := all_completed s h hdone
  have : futureWrites quantum s = sumIdx (fun _ _ => 0) s.p 0 := by
    unfold futureWrites
    apply sumIdx_congr
    intro k x hx
    have := (hall x (List.getElem?_mem hx)).1
    simp [writesLeft, this]
  rw [this]
  generalize 0 = i0
  induction s.p generalizing i0 with
  | nil => rfl
  | cons a rest ih => simp only [sumIdx, ih, add_zero]

/-! ## The non-preemptive policies: one process on the CPU at a time -/

/-- The execution intervals `[finish_time - burst_time, finish_time)` of two
records do not overlap. -/
def NoOverlap (a b : Process) : Prop :=
  a.finish_time ≤ b.finish_time - b.burst_time ∨ b.finish_time ≤ a.finish_time - a.burst_time

/-- The execution interval of a record starts at or after its arrival. -/
def StartsAfterArrival (x : Process) : Prop :=
  x.arrival_time ≤ x.finish_time - x.burst_time

theorem fcfsLoop_start (l : List Process) (t : Int) (hb : ∀ x ∈ l, 0 < x.burst_time) :
    ∀ x ∈ fcfsLoop l t, t ≤ x.finish_time - x.burst_time := by
  induction l generalizing t with
  | nil => intro x hx; simp [fcfsLoop] at hx
  | cons y rest ih =>
    intro x hx
    rw [fcfsLoop_head, List.mem_cons] at hx
    have hy := hb y (List.mem_cons_self _ _)
    rcases hx with rfl | hx
    · simp only [fcfsRecord]
      have := le_max_left t y.arrival_time
      omega
    · have := ih _ (fun z hz => hb z (List.mem_cons_of_mem _ hz)) x hx
      have := le_max_left t y.arrival_time
      omega

theorem fcfsLoop_pairwise (l : List Process) (t : Int) (hb : ∀ x ∈ l, 0 < x.burst_time) :
    (fcfsLoop l t).Pairwise (fun a b => a.finish_time ≤ b.finish_time - b.burst_time) := by
  induction l generalizing t with
  | nil => simp [fcfsLoop]
  | cons y rest ih =>
    rw [fcfsLoop_head, List.pairwise_cons]
    have hrest : ∀ z ∈ rest, 0 < z.burst_time := fun z hz => hb z (List.mem_cons_of_mem _ hz)
    exact ⟨fun x hx => fcfsLoop_start rest _ hrest x hx, ih _ hrest⟩

theorem pairwise_getElem? {R : Process → Process → Prop} {l : List Process}
    (h : l.Pairwise R) {i j : Nat} {a b : Process} (hij : i < j) (ha : l[i]? = some a)
    (hb : l[j]? = some b) : R a b := by
  obtain ⟨hi, rfl⟩ := List.getElem?_eq_some.1 ha
  obtain ⟨hj, rfl⟩ := List.getElem?_eq_some.1 hb
  exact List.pairwise_iff_getElem.1 h i j hi hj hij

/-- Invariant of the loop of SJF: the completed records have finished by now,
started at or after their arrival, and do not overlap one another. -/
structure SJFExcl (s : SJFState) : Prop where
  burst : ∀ x ∈ s.p, 0 < x.burst_time
  past : ∀ x ∈ s.p, x.is_completed ≠ 0 → x.finish_time ≤ s.current_time ∧ StartsAfterArrival x
  apart : ∀ (i j : Nat) (a b : Process), i ≠ j → s.p[i]? = some a → s.p[j]? = some b →
    a.is_completed ≠ 0 → b.is_completed ≠ 0 → NoOverlap a b

theorem sjfExcl_iter (s : SJFState) (h : SJFExcl s) : SJFExcl (sjfIter s) := by
  refine ⟨sjfIter_burst_pos s h.burst, ?_, ?_⟩
  · cases hsel : sjfSelect s with
    | none =>
      rw [sjfIter_none s hsel]
      intro x hx hc
      have := h.past x hx hc
      exact ⟨by show x.finish_time ≤ s.current_time + 1; omega, this.2⟩
    | some idx =>
      obtain ⟨z, hz, he, _⟩ := sjfSelect_some s idx hsel
      rw [sjfIter_some s idx z hsel hz]
      have hzb := h.burst z (List.getElem?_mem hz)
      intro x hx hc
      rcases List.mem_or_eq_of_mem_set hx with hx | rfl
      · have := h.past x hx hc
        exact ⟨by show x.finish_time ≤ s.current_time + z.burst_time; omega, this.2⟩
      · refine ⟨le_refl _, ?_⟩
        simp only [StartsAfterArrival, sjfRecord]
        have := he.1
        omega
  · cases hsel : sjfSelect s with
    | none => rw [sjfIter_none s hsel]; exact h.apart
    | some idx =>
      obtain ⟨z, hz, he, _⟩ := sjfSelect_some s idx hsel
      rw [sjfIter_some s idx z hsel hz]
      intro i j a b hij ha hb hac hbc
      rcases getElem?_set_cases ha with ⟨hi, rfl, _⟩ | ⟨hi, ha⟩ <;>
        rcases getElem?_set_cases hb with ⟨hj, rfl, _⟩ | ⟨hj, hb⟩
      · exact absurd (hi.trans hj.symm) hij
      · have := (h.past b (List.getElem?_mem hb) hbc).1
        right
        simp only [sjfRecord]
        omega
      · have := (h.past a (List.getElem?_mem ha) hac).1
        left
        simp only [sjfRecord]
        omega
      · exact h.apart i j a b hij ha hb hac hbc

theorem sjfExcl_run (p : List Process) (hb : ∀ x ∈ p, 0 < x.burst_time) (fuel : Nat) :
    SJFExcl (sjfRun fuel (sjfInit (reset_processes p))) := by
  apply sjfRun_induct SJFExcl (fun s hs _ => sjfExcl_iter s hs)
  refine ⟨?_, ?_, ?_⟩
  · intro x hx
    simp only [sjfInit, reset_processes, List.mem_map] at hx
    obtain ⟨y, hy, rfl⟩ := hx
    exact hb y hy
  · intro x hx hc
    exact absurd (reset_uncompleted p x hx) hc
  · intro i j a b _ ha _ hac _
    exact absurd (reset_uncompleted p a (List.getElem?_mem ha)) hac

/-! ## Round Robin with penalty against plain Round Robin -/

/-- The state `s` with `last_pid` replaced by `l`; plain Round Robin does not read
`last_pid`. -/
def withLast (l : Int) (s : SimState) : SimState := { s with last_pid := l }

theorem arrivalBody_withLast {body : Nat → Process → SimState → SimState}
    (hb : ArrivalBody body) (l : Int) (i : Nat) (x : Process) (s : SimState) :
    body i x (withLast l s) = withLast l (body i x s) := by
  cases hb
  · unfold arriveInit
    show (if x.arrival_time ≤ s.current_time then _ else _) = _
    split <;> rfl
  · unfold arriveLate
    show (if x.arrival_time ≤ s.current_time then
      (if s.in_queue i = false ∧ x.is_completed = 0 then _ else _) else _) = _
    split
    · split <;> rfl
    · rfl
  · unfold arriveTick
    show (if x.arrival_time = s.current_time then
      (if s.in_queue i = false then _ else _) else _) = _
    split
    · split <;> rfl
    · rfl

theorem forProcs_withLast {body : Nat → Process → SimState → SimState}
    (hb : ArrivalBody body) (l : Int) (ps : List Process) (i : Nat) (s : SimState) :
    forProcs body ps i (withLast l s) = withLast l (forProcs body ps i s) := by
  induction ps generalizing i s with
  | nil => rfl
  | cons x rest ih =>
    simp only [forProcs]
    rw [arrivalBody_withLast hb, ih]

theorem rrTicks_withLast (l : Int) (k : Nat) (s : SimState) :
    rrTicks k (withLast l s) = withLast l (rrTicks k s) := by
  induction k generalizing s with
  | zero => rfl
  | succ k ih =>
    simp only [rrTicks]
    rw [← ih]
    congr 1
    exact forProcs_withLast ArrivalBody.tick l s.p 0 { s with current_time := s.current_time + 1 }

theorem rrSettle_withLast (l : Int) (s : SimState) (idx : Nat) (slice : Int) :
    rrSettle (withLast l s) idx slice = withLast l (rrSettle s idx slice) := by
  by_cases hr : (s.p.getD idx default).remaining_time - slice = 0
  · rw [rrSettle_done s idx slice hr, rrSettle_done (withLast l s) idx slice hr]
    rfl
  · rw [rrSettle_again s idx slice hr, rrSettle_again (withLast l s) idx slice hr]
    rfl

theorem runSlice_withLast (quantum l : Int) (s : SimState) (idx : Nat) :
    runSlice quantum (withLast l s) idx = withLast l (runSlice quantum s idx) := by
  unfold runSlice
  show rrSettle (rrTicks (sliceOf quantum (s.p.getD idx default)).toNat (withLast l s)) idx _ = _
  rw [rrTicks_withLast, rrSettle_withLast]
  rfl

/-- A dispatch of `simulate_RR_with_penalty` whose context-switch block only sets
`last_pid` is the dispatch of `simulate_RR`. -/
theorem rrpIter_follows (quantum penalty : Int) (t : SimState) (l m : Int)
    (hne : t.head ≠ t.queue.length)
    (hquiet : rrpSwitch penalty (withLast l { t with head := t.head + 1 })
        (t.queue.getD t.head 0) = withLast m { t with head := t.head + 1 }) :
    rrpIter quantum penalty (withLast l t) = withLast m (rrIter quantum t) := by
  unfold rrpIter rrIter
  rw [if_neg hne]
  show (if t.head = t.queue.length then _ else _) = _
  rw [if_neg hne]
  unfold rrpDispatch rrDispatch
  show runSlice quantum (rrpSwitch penalty (withLast l { t with head := t.head + 1 })
    (t.queue.getD t.head 0)) (t.queue.getD t.head 0) = _
  rw [hquiet, runSlice_withLast]

theorem rrpRun_done (quantum penalty : Int) (k : Nat) (s : SimState)
    (h : ¬ s.completed < s.p.length) : rrpRun quantum penalty k s = s := by
  cases k with
  | zero => rfl
  | succ k => simp [rrpRun, h]

/-- While `simulate_RR` dispatches and the context-switch block only sets
`last_pid`, the loop of `simulate_RR_with_penalty` goes through the states of
`simulate_RR`, `last_pid` apart. -/
theorem rrpRun_follows (quantum penalty : Int) (s0 : SimState)
    (hstep : ∀ k l, rrpRun quantum penalty k s0 = withLast l (rrRun quantum k s0) →
      (rrRun quantum k s0).completed < (rrRun quantum k s0).p.length →
      (rrRun quantum k s0).head ≠ (rrRun quantum k s0).queue.length ∧
      ∃ m, rrpSwitch penalty
          (withLast l { rrRun quantum k s0 with head := (rrRun quantum k s0).head + 1 })
          ((rrRun quantum k s0).queue.getD (rrRun quantum k s0).head 0)
        = withLast m { rrRun quantum k s0 with head := (rrRun quantum k s0).head + 1 }) :
    ∀ k, ∃ l, rrpRun quantum penalty k s0 = withLast l (rrRun quantum k s0) := by
  intro k
  induction k with
  | zero => exact ⟨s0.last_pid, rfl⟩
  | succ k ih =>
    obtain ⟨l, hl⟩ := ih
    rw [rrpRun_add quantum penalty k 1, rrRun_add quantum k 1, hl]
    by_cases hrun : (rrRun quantum k s0).completed < (rrRun quantum k s0).p.length
    · obtain ⟨hne, m, hm⟩ := hstep k l hl hrun
      refine ⟨m, ?_⟩
      have h1 : rrpRun quantum penalty 1 (withLast l (rrRun quantum k s0))
          = rrpIter quantum penalty (withLast l (rrRun quantum k s0)) := by
        show (if (rrRun quantum k s0).completed < (rrRun quantum k s0).p.length then _ else _) = _
        rw [if_pos hrun]
        rfl
      rw [h1, rrRun_succ_running quantum 0 _ hrun, rrpIter_follows quantum penalty _ l m hne hm]
      rfl
    · exact ⟨l, by rw [rrRun_done quantum 1 _ hrun]; exact rrpRun_done quantum penalty 1 _ hrun⟩

/-- States that differ in `last_pid` only give the same outcome. -/
theorem outcomeOf_withLast (l : Int) (s : SimState) : outcomeOf (withLast l s) = outcomeOf s :=
  rfl

/-! ## Round Robin with penalty: the pid of the previous dispatch -/

theorem runSlice_queue (quantum : Int) (s : SimState) (idx : Nat) :
    ∃ c, (runSlice quantum s idx).queue = s.queue ++ c := by
  unfold runSlice rrSettle
  simp only
  obtain ⟨c, hc⟩ := rrTicks_queue (sliceOf quantum (s.p.getD idx default)).toNat s
  split
  · exact ⟨c, hc⟩
  · exact ⟨c ++ [idx], by simp only [push_queue]; rw [hc]; simp⟩

theorem rrpSwitch_queue (penalty : Int) (s : SimState) (idx : Nat) :
    ∃ c, (rrpSwitch penalty s idx).queue = s.queue ++ c := by
  unfold rrpSwitch
  simp only
  split
  · exact forProcs_queue ArrivalBody.late s.p 0 { s with current_time := s.current_time + penalty }
  · exact ⟨[], by simp⟩

theorem rrpIter_queue (quantum penalty : Int) (s : SimState) :
    ∃ c, (rrpIter quantum penalty s).queue = s.queue ++ c := by
  unfold rrpIter
  split
  · exact ⟨[], by simp [rrpIdle]⟩
  · unfold rrpDispatch
    obtain ⟨c, hc⟩ := rrpSwitch_queue penalty { s with head := s.head + 1 }
      (s.queue.getD s.head 0)
    obtain ⟨d, hd⟩ := runSlice_queue quantum
      (rrpSwitch penalty { s with head := s.head + 1 } (s.queue.getD s.head 0))
      (s.queue.getD s.head 0)
    exact ⟨c ++ d, by rw [hd, hc, List.append_assoc]⟩

theorem rrpSwitch_last_pid (penalty : Int) (s : SimState) (idx : Nat) :
    (rrpSwitch penalty s idx).last_pid = (s.p.getD idx default).pid := rfl

/-- The clock after the context-switch block. -/
theorem rrpSwitch_clock (penalty : Int) (s : SimState) (idx : Nat) :
    (rrpSwitch penalty s idx).current_time = s.current_time +
      (if s.last_pid ≠ -1 ∧ (s.p.getD idx default).pid ≠ s.last_pid then penalty else 0) := by
  unfold rrpSwitch
  simp only
  split
  · exact (forProcs_frame ArrivalBody.late s.p 0
      { s with current_time := s.current_time + penalty }).2.1
  · simp

/-- What `last_pid` holds in the loop of `simulate_RR_with_penalty`: `-1` before
the first dispatch, then the pid of the process of the cell `queue[head - 1]`, the
one dispatched last. -/
structure LastPid (s : SimState) : Prop where
  first : s.head = 0 → s.last_pid = -1
  later : s.head ≠ 0 →
    ∃ i x, s.queue[s.head - 1]? = some i ∧ s.p[i]? = some x ∧ s.last_pid = x.pid

theorem lastPid_rrpIter (quantum penalty : Int) (s : SimState) (hq : QueueCore none s)
    (h : LastPid s) : LastPid (rrpIter quantum penalty s) := by
  by_cases hne : s.head = s.queue.length
  · have e : rrpIter quantum penalty s = { s with current_time := s.current_time + 1 } := by
      unfold rrpIter
      rw [if_pos hne]
      rfl
    rw [e]
    exact ⟨h.first, h.later⟩
  · obtain ⟨x, hx, _⟩ := head_uncompleted s hq hne
    obtain ⟨c, hc⟩ := rrpIter_queue quantum penalty s
    obtain ⟨t, ht⟩ := rrpIter_p quantum penalty s
    rw [if_neg hne] at ht
    have hlt : s.head < s.queue.length := lt_of_le_of_ne hq.hd hne
    have hhead : (rrpIter quantum penalty s).head = s.head + 1 := by
      unfold rrpIter
      rw [if_neg hne]
      unfold rrpDispatch
      rw [(runSlice_effect quantum _ _).2.2.1, (rrpSwitch_frame penalty _ _).2.1]
    have hlast : (rrpIter quantum penalty s).last_pid = x.pid := by
      unfold rrpIter
      rw [if_neg hne]
      unfold rrpDispatch
      rw [(runSlice_effect quantum _ _).2.2.2, rrpSwitch_last_pid]
      show (s.p.getD (s.queue.getD s.head 0) default).pid = x.pid
      rw [getD_of_getElem? hx]
    refine ⟨fun h0 => absurd h0 (by rw [hhead]; omega), fun _ => ?_⟩
    refine ⟨s.queue.getD s.head 0, afterSlice quantum x t, ?_, ?_, ?_⟩
    · rw [hhead, hc, Nat.add_sub_cancel, List.getElem?_append_left hlt,
        List.getElem?_eq_getElem hlt, List.getD_eq_getElem _ _ hlt]
    · rw [ht, getD_of_getElem? hx, List.getElem?_set_self (List.getElem?_eq_some.1 hx).1]
    · rw [hlast, (afterSlice_fields quantum x t).2.2.1]

theorem lastPid_init (p : List Process) : LastPid (rrInit p) := by
  have hf := forProcs_frame ArrivalBody.init p 0 (rrStart p)
  rw [← rrInit_eq] at hf
  obtain ⟨_, _, _, hh, hl⟩ := hf
  exact ⟨fun _ => by rw [hl]; rfl, fun h => absurd (by rw [hh]; rfl) h⟩

theorem lastPid_rrpRun (p : List Process) (quantum penalty : Int) (fuel : Nat) :
    LastPid (rrpRun quantum penalty fuel (rrInit (reset_processes p))) := by
  have := rrpRun_induct quantum penalty (fun s => QueueCore none s ∧ LastPid s)
    (fun s hs _ => ⟨queueCore_rrpIter quantum penalty s hs.1,
      lastPid_rrpIter quantum penalty s hs.1 hs.2⟩)
    fuel _ ⟨queueCore_init p, lastPid_init _⟩
  exact this.2

/-- The pid of the process dispatched before the dispatch at hand: the process of
the cell `queue[head - 1]`. -/
def prevPid (s : SimState) : Int := (s.p.getD (s.queue.getD (s.head - 1) 0) default).pid

/-- The ticks to charge before the dispatch at hand: `penalty` when it is not the
first dispatch and the pid differs from that of the previous dispatch, else 0. -/
def penaltyDue (penalty : Int) (s : SimState) : Int :=
  if s.head ≠ 0 ∧ (headProc s).pid ≠ prevPid s then penalty else 0

/-- With pids other than `-1`, the test of the context-switch block is the one
that defines `penaltyDue`. -/
theorem lastPid_test (s : SimState) (h : LastPid s) (hpid : ∀ x ∈ s.p, 0 < x.pid) :
    (s.last_pid ≠ -1 ∧ (headProc s).pid ≠ s.last_pid) ↔
      (s.head ≠ 0 ∧ (headProc s).pid ≠ prevPid s) := by
  by_cases h0 : s.head = 0
  · have := h.first h0
    constructor
    · intro hc; exact absurd this hc.1
    · intro hc; exact absurd h0 hc.1
  · obtain ⟨i, x, hi, hx, hl⟩ := h.later h0
    have hcell : s.queue.getD (s.head - 1) 0 = i := by
      rw [List.getD_eq_getElem?_getD, hi]
      rfl
    have hprev : prevPid s = x.pid := by
      unfold prevPid
      rw [hcell, getD_of_getElem? hx]
    have hpos := hpid x (List.getElem?_mem hx)
    rw [hprev, hl]
    constructor
    · intro hc; exact ⟨h0, hc.2⟩
    · intro hc; exact ⟨by omega, hc.2⟩

theorem rrpSwitch_quiet (penalty : Int) (s : SimState) (idx : Nat)
    (h : ¬ (s.last_pid ≠ -1 ∧ (s.p.getD idx default).pid ≠ s.last_pid)) :
    rrpSwitch penalty s idx = withLast (s.p.getD idx default).pid s := by
  unfold rrpSwitch
  simp only
  rw [if_neg h]
  rfl

theorem rrIter_flag_mono (quantum : Int) (s : SimState) (j : Nat)
    (h : s.in_queue j = true) : (rrIter quantum s).in_queue j = true := by
  unfold rrIter
  split
  · exact forProcs_flag_mono ArrivalBody.late _ 0 _ j h
  · unfold rrDispatch runSlice
    simp only
    rw [rrSettle_in_queue]
    exact rrTicks_flag_mono _ _ j h

/-- On a single process that has arrived by tick 0, `simulate_RR` never takes its
idle branch. -/
theorem solo_never_idles (x : Process) (quantum : Int) (ha : x.arrival_time ≤ 0) (k : Nat) :
    (rrRun quantum k (rrInit (reset_processes [x]))).completed
        < (rrRun quantum k (rrInit (reset_processes [x]))).p.length →
      (rrRun quantum k (rrInit (reset_processes [x]))).head
        ≠ (rrRun quantum k (rrInit (reset_processes [x]))).queue.length := by
  intro hrun heq
  have hq := queueCore_rrRun [x] quantum k
  have hlen : (rrRun quantum k (rrInit (reset_processes [x]))).p.length = 1 := by
    rw [rrRun_length, rrInit_p]; rfl
  have hflag : (rrRun quantum k (rrInit (reset_processes [x]))).in_queue 0 = true := by
    apply rrRun_induct quantum (fun s => s.in_queue 0 = true)
      (fun s hs _ => rrIter_flag_mono quantum s 0 hs)
    show (forProcs arriveInit [resetProcess x] 0 (rrStart [resetProcess x])).in_queue 0 = true
    simp only [forProcs, arriveInit, rrStart]
    rw [if_pos (by show x.arrival_time ≤ 0; exact ha)]
    simp only [enqueue_in_queue, Function.update_same]
  obtain ⟨y, hy⟩ : ∃ y, (rrRun quantum k (rrInit (reset_processes [x]))).p[0]? = some y :=
    ⟨_, List.getElem?_eq_getElem (by omega)⟩
  have hpend : (pendingCells (rrRun quantum k (rrInit (reset_processes [x])))) = [] := by
    unfold pendingCells
    rw [heq]
    exact List.drop_length _
  rcases hq.flagged_where 0 y hy hflag with hc | hc | hc
  · have hcount := hq.count
    have hall : ∀ z ∈ (rrRun quantum k (rrInit (reset_processes [x]))).p, z = y := by
      intro z hz
      obtain ⟨n, hn⟩ := List.mem_iff_getElem?.1 hz
      have : n = 0 := by
        have := (List.getElem?_eq_some.1 hn).1
        omega
      subst this
      rw [hy] at hn
      exact (Option.some.inj hn).symm
    have hzero : (rrRun quantum k (rrInit (reset_processes [x]))).p.countP pending = 0 := by
      rw [List.countP_eq_zero]
      intro z hz
      rw [hall z hz]
      simpa [pending] using hc
    omega
  · rw [hpend] at hc
    exact absurd hc (List.not_mem_nil _)
  · exact absurd hc (by simp)

/-- On a single process the context-switch block of `simulate_RR_with_penalty`
only sets `last_pid`. -/
theorem solo_quiet (penalty : Int) (u : SimState) (hq : QueueCore none u) (hl : LastPid u)
    (hlen : u.p.length = 1) (hne : u.head ≠ u.queue.length) :
    rrpSwitch penalty { u with head := u.head + 1 } (u.queue.getD u.head 0)
      = withLast (headProc u).pid { u with head := u.head + 1 } := by
  obtain ⟨y, hy, _⟩ := head_uncompleted u hq hne
  have hidx : u.queue.getD u.head 0 = 0 := by
    have := (List.getElem?_eq_some.1 hy).1
    omega
  apply rrpSwitch_quiet
  rintro ⟨h1, h2⟩
  by_cases h0 : u.head = 0
  · exact h1 (hl.first h0)
  · obtain ⟨i, z, _, hz, hlz⟩ := hl.later h0
    have hi : i = 0 := by
      have := (List.getElem?_eq_some.1 hz).1
      omega
    subst hi
    rw [hidx] at hy
    rw [hz] at hy
    obtain rfl := Option.some.inj hy
    apply h2
    show (u.p.getD (u.queue.getD u.head 0) default).pid = u.last_pid
    rw [hidx, getD_of_getElem? hz, hlz]

/-- On a single process that arrives at tick 0, `simulate_RR_with_penalty` gives
the outcome of `simulate_RR`. -/
theorem solo_same_outcome (x : Process) (quantum penalty : Int) (ha : x.arrival_time ≤ 0)
    (fuel : Nat) :
    simulate_RR_with_penalty (reset_processes [x]) quantum penalty fuel
      = simulate_RR (reset_processes [x]) quantum fuel := by
  obtain ⟨l, hl⟩ := rrpRun_follows quantum penalty (rrInit (reset_processes [x])) (by
    intro k l hl hrun
    have hne := solo_never_idles x quantum ha k hrun
    refine ⟨hne, (headProc (rrRun quantum k (rrInit (reset_processes [x])))).pid, ?_⟩
    have hq := queueCore_rrpRun [x] quantum penalty k
    have hlp := lastPid_rrpRun [x] quantum penalty k
    have hlen : (rrpRun quantum penalty k (rrInit (reset_processes [x]))).p.length = 1 := by
      rw [rrpRun_length, rrInit_p]; rfl
    rw [hl] at hq hlp hlen
    exact solo_quiet penalty _ hq hlp hlen hne) fuel
  unfold simulate_RR_with_penalty simulate_RR
  rw [hl, outcomeOf_withLast]

/-- On a single process whose slices fit the queue `simulate_RR` returns the record
completed at arrival plus burst. -/
theorem solo_result (x : Process) (quantum : Int) (ha : 0 ≤ x.arrival_time)
    (hb : 0 < x.burst_time) (hq : 0 < quantum)
    (hcap : x.burst_time ≤ (MAX_PROCESSES : Int) * quantum) :
    ∃ fuel, simulate_RR (reset_processes [x]) quantum fuel
      = Outcome.finished [rrRecord (resetProcess x) (x.arrival_time + x.burst_time)] := by
  have hreset : reset_processes [x] = [resetProcess x] := rfl
  rw [hreset]
  obtain ⟨f1, hrun, hlen⟩ := solo_reaches_run (resetProcess x) quantum ha rfl rfl
  obtain ⟨f2, hp, hc, ho⟩ := soloRun_finishes (resetProcess x) quantum hq MAX_PROCESSES
    _ _ hrun hb hcap (by rw [hlen]; omega)
  refine ⟨f1 + f2, ?_⟩
  unfold simulate_RR outcomeOf
  rw [rrRun_add, hp, hc, ho]
  simp
  rfl

/-- Once `simulate_RR_with_penalty` has left its loop, more fuel gives the same
outcome. -/
theorem simulate_RR_with_penalty_mono (p : List Process) (quantum penalty : Int) (f g : Nat)
    (h : simulate_RR_with_penalty p quantum penalty f ≠ Outcome.running) (hfg : f ≤ g) :
    simulate_RR_with_penalty p quantum penalty g = simulate_RR_with_penalty p quantum penalty f := by
  obtain ⟨d, rfl⟩ := Nat.exists_eq_add_of_le hfg
  unfold simulate_RR_with_penalty at h ⊢
  rw [rrpRun_add, rrpRun_done quantum penalty d _ (fun hc => h ((outcomeOf_running _).2 hc))]

/-! ## Round Robin with penalty 0 -/

/-- A flag set at an index outside `in_queue` has raised `oob`. -/
def BigFlag (s : SimState) : Prop :=
  ∀ i, s.in_queue i = true → MAX_PROCESSES ≤ i → s.oob = true

theorem bigFlag_touch (s : SimState) (i : Nat) (h : BigFlag s) : BigFlag (touch s i) := by
  intro j hj hm
  have := h j hj hm
  simp only [touch, this, Bool.true_or]

theorem bigFlag_push (s : SimState) (i : Nat) (h : BigFlag s) : BigFlag (push s i) := by
  intro j hj hm
  have := h j hj hm
  simp only [push, this, Bool.true_or]

theorem bigFlag_enqueue (s : SimState) (i : Nat) (h : BigFlag s) : BigFlag (enqueue s i) := by
  intro j hj hm
  simp only [enqueue_in_queue] at hj
  by_cases hji : j = i
  · subst hji
    simp only [enqueue, decide_eq_true hm, Bool.or_true]
  · rw [Function.update_noteq hji] at hj
    have := h j hj hm
    simp only [enqueue, push, this, Bool.true_or]

theorem bigFlag_scan {body : Nat → Process → SimState → SimState} (hb : ArrivalBody body)
    (l : List Process) (i : Nat) (s : SimState) (h : BigFlag s) :
    BigFlag (forProcs body l i s) := by
  apply forProcs_keeps body BigFlag l i s h
  intro k x t _ ht
  rcases arrivalBody_cases hb (i + k) x t with e | e | ⟨e | e, _⟩ <;> rw [e]
  · exact ht
  · exact bigFlag_touch t _ ht
  · exact bigFlag_enqueue t _ ht
  · exact bigFlag_enqueue _ _ (bigFlag_touch t _ ht)

theorem bigFlag_ticks (k : Nat) (s : SimState) (h : BigFlag s) : BigFlag (rrTicks k s) := by
  induction k generalizing s with
  | zero => exact h
  | succ k ih => exact ih _ (bigFlag_scan ArrivalBody.tick _ 0 _ h)

theorem bigFlag_runSlice (quantum : Int) (s : SimState) (idx : Nat) (h : BigFlag s) :
    BigFlag (runSlice quantum s idx) := by
  unfold runSlice rrSettle
  simp only
  have := bigFlag_ticks (sliceOf quantum (s.p.getD idx default)).toNat s h
  split
  · exact this
  · exact bigFlag_push _ idx this

theorem bigFlag_rrIter (quantum : Int) (s : SimState) (h : BigFlag s) :
    BigFlag (rrIter quantum s) := by
  unfold rrIter
  split
  · exact bigFlag_scan ArrivalBody.late _ 0 _ h
  · unfold rrDispatch
    exact bigFlag_runSlice quantum _ _ h

theorem bigFlag_rrRun (p : List Process) (quantum : Int) (fuel : Nat) :
    BigFlag (rrRun quantum fuel (rrInit p)) := by
  apply rrRun_induct quantum BigFlag (fun s hs _ => bigFlag_rrIter quantum s hs)
  rw [rrInit_eq]
  exact bigFlag_scan ArrivalBody.init p 0 _ (fun i hi _ => absurd hi (by simp [rrStart]))

/-- A loop over the processes whose body changes nothing changes nothing. -/
theorem forProcs_fix (body : Nat → Process → SimState → SimState) (l : List Process)
    (i : Nat) (s : SimState) (h : ∀ k x, l[k]? = some x → body (i + k) x s = s) :
    forProcs body l i s = s := by
  induction l generalizing i with
  | nil => rfl
  | cons x rest ih =>
    simp only [forProcs]
    have h0 := h 0 x (by simp)
    rw [Nat.add_zero] at h0
    rw [h0]
    apply ih
    intro k y hy
    have := h (k + 1) y (by simpa using hy)
    rwa [show i + (k + 1) = i + 1 + k by omega] at this

theorem touch_flagged (s : SimState) (i : Nat) (hf : s.in_queue i = true) (h : BigFlag s) :
    touch s i = s := by
  by_cases hi : i < MAX_PROCESSES
  · exact touch_small s i hi
  · have ho := h i hf (by omega)
    cases s
    simp only at ho
    simp only [touch, ho, Bool.true_or]

/-- The arrival loop of the context-switch block finds nothing to queue when every
process that has arrived is flagged. -/
theorem lateScan_fix (s : SimState) (ha : Arrived s) (hb : BigFlag s) :
    forProcs arriveLate s.p 0 s = s := by
  apply forProcs_fix
  intro k x hx
  unfold arriveLate
  split
  · next harr =>
    have hf := ha (0 + k) x (by simpa using hx) harr
    rw [if_neg (fun hc => by rw [hf] at hc; exact absurd hc.1 (by decide))]
    exact touch_flagged s _ hf hb
  · rfl

/-- With penalty 0, the context-switch block only sets `last_pid` when every
process that has arrived is flagged. -/
theorem rrpSwitch_zero (s : SimState) (idx : Nat) (ha : Arrived s) (hb : BigFlag s) :
    rrpSwitch 0 s idx = withLast (s.p.getD idx default).pid s := by
  by_cases hc : s.last_pid ≠ -1 ∧ (s.p.getD idx default).pid ≠ s.last_pid
  · have e : ({ s with current_time := s.current_time + 0 } : SimState) = s := by
      cases s
      simp
    unfold rrpSwitch
    simp only
    rw [if_pos hc, e, lateScan_fix s ha hb]
    rfl
  · exact rrpSwitch_quiet 0 s idx hc

/-- The plain Round Robin run on `p` never takes the idle branch: whenever the
loop goes on, the queue is not empty. -/
def NeverIdle (quantum : Int) (p : List Process) : Prop :=
  ∀ k, (rrRun quantum k (rrInit p)).completed < (rrRun quantum k (rrInit p)).p.length →
    (rrRun quantum k (rrInit p)).head ≠ (rrRun quantum k (rrInit p)).queue.length

theorem arrived_never_idle (quantum : Int) (p : List Process) (h : NeverIdle quantum p)
    (k : Nat) : Arrived (rrRun quantum k (rrInit p)) := by
  induction k with
  | zero => exact arrived_init p
  | succ k ih =>
    rw [rrRun_add quantum k 1]
    by_cases hrun : (rrRun quantum k (rrInit p)).completed < (rrRun quantum k (rrInit p)).p.length
    · rw [rrRun_succ_running quantum 0 _ hrun]
      show Arrived (rrIter quantum (rrRun quantum k (rrInit p)))
      unfold rrIter
      rw [if_neg (h k hrun)]
      unfold rrDispatch
      exact arrived_runSlice quantum _ _ ih
    · rw [rrRun_done quantum 1 _ hrun]
      exact ih

/-- With penalty 0 and a plain run that never idles, the loop of
`simulate_RR_with_penalty` goes through the states of `simulate_RR`, `last_pid`
apart. -/
theorem zero_penalty_follows (quantum : Int) (p : List Process) (h : NeverIdle quantum p)
    (k : Nat) : ∃ l, rrpRun quantum 0 k (rrInit p) = withLast l (rrRun quantum k (rrInit p)) := by
  apply rrpRun_follows quantum 0 (rrInit p)
  intro j l _ hrun
  refine ⟨h j hrun, (headProc (rrRun quantum j (rrInit p))).pid, ?_⟩
  exact rrpSwitch_zero _ _ (arrived_never_idle quantum p h j) (bigFlag_rrRun p quantum j)

/-! ## Reset after a run -/

theorem resetProcess_afterSlice (quantum : Int) (x : Process) (t : Int) :
    resetProcess (afterSlice quantum x t) = resetProcess x := by
  unfold afterSlice
  split <;> rfl

/-- Replacing a record by one that resets to the same record does not change the
reset array. -/
theorem reset_set (l : List Process) (idx : Nat) (y : Process)
    (h : resetProcess y = resetProcess (l.getD idx default)) :
    reset_processes (l.set idx y) = reset_processes l := by
  unfold reset_processes
  apply List.ext_getElem?
  intro n
  rw [List.getElem?_map, List.getElem?_map, List.getElem?_set]
  by_cases hn : idx = n
  · subst hn
    rw [if_pos rfl]
    by_cases hlt : idx < l.length
    · rw [if_pos hlt, List.getElem?_eq_getElem hlt]
      rw [List.getD_eq_getElem _ _ hlt] at h
      simp only [Option.map_some', h]
    · rw [if_neg hlt, List.getElem?_eq_none (by omega)]
  · rw [if_neg hn]

theorem reset_reset (p : List Process) :
    reset_processes (reset_processes p) = reset_processes p := by
  simp only [reset_processes, List.map_map]
  rfl

theorem reset_fcfsLoop (l : List Process) (t : Int) :
    reset_processes (fcfsLoop l t) = reset_processes l := by
  induction l generalizing t with
  | nil => rfl
  | cons y rest ih =>
    rw [fcfsLoop_head]
    show resetProcess (fcfsRecord y t) :: reset_processes (fcfsLoop rest _)
      = resetProcess y :: reset_processes rest
    rw [ih]
    rfl

theorem reset_sjfIter (s : SJFState) :
    reset_processes (sjfIter s).p = reset_processes s.p := by
  cases hsel : sjfSelect s with
  | none => rw [sjfIter_none s hsel]
  | some idx =>
    obtain ⟨z, hz, _⟩ := sjfSelect_some s idx hsel
    rw [sjfIter_some s idx z hsel hz]
    exact reset_set s.p idx _ (by rw [getD_of_getElem? hz]; rfl)

theorem reset_sjfRun (fuel : Nat) (s : SJFState) :
    reset_processes (sjfRun fuel s).p = reset_processes s.p :=
  sjfRun_induct (fun t => reset_processes t.p = reset_processes s.p)
    (fun t ht _ => (reset_sjfIter t).trans ht) fuel s rfl

theorem reset_rrIter (quantum : Int) (s : SimState) :
    reset_processes (rrIter quantum s).p = reset_processes s.p := by
  rw [rrIter_p]
  split
  · rfl
  · exact reset_set s.p _ _ (resetProcess_afterSlice quantum _ _)

theorem reset_rrpIter (quantum penalty : Int) (s : SimState) :
    reset_processes (rrpIter quantum penalty s).p = reset_processes s.p := by
  obtain ⟨t, ht⟩ := rrpIter_p quantum penalty s
  rw [ht]
  split
  · rfl
  · exact reset_set s.p _ _ (resetProcess_afterSlice quantum _ _)

theorem reset_rrRun (quantum : Int) (fuel : Nat) (p : List Process) :
    reset_processes (rrRun quantum fuel (rrInit p)).p = reset_processes p :=
  rrRun_induct quantum (fun t => reset_processes t.p = reset_processes p)
    (fun t ht _ => (reset_rrIter quantum t).trans ht) fuel _
    (congrArg reset_processes (rrInit_p p))

theorem reset_rrpRun (quantum penalty : Int) (fuel : Nat) (p : List Process) :
    reset_processes (rrpRun quantum penalty fuel (rrInit p)).p = reset_processes p :=
  rrpRun_induct quantum penalty (fun t => reset_processes t.p = reset_processes p)
    (fun t ht _ => (reset_rrpIter quantum penalty t).trans ht) fuel _
    (congrArg reset_processes (rrInit_p p))

theorem outcomeOf_finished (s : SimState) (res : List Process)
    (h : outcomeOf s = Outcome.finished res) : res = s.p := by
  unfold outcomeOf at h
  split at h
  · exact absurd h (by simp)
  · split at h
    · exact absurd h (by simp)
    · exact (Outcome.finished.inj h).symm

theorem simulate_SJF_some (p res : List Process) (fuel : Nat)
    (h : simulate_SJF p fuel = some res) : res = (sjfRun fuel (sjfInit p)).p := by
  unfold simulate_SJF at h
  simp only at h
  split at h
  · exact absurd h (by simp)
  · exact (Option.some.inj h).symm

/-! ## The policies read pid, arrival and burst only -/

/-- The fields of a process that a reset keeps, priority apart. -/
def coreOf (x : Process) : Int × Int × Int := (x.pid, x.arrival_time, x.burst_time)

/-- The metrics a run leaves in a record. -/
def metricsOf (x : Process) : Int × Int × Int :=
  (x.finish_time, x.waiting_time, x.turnaround_time)

/-- The record with its priority cleared. -/
def dropPriority (x : Process) : Process := { x with priority := 0 }

/-- The state of SJF with the priorities cleared. -/
def dropSJF (s : SJFState) : SJFState := { s with p := s.p.map dropPriority }

/-- The state of Round Robin with the priorities cleared. -/
def dropRR (s : SimState) : SimState := { s with p := s.p.map dropPriority }

theorem getD_drop (l : List Process) (idx : Nat) :
    (l.map dropPriority).getD idx default = dropPriority (l.getD idx default) :=
  List.getD_map l default dropPriority

theorem metrics_drop (l : List Process) :
    (l.map dropPriority).map metricsOf = l.map metricsOf := by
  rw [List.map_map]
  rfl

/-- Arrays with the same pids, arrivals and bursts reset to the same array,
priorities apart. -/
theorem reset_same_core (p q : List Process) (h : q.map coreOf = p.map coreOf) :
    (reset_processes q).map dropPriority = (reset_processes p).map dropPriority := by
  have hb : ∀ l : List Process, (reset_processes l).map dropPriority
      = (l.map coreOf).map (fun c => (⟨c.1, c.2.1, c.2.2, 0, c.2.2, 0, 0, 0, 0⟩ : Process)) := by
    intro l
    simp only [reset_processes, List.map_map]
    rfl
  rw [hb, hb, h]

theorem fcfsLoop_drop (l : List Process) (t : Int) :
    fcfsLoop (l.map dropPriority) t = (fcfsLoop l t).map dropPriority := by
  induction l generalizing t with
  | nil => rfl
  | cons y rest ih =>
    simp only [List.map_cons, fcfsLoop]
    rw [← ih]
    rfl

theorem sjfScan_drop (t : Int) (l : List Process) (i : Nat) (acc : Option Nat × Int) :
    sjfScan t (l.map dropPriority) i acc = sjfScan t l i acc := by
  induction l generalizing i acc with
  | nil => rfl
  | cons y rest ih =>
    simp only [List.map_cons, sjfScan]
    exact ih _ _

theorem sjfIter_drop (s : SJFState) : sjfIter (dropSJF s) = dropSJF (sjfIter s) := by
  have hsel : sjfSelect (dropSJF s) = sjfSelect s := by
    unfold sjfSelect
    exact congrArg Prod.fst (sjfScan_drop s.current_time s.p 0 (none, 99999))
  unfold sjfIter
  rw [hsel]
  cases sjfSelect s with
  | none => rfl
  | some idx =>
    simp only [dropSJF, getD_drop, List.map_set]
    rfl

theorem sjfRun_drop (fuel : Nat) (s : SJFState) :
    sjfRun fuel (dropSJF s) = dropSJF (sjfRun fuel s) := by
  induction fuel generalizing s with
  | zero => rfl
  | succ k ih =>
    simp only [sjfRun]
    have hlen : (dropSJF s).p.length = s.p.length := by simp [dropSJF]
    have hc : (dropSJF s).completed = s.completed := rfl
    rw [hlen, hc]
    split
    · rw [sjfIter_drop, ih]
    · rfl

theorem arrivalBody_drop {body : Nat → Process → SimState → SimState}
    (hb : ArrivalBody body) (i : Nat) (x : Process) (s : SimState) :
    body i (dropPriority x) (dropRR s) = dropRR (body i x s) := by
  cases hb
  · unfold arriveInit
    show (if x.arrival_time ≤ s.current_time then _ else _) = _
    split <;> rfl
  · unfold arriveLate
    show (if x.arrival_time ≤ s.current_time then
      (if s.in_queue i = false ∧ x.is_completed = 0 then _ else _) else _) = _
    split
    · split <;> rfl
    · rfl
  · unfold arriveTick
    show (if x.arrival_time = s.current_time then
      (if s.in_queue i = false then _ else _) else _) = _
    split
    · split <;> rfl
    · rfl

theorem forProcs_drop {body : Nat → Process → SimState → SimState}
    (hb : ArrivalBody body) (l : List Process) (i : Nat) (s : SimState) :
    forProcs body (l.map dropPriority) i (dropRR s) = dropRR (forProcs body l i s) := by
  induction l generalizing i s with
  | nil => rfl
  | cons x rest ih =>
    simp only [List.map_cons, forProcs]
    rw [arrivalBody_drop hb, ih]

theorem rrTicks_drop (k : Nat) (s : SimState) :
    rrTicks k (dropRR s) = dropRR (rrTicks k s) := by
  induction k generalizing s with
  | zero => rfl
  | succ k ih =>
    simp only [rrTicks]
    rw [← ih]
    congr 1
    exact forProcs_drop ArrivalBody.tick s.p 0 { s with current_time := s.current_time + 1 }

theorem rrSettle_drop (s : SimState) (idx : Nat) (slice : Int) :
    rrSettle (dropRR s) idx slice = dropRR (rrSettle s idx slice) := by
  have hg : (dropRR s).p.getD idx default = dropPriority (s.p.getD idx default) :=
    getD_drop s.p idx
  by_cases hr : (s.p.getD idx default).remaining_time - slice = 0
  · rw [rrSettle_done s idx slice hr, rrSettle_done (dropRR s) idx slice (by rw [hg]; exact hr)]
    simp only [dropRR, getD_drop, List.map_set]
    rfl
  · rw [rrSettle_again s idx slice hr,
      rrSettle_again (dropRR s) idx slice (by rw [hg]; exact hr)]
    simp only [dropRR, getD_drop, List.map_set, push]
    rfl

theorem runSlice_drop (quantum : Int) (s : SimState) (idx : Nat) :
    runSlice quantum (dropRR s) idx = dropRR (runSlice quantum s idx) := by
  unfold runSlice
  have hg : (dropRR s).p.getD idx default = dropPriority (s.p.getD idx default) :=
    getD_drop s.p idx
  simp only [hg]
  rw [rrTicks_drop, rrSettle_drop]
  rfl

theorem rrIter_drop (quantum : Int) (s : SimState) :
    rrIter quantum (dropRR s) = dropRR (rrIter quantum s) := by
  unfold rrIter
  show (if s.head = s.queue.length then _ else _) = _
  split
  · exact forProcs_drop ArrivalBody.late s.p 0 { s with current_time := s.current_time + 1 }
  · exact runSlice_drop quantum { s with head := s.head + 1 } (s.queue.getD s.head 0)

theorem rrpSwitch_charged (penalty : Int) (s : SimState) (idx : Nat)
    (h : s.last_pid ≠ -1 ∧ (s.p.getD idx default).pid ≠ s.last_pid) :
    rrpSwitch penalty s idx = withLast (s.p.getD idx default).pid
      (forProcs arriveLate s.p 0 { s with current_time := s.current_time + penalty }) := by
  unfold rrpSwitch
  simp only
  rw [if_pos h]
  rfl

theorem rrpSwitch_drop (penalty : Int) (s : SimState) (idx : Nat) :
    rrpSwitch penalty (dropRR s) idx = dropRR (rrpSwitch penalty s idx) := by
  have hg : (dropRR s).p.getD idx default = dropPriority (s.p.getD idx default) :=
    getD_drop s.p idx
  by_cases hc : s.last_pid ≠ -1 ∧ (s.p.getD idx default).pid ≠ s.last_pid
  · rw [rrpSwitch_charged penalty s idx hc,
      rrpSwitch_charged penalty (dropRR s) idx (by rw [hg]; exact hc), hg]
    have := forProcs_drop ArrivalBody.late s.p 0
      { s with current_time := s.current_time + penalty }
    show withLast _ (forProcs arriveLate (s.p.map dropPriority) 0
      (dropRR { s with current_time := s.current_time + penalty })) = _
    rw [this]
    rfl
  · rw [rrpSwitch_quiet penalty s idx hc,
      rrpSwitch_quiet penalty (dropRR s) idx (by rw [hg]; exact hc), hg]
    rfl

theorem rrpIter_drop (quantum penalty : Int) (s : SimState) :
    rrpIter quantum penalty (dropRR s) = dropRR (rrpIter quantum penalty s) := by
  unfold rrpIter
  show (if s.head = s.queue.length then _ else _) = _
  split
  · rfl
  · unfold rrpDispatch
    show runSlice quantum (rrpSwitch penalty (dropRR { s with head := s.head + 1 })
      (s.queue.getD s.head 0)) (s.queue.getD s.head 0) = _
    rw [rrpSwitch_drop, runSlice_drop]

theorem rrRun_drop (quantum : Int) (fuel : Nat) (s : SimState) :
    rrRun quantum fuel (dropRR s) = dropRR (rrRun quantum fuel s) := by
  induction fuel generalizing s with
  | zero => rfl
  | succ k ih =>
    simp only [rrRun]
    have hlen : (dropRR s).p.length = s.p.length := by simp [dropRR]
    have hc : (dropRR s).completed = s.completed := rfl
    rw [hlen, hc]
    split
    · rw [rrIter_drop, ih]
    · rfl

theorem rrpRun_drop (quantum penalty : Int) (fuel : Nat) (s : SimState) :
    rrpRun quantum penalty fuel (dropRR s) = dropRR (rrpRun quantum penalty fuel s) := by
  induction fuel generalizing s with
  | zero => rfl
  | succ k ih =>
    simp only [rrpRun]
    have hlen : (dropRR s).p.length = s.p.length := by simp [dropRR]
    have hc : (dropRR s).completed = s.completed := rfl
    rw [hlen, hc]
    split
    · rw [rrpIter_drop, ih]
    · rfl

theorem rrInit_drop (p : List Process) :
    rrInit (p.map dropPriority) = dropRR (rrInit p) := by
  rw [rrInit_eq, rrInit_eq]
  exact forProcs_drop ArrivalBody.init p 0 (rrStart p)

/-! ## Round Robin with a quantum that covers every burst -/

/-- The queue holds the indices `0 .. k - 1` in order; they are the flagged
processes and the processes that have arrived; no access has left the arrays. -/
structure Lined (p0 : List Process) (k : Nat) (s : SimState) : Prop where
  queue : s.queue = List.range k
  flags : ∀ i, s.in_queue i = true ↔ i < k
  kle : k ≤ p0.length
  in_bounds : s.oob = false
  arr : ∀ (i : Nat) (x : Process), p0[i]? = some x →
    (i < k ↔ x.arrival_time ≤ s.current_time)

/-- An arrival loop at time `T` over an array sorted by arrival, started with the
processes `0 .. k - 1` queued in order, leaves the processes that have arrived by
`T` queued in order.  The three clauses on `body` say that it queues an unflagged
process that has arrived, skips one that has not, and leaves a flagged one. -/
theorem scan_lined (p0 l : List Process) {body : Nat → Process → SimState → SimState}
    (hab : ArrivalBody body) (T : Int) (k : Nat)
    (hs : p0.Pairwise (fun a b => a.arrival_time ≤ b.arrival_time))
    (hn : p0.length ≤ MAX_PROCESSES) (hlen : l.length = p0.length)
    (hl : ∀ (i : Nat) (y : Process), l[i]? = some y →
      ∃ x : Process, p0[i]? = some x ∧ y.arrival_time = x.arrival_time)
    (hbody : ∀ (j : Nat) (y : Process) (t : SimState), l[j]? = some y → t.current_time = T →
      (k ≤ j → y.arrival_time ≤ T → t.in_queue j = false →
        body j y t = enqueue t j ∨ body j y t = enqueue (touch t j) j) ∧
      (T < y.arrival_time → body j y t = t) ∧
      (j < k → t.in_queue j = true → body j y t = t ∨ body j y t = touch t j))
    (s : SimState) (hct : s.current_time = T) (hq : s.queue = List.range k)
    (hf : ∀ i, s.in_queue i = true ↔ i < k) (ho : s.oob = false) (hk : k ≤ p0.length)
    (hold : ∀ (i : Nat) (x : Process), p0[i]? = some x → i < k → x.arrival_time ≤ T) :
    ∃ k', k ≤ k' ∧ SameFrame s (forProcs body l 0 s) ∧ Lined p0 k' (forProcs body l 0 s) := by
  have hframe := forProcs_frame hab l 0 s
  have main := forProcs_induct body
    (fun j t => t.current_time = T ∧ ∃ kj, k ≤ kj ∧ kj ≤ max j k ∧ kj ≤ p0.length ∧
      t.queue = List.range kj ∧ (∀ i, t.in_queue i = true ↔ i < kj) ∧ t.oob = false ∧
      ∀ (i : Nat) (x : Process), p0[i]? = some x → i < j → (i < kj ↔ x.arrival_time ≤ T))
    l 0 s ⟨hct, k, le_refl _, le_max_right _ _, hk, hq, hf, ho,
      fun i x _ hi => absurd hi (Nat.not_lt_zero i)⟩ (by
    intro j y t hy hP
    rw [Nat.zero_add] at hP ⊢
    obtain ⟨htT, kj, hkkj, hkjmax, hkjn, htq, htf, hto, harr⟩ := hP
    obtain ⟨x, hx, hyx⟩ := hl j y hy
    have hjn : j < p0.length := (List.getElem?_eq_some.1 hx).1
    have htouch : touch t j = t := touch_small t j (by omega)
    obtain ⟨hb1, hb2, hb3⟩ := hbody j y t hy htT
    by_cases hjk : j < kj
    · have hjk' : j < k := by
        rcases le_max_iff.1 hkjmax with h | h <;> omega
      have hsame : body j y t = t := by
        rcases hb3 hjk' ((htf j).2 hjk) with e | e
        · exact e
        · rw [e, htouch]
      rw [hsame]
      refine ⟨htT, kj, hkkj, le_trans hkjmax (max_le_max (Nat.le_succ j) (le_refl k)), hkjn,
        htq, htf, hto, ?_⟩
      intro i z hz hi
      rcases Nat.lt_succ_iff_lt_or_eq.1 hi with hi | rfl
      · exact harr i z hz hi
      · rw [hx] at hz
        obtain rfl := Option.some.inj hz
        exact ⟨fun _ => hold i x hx hjk', fun _ => hjk⟩
    · have hunf : t.in_queue j = false := by
        cases hc : t.in_queue j with
        | false => rfl
        | true => exact absurd ((htf j).1 hc) hjk
      by_cases hat : y.arrival_time ≤ T
      · have hjeq : j = kj := by
          by_contra hne
          have hlt : kj < j := by omega
          obtain ⟨z, hz⟩ : ∃ z, p0[kj]? = some z := ⟨_, List.getElem?_eq_getElem (by omega)⟩
          have h1 := pairwise_getElem? hs hlt hz hx
          have h2 := (harr kj z hz hlt).2 (by omega)
          exact absurd h2 (lt_irrefl _)
        subst hjeq
        have hnew : body j y t = enqueue t j := by
          rcases hb1 hkkj hat hunf with e | e
          · exact e
          · rw [e, htouch]
        rw [hnew]
        refine ⟨by rw [enqueue_current_time]; exact htT, j + 1, by omega,
          le_max_left _ _, by omega, ?_, ?_, ?_, ?_⟩
        · rw [enqueue_queue, htq, List.range_succ]
        · intro i
          rw [enqueue_in_queue]
          by_cases hij : i = j
          · subst hij
            simp
          · rw [Function.update_noteq hij, htf i]
            omega
        · have h1 : decide (MAX_PROCESSES ≤ t.queue.length) = false := by
            rw [htq, List.length_range]
            exact decide_eq_false (by omega)
          have h2 : decide (MAX_PROCESSES ≤ j) = false := decide_eq_false (by omega)
          simp only [enqueue, push, hto, h1, h2, Bool.or_false]
        · intro i z hz hi
          refine ⟨fun _ => ?_, fun _ => hi⟩
          rcases Nat.lt_succ_iff_lt_or_eq.1 hi with hi | rfl
          · exact (harr i z hz hi).1 hi
          · rw [hx] at hz
            obtain rfl := Option.some.inj hz
            omega
      · rw [hb2 (by omega)]
        refine ⟨htT, kj, hkkj, le_trans hkjmax (max_le_max (Nat.le_succ j) (le_refl k)), hkjn,
          htq, htf, hto, ?_⟩
        intro i z hz hi
        rcases Nat.lt_succ_iff_lt_or_eq.1 hi with hi | rfl
        · exact harr i z hz hi
        · rw [hx] at hz
          obtain rfl := Option.some.inj hz
          exact ⟨fun h => absurd h hjk, fun h => absurd (by omega) hat⟩)
  rw [Nat.zero_add] at main
  obtain ⟨htT, k', hkk', _, hk'n, htq, htf, hto, harr⟩ := main
  refine ⟨k', hkk', hframe, ⟨htq, htf, hk'n, hto, ?_⟩⟩
  intro i x hx
  rw [htT]
  exact harr i x hx (by rw [hlen]; exact (List.getElem?_eq_some.1 hx).1)

/-- The finish time FCFS gives the process at position `i` of `p0`. -/
def fcfsFinish (p0 : List Process) (i : Nat) : Int :=
  ((simulate_FCFS p0).getD i default).finish_time

/-- The time at which FCFS starts the process at position `i` of `p0`. -/
def fcfsStart (p0 : List Process) (i : Nat) : Int :=
  max (prevFinish (simulate_FCFS p0) i) (p0.getD i default).arrival_time

theorem fcfs_record (p0 : List Process) (i : Nat) (x : Process) (hx : p0[i]? = some x) :
    (simulate_FCFS p0)[i]? = some (fcfsRecord x (prevFinish (simulate_FCFS p0) i)) :=
  fcfsLoop_get p0 0 i x hx

theorem fcfsFinish_eq (p0 : List Process) (i : Nat) (x : Process) (hx : p0[i]? = some x) :
    fcfsFinish p0 i = fcfsStart p0 i + x.burst_time := by
  unfold fcfsFinish fcfsStart
  rw [getD_of_getElem? (fcfs_record p0 i x hx), getD_of_getElem? hx]
  rfl

theorem prevFinish_succ (p0 : List Process) (i : Nat) :
    prevFinish (simulate_FCFS p0) (i + 1) = fcfsFinish p0 i := by
  unfold prevFinish fcfsFinish
  rw [if_neg (Nat.succ_ne_zero i), Nat.add_sub_cancel]

/-- The hypotheses on the process array: sorted by arrival, bursts above 0 and at
most the quantum, records as `reset_processes` leaves them, at most
`MAX_PROCESSES` processes. -/
structure Covered (quantum : Int) (p0 : List Process) : Prop where
  sorted : p0.Pairwise (fun a b => a.arrival_time ≤ b.arrival_time)
  burst : ∀ x ∈ p0, 0 < x.burst_time ∧ x.burst_time ≤ quantum
  fresh : ∀ x ∈ p0, x.remaining_time = x.burst_time ∧ x.is_completed = 0
  small : p0.length ≤ MAX_PROCESSES

/-- The array `l` has the arrival times of `p0`, position by position. -/
def SameArrivals (p0 l : List Process) : Prop :=
  l.length = p0.length ∧
  ∀ (i : Nat) (y : Process), l[i]? = some y →
    ∃ x : Process, p0[i]? = some x ∧ y.arrival_time = x.arrival_time

/-- One tick of a slice keeps the queue lined up. -/
theorem tick_lined (quantum : Int) (p0 : List Process) (hc : Covered quantum p0) (k : Nat)
    (s : SimState) (hl : Lined p0 k s) (hsa : SameArrivals p0 s.p) :
    ∃ k', k ≤ k' ∧ Lined p0 k' (rrTick s) := by
  obtain ⟨k', hk', _, hl'⟩ := scan_lined p0 s.p ArrivalBody.tick (s.current_time + 1) k
    hc.sorted hc.small hsa.1 hsa.2 (by
      intro j y t hy ht
      obtain ⟨x, hx, hyx⟩ := hsa.2 j y hy
      have harr := hl.arr j x hx
      refine ⟨fun hkj hat hunf => Or.inr ?_, fun hat => ?_, fun hjk _ => Or.inl ?_⟩
      · have : ¬ x.arrival_time ≤ s.current_time := fun h => absurd (harr.2 h) (by omega)
        unfold arriveTick
        rw [if_pos (by rw [ht]; omega), if_pos hunf]
      · unfold arriveTick
        rw [if_neg (by rw [ht]; omega)]
      · have := harr.1 hjk
        unfold arriveTick
        rw [if_neg (by rw [ht]; omega)])
    { s with current_time := s.current_time + 1 } rfl hl.queue hl.flags hl.in_bounds hl.kle
    (fun i x hx hi => by have := (hl.arr i x hx).1 hi; omega)
  exact ⟨k', hk', hl'⟩

/-- The ticks of a slice keep the queue lined up. -/
theorem ticks_lined (quantum : Int) (p0 : List Process) (hc : Covered quantum p0) (n : Nat) :
    ∀ (k : Nat) (s : SimState), Lined p0 k s → SameArrivals p0 s.p →
      ∃ k', k ≤ k' ∧ Lined p0 k' (rrTicks n s) := by
  induction n with
  | zero => exact fun k s hl _ => ⟨k, le_refl _, hl⟩
  | succ n ih =>
    intro k s hl hsa
    obtain ⟨k1, hk1, hl1⟩ := tick_lined quantum p0 hc k s hl hsa
    obtain ⟨k2, hk2, hl2⟩ := ih k1 (rrTick s) hl1 (by rw [(rrTick_frame s).1]; exact hsa)
    exact ⟨k2, le_trans hk1 hk2, hl2⟩

/-- The idle branch keeps the queue lined up, when the processes not flagged are
not completed. -/
theorem idle_lined (quantum : Int) (p0 : List Process) (hc : Covered quantum p0) (k : Nat)
    (s : SimState) (hl : Lined p0 k s) (hsa : SameArrivals p0 s.p)
    (hunc : ∀ (i : Nat) (y : Process), s.p[i]? = some y → k ≤ i → y.is_completed = 0) :
    ∃ k', k ≤ k' ∧ Lined p0 k' (rrIdle s) := by
  obtain ⟨k', hk', _, hl'⟩ := scan_lined p0 s.p ArrivalBody.late (s.current_time + 1) k
    hc.sorted hc.small hsa.1 hsa.2 (by
      intro j y t hy ht
      obtain ⟨x, hx, hyx⟩ := hsa.2 j y hy
      have harr := hl.arr j x hx
      refine ⟨fun hkj hat hunf => Or.inr ?_, fun hat => ?_, fun hjk hfl => Or.inr ?_⟩
      · unfold arriveLate
        rw [if_pos (by rw [ht]; exact hat), if_pos ⟨hunf, hunc j y hy hkj⟩]
      · unfold arriveLate
        rw [if_neg (by rw [ht]; omega)]
      · have := harr.1 hjk
        unfold arriveLate
        rw [if_pos (by rw [ht]; omega), if_neg (by rw [hfl]; exact fun h => absurd h.1 (by decide))])
    { s with current_time := s.current_time + 1 } rfl hl.queue hl.flags hl.in_bounds hl.kle
    (fun i x hx hi => by have := (hl.arr i x hx).1 hi; omega)
  exact ⟨k', hk', hl'⟩

/-- The state of `simulate_RR` when it serves the processes in the order of the
array, as FCFS does: the first `m` processes are completed with the finish times
of FCFS, the others are untouched, the first `k` have arrived and are queued, and
the clock is the time at which FCFS starts process `m` if this one has arrived. -/
structure InOrder (p0 : List Process) (m k : Nat) (s : SimState) : Prop where
  lined : Lined p0 k s
  served : m ≤ k
  completed : s.completed = m
  head : s.head = m
  len : s.p.length = p0.length
  recs : ∀ (i : Nat) (x : Process), p0[i]? = some x →
    s.p[i]? = some (if i < m then rrRecord x (fcfsFinish p0 i) else x)
  ready : m < k → s.current_time = fcfsStart p0 m
  waiting : m = k → prevFinish (simulate_FCFS p0) m ≤ s.current_time

theorem inOrder_arrivals (p0 : List Process) (m k : Nat) (s : SimState)
    (h : InOrder p0 m k s) : SameArrivals p0 s.p := by
  refine ⟨h.len, fun i y hy => ?_⟩
  have hi : i < p0.length := by rw [← h.len]; exact (List.getElem?_eq_some.1 hy).1
  obtain ⟨x, hx⟩ : ∃ x, p0[i]? = some x := ⟨_, List.getElem?_eq_getElem hi⟩
  refine ⟨x, hx, ?_⟩
  have := h.recs i x hx
  rw [hy] at this
  obtain rfl := Option.some.inj this
  split <;> rfl

/-- The idle branch keeps `InOrder`. -/
theorem inOrder_idle (quantum : Int) (p0 : List Process) (hc : Covered quantum p0)
    (m k : Nat) (s : SimState) (h : InOrder p0 m k s) (he : s.head = s.queue.length) :
    ∃ k', InOrder p0 m k' (rrIdle s) := by
  have hmk : m = k := by
    have := h.lined.queue
    rw [← h.head, he, this, List.length_range]
  obtain ⟨k', hk', hl'⟩ := idle_lined quantum p0 hc k s h.lined (inOrder_arrivals p0 m k s h) (by
    intro i y hy hki
    obtain ⟨x, hx⟩ : ∃ x, p0[i]? = some x :=
      ⟨_, List.getElem?_eq_getElem (by rw [← h.len]; exact (List.getElem?_eq_some.1 hy).1)⟩
    have := h.recs i x hx
    rw [hy, if_neg (by omega)] at this
    rw [Option.some.inj this]
    exact (hc.fresh x (List.getElem?_mem hx)).2)
  obtain ⟨hp, hct, hcomp, hhead, _⟩ := forProcs_frame ArrivalBody.late s.p 0
    { s with current_time := s.current_time + 1 }
  have hp : (rrIdle s).p = s.p := hp
  have hct : (rrIdle s).current_time = s.current_time + 1 := hct
  have hcomp : (rrIdle s).completed = s.completed := hcomp
  have hhead : (rrIdle s).head = s.head := hhead
  have hw := h.waiting hmk
  refine ⟨k', hl', by omega, by rw [hcomp, h.completed], by rw [hhead, h.head],
    by rw [hp, h.len], by rw [hp]; exact h.recs, fun hlt => ?_, fun _ => by rw [hct]; omega⟩
  have hmn : m < p0.length := lt_of_lt_of_le hlt hl'.kle
  obtain ⟨x, hx⟩ : ∃ x, p0[m]? = some x := ⟨_, List.getElem?_eq_getElem hmn⟩
  have h1 := (hl'.arr m x hx).1 hlt
  have h2 : ¬ x.arrival_time ≤ s.current_time :=
    fun hle => absurd ((h.lined.arr m x hx).2 hle) (by omega)
  rw [hct] at h1 ⊢
  unfold fcfsStart
  rw [getD_of_getElem? hx, max_eq_right (by omega)]
  omega

/-- A dispatch keeps `InOrder`: the process at the head of the queue is process
`m`, its slice is its whole burst, and it is completed when FCFS completes it. -/
theorem inOrder_dispatch (quantum : Int) (p0 : List Process) (hc : Covered quantum p0)
    (m k : Nat) (s : SimState) (h : InOrder p0 m k s) (hne : s.head ≠ s.queue.length) :
    ∃ k', InOrder p0 (m + 1) k' (rrDispatch quantum s) := by
  have hmk : m < k := by
    have := h.lined.queue
    have hm := h.served
    rw [h.head, this, List.length_range] at hne
    omega
  have hmn : m < p0.length := lt_of_lt_of_le hmk h.lined.kle
  obtain ⟨x, hx⟩ : ∃ x, p0[m]? = some x := ⟨_, List.getElem?_eq_getElem hmn⟩
  have hsx : s.p[m]? = some x := by
    have := h.recs m x hx
    rwa [if_neg (lt_irrefl m)] at this
  obtain ⟨hrem, _⟩ := hc.fresh x (List.getElem?_mem hx)
  obtain ⟨hb0, hbq⟩ := hc.burst x (List.getElem?_mem hx)
  have hidx : s.queue.getD s.head 0 = m := by
    rw [h.head, h.lined.queue, List.getD_eq_getElem?_getD, List.getElem?_range hmk]
    rfl
  have hslice : sliceOf quantum x = x.burst_time := by
    unfold sliceOf
    rw [if_neg (by omega), hrem]
  have hsa := inOrder_arrivals p0 m k s h
  obtain ⟨k', hk', hl'⟩ := ticks_lined quantum p0 hc x.burst_time.toNat k
    { s with head := s.head + 1 }
    ⟨h.lined.queue, h.lined.flags, h.lined.kle, h.lined.in_bounds, h.lined.arr⟩ hsa
  obtain ⟨hp, hct, hcomp, hhead, _⟩ := rrTicks_frame x.burst_time.toNat
    { s with head := s.head + 1 }
  have hrun : rrDispatch quantum s
      = rrSettle (rrTicks x.burst_time.toNat { s with head := s.head + 1 }) m x.burst_time := by
    unfold rrDispatch runSlice
    simp only
    rw [hidx, getD_of_getElem? hsx, hslice]
  rw [hrun]
  generalize rrTicks x.burst_time.toNat { s with head := s.head + 1 } = t1 at hl' hp hct hcomp hhead ⊢
  have hp : t1.p = s.p := hp
  have hcomp : t1.completed = s.completed := hcomp
  have hhead : t1.head = s.head + 1 := hhead
  have hct' : t1.current_time = fcfsFinish p0 m := by
    rw [hct, fcfsFinish_eq p0 m x hx, ← h.ready hmk]
    show s.current_time + ((x.burst_time.toNat : Nat) : Int) = _
    rw [Int.toNat_of_nonneg (le_of_lt hb0)]
  have hg : t1.p.getD m default = x := by
    rw [hp]
    exact getD_of_getElem? hsx
  rw [rrSettle_done t1 m _ (by rw [hg, hrem]; omega)]
  refine ⟨k', ⟨hl'.queue, hl'.flags, hl'.kle, hl'.in_bounds, hl'.arr⟩, by omega,
    by show t1.completed + 1 = m + 1; rw [hcomp, h.completed],
    by show t1.head = m + 1; rw [hhead, h.head],
    by show (t1.p.set m _).length = _; rw [List.length_set, hp]; exact h.len,
    ?_, ?_, ?_⟩
  · intro i z hz
    show (t1.p.set m (rrRecord (t1.p.getD m default) t1.current_time))[i]? = _
    rw [hg, hct', hp]
    by_cases him : i = m
    · subst him
      rw [hx] at hz
      obtain rfl := Option.some.inj hz
      rw [List.getElem?_set_self (by rw [h.len]; exact hmn), if_pos (Nat.lt_succ_self i)]
    · rw [List.getElem?_set_ne (fun e => him e.symm), h.recs i z hz]
      by_cases hlt : i < m
      · rw [if_pos hlt, if_pos (by omega)]
      · rw [if_neg hlt, if_neg (by omega)]
  · intro hlt
    show t1.current_time = _
    obtain ⟨z, hz⟩ : ∃ z, p0[m + 1]? = some z :=
      ⟨_, List.getElem?_eq_getElem (lt_of_lt_of_le hlt hl'.kle)⟩
    have h1 := (hl'.arr (m + 1) z hz).1 hlt
    unfold fcfsStart
    rw [getD_of_getElem? hz, prevFinish_succ, hct']
    rw [hct'] at h1
    exact (max_eq_left h1).symm
  · intro _
    show _ ≤ t1.current_time
    rw [prevFinish_succ, hct']

/-- The initial arrival loop establishes `InOrder`. -/
theorem inOrder_init (quantum : Int) (p0 : List Process) (hc : Covered quantum p0) :
    ∃ k, InOrder p0 0 k (rrInit p0) := by
  rw [rrInit_eq]
  obtain ⟨k', _, hfr, hl'⟩ := scan_lined p0 p0 ArrivalBody.init 0 0
    hc.sorted hc.small rfl (fun i y hy => ⟨y, hy, rfl⟩) (by
      intro j y t _ ht
      refine ⟨fun _ hat _ => Or.inl ?_, fun hat => ?_, fun hjk _ => absurd hjk (Nat.not_lt_zero j)⟩
      · unfold arriveInit
        rw [if_pos (by rw [ht]; exact hat)]
      · unfold arriveInit
        rw [if_neg (by rw [ht]; omega)])
    (rrStart p0) rfl rfl (fun i => by simp [rrStart]) rfl (Nat.zero_le _)
    (fun i x _ hi => absurd hi (Nat.not_lt_zero i))
  obtain ⟨hp, hct, hcomp, hhead, _⟩ := hfr
  refine ⟨k', hl', Nat.zero_le _, hcomp, hhead, by rw [hp]; rfl, ?_, fun hlt => ?_, fun _ => ?_⟩
  · intro i x hx
    rw [hp, if_neg (Nat.not_lt_zero i)]
    exact hx
  · obtain ⟨x, hx⟩ : ∃ x, p0[0]? = some x :=
      ⟨_, List.getElem?_eq_getElem (lt_of_lt_of_le hlt hl'.kle)⟩
    have h1 := (hl'.arr 0 x hx).1 hlt
    rw [hct] at h1 ⊢
    unfold fcfsStart
    rw [getD_of_getElem? hx]
    show (0 : Int) = max 0 x.arrival_time
    exact (max_eq_left h1).symm
  · rw [hct]
    exact le_refl _

/-- Every state of the run of `simulate_RR` is `InOrder`. -/
theorem inOrder_rrRun (quantum : Int) (p0 : List Process) (hc : Covered quantum p0)
    (fuel : Nat) : ∃ m k, InOrder p0 m k (rrRun quantum fuel (rrInit p0)) := by
  apply rrRun_induct quantum (fun s => ∃ m k, InOrder p0 m k s)
  · rintro s ⟨m, k, h⟩ _
    unfold rrIter
    split
    · next he =>
      obtain ⟨k', h'⟩ := inOrder_idle quantum p0 hc m k s h he
      exact ⟨m, k', h'⟩
    · next hne =>
      obtain ⟨k', h'⟩ := inOrder_dispatch quantum p0 hc m k s h hne
      exact ⟨m + 1, k', h'⟩
  · obtain ⟨k, h⟩ := inOrder_init quantum p0 hc
    exact ⟨0, k, h⟩

/-- The metrics of the record Round Robin leaves are those of the record of FCFS
when the finish times agree. -/
theorem metrics_rrRecord (x : Process) (free : Int) :
    metricsOf (rrRecord x (max free x.arrival_time + x.burst_time))
      = metricsOf (fcfsRecord x free) := by
  simp only [metricsOf, rrRecord, fcfsRecord, Prod.mk.injEq]
  refine ⟨trivial, ?_, trivial⟩
  ring

/-- When the loop has left, the array of `simulate_RR` carries the metrics of
FCFS and no access has left the arrays. -/
theorem inOrder_done (p0 : List Process) (m k : Nat) (s : SimState) (h : InOrder p0 m k s)
    (hdone : ¬ s.completed < s.p.length) :
    s.p.map metricsOf = (simulate_FCFS p0).map metricsOf ∧ s.oob = false := by
  refine ⟨?_, h.lined.in_bounds⟩
  have hm : p0.length ≤ m := by
    rw [h.completed, h.len] at hdone
    omega
  apply List.ext_getElem?
  intro i
  rw [List.getElem?_map, List.getElem?_map]
  by_cases hi : i < p0.length
  · obtain ⟨x, hx⟩ : ∃ x, p0[i]? = some x := ⟨_, List.getElem?_eq_getElem hi⟩
    rw [h.recs i x hx, if_pos (by omega), fcfs_record p0 i x hx, fcfsFinish_eq p0 i x hx]
    simp only [Option.map_some']
    unfold fcfsStart
    rw [getD_of_getElem? hx, metrics_rrRecord]
  · rw [List.getElem?_eq_none (by rw [h.len]; omega),
      List.getElem?_eq_none (by unfold simulate_FCFS; rw [fcfsLoop_length]; omega)]

theorem covered_reset (p : List Process) (quantum : Int)
    (hs : p.Pairwise (fun a b => a.arrival_time ≤ b.arrival_time))
    (hb : ∀ x ∈ p, 0 < x.burst_time) (hq : ∀ x ∈ p, x.burst_time ≤ quantum)
    (hn : p.length ≤ MAX_PROCESSES) : Covered quantum (reset_processes p) := by
  refine ⟨?_, ?_, ?_, ?_⟩
  · unfold reset_processes
    rw [List.pairwise_map]
    exact hs
  · intro x hx
    simp only [reset_processes, List.mem_map] at hx
    obtain ⟨y, hy, rfl⟩ := hx
    exact ⟨hb y hy, hq y hy⟩
  · intro x hx
    simp only [reset_processes, List.mem_map] at hx
    obtain ⟨y, _, rfl⟩ := hx
    exact ⟨rfl, rfl⟩
  · simpa [reset_processes] using hn

theorem outcomeOf_finished_done (s : SimState) (res : List Process)
    (h : outcomeOf s = Outcome.finished res) : ¬ s.completed < s.p.length := by
  intro hc
  rw [(outcomeOf_running s).2 hc] at h
  cases h

/-! ## Once an access has left the arrays -/

theorem forProcs_oob {body : Nat → Process → SimState → SimState} (hb : ArrivalBody body)
    (l : List Process) (i : Nat) (s : SimState) (h : s.oob = true) :
    (forProcs body l i s).oob = true := by
  apply forProcs_keeps body (fun t => t.oob = true) l i s h
  intro k x t _ ht
  rcases arrivalBody_cases hb (i + k) x t with e | e | ⟨e | e, _⟩ <;> rw [e]
  · exact ht
  · simp only [touch, ht, Bool.true_or]
  · simp only [enqueue, push, ht, Bool.true_or]
  · simp only [enqueue, push, touch, ht, Bool.true_or]

theorem rrTicks_oob (k : Nat) (s : SimState) (h : s.oob = true) : (rrTicks k s).oob = true := by
  induction k generalizing s with
  | zero => exact h
  | succ k ih => exact ih _ (forProcs_oob ArrivalBody.tick _ 0 _ h)

theorem rrIter_oob (quantum : Int) (s : SimState) (h : s.oob = true) :
    (rrIter quantum s).oob = true := by
  unfold rrIter
  split
  · exact forProcs_oob ArrivalBody.late _ 0 _ h
  · unfold rrDispatch runSlice rrSettle
    simp only
    have := rrTicks_oob (sliceOf quantum (s.p.getD (s.queue.getD s.head 0) default)).toNat
      { s with head := s.head + 1 } h
    split
    · exact this
    · simp only [push, this, Bool.true_or]

/-- A run of `simulate_RR` that has left the arrays gives no result. -/
theorem simulate_RR_oob (p : List Process) (quantum : Int) (h : (rrInit p).oob = true)
    (fuel : Nat) (res : List Process) : simulate_RR p quantum fuel ≠ Outcome.finished res := by
  have ho : (rrRun quantum fuel (rrInit p)).oob = true :=
    rrRun_induct quantum (fun s => s.oob = true) (fun s hs _ => rrIter_oob quantum s hs)
      fuel _ h
  unfold simulate_RR outcomeOf
  rw [ho]
  split <;> simp

/-! ## The 32-bit policies against the exact ones -/

theorem wrap_fits (z : Int) (h : FitsInt z) : wrap z = z := by
  unfold FitsInt INT_MIN INT_MAX at h
  unfold wrap
  omega

theorem fcfsLoop32_exact (p : List Process) (t : Int)
    (h : ∀ x ∈ fcfsLoop p t, FitsRec x) : fcfsLoop32 p t = fcfsLoop p t := by
  induction p generalizing t with
  | nil => rfl
  | cons y rest ih =>
    simp only [fcfsLoop, List.mem_cons, forall_eq_or_imp] at h
    obtain ⟨⟨_, h2, h3, h4⟩, hrest⟩ := h
    simp only at h2 h3 h4
    simp only [fcfsLoop32, fcfsLoop]
    rw [wrap_fits _ h4, wrap_fits _ h2, wrap_fits _ h3, ih _ hrest]

theorem simulate_FCFS32_exact (p : List Process) (h : FitsFCFS p) :
    simulate_FCFS32 p = simulate_FCFS p :=
  fcfsLoop32_exact p 0 h

theorem sjfIter32_exact (s : SJFState) (h : FitsSJFState (sjfIter s)) :
    sjfIter32 s = sjfIter s := by
  cases hsel : sjfSelect s with
  | none =>
    have h1 := h.1
    rw [sjfIter_none s hsel] at h1
    simp only [sjfIter32, sjfIter, hsel]
    rw [wrap_fits _ h1]
  | some idx =>
    obtain ⟨z, hz, -⟩ := sjfSelect_some s idx hsel
    have hlt : idx < s.p.length := by
      rcases Nat.lt_or_ge idx s.p.length with hlt | hge
      · exact hlt
      · rw [List.getElem?_eq_none hge] at hz; cases hz
    have hd : s.p.getD idx default = z := by
      rw [List.getD_eq_getElem?_getD, hz]; rfl
    have h1 := h.1
    have h2 := h.2
    rw [sjfIter_some s idx z hsel hz] at h1 h2
    have hm : sjfRecord z s.current_time ∈ s.p.set idx (sjfRecord z s.current_time) :=
      List.mem_iff_getElem?.2 ⟨idx, by rw [List.getElem?_set_self hlt]⟩
    obtain ⟨_, h3, h4, h5⟩ := h2 _ hm
    simp only [sjfRecord] at h3 h4 h5
    simp only at h1
    simp only [sjfIter32, sjfIter, hsel, hd]
    rw [wrap_fits _ h1, wrap_fits _ h3, wrap_fits _ h4]

theorem sjfRun32_add (a b : Nat) (s : SJFState) :
    sjfRun32 (a + b) s = sjfRun32 b (sjfRun32 a s) := by
  induction a generalizing s with
  | zero => simp [sjfRun32]
  | succ a ih =>
    rw [Nat.add_right_comm]
    simp only [sjfRun32]
    split
    · exact ih _
    · rename_i hc
      cases b with
      | zero => rfl
      | succ b => simp only [sjfRun32, hc, if_false]

theorem sjfRun32_exact (fuel : Nat) (s : SJFState)
    (h : ∀ k, k ≤ fuel → FitsSJFState (sjfRun k s)) : sjfRun32 fuel s = sjfRun fuel s := by
  induction fuel with
  | zero => rfl
  | succ n ih =>
    rw [sjfRun32_add n 1, sjfRun_add n 1, ih (fun k hk => h k (Nat.le_succ_of_le hk))]
    have h1 := h (n + 1) (Nat.le_refl _)
    rw [sjfRun_add n 1] at h1
    generalize sjfRun n s = t at h1 ⊢
    simp only [sjfRun32, sjfRun] at h1 ⊢
    split
    · rename_i hc
      rw [if_pos hc] at h1
      exact sjfIter32_exact t h1
    · rfl

theorem simulate_SJF32_exact (p : List Process) (fuel : Nat) (h : FitsSJF p fuel) :
    simulate_SJF32 p fuel = simulate_SJF p fuel := by
  unfold simulate_SJF32 simulate_SJF
  rw [sjfRun32_exact fuel _ h]

theorem rrTicks32_exact (k : Nat) (s : SimState) (hlo : INT_MIN ≤ s.current_time)
    (hhi : s.current_time + k ≤ INT_MAX) : rrTicks32 k s = rrTicks k s := by
  induction k generalizing s with
  | zero => rfl
  | succ k ih =>
    have h1 : rrTick32 s = rrTick s := by
      unfold rrTick32 rrTick
      rw [wrap_fits]
      exact ⟨by omega, by push_cast at hhi; omega⟩
    have h2 : (rrTick s).current_time = s.current_time + 1 := (rrTick_frame s).2.1
    simp only [rrTicks32, rrTicks, h1]
    apply ih
    · rw [h2]; omega
    · rw [h2]; push_cast at hhi; omega

theorem rrSettle32_exact (s : SimState) (idx : Nat) (slice : Int)
    (h1 : FitsInt ((s.p.getD idx default).remaining_time - slice))
    (h2 : (s.p.getD idx default).remaining_time - slice = 0 →
      FitsInt (s.current_time - (s.p.getD idx default).arrival_time) ∧
      FitsInt (s.current_time - (s.p.getD idx default).arrival_time
        - (s.p.getD idx default).burst_time)) :
    rrSettle32 s idx slice = rrSettle s idx slice := by
  unfold rrSettle32 rrSettle
  simp only [wrap_fits _ h1]
  split
  · rename_i h0
    obtain ⟨h3, h4⟩ := h2 h0
    simp only [wrap_fits _ h3, wrap_fits _ h4]
  · rfl

theorem runSlice32_exact (quantum : Int) (s : SimState) (idx : Nat) (x : Process)
    (hx : s.p[idx]? = some x) (hlo : INT_MIN ≤ s.current_time)
    (hf : FitsState (runSlice quantum s idx)) :
    runSlice32 quantum s idx = runSlice quantum s idx := by
  have hlt : idx < s.p.length := by
    rcases Nat.lt_or_ge idx s.p.length with hlt | hge
    · exact hlt
    · rw [List.getElem?_eq_none hge] at hx; cases hx
  have hd : s.p.getD idx default = x := by
    rw [List.getD_eq_getElem?_getD, hx]; rfl
  obtain ⟨hp, hct, -, -⟩ := runSlice_effect quantum s idx
  have hc := hf.1
  rw [hct, hd] at hc
  have hr := hf.2 (afterSlice quantum x s.current_time) (by
    rw [hp, hd]
    exact List.mem_iff_getElem?.2 ⟨idx, by rw [List.getElem?_set_self hlt]⟩)
  unfold runSlice32 runSlice
  simp only [hd]
  rw [rrTicks32_exact _ s hlo hc.2]
  obtain ⟨tp, tc, -⟩ := rrTicks_frame (sliceOf quantum x).toNat s
  apply rrSettle32_exact
  · rw [tp, hd]
    unfold afterSlice at hr
    split at hr
    · rename_i h0; rw [h0]; exact ⟨by decide, by decide⟩
    · exact hr.1
  · rw [tp, hd, tc]
    intro h0
    unfold afterSlice at hr
    rw [if_pos h0] at hr
    exact ⟨hr.2.2.1, hr.2.1⟩

theorem rrIter32_exact (quantum : Int) (s : SimState) (hlo : INT_MIN ≤ s.current_time)
    (hx : s.head ≠ s.queue.length → ∃ x, s.p[s.queue.getD s.head 0]? = some x)
    (hf : FitsState (rrIter quantum s)) : rrIter32 quantum s = rrIter quantum s := by
  unfold rrIter32
  unfold rrIter at hf ⊢
  split
  · rename_i he
    rw [if_pos he] at hf
    have hc := hf.1
    have h2 : (rrIdle s).current_time = s.current_time + 1 :=
      (forProcs_frame ArrivalBody.late _ _ _).2.1
    rw [h2] at hc
    unfold rrIdle32 rrIdle
    rw [wrap_fits _ hc]
  · rename_i hne
    rw [if_neg hne] at hf
    obtain ⟨x, hx⟩ := hx hne
    exact runSlice32_exact quantum _ _ x hx hlo hf

theorem rrRun32_add (quantum : Int) (a b : Nat) (s : SimState) :
    rrRun32 quantum (a + b) s = rrRun32 quantum b (rrRun32 quantum a s) := by
  induction a generalizing s with
  | zero => simp [rrRun32]
  | succ a ih =>
    rw [Nat.add_right_comm]
    simp only [rrRun32]
    split
    · exact ih _
    · rename_i hc
      cases b with
      | zero => rfl
      | succ b => simp only [rrRun32, hc, if_false]

theorem rrRun32_exact (p : List Process) (quantum : Int) (fuel : Nat)
    (h : FitsRR (reset_processes p) quantum fuel) :
    rrRun32 quantum fuel (rrInit (reset_processes p))
      = rrRun quantum fuel (rrInit (reset_processes p)) := by
  induction fuel with
  | zero => rfl
  | succ n ih =>
    rw [rrRun32_add quantum n 1, rrRun_add quantum n 1,
      ih (fun k hk => h k (Nat.le_succ_of_le hk))]
    have h0 := h n (Nat.le_succ n)
    have h1 := h (n + 1) (Nat.le_refl _)
    rw [rrRun_add quantum n 1] at h1
    have hq := queueCore_rrRun p quantum n
    generalize rrRun quantum n (rrInit (reset_processes p)) = t at h0 h1 hq ⊢
    simp only [rrRun32, rrRun] at h1 ⊢
    split
    · rename_i hc
      rw [if_pos hc] at h1
      exact rrIter32_exact quantum t h0.1.1
        (fun hne => (head_uncompleted t hq hne).imp fun _ hx => hx.1) h1
    · rfl

theorem simulate_RR32_exact (p : List Process) (quantum : Int) (fuel : Nat)
    (h : FitsRR (reset_processes p) quantum fuel) :
    simulate_RR32 (reset_processes p) quantum fuel
      = simulate_RR (reset_processes p) quantum fuel := by
  unfold simulate_RR32 simulate_RR
  rw [rrRun32_exact p quantum fuel h]

theorem rrpSwitch32_exact (penalty : Int) (s : SimState) (idx : Nat)
    (h : FitsInt (rrpSwitch penalty s idx).current_time) :
    rrpSwitch32 penalty s idx = rrpSwitch penalty s idx := by
  rw [rrpSwitch_clock] at h
  unfold rrpSwitch32 rrpSwitch
  by_cases hc : s.last_pid ≠ -1 ∧ (s.p.getD idx default).pid ≠ s.last_pid
  · rw [if_pos hc] at h
    simp only [hc, wrap_fits _ h]
  · simp only [hc, if_false]

theorem rrpIter32_exact (quantum penalty : Int) (hpen : 0 ≤ penalty) (s : SimState)
    (hlo : INT_MIN ≤ s.current_time)
    (hx : s.head ≠ s.queue.length → ∃ x, s.p[s.queue.getD s.head 0]? = some x)
    (hf : FitsState (rrpIter quantum penalty s)) :
    rrpIter32 quantum penalty s = rrpIter quantum penalty s := by
  unfold rrpIter32
  unfold rrpIter at hf ⊢
  split
  · rename_i he
    rw [if_pos he] at hf
    have hc : FitsInt (s.current_time + 1) := hf.1
    unfold rrpIdle32 rrpIdle
    rw [wrap_fits _ hc]
  · rename_i hne
    rw [if_neg hne] at hf
    obtain ⟨x, hx⟩ := hx hne
    unfold rrpDispatch32
    unfold rrpDispatch at hf ⊢
    have hsc := rrpSwitch_clock penalty { s with head := s.head + 1 } (s.queue.getD s.head 0)
    have hsp : (rrpSwitch penalty { s with head := s.head + 1 } (s.queue.getD s.head 0)).p
        = s.p := (rrpSwitch_frame penalty _ _).1
    obtain ⟨-, hct, -, -⟩ := runSlice_effect quantum
      (rrpSwitch penalty { s with head := s.head + 1 } (s.queue.getD s.head 0))
      (s.queue.getD s.head 0)
    have hc := hf.1
    rw [hct] at hc
    have hge : s.current_time ≤
        (rrpSwitch penalty { s with head := s.head + 1 } (s.queue.getD s.head 0)).current_time := by
      rw [hsc]; show s.current_time ≤ s.current_time + _; split <;> omega
    have hfit : FitsInt
        (rrpSwitch penalty { s with head := s.head + 1 } (s.queue.getD s.head 0)).current_time :=
      ⟨by omega, by have := hc.2; omega⟩
    show runSlice32 quantum
        (rrpSwitch32 penalty { s with head := s.head + 1 } (s.queue.getD s.head 0))
        (s.queue.getD s.head 0) = _
    rw [rrpSwitch32_exact penalty _ _ hfit]
    exact runSlice32_exact quantum _ _ x (by rw [hsp]; exact hx) hfit.1 hf

theorem rrpRun32_add (quantum penalty : Int) (a b : Nat) (s : SimState) :
    rrpRun32 quantum penalty (a + b) s
      = rrpRun32 quantum penalty b (rrpRun32 quantum penalty a s) := by
  induction a generalizing s with
  | zero => simp [rrpRun32]
  | succ a ih =>
    rw [Nat.add_right_comm]
    simp only [rrpRun32]
    split
    · exact ih _
    · rename_i hc
      cases b with
      | zero => rfl
      | succ b => simp only [rrpRun32, hc, if_false]

theorem rrpRun32_exact (p : List Process) (quantum penalty : Int) (hpen : 0 ≤ penalty)
    (fuel : Nat) (h : FitsRRP (reset_processes p) quantum penalty fuel) :
    rrpRun32 quantum penalty fuel (rrInit (reset_processes p))
      = rrpRun quantum penalty fuel (rrInit (reset_processes p)) := by
  induction fuel with
  | zero => rfl
  | succ n ih =>
    rw [rrpRun32_add quantum penalty n 1, rrpRun_add quantum penalty n 1,
      ih (fun k hk => h k (Nat.le_succ_of_le hk))]
    have h0 := h n (Nat.le_succ n)
    have h1 := h (n + 1) (Nat.le_refl _)
    rw [rrpRun_add quantum penalty n 1] at h1
    have hq := queueCore_rrpRun p quantum penalty n
    generalize rrpRun quantum penalty n (rrInit (reset_processes p)) = t at h0 h1 hq ⊢
    simp only [rrpRun32, rrpRun] at h1 ⊢
    split
    · rename_i hc
      rw [if_pos hc] at h1
      exact rrpIter32_exact quantum penalty hpen t h0.1.1
        (fun hne => (head_uncompleted t hq hne).imp fun _ hx => hx.1) h1
    · rfl

theorem simulate_RR_with_penalty32_exact (p : List Process) (quantum penalty : Int)
    (hpen : 0 ≤ penalty) (fuel : Nat) (h : FitsRRP (reset_processes p) quantum penalty fuel) :
    simulate_RR_with_penalty32 (reset_processes p) quantum penalty fuel
      = simulate_RR_with_penalty (reset_processes p) quantum penalty fuel := by
  unfold simulate_RR_with_penalty32 simulate_RR_with_penalty
  rw [rrpRun32_exact p quantum penalty hpen fuel h]

/-! ## Round Robin: when the exact values fit in an `int` -/

theorem rrInit_frame (p : List Process) :
    (rrInit p).current_time = 0 ∧ (rrInit p).completed = 0 := by
  obtain ⟨-, h2, h3, -⟩ := forProcs_frame ArrivalBody.init p 0 (rrStart p)
  exact ⟨h2, h3⟩

theorem runSlice_completed (quantum : Int) (s : SimState) (idx : Nat) :
    (runSlice quantum s idx).completed =
      if (s.p.getD idx default).remaining_time - sliceOf quantum (s.p.getD idx default) = 0
      then s.completed + 1 else s.completed := by
  obtain ⟨tp, -, tc, -⟩ := rrTicks_frame (sliceOf quantum (s.p.getD idx default)).toNat s
  unfold runSlice
  simp only
  split
  · rename_i h
    rw [rrSettle_done _ _ _ (by rw [tp]; exact h)]
    simp only [tc]
  · rename_i h
    rw [rrSettle_again _ _ _ (by rw [tp]; exact h)]
    simp only [push, tc]

/-- What one iteration of the loop of `simulate_RR` does to the clock, the process
array and the counter `completed`: `t` is the time at which the slice starts. -/
def StepShape (quantum : Int) (s s1 : SimState) : Prop :=
  (s.head = s.queue.length →
    s1.p = s.p ∧ s1.current_time = s.current_time + 1 ∧ s1.completed = s.completed) ∧
  (s.head ≠ s.queue.length → ∃ t : Int, s.current_time ≤ t ∧
    s1.p = s.p.set (s.queue.getD s.head 0) (afterSlice quantum (headProc s) t) ∧
    s1.current_time = t + (sliceOf quantum (headProc s)).toNat ∧
    s1.completed =
      if (headProc s).remaining_time - sliceOf quantum (headProc s) = 0
      then s.completed + 1 else s.completed)

theorem rrIter_shape (quantum : Int) (s : SimState) : StepShape quantum s (rrIter quantum s) := by
  unfold StepShape rrIter
  refine ⟨fun he => ?_, fun hne => ?_⟩
  · rw [if_pos he]
    obtain ⟨h1, h2, h3, -⟩ := forProcs_frame ArrivalBody.late s.p 0
      { s with current_time := s.current_time + 1 }
    exact ⟨h1, h2, h3⟩
  · rw [if_neg hne]
    obtain ⟨h1, h2, -⟩ := runSlice_effect quantum { s with head := s.head + 1 }
      (s.queue.getD s.head 0)
    exact ⟨s.current_time, le_refl _, h1, h2, runSlice_completed quantum _ _⟩

theorem rrpIter_shape (quantum penalty : Int) (hpen : 0 ≤ penalty) (s : SimState) :
    StepShape quantum s (rrpIter quantum penalty s) := by
  unfold StepShape rrpIter
  refine ⟨fun he => ?_, fun hne => ?_⟩
  · rw [if_pos he]
    exact ⟨rfl, rfl, rfl⟩
  · rw [if_neg hne]
    obtain ⟨hp, -, hcp, -⟩ := rrpSwitch_frame penalty { s with head := s.head + 1 }
      (s.queue.getD s.head 0)
    have hsc := rrpSwitch_clock penalty { s with head := s.head + 1 } (s.queue.getD s.head 0)
    obtain ⟨h1, h2, -⟩ := runSlice_effect quantum
      (rrpSwitch penalty { s with head := s.head + 1 } (s.queue.getD s.head 0))
      (s.queue.getD s.head 0)
    have h3 := runSlice_completed quantum
      (rrpSwitch penalty { s with head := s.head + 1 } (s.queue.getD s.head 0))
      (s.queue.getD s.head 0)
    rw [hp] at h1 h2 h3
    rw [hcp] at h3
    refine ⟨_, ?_, h1, h2, h3⟩
    rw [hsc]
    show s.current_time ≤ s.current_time + _
    split <;> omega

/-- The records of a Round Robin run on a process set with arrivals at or after 0
and positive bursts that fit in an `int`: an uncompleted record has its metrics
at 0 and between 0 and its burst left to run, a completed one has nothing left. -/
def RecOk (x : Process) : Prop :=
  0 ≤ x.arrival_time ∧ 0 < x.burst_time ∧ x.burst_time ≤ INT_MAX ∧
  (x.is_completed = 0 → x.waiting_time = 0 ∧ x.turnaround_time = 0 ∧ x.finish_time = 0 ∧
    0 ≤ x.remaining_time ∧ x.remaining_time ≤ x.burst_time) ∧
  (x.is_completed ≠ 0 → x.remaining_time = 0)

theorem recOk_reset (p : List Process)
    (h : ∀ x ∈ p, 0 ≤ x.arrival_time ∧ 0 < x.burst_time ∧ x.burst_time ≤ INT_MAX) :
    ∀ x ∈ reset_processes p, RecOk x := by
  intro x hx
  obtain ⟨y, hy, rfl⟩ := List.mem_map.1 hx
  obtain ⟨h1, h2, h3⟩ := h y hy
  refine ⟨h1, h2, h3, fun _ => ⟨rfl, rfl, rfl, ?_, ?_⟩, fun hc => absurd rfl hc⟩
  · show 0 ≤ y.burst_time
    omega
  · exact le_refl _

theorem recOk_afterSlice (quantum : Int) (hq : 0 < quantum) (x : Process) (t : Int)
    (h : RecOk x) : RecOk (afterSlice quantum x t) := by
  obtain ⟨h1, h2, h3, h4, h5⟩ := h
  unfold afterSlice
  split
  · exact ⟨h1, h2, h3, fun hc => absurd hc (show (1 : Int) ≠ 0 by decide), fun _ => rfl⟩
  · rename_i hne
    refine ⟨h1, h2, h3, fun hc => ?_, fun hc => ?_⟩
    · obtain ⟨a1, a2, a3, a4, a5⟩ := h4 hc
      refine ⟨a1, a2, a3, ?_, ?_⟩
      · show 0 ≤ x.remaining_time - sliceOf quantum x
        unfold sliceOf
        split <;> omega
      · show x.remaining_time - sliceOf quantum x ≤ x.burst_time
        unfold sliceOf
        split <;> omega
    · have h0 := h5 hc
      exfalso
      apply hne
      unfold sliceOf
      rw [h0]
      split <;> omega

/-- The clock is not negative and no completed record carries a finish time
that the clock has not reached. -/
def Seen (s : SimState) : Prop :=
  0 ≤ s.current_time ∧ ∀ x ∈ s.p, x.is_completed ≠ 0 → x.finish_time ≤ s.current_time

theorem seen_step (quantum : Int) (s s1 : SimState) (hs : StepShape quantum s s1)
    (h : Seen s) : Seen s1 := by
  obtain ⟨h0, hrec⟩ := h
  by_cases he : s.head = s.queue.length
  · obtain ⟨e1, e2, -⟩ := hs.1 he
    refine ⟨by omega, fun x hx hc => ?_⟩
    rw [e1] at hx
    have := hrec x hx hc
    omega
  · obtain ⟨t, ht, e1, e2, -⟩ := hs.2 he
    refine ⟨by omega, fun x hx hc => ?_⟩
    rw [e1] at hx
    rcases List.mem_or_eq_of_mem_set hx with hx | rfl
    · have := hrec x hx hc
      omega
    · unfold afterSlice at hc ⊢
      split
      · rw [e2]
        exact le_refl _
      · rename_i hne
        rw [if_neg hne] at hc
        have hc2 : (headProc s).is_completed ≠ 0 := hc
        have hmem : headProc s ∈ s.p := by
          unfold headProc at hc2 ⊢
          cases hg : s.p[s.queue.getD s.head 0]? with
          | none =>
            rw [List.getD_eq_getElem?_getD, hg] at hc2
            exact absurd rfl hc2
          | some z =>
            rw [getD_of_getElem? hg]
            exact List.getElem?_mem hg
        have := hrec _ hmem hc2
        show (headProc s).finish_time ≤ s1.current_time
        omega

theorem clock_step (quantum : Int) (s s1 : SimState) (hs : StepShape quantum s s1) :
    s.current_time ≤ s1.current_time := by
  by_cases he : s.head = s.queue.length
  · obtain ⟨-, e2, -⟩ := hs.1 he
    omega
  · obtain ⟨t, ht, -, e2, -⟩ := hs.2 he
    omega

theorem rrRun_clock_le (quantum : Int) (m : Nat) (s : SimState) :
    s.current_time ≤ (rrRun quantum m s).current_time :=
  rrRun_induct quantum (fun t => s.current_time ≤ t.current_time)
    (fun t ht _ => le_trans ht (clock_step quantum t _ (rrIter_shape quantum t))) m s (le_refl _)

theorem rrpRun_clock_le (quantum penalty : Int) (hpen : 0 ≤ penalty) (m : Nat) (s : SimState) :
    s.current_time ≤ (rrpRun quantum penalty m s).current_time :=
  rrpRun_induct quantum penalty (fun t => s.current_time ≤ t.current_time)
    (fun t ht _ => le_trans ht (clock_step quantum t _ (rrpIter_shape quantum penalty hpen t)))
    m s (le_refl _)

theorem seen_init (p : List Process) : Seen (rrInit (reset_processes p)) := by
  refine ⟨by rw [(rrInit_frame _).1], fun x hx hc => ?_⟩
  rw [rrInit_p] at hx
  exact absurd (reset_uncompleted p x hx) hc

theorem fitsState_of (s : SimState) (hr : ∀ x ∈ s.p, RecOk x) (hs : Seen s)
    (hd : ∀ x ∈ s.p, x.is_completed ≠ 0 → Conserved x ∧ NotEarly x)
    (hc : s.current_time ≤ INT_MAX) : FitsState s := by
  obtain ⟨h0, hseen⟩ := hs
  unfold INT_MAX at hc
  refine ⟨⟨by unfold INT_MIN; omega, hc⟩, fun x hx => ?_⟩
  obtain ⟨h1, h2, h3, h4, h5⟩ := hr x hx
  unfold INT_MAX at h3
  unfold FitsRec FitsInt INT_MIN INT_MAX
  by_cases hcx : x.is_completed = 0
  · obtain ⟨a1, a2, a3, a4, a5⟩ := h4 hcx
    omega
  · obtain ⟨⟨c1, c2⟩, ⟨n1, n2⟩⟩ := hd x hx hcx
    have := hseen x hx hcx
    have := h5 hcx
    omega

/-- The exact values of the first `fuel` iterations of `simulate_RR` fit in an
`int` as soon as the clock reached after `fuel` iterations does, on arrivals at or
after 0 and positive bursts that fit. -/
theorem fitsRR_of_final (p : List Process) (quantum : Int) (hq : 0 < quantum)
    (hdom : ∀ x ∈ p, 0 ≤ x.arrival_time ∧ 0 < x.burst_time ∧ x.burst_time ≤ INT_MAX)
    (fuel : Nat)
    (h : (rrRun quantum fuel (rrInit (reset_processes p))).current_time ≤ INT_MAX) :
    FitsRR (reset_processes p) quantum fuel := by
  intro k hk
  apply fitsState_of
  · exact rrRun_keeps RecOk quantum (fun x t => recOk_afterSlice quantum hq x t) _
      (recOk_reset p hdom) k
  · exact rrRun_induct quantum Seen
      (fun t ht _ => seen_step quantum t _ (rrIter_shape quantum t) ht) k _ (seen_init p)
  · exact (workInv_rrRun p quantum k).done
  · have h1 := rrRun_clock_le quantum (fuel - k) (rrRun quantum k (rrInit (reset_processes p)))
    rw [← rrRun_add, Nat.add_sub_cancel' hk] at h1
    omega

/-- The same for `simulate_RR_with_penalty` with a penalty that is not negative. -/
theorem fitsRRP_of_final (p : List Process) (quantum penalty : Int) (hq : 0 < quantum)
    (hpen : 0 ≤ penalty)
    (hdom : ∀ x ∈ p, 0 ≤ x.arrival_time ∧ 0 < x.burst_time ∧ x.burst_time ≤ INT_MAX)
    (fuel : Nat)
    (h : (rrpRun quantum penalty fuel (rrInit (reset_processes p))).current_time ≤ INT_MAX) :
    FitsRRP (reset_processes p) quantum penalty fuel := by
  intro k hk
  apply fitsState_of
  · exact rrpRun_keeps RecOk quantum penalty (fun x t => recOk_afterSlice quantum hq x t) _
      (recOk_reset p hdom) k
  · exact rrpRun_induct quantum penalty Seen
      (fun t ht _ => seen_step quantum t _ (rrpIter_shape quantum penalty hpen t) ht) k _
      (seen_init p)
  · exact (workInv_rrpRun p quantum penalty hpen k).done
  · have h1 := rrpRun_clock_le quantum penalty hpen (fuel - k)
      (rrpRun quantum penalty k (rrInit (reset_processes p)))
    rw [← rrpRun_add, Nat.add_sub_cancel' hk] at h1
    omega

/-- The loop has left with the clock at the finish time of a completed record, or
at 0 on entry for an empty process array. -/
def EndsAtFinish (s : SimState) : Prop :=
  ¬ s.completed < s.p.length →
    (s.p = [] ∧ s.current_time = 0) ∨
    ∃ x ∈ s.p, x.is_completed ≠ 0 ∧ x.finish_time = s.current_time

theorem endsAtFinish_step (quantum : Int) (s s1 : SimState) (hs : StepShape quantum s s1)
    (hq : QueueCore none s) (hrun : s.completed < s.p.length) : EndsAtFinish s1 := by
  intro hdone
  right
  by_cases he : s.head = s.queue.length
  · obtain ⟨e1, -, e3⟩ := hs.1 he
    rw [e1, e3] at hdone
    exact absurd hrun hdone
  · obtain ⟨t, -, e1, e2, e3⟩ := hs.2 he
    obtain ⟨x, hx, -⟩ := head_uncompleted s hq he
    have hlt : s.queue.getD s.head 0 < s.p.length := by
      rcases Nat.lt_or_ge (s.queue.getD s.head 0) s.p.length with hlt | hge
      · exact hlt
      · rw [List.getElem?_eq_none hge] at hx; cases hx
    have hlen : s1.p.length = s.p.length := by rw [e1, List.length_set]
    by_cases h0 : (headProc s).remaining_time - sliceOf quantum (headProc s) = 0
    · refine ⟨afterSlice quantum (headProc s) t, ?_, ?_, ?_⟩
      · rw [e1]
        exact List.mem_iff_getElem?.2 ⟨_, by rw [List.getElem?_set_self hlt]⟩
      · unfold afterSlice
        rw [if_pos h0]
        exact (show (1 : Int) ≠ 0 by decide)
      · unfold afterSlice
        rw [if_pos h0, e2]
        rfl
    · rw [if_neg h0] at e3
      rw [e3, hlen] at hdone
      exact absurd hrun hdone

theorem endsAtFinish_init (p : List Process) : EndsAtFinish (rrInit (reset_processes p)) := by
  intro hdone
  left
  obtain ⟨h1, h2⟩ := rrInit_frame (reset_processes p)
  rw [h2, rrInit_p] at hdone
  have : (reset_processes p).length = 0 := by omega
  rw [rrInit_p]
  exact ⟨List.length_eq_zero.1 this, h1⟩

theorem rrRun_endsAtFinish (p : List Process) (quantum : Int) (fuel : Nat) :
    EndsAtFinish (rrRun quantum fuel (rrInit (reset_processes p))) :=
  (rrRun_induct quantum (fun t => QueueCore none t ∧ EndsAtFinish t)
    (fun t ht hrun => ⟨queueCore_rrIter quantum t ht.1,
      endsAtFinish_step quantum t _ (rrIter_shape quantum t) ht.1 hrun⟩)
    fuel _ ⟨queueCore_init p, endsAtFinish_init p⟩).2

theorem rrpRun_endsAtFinish (p : List Process) (quantum penalty : Int) (hpen : 0 ≤ penalty)
    (fuel : Nat) : EndsAtFinish (rrpRun quantum penalty fuel (rrInit (reset_processes p))) :=
  (rrpRun_induct quantum penalty (fun t => QueueCore none t ∧ EndsAtFinish t)
    (fun t ht hrun => ⟨queueCore_rrpIter quantum penalty t ht.1,
      endsAtFinish_step quantum t _ (rrpIter_shape quantum penalty hpen t) ht.1 hrun⟩)
    fuel _ ⟨queueCore_init p, endsAtFinish_init p⟩).2

/-! ## Main results -/

/-- The workload of `main`: pids 1 to 10 with the hard-coded arrivals and bursts,
after `reset_processes`. -/
def mainWorkload : List Process :=
  reset_processes
    [mkProcess 1 0 20, mkProcess 2 2 2, mkProcess 3 4 1, mkProcess 4 5 5, mkProcess 5 8 3,
     mkProcess 6 10 1, mkProcess 7 12 4, mkProcess 8 15 10, mkProcess 9 18 2,
     mkProcess 10 20 8]

/-- The three-process example of the FCFS determinism property: arrivals 0, 2, 4
and bursts 5, 3, 2. -/
def fcfsExample : List Process :=
  reset_processes [mkProcess 1 0 5, mkProcess 2 2 3, mkProcess 3 4 2]

/-- Two processes arriving at time 0 with bursts 2147483647 and 1.  Both bursts
are positive `int`s; the clock of FCFS reaches `INT_MAX` after the first process
and the statement `current_time += burst_time` overflows at the second. -/
def clockOverflow : List Process := [mkProcess 1 0 2147483647, mkProcess 2 0 1]

/-- The process set of the Round Robin example: arrivals 0 and 4, bursts 8 and 1,
after `reset_processes`. -/
def smallWorkload : List Process := reset_processes [mkProcess 1 0 8, mkProcess 2 4 1]

/-- C3 as stated fails on `clockOverflow`, which is sorted by arrival time.  In
32-bit arithmetic FCFS leaves the second process with `finish_time = -2147483648`,
where `max (finish of the first) arrival + burst_time` is `2147483648`. -/
theorem fcfs_reference_overflow :
    clockOverflow.Pairwise (fun a b => a.arrival_time ≤ b.arrival_time) ∧
    (simulate_FCFS32 clockOverflow).map (fun x => x.finish_time)
      = [2147483647, -2147483648] ∧
    max (prevFinish (simulate_FCFS32 clockOverflow) 1) 0 + 1 = 2147483648 ∧
    ¬ (∀ i x, clockOverflow[i]? = some x →
        (simulate_FCFS32 clockOverflow)[i]?
          = some (fcfsRecord x (prevFinish (simulate_FCFS32 clockOverflow) i))) := by
  refine ⟨by decide, by decide, by decide, fun h => ?_⟩
  have h1 := h 1 (mkProcess 2 0 1) rfl
  revert h1
  decide

/-- C3, FCFS reference semantics, for runs in which no `int` operation overflows.
For a process set sorted by arrival time on which the values FCFS computes all
fit in an `int`, `simulate_FCFS` in 32-bit arithmetic leaves at every position
`i` the record with
`start = max (finish of position i - 1, or 0 for i = 0) arrival`,
`finish_time = start + burst_time`, `waiting_time = start - arrival_time` and
`turnaround_time = finish_time - arrival_time`; on arrivals 0, 2, 4 with bursts
5, 3, 2 the finish times are 5, 8, 10 and the waiting times 0, 3, 4.  (The proof
does not use the sortedness.) -/
theorem fcfs_reference_semantics (p : List Process)
    (_hsorted : p.Pairwise (fun a b => a.arrival_time ≤ b.arrival_time))
    (hfit : FitsFCFS p) :
    (simulate_FCFS32 p).length = p.length ∧
    (∀ i x, p[i]? = some x →
      (simulate_FCFS32 p)[i]? = some (fcfsRecord x (prevFinish (simulate_FCFS32 p) i))) ∧
    (simulate_FCFS32 fcfsExample).map (fun x => (x.finish_time, x.waiting_time))
      = [(5, 0), (8, 3), (10, 4)] := by
  rw [simulate_FCFS32_exact p hfit]
  refine ⟨fcfsLoop_length p 0, ?_, by decide⟩
  intro i x hx
  exact fcfsLoop_get p 0 i x hx

/-- Witness of C3 on the three-process example. -/
theorem fcfs_reference_semantics_witness :
    fcfsExample.Pairwise (fun a b => a.arrival_time ≤ b.arrival_time) ∧
    FitsFCFS fcfsExample ∧
    (simulate_FCFS32 fcfsExample).length = fcfsExample.length ∧
    (∀ i x, fcfsExample[i]? = some x →
      (simulate_FCFS32 fcfsExample)[i]?
        = some (fcfsRecord x (prevFinish (simulate_FCFS32 fcfsExample) i))) ∧
    (simulate_FCFS32 fcfsExample).map (fun x => (x.finish_time, x.waiting_time))
      = [(5, 0), (8, 3), (10, 4)] :=
  ⟨by decide, by decide, fcfs_reference_semantics fcfsExample (by decide) (by decide)⟩

/-- A single process, arriving at time 0, whose burst equals the value `min_burst`
starts from in the scan of `simulate_SJF`. -/
def sjfStarved : List Process := reset_processes [mkProcess 1 0 99999]

theorem sjfStarved_run (fuel : Nat) (t : Nat) :
    sjfRun fuel ⟨sjfStarved, t, 0⟩ = ⟨sjfStarved, (t : Int) + fuel, 0⟩ := by
  induction fuel generalizing t with
  | zero => simp [sjfRun]
  | succ k ih =>
    have hsel : sjfSelect ⟨sjfStarved, (t : Int), 0⟩ = none := by
      rw [sjfSelect_none]
      intro y hy _
      simp only [sjfStarved, reset_processes, List.map_cons, List.map_nil,
        List.mem_singleton] at hy
      subst hy
      decide
    have hlen : (0 : Nat) < sjfStarved.length := by decide
    simp only [sjfRun, hlen, if_true]
    rw [sjfIter_none _ hsel]
    have := ih (t + 1)
    simp only [Nat.cast_add, Nat.cast_one] at this ⊢
    rw [this]
    congr 1
    ring

/-- C4, SJF selection, at the input on which the code departs from it: one process
with arrival 0 and burst 99999.  The process is eligible at time 0 and has a
positive burst, yet the scan returns no index (its comparison
`burst_time < min_burst` starts from `min_burst = 99999`), every iteration takes
the idle branch, and `simulate_SJF` never returns. -/
theorem sjf_scan_misses_long_burst :
    (∃ x, sjfStarved[0]? = some x ∧ Eligible 0 x ∧ 0 < x.burst_time) ∧
    sjfSelect (sjfInit sjfStarved) = none ∧
    (∀ fuel, sjfRun fuel (sjfInit sjfStarved) = ⟨sjfStarved, fuel, 0⟩) ∧
    (∀ fuel, simulate_SJF sjfStarved fuel = none) := by
  have hrun : ∀ fuel, sjfRun fuel (sjfInit sjfStarved) = ⟨sjfStarved, fuel, 0⟩ := by
    intro fuel
    have := sjfStarved_run fuel 0
    simpa [sjfInit] using this
  refine ⟨⟨resetProcess (mkProcess 1 0 99999), rfl, by decide, by decide⟩, by decide, hrun, ?_⟩
  intro fuel
  have hlen : (0 : Nat) < sjfStarved.length := by decide
  simp only [simulate_SJF, hrun fuel, hlen, if_true]

/-- Two processes arriving at time 0 whose bursts both equal the value `min_burst`
starts from in the scan of `simulate_SJF`. -/
def sjfTied : List Process := reset_processes [mkProcess 1 0 99999, mkProcess 2 0 99999]

theorem sjfTied_select (t : Int) (c : Nat) : sjfSelect ⟨sjfTied, t, c⟩ = none := by
  rw [sjfSelect_none]
  intro y hy _
  simp only [sjfTied, reset_processes, List.map_cons, List.map_nil, List.mem_cons,
    List.mem_singleton, List.not_mem_nil, or_false] at hy
  rcases hy with rfl | rfl <;> decide

theorem sjfTied_run (fuel : Nat) (t : Nat) :
    sjfRun fuel ⟨sjfTied, t, 0⟩ = ⟨sjfTied, (t : Int) + fuel, 0⟩ := by
  induction fuel generalizing t with
  | zero => simp [sjfRun]
  | succ k ih =>
    have hlen : (0 : Nat) < sjfTied.length := by decide
    simp only [sjfRun, hlen, if_true]
    rw [sjfIter_none _ (sjfTied_select _ _)]
    have := ih (t + 1)
    simp only [Nat.cast_add, Nat.cast_one] at this ⊢
    rw [this]
    congr 1
    ring

theorem sjfTied_run32 (fuel : Nat) (t : Int) :
    (sjfRun32 fuel ⟨sjfTied, t, 0⟩).p = sjfTied ∧
    (sjfRun32 fuel ⟨sjfTied, t, 0⟩).completed = 0 := by
  induction fuel generalizing t with
  | zero => exact ⟨rfl, rfl⟩
  | succ k ih =>
    have hlen : (0 : Nat) < sjfTied.length := by decide
    have hit : sjfIter32 ⟨sjfTied, t, 0⟩ = ⟨sjfTied, wrap (t + 1), 0⟩ := by
      simp only [sjfIter32, sjfTied_select]
    simp only [sjfRun32, hlen, if_true]
    rw [hit]
    exact ih _

/-- C5, SJF tie-break, at an input on which the code departs from it: two
processes with arrival 0 and burst 99999.  At the first decision point both are
eligible with the same positive burst, which is the minimum among the eligible
ones, yet the scan returns no index (its comparison `burst_time < min_burst`
starts from `min_burst = 99999`): every iteration takes the idle branch, over the
integers and in 32-bit arithmetic alike, the process at index 0 is never
dispatched, both finish times stay 0, and `simulate_SJF` never returns. -/
theorem sjf_tie_break_starved :
    (∃ xi xj, (sjfInit sjfTied).p[0]? = some xi ∧ (sjfInit sjfTied).p[1]? = some xj ∧
      Eligible (sjfInit sjfTied).current_time xi ∧
      Eligible (sjfInit sjfTied).current_time xj ∧
      0 < xi.burst_time ∧ xi.burst_time = xj.burst_time ∧
      ∀ y ∈ (sjfInit sjfTied).p,
        Eligible (sjfInit sjfTied).current_time y → xi.burst_time ≤ y.burst_time) ∧
    sjfSelect (sjfInit sjfTied) = none ∧
    (∀ fuel, sjfRun fuel (sjfInit sjfTied) = ⟨sjfTied, fuel, 0⟩) ∧
    (∀ fuel, (sjfRun32 fuel (sjfInit sjfTied)).p = sjfTied ∧
      (sjfRun32 fuel (sjfInit sjfTied)).completed = 0) ∧
    (∀ x ∈ sjfTied, x.finish_time = 0 ∧ x.is_completed = 0) ∧
    (∀ fuel, simulate_SJF sjfTied fuel = none ∧ simulate_SJF32 sjfTied fuel = none) := by
  have hrun : ∀ fuel, sjfRun fuel (sjfInit sjfTied) = ⟨sjfTied, fuel, 0⟩ := by
    intro fuel
    have := sjfTied_run fuel 0
    simpa [sjfInit] using this
  have hrun32 : ∀ fuel, (sjfRun32 fuel (sjfInit sjfTied)).p = sjfTied ∧
      (sjfRun32 fuel (sjfInit sjfTied)).completed = 0 := fun fuel => sjfTied_run32 fuel 0
  refine ⟨⟨resetProcess (mkProcess 1 0 99999), resetProcess (mkProcess 2 0 99999), rfl, rfl,
    by decide, by decide, by decide, by decide, by decide⟩, sjfTied_select _ _, hrun, hrun32,
    by decide, ?_⟩
  intro fuel
  have hlen : (0 : Nat) < sjfTied.length := by decide
  constructor
  · simp only [simulate_SJF, hrun fuel, hlen, if_true]
  · simp only [simulate_SJF32, (hrun32 fuel).1, (hrun32 fuel).2, hlen, if_true]

/-- The tie-break of SJF below the bound of the scan, computed over the integers,
for positive bursts.  If at a decision point of
`simulate_SJF` (any number `k` of iterations into the run) the processes at
positions `i < j` are both eligible with the same burst, minimal among the
eligible ones, then `j` is never dispatched before `i`: in every later state in
which `j` is completed, `i` is completed with a smaller finish time.  When every
burst is moreover below 99999 the run returns and the finish time of `i` is
smaller than that of `j` in the result. -/
theorem sjf_tie_break_exact (p : List Process) (hb : ∀ x ∈ p, 0 < x.burst_time)
    (k i j : Nat) (hij : i < j) (xi xj : Process)
    (hdp : (sjfRun k (sjfInit (reset_processes p))).completed
      < (sjfRun k (sjfInit (reset_processes p))).p.length)
    (hi : (sjfRun k (sjfInit (reset_processes p))).p[i]? = some xi)
    (hj : (sjfRun k (sjfInit (reset_processes p))).p[j]? = some xj)
    (ei : Eligible (sjfRun k (sjfInit (reset_processes p))).current_time xi)
    (ej : Eligible (sjfRun k (sjfInit (reset_processes p))).current_time xj)
    (heq : xi.burst_time = xj.burst_time)
    (_hmin : ∀ y ∈ (sjfRun k (sjfInit (reset_processes p))).p,
      Eligible (sjfRun k (sjfInit (reset_processes p))).current_time y →
        xi.burst_time ≤ y.burst_time) :
    (∀ m yi yj, (sjfRun (k + m) (sjfInit (reset_processes p))).p[i]? = some yi →
      (sjfRun (k + m) (sjfInit (reset_processes p))).p[j]? = some yj →
      yj.is_completed ≠ 0 → yi.is_completed ≠ 0 ∧ yi.finish_time < yj.finish_time) ∧
    ((∀ x ∈ p, x.burst_time < 99999) →
      ∃ fuel res yi yj, simulate_SJF (reset_processes p) fuel = some res ∧
        res[i]? = some yi ∧ res[j]? = some yj ∧ yi.finish_time < yj.finish_time) := by
  have _ := hdp
  have hpos := sjfRun_burst_pos p hb k
  have h0 : TieOrder i j (sjfRun k (sjfInit (reset_processes p))) :=
    ⟨xi, xj, hi, hj, ei.1, ej.1, heq, hpos xj (List.getElem?_mem hj),
      fun hc => absurd ej.2 hc, fun hc => absurd ei.2 hc⟩
  have hlater : ∀ m, TieOrder i j (sjfRun (k + m) (sjfInit (reset_processes p))) := by
    intro m
    rw [sjfRun_add]
    exact tieOrder_run i j hij m _ hpos h0
  refine ⟨?_, ?_⟩
  · intro m yi yj hyi hyj hc
    obtain ⟨zi, zj, hzi, hzj, _, _, _, _, hord, _⟩ := hlater m
    rw [hzi] at hyi; rw [hzj] at hyj
    obtain rfl := Option.some.inj hyi
    obtain rfl := Option.some.inj hyj
    exact hord hc
  · intro hlt
    obtain ⟨fuel, res, hres, hrun, hall⟩ :=
      simulate_SJF_terminates p (fun x hx => ⟨hb x hx, hlt x hx⟩)
    -- the final state is also a state reached after `k + fuel` iterations
    have hsame : sjfRun (k + fuel) (sjfInit (reset_processes p))
        = sjfRun fuel (sjfInit (reset_processes p)) := by
      have hdone : ¬ (sjfRun fuel (sjfInit (reset_processes p))).completed
          < (sjfRun fuel (sjfInit (reset_processes p))).p.length := by
        intro hc
        simp [simulate_SJF, hc] at hres
      rw [Nat.add_comm, sjfRun_add, sjfRun_done k _ hdone]
    obtain ⟨zi, zj, hzi, hzj, _, _, _, _, hord, _⟩ := hlater fuel
    rw [hsame, ← hrun] at hzi hzj
    exact ⟨fuel, res, zi, zj, hres, hzi, hzj, (hord (hall zj (List.getElem?_mem hzj))).2⟩

/-- Two processes arriving at time 0 with burst 60 each. -/
def twoLongProcesses : List Process := [mkProcess 1 0 60, mkProcess 2 0 60]

set_option maxRecDepth 100000 in
/-- C6 as stated fails when the slices do not fit the queue: two processes with
arrival 0 and burst 60, quantum 1, satisfy the hypotheses of the claim, but each
dispatch that does not finish a process writes a new cell of `queue`, 120 cells
are written in all and the array has `MAX_PROCESSES = 100`, so no run of
`simulate_RR` gives a result. -/
theorem rr_termination_overflow :
    (∀ x ∈ twoLongProcesses, 0 < x.burst_time ∧ 0 ≤ x.arrival_time) ∧
    simulate_RR (reset_processes twoLongProcesses) 1 120 = Outcome.overflow ∧
    ¬ ∃ fuel res,
      simulate_RR (reset_processes twoLongProcesses) 1 fuel = Outcome.finished res := by
  have h : simulate_RR (reset_processes twoLongProcesses) 1 120 = Outcome.overflow := by
    decide
  refine ⟨by decide, h, ?_⟩
  rintro ⟨fuel, res, hres⟩
  rcases le_total fuel 120 with hle | hle
  · have := simulate_RR_mono _ 1 fuel 120 (by rw [hres]; exact fun e => by cases e) hle
    rw [h, hres] at this
    cases this
  · have := simulate_RR_mono _ 1 120 fuel (by rw [h]; exact fun e => by cases e) hle
    rw [h, hres] at this
    cases this

/-- C6, termination and completion of Round Robin, for process sets whose slices
fit the queue.  For positive bursts, arrivals that are not negative, a positive
quantum and a queue demand (the sum over the processes of `burst_time / quantum`
rounded up) of at most `MAX_PROCESSES`, `simulate_RR` returns, no access leaves
the arrays, and every record of the result has `is_completed = 1` and
`remaining_time = 0`. -/
theorem rr_terminates_completed (p : List Process) (quantum : Int)
    (hb : ∀ x ∈ p, 0 < x.burst_time) (_ha : ∀ x ∈ p, 0 ≤ x.arrival_time)
    (hq : 0 < quantum) (hcap : queueDemand quantum p ≤ MAX_PROCESSES) :
    ∃ fuel res, simulate_RR (reset_processes p) quantum fuel = Outcome.finished res ∧
      res.length = p.length ∧
      ∀ x ∈ res, x.is_completed = 1 ∧ x.remaining_time = 0 := by
  have hrun0 := runInv_init p hb
  have hfit0 := fits_init quantum hq p hb hcap
  have hm0 := rrMeasure_nonneg (maxArrival (reset_processes p)) _ hrun0.queue
  let fuel := (rrMeasure (maxArrival (reset_processes p)) (rrInit (reset_processes p))).toNat
  have hdone := rrRun_terminates quantum _ hq fuel _ hrun0
    (by show _ ≤ ((Int.toNat _ : Nat) : Int); rw [Int.toNat_of_nonneg hm0])
  have hrun := runInv_rrRun quantum _ hq fuel _ hrun0
  have hfit := fits_rrRun quantum _ hq hcap fuel _ hfit0
  refine ⟨fuel, (rrRun quantum fuel (rrInit (reset_processes p))).p, ?_, ?_,
    all_completed _ hrun.queue hdone⟩
  · unfold simulate_RR outcomeOf
    rw [if_neg hdone, hfit.cap.in_bounds]
    simp
  · rw [rrRun_length, rrInit_p]
    simp [reset_processes]

/-- Witness of C6: the workload of `main` with quantum 4 (queue demand 18). -/
theorem rr_terminates_completed_witness :
    ∃ fuel res, simulate_RR (reset_processes mainWorkload) 4 fuel = Outcome.finished res ∧
      res.length = mainWorkload.length ∧
      ∀ x ∈ res, x.is_completed = 1 ∧ x.remaining_time = 0 :=
  rr_terminates_completed mainWorkload 4 (by decide) (by decide) (by decide) (by decide)

/-- The two-process example of the arrival-before-requeue rule: arrivals 0 and 4,
bursts 8 and 1. -/
def rrExample : List Process := [mkProcess 1 0 8, mkProcess 2 4 1]

theorem rrIter_head (quantum : Int) (s : SimState) :
    (rrIter quantum s).head = if s.head = s.queue.length then s.head else s.head + 1 := by
  unfold rrIter
  split
  · exact (forProcs_frame ArrivalBody.late _ 0 _).2.2.2.1
  · unfold rrDispatch
    exact (runSlice_effect quantum _ _).2.2.1

/-- The counter `head` moves by one cell at a time: before it passes a cell `c`
there is an iteration that starts with `head = c`, the loop running and the queue
not empty, that is, the iteration that dispatches `queue[c]`. -/
theorem rrRun_head_passes (quantum : Int) (m : Nat) (s : SimState) (c : Nat)
    (h1 : s.head ≤ c) (h2 : c < (rrRun quantum m s).head) :
    ∃ m', m' < m ∧ (rrRun quantum m' s).head = c ∧
      (rrRun quantum m' s).completed < (rrRun quantum m' s).p.length ∧
      (rrRun quantum m' s).head ≠ (rrRun quantum m' s).queue.length := by
  induction m with
  | zero => exact absurd h2 (by simp only [rrRun]; omega)
  | succ m ih =>
    by_cases hc : c < (rrRun quantum m s).head
    · obtain ⟨m', hm, h⟩ := ih hc
      exact ⟨m', by omega, h⟩
    · rw [rrRun_add quantum m 1] at h2
      simp only [rrRun] at h2
      by_cases hrun : (rrRun quantum m s).completed < (rrRun quantum m s).p.length
      · rw [if_pos hrun, rrIter_head] at h2
        by_cases he : (rrRun quantum m s).head = (rrRun quantum m s).queue.length
        · rw [if_pos he] at h2
          exact absurd h2 hc
        · rw [if_neg he] at h2
          exact ⟨m, by omega, by omega, hrun, he⟩
      · rw [if_neg hrun] at h2
        exact absurd h2 hc

/-- Positions in a queue `old ++ a ++ [j] ++ b ++ [i]` whose part from `h + 1` on
holds no index twice, when `j` is not in `old` and `h` is a position of `old`: the
cell of `j` is the first to hold `j`, and the last cell is the only one behind `h`
to hold `i`. -/
theorem requeue_positions (old a b : List Nat) (i j h : Nat) (hh : h < old.length)
    (hj : j ∉ old) (hnd : ((old ++ a ++ [j] ++ b ++ [i]).drop (h + 1)).Nodup) :
    h < old.length + a.length ∧
    old.length + a.length < old.length + a.length + 1 + b.length ∧
    (old ++ a ++ [j] ++ b ++ [i])[old.length + a.length]? = some j ∧
    (old ++ a ++ [j] ++ b ++ [i])[old.length + a.length + 1 + b.length]? = some i ∧
    (∀ c, c < old.length + a.length → (old ++ a ++ [j] ++ b ++ [i])[c]? ≠ some j) ∧
    (∀ c, h < c → c < old.length + a.length + 1 + b.length →
      (old ++ a ++ [j] ++ b ++ [i])[c]? ≠ some i) := by
  have hsplit : (old ++ a ++ [j] ++ b ++ [i]).drop (h + 1)
      = old.drop (h + 1) ++ (a ++ j :: (b ++ [i])) := by
    have : old ++ a ++ [j] ++ b ++ [i] = old ++ (a ++ j :: (b ++ [i])) := by simp
    rw [this, List.drop_append_of_le_length (by omega)]
  rw [hsplit] at hnd
  have hnd2 : (a ++ j :: (b ++ [i])).Nodup := (List.nodup_append.1 hnd).2.1
  have hja : j ∉ a := fun hm => by
    have := (List.nodup_middle.1 hnd2)
    rw [List.nodup_cons] at this
    exact this.1 (List.mem_append_left _ hm)
  have hrest : (old.drop (h + 1) ++ a ++ [j] ++ b ++ [i]).Nodup := by
    have : old.drop (h + 1) ++ a ++ [j] ++ b ++ [i]
        = old.drop (h + 1) ++ (a ++ j :: (b ++ [i])) := by simp
    rw [this]; exact hnd
  have hi : i ∉ old.drop (h + 1) ++ a ++ [j] ++ b := fun hm => by
    have h1 := List.nodup_append.1 hrest
    exact h1.2.2 hm (List.mem_singleton_self i)
  refine ⟨by omega, by omega, ?_, ?_, ?_, ?_⟩
  · have : old ++ a ++ [j] ++ b ++ [i] = (old ++ a) ++ (j :: (b ++ [i])) := by simp
    rw [this, List.getElem?_append_right (by simp)]
    simp
  · have hl : (old ++ a ++ [j] ++ b).length = old.length + a.length + 1 + b.length := by
      simp only [List.length_append, List.length_singleton]
    rw [← hl]
    exact List.getElem?_concat_length _ _
  · intro c hc hget
    have : old ++ a ++ [j] ++ b ++ [i] = (old ++ a) ++ (j :: (b ++ [i])) := by simp
    rw [this, List.getElem?_append_left (by simp; omega)] at hget
    have hm := List.getElem?_mem hget
    rcases List.mem_append.1 hm with hm | hm
    · exact hj hm
    · exact hja hm
  · intro c hc1 hc2 hget
    have : old ++ a ++ [j] ++ b ++ [i] = (old ++ a ++ [j] ++ b) ++ [i] := by simp
    rw [this, List.getElem?_append_left (by simp; omega)] at hget
    have hd : ((old ++ a ++ [j] ++ b).drop (h + 1))[c - (h + 1)]? = some i := by
      rw [List.getElem?_drop]
      have : h + 1 + (c - (h + 1)) = c := by omega
      rw [this]; exact hget
    have hm := List.getElem?_mem hd
    have : (old ++ a ++ [j] ++ b).drop (h + 1) = old.drop (h + 1) ++ a ++ [j] ++ b := by
      have e : old ++ a ++ [j] ++ b = old ++ (a ++ [j] ++ b) := by simp
      rw [e, List.drop_append_of_le_length (by omega)]
      simp
    rw [this] at hm
    exact hi hm

/-- Idle handling of Round Robin computed over the integers, for a burst whose
slices fit the queue (`burst_time ≤ MAX_PROCESSES * quantum`, that is, at most
`MAX_PROCESSES` dispatches).  On a single process with arrival `a ≥ 0` and burst `b > 0`, with
quantum `q > 0`, `simulate_RR` idles until tick `a` (after `k < a` iterations the
clock is at `k` and the queue is empty) and returns with the process completed at
`finish_time = a + b`, `waiting_time = 0`, `turnaround_time = b`. -/
theorem rr_single_process_exact (x : Process) (quantum : Int) (ha : 0 ≤ x.arrival_time)
    (hb : 0 < x.burst_time) (hq : 0 < quantum)
    (hcap : x.burst_time ≤ (MAX_PROCESSES : Int) * quantum) :
    (∀ k : Nat, (k : Int) < x.arrival_time →
      (rrRun quantum k (rrInit (reset_processes [x]))).queue = [] ∧
      (rrRun quantum k (rrInit (reset_processes [x]))).current_time = k) ∧
    ∃ fuel y, simulate_RR (reset_processes [x]) quantum fuel = Outcome.finished [y] ∧
      y.finish_time = x.arrival_time + x.burst_time ∧ y.waiting_time = 0 ∧
      y.turnaround_time = x.burst_time ∧ y.is_completed = 1 ∧ y.remaining_time = 0 := by
  have hreset : reset_processes [x] = [resetProcess x] := rfl
  rw [hreset]
  refine ⟨?_, ?_⟩
  · intro k hk
    have hpos : 0 < (resetProcess x).arrival_time := by
      show 0 < x.arrival_time
      omega
    have hidle : SoloIdle (resetProcess x) (rrInit [resetProcess x]) := by
      rw [rrInit_single_late _ hpos]
      exact ⟨rfl, hpos, rfl, rfl, rfl, rfl, rfl⟩
    have hct0 : (rrInit [resetProcess x]).current_time = 0 := by
      rw [rrInit_single_late _ hpos]; rfl
    obtain ⟨h1, h2⟩ := soloIdle_run (resetProcess x) quantum rfl rfl k _ hidle
      (by rw [hct0]; show (0 : Int) + k < x.arrival_time; omega)
    exact ⟨h1.empty, by rw [h2, hct0]; ring⟩
  · obtain ⟨f1, hrun, hlen⟩ := solo_reaches_run (resetProcess x) quantum ha rfl rfl
    obtain ⟨f2, hp, hc, ho⟩ := soloRun_finishes (resetProcess x) quantum hq MAX_PROCESSES
      _ _ hrun hb hcap (by rw [hlen]; omega)
    refine ⟨f1 + f2, rrRecord (resetProcess x) (x.arrival_time + x.burst_time), ?_,
      rfl, ?_, ?_, rfl, rfl⟩
    · unfold simulate_RR outcomeOf
      rw [rrRun_add, hp, hc, ho]
      simp
      rfl
    · show x.arrival_time + x.burst_time - x.arrival_time - x.burst_time = 0
      ring
    · show x.arrival_time + x.burst_time - x.arrival_time = x.burst_time
      ring

theorem rrTick32_single (z : Process) (s : SimState) (hp : s.p = [z])
    (hq : s.in_queue 0 = true) :
    rrTick32 s = { s with current_time := wrap (s.current_time + 1) } := by
  unfold rrTick32
  simp only [hp, forProcs, arriveTick]
  split
  · rw [if_neg (by simp [hq])]
    exact touch_small _ 0 (by decide)
  · rfl

/-- The last dispatch of a single process that has one tick left, in 32-bit
arithmetic: the tick takes the clock from `t` to `wrap (t + 1)`. -/
theorem soloRun_tick32 (x0 : Process) (quantum : Int) (s : SimState)
    (h : SoloRun x0 1 s) (hq : 1 ≤ quantum) :
    (rrIter32 quantum s).p =
      [{ x0 with remaining_time := 0,
                 finish_time := wrap (s.current_time + 1),
                 turnaround_time := wrap (wrap (s.current_time + 1) - x0.arrival_time),
                 waiting_time :=
                   wrap (wrap (wrap (s.current_time + 1) - x0.arrival_time) - x0.burst_time),
                 is_completed := 1 }] ∧
    (rrIter32 quantum s).completed = 1 ∧ (rrIter32 quantum s).oob = false := by
  obtain ⟨hp, hc, hd, hh, hcell, hf, ho⟩ := h
  have hne : s.head ≠ s.queue.length := by omega
  have hz : s.p.getD 0 default = { x0 with remaining_time := 1 } := by rw [hp]; rfl
  have hs : sliceOf quantum { x0 with remaining_time := 1 } = 1 := by
    simp only [sliceOf]; rw [if_neg (by omega)]
  have hw : wrap (1 - 1) = 0 := by decide
  unfold rrIter32
  rw [if_neg hne]
  unfold rrDispatch32 runSlice32
  simp only []
  rw [hcell, hz, hs]
  have h1 : (1 : Int).toNat = 1 := rfl
  rw [h1]
  simp only [rrTicks32]
  rw [rrTick32_single _ { s with head := s.head + 1 } hp hf]
  unfold rrSettle32
  simp only [hp, List.getD_cons_zero, hw, if_true, List.set_cons_zero, hd, ho]
  refine ⟨?_, ?_, ?_⟩ <;> first | rfl | trivial

set_option maxRecDepth 100000 in
/-- C9 as stated fails on a single process with arrival 2147483647 and burst 1,
quantum 1: `simulate_RR` idles until tick 2147483647, and the tick of the only
slice overflows, so that in 32-bit arithmetic the process is returned with
`finish_time = -2147483648`, which is not `a + b = 2147483648`.  A burst that needs
more than `MAX_PROCESSES` slices is a second way out of the claim: with arrival 0,
burst 120 and quantum 1 the process is written to the queue 120 times, the cells
from `queue[100]` on being outside the array, so that no run inside the arrays
gives a result. -/
theorem rr_single_process_overflow :
    (∃ fuel y, simulate_RR32 (reset_processes [mkProcess 1 2147483647 1]) 1 fuel
        = Outcome.finished [y] ∧
      y.finish_time = -2147483648 ∧
      y.finish_time ≠ (mkProcess 1 2147483647 1).arrival_time
        + (mkProcess 1 2147483647 1).burst_time) ∧
    simulate_RR32 (reset_processes [mkProcess 1 0 120]) 1 120 = Outcome.overflow := by
  constructor
  · obtain ⟨f1, hrun, -⟩ := solo_reaches_run (resetProcess (mkProcess 1 2147483647 1)) 1
      (by decide) rfl rfl
    have hinit : rrInit [resetProcess (mkProcess 1 2147483647 1)]
        = rrInit (reset_processes [mkProcess 1 2147483647 1]) := rfl
    rw [hinit] at hrun
    have hfit : FitsRR (reset_processes [mkProcess 1 2147483647 1]) 1 f1 := by
      apply fitsRR_of_final _ 1 (by decide) (by decide)
      rw [hrun.clock]
      decide
    have hb := rrRun32_exact [mkProcess 1 2147483647 1] 1 f1 hfit
    obtain ⟨e1, e2, e3⟩ := soloRun_tick32 _ 1 _ hrun (le_refl _)
    have hct := hrun.clock
    have hrunning : (rrRun 1 f1 (rrInit (reset_processes [mkProcess 1 2147483647 1]))).completed
        < (rrRun 1 f1 (rrInit (reset_processes [mkProcess 1 2147483647 1]))).p.length := by
      rw [hrun.none_done, hrun.procs]
      decide
    have e1' : (rrIter32 1
        (rrRun 1 f1 (rrInit (reset_processes [mkProcess 1 2147483647 1])))).p
        = [⟨1, 2147483647, 1, 0, 0, 0, 1, -2147483648, 1⟩] := by
      rw [e1, hct]
      decide
    refine ⟨f1 + 1, ⟨1, 2147483647, 1, 0, 0, 0, 1, -2147483648, 1⟩, ?_, rfl, by decide⟩
    unfold simulate_RR32 outcomeOf
    rw [rrRun32_add, hb]
    simp only [rrRun32, hrunning, if_true]
    rw [e1', e2, e3]
    simp only [List.length_singleton, Nat.lt_irrefl, if_false]
    rfl
  · decide

/-- C9, idle handling of Round Robin, for a process whose finish time fits in an
`int` (`a + b ≤ INT_MAX`) and whose slices fit the queue
(`burst_time ≤ MAX_PROCESSES * quantum`, that is, at most `MAX_PROCESSES`
dispatches).  On a single process with arrival `a ≥ 0` and burst `b > 0`, with
quantum `q > 0`, `simulate_RR` in 32-bit arithmetic idles until tick `a` (after
`k < a` iterations the clock is at `k` and the queue is empty) and returns with
the process completed at `finish_time = a + b`, `waiting_time = 0`,
`turnaround_time = b`. -/
theorem rr_single_process (x : Process) (quantum : Int) (ha : 0 ≤ x.arrival_time)
    (hb : 0 < x.burst_time) (hq : 0 < quantum)
    (hfit : x.arrival_time + x.burst_time ≤ INT_MAX)
    (hcap : x.burst_time ≤ (MAX_PROCESSES : Int) * quantum) :
    (∀ k : Nat, (k : Int) < x.arrival_time →
      (rrRun32 quantum k (rrInit (reset_processes [x]))).queue = [] ∧
      (rrRun32 quantum k (rrInit (reset_processes [x]))).current_time = k) ∧
    ∃ fuel y, simulate_RR32 (reset_processes [x]) quantum fuel = Outcome.finished [y] ∧
      y.finish_time = x.arrival_time + x.burst_time ∧ y.waiting_time = 0 ∧
      y.turnaround_time = x.burst_time ∧ y.is_completed = 1 ∧ y.remaining_time = 0 := by
  have hdom : ∀ z ∈ [x], 0 ≤ z.arrival_time ∧ 0 < z.burst_time ∧ z.burst_time ≤ INT_MAX := by
    intro z hz
    rw [List.mem_singleton] at hz
    subst hz
    exact ⟨ha, hb, by omega⟩
  obtain ⟨hidle, fuel, y, hres, hy⟩ := rr_single_process_exact x quantum ha hb hq hcap
  refine ⟨fun k hk => ?_, fuel, y, ?_, hy⟩
  · obtain ⟨h1, h2⟩ := hidle k hk
    have hf : FitsRR (reset_processes [x]) quantum k :=
      fitsRR_of_final [x] quantum hq hdom k (by rw [h2]; omega)
    rw [rrRun32_exact [x] quantum k hf]
    exact ⟨h1, h2⟩
  · have hp := outcomeOf_finished _ _ hres
    have hdone := outcomeOf_finished_done _ _ hres
    have hclock : (rrRun quantum fuel (rrInit (reset_processes [x]))).current_time
        = x.arrival_time + x.burst_time := by
      rcases rrRun_endsAtFinish [x] quantum fuel hdone with ⟨he, -⟩ | ⟨z, hz, -, hzf⟩
      · rw [← hp] at he
        cases he
      · rw [← hp, List.mem_singleton] at hz
        rw [← hzf, hz]
        exact hy.1
    have hf : FitsRR (reset_processes [x]) quantum fuel :=
      fitsRR_of_final [x] quantum hq hdom fuel (by rw [hclock]; exact hfit)
    rw [simulate_RR32_exact [x] quantum fuel hf]
    exact hres

/-- Witness of C9: one process arriving at tick 5 with burst 7, quantum 4. -/
theorem rr_single_process_witness :
    (∀ k : Nat, (k : Int) < (mkProcess 1 5 7).arrival_time →
      (rrRun32 4 k (rrInit (reset_processes [mkProcess 1 5 7]))).queue = [] ∧
      (rrRun32 4 k (rrInit (reset_processes [mkProcess 1 5 7]))).current_time = k) ∧
    ∃ fuel y, simulate_RR32 (reset_processes [mkProcess 1 5 7]) 4 fuel = Outcome.finished [y] ∧
      y.finish_time = (mkProcess 1 5 7).arrival_time + (mkProcess 1 5 7).burst_time ∧
      y.waiting_time = 0 ∧ y.turnaround_time = (mkProcess 1 5 7).burst_time ∧
      y.is_completed = 1 ∧ y.remaining_time = 0 :=
  rr_single_process (mkProcess 1 5 7) 4 (by decide) (by decide) (by decide) (by decide)
    (by decide)

/-- C10, idle handling of Round Robin with penalty, at the input on which the code
departs from it: a single process arriving at tick 5 with any burst `b`, quantum
4, penalty 1.  The idle branch of `simulate_RR_with_penalty` is
`current_time++; continue;` without the arrival loop, so after any number `fuel`
of iterations the state is the initial one with the clock at `fuel`, the queue
still empty: the process is never queued and the function never returns.
`simulate_RR`, whose idle branch has the arrival loop, completes the same process
(burst 3) at tick 8 with waiting time 0. -/
theorem rrp_idle_branch_never_enqueues :
    (∀ (b : Int) (fuel : Nat),
      rrpRun 4 1 fuel (rrInit (reset_processes [mkProcess 1 5 b]))
        = { rrStart (reset_processes [mkProcess 1 5 b]) with current_time := fuel }) ∧
    (∀ (b : Int) (fuel : Nat),
      simulate_RR_with_penalty (reset_processes [mkProcess 1 5 b]) 4 1 fuel
        = Outcome.running) ∧
    simulate_RR (reset_processes [mkProcess 1 5 3]) 4 6
      = Outcome.finished [⟨1, 5, 3, 0, 0, 0, 3, 8, 1⟩] := by
  have hrun : ∀ (b : Int) (fuel : Nat),
      rrpRun 4 1 fuel (rrInit (reset_processes [mkProcess 1 5 b]))
        = { rrStart (reset_processes [mkProcess 1 5 b]) with current_time := fuel } := by
    intro b fuel
    have hinit : rrInit (reset_processes [mkProcess 1 5 b])
        = rrStart (reset_processes [mkProcess 1 5 b]) :=
      rrInit_single_late _ (by show (0 : Int) < 5; decide)
    rw [hinit, rrpRun_idle 4 1 fuel _ rfl (by simp [rrStart, reset_processes])]
    simp [rrStart]
  refine ⟨hrun, ?_, by decide⟩
  intro b fuel
  simp only [simulate_RR_with_penalty, outcomeOf, hrun b fuel]
  simp [rrStart, reset_processes]

/-- Penalty accounting computed over the integers, with the example at its end
kept to bursts whose slices fit the queue.  For pids above 0, in the state `s` reached by
`simulate_RR_with_penalty` after any number `fuel` of iterations and with a queue
that is not empty: the context-switch block moves the clock by `penalty` when this
is not the first dispatch (`head ≠ 0`) and the pid of the process taken differs
from the pid of the process dispatched before it, and by 0 otherwise; the whole
iteration moves the clock by that plus the slice; afterwards `last_pid` is the pid
of the process taken.  A single process arriving at tick 0 with burst
`0 < b ≤ MAX_PROCESSES * quantum` (400 for quantum 4) is completed at tick `b`
with waiting time 0, whatever the penalty.  Neither `penalty ≥ 0` nor the
uniqueness of the pids is needed. -/
theorem penalty_accounting_exact (p : List Process) (quantum penalty : Int)
    (hpid : ∀ x ∈ p, 0 < x.pid) :
    (∀ fuel s, s = rrpRun quantum penalty fuel (rrInit (reset_processes p)) →
      s.head ≠ s.queue.length →
      (rrpSwitch penalty { s with head := s.head + 1 } (s.queue.getD s.head 0)).current_time
        = s.current_time + penaltyDue penalty s ∧
      (0 ≤ sliceOf quantum (headProc s) →
        (rrpIter quantum penalty s).current_time
          = s.current_time + penaltyDue penalty s + sliceOf quantum (headProc s)) ∧
      (rrpIter quantum penalty s).last_pid = (headProc s).pid) ∧
    (∀ x : Process, x.arrival_time = 0 → 0 < x.burst_time → 0 < quantum →
      x.burst_time ≤ (MAX_PROCESSES : Int) * quantum →
      ∃ fuel y, simulate_RR_with_penalty (reset_processes [x]) quantum penalty fuel
          = Outcome.finished [y] ∧
        y.finish_time = x.burst_time ∧ y.waiting_time = 0 ∧
        y.turnaround_time = x.burst_time ∧ y.is_completed = 1) := by
  refine ⟨?_, ?_⟩
  · intro fuel s hs hne
    have hl : LastPid s := by rw [hs]; exact lastPid_rrpRun p quantum penalty fuel
    have hpos : ∀ x ∈ s.p, 0 < x.pid := by
      rw [hs]
      apply rrpRun_keeps (fun x => 0 < x.pid) quantum penalty
        (fun x t hx => by rw [(afterSlice_fields quantum x t).2.2.1]; exact hx)
      intro x hx
      simp only [reset_processes, List.mem_map] at hx
      obtain ⟨y, hy, rfl⟩ := hx
      exact hpid y hy
    have htest := lastPid_test s hl hpos
    have hclock : (rrpSwitch penalty { s with head := s.head + 1 }
        (s.queue.getD s.head 0)).current_time = s.current_time + penaltyDue penalty s := by
      rw [rrpSwitch_clock]
      show s.current_time + (if s.last_pid ≠ -1 ∧ (headProc s).pid ≠ s.last_pid
        then penalty else 0) = _
      unfold penaltyDue
      by_cases hc : s.last_pid ≠ -1 ∧ (headProc s).pid ≠ s.last_pid
      · rw [if_pos hc, if_pos (htest.1 hc)]
      · rw [if_neg hc, if_neg (fun h => hc (htest.2 h))]
    refine ⟨hclock, fun h0 => ?_, ?_⟩
    · rw [rrpIter_clock quantum penalty s hne h0, hclock]
    · unfold rrpIter
      rw [if_neg hne]
      unfold rrpDispatch
      rw [(runSlice_effect quantum _ _).2.2.2, rrpSwitch_last_pid]
      rfl
  · intro x ha hb hq hcap
    obtain ⟨fuel, hfuel⟩ := solo_result x quantum (by omega) hb hq hcap
    refine ⟨fuel, rrRecord (resetProcess x) (x.arrival_time + x.burst_time), ?_, ?_, ?_, ?_, rfl⟩
    · rw [solo_same_outcome x quantum penalty (by omega) fuel, hfuel]
    · show x.arrival_time + x.burst_time = x.burst_time
      omega
    · show x.arrival_time + x.burst_time - x.arrival_time - x.burst_time = 0
      omega
    · show x.arrival_time + x.burst_time - x.arrival_time = x.burst_time
      omega

theorem rrTicks32_last_pid (k : Nat) (s : SimState) :
    (rrTicks32 k s).last_pid = s.last_pid := by
  induction k generalizing s with
  | zero => rfl
  | succ k ih =>
    simp only [rrTicks32]
    rw [ih]
    exact (forProcs_frame ArrivalBody.tick _ 0 _).2.2.2.2

theorem runSlice32_last_pid (quantum : Int) (s : SimState) (idx : Nat) :
    (runSlice32 quantum s idx).last_pid = s.last_pid := by
  unfold runSlice32 rrSettle32
  simp only
  split
  · exact rrTicks32_last_pid _ s
  · exact rrTicks32_last_pid _ s

theorem rrpIter32_last_pid (quantum penalty : Int) (s : SimState)
    (hne : s.head ≠ s.queue.length) :
    (rrpIter32 quantum penalty s).last_pid = (headProc s).pid := by
  unfold rrpIter32
  rw [if_neg hne]
  unfold rrpDispatch32
  simp only
  rw [runSlice32_last_pid]
  rfl

/-- Two processes arriving at time 0 with burst 1 each, pids 1 and 2. -/
def twoShortProcesses : List Process := [mkProcess 1 0 1, mkProcess 2 0 1]

/-- C12, idempotent reset and run independence.  Let `p` and `q` be process arrays
with the same pids, arrival times and burst times, position by position, whatever
their other fields hold.  Then each policy leaves the same `finish_time`,
`waiting_time` and `turnaround_time` at every position of `reset_processes q` as of
`reset_processes p`: for FCFS and for the array SJF returns, and for both Round
Robin loops after any number `fuel` of iterations, together with the same counter
`completed`, clock and `oob`.  And a policy run again on the reset result of its
own run on `reset_processes p` returns the same result. -/
theorem idempotent_reset (p q : List Process) (quantum penalty : Int) (fuel : Nat) :
    (q.map coreOf = p.map coreOf →
      (simulate_FCFS (reset_processes q)).map metricsOf
        = (simulate_FCFS (reset_processes p)).map metricsOf ∧
      (simulate_SJF (reset_processes q) fuel).map (List.map metricsOf)
        = (simulate_SJF (reset_processes p) fuel).map (List.map metricsOf) ∧
      (∀ s t,
        (s = rrRun quantum fuel (rrInit (reset_processes q)) ∧
          t = rrRun quantum fuel (rrInit (reset_processes p))) ∨
        (s = rrpRun quantum penalty fuel (rrInit (reset_processes q)) ∧
          t = rrpRun quantum penalty fuel (rrInit (reset_processes p))) →
        s.p.map metricsOf = t.p.map metricsOf ∧ s.completed = t.completed ∧
          s.current_time = t.current_time ∧ s.oob = t.oob)) ∧
    simulate_FCFS (reset_processes (simulate_FCFS (reset_processes p)))
      = simulate_FCFS (reset_processes p) ∧
    (∀ r, simulate_SJF (reset_processes p) fuel = some r →
      simulate_SJF (reset_processes r) fuel = some r) ∧
    (∀ r, simulate_RR (reset_processes p) quantum fuel = Outcome.finished r →
      simulate_RR (reset_processes r) quantum fuel = Outcome.finished r) ∧
    (∀ r, simulate_RR_with_penalty (reset_processes p) quantum penalty fuel
        = Outcome.finished r →
      simulate_RR_with_penalty (reset_processes r) quantum penalty fuel
        = Outcome.finished r) := by
  refine ⟨fun h => ⟨?_, ?_, ?_⟩, ?_, ?_, ?_, ?_⟩
  · rw [← metrics_drop (simulate_FCFS (reset_processes q)),
      ← metrics_drop (simulate_FCFS (reset_processes p))]
    unfold simulate_FCFS
    rw [← fcfsLoop_drop, ← fcfsLoop_drop, reset_same_core p q h]
  · have key : dropSJF (sjfRun fuel (sjfInit (reset_processes q)))
        = dropSJF (sjfRun fuel (sjfInit (reset_processes p))) := by
      rw [← sjfRun_drop, ← sjfRun_drop]
      show sjfRun fuel (sjfInit ((reset_processes q).map dropPriority))
        = sjfRun fuel (sjfInit ((reset_processes p).map dropPriority))
      rw [reset_same_core p q h]
    have hc := congrArg SJFState.completed key
    have hp := congrArg SJFState.p key
    simp only [dropSJF] at hc hp
    have hlen := congrArg List.length hp
    simp only [List.length_map] at hlen
    unfold simulate_SJF
    simp only
    rw [hc, hlen]
    split
    · rfl
    · simp only [Option.map_some']
      rw [← metrics_drop, hp, metrics_drop]
  · intro s t hst
    have key : dropRR s = dropRR t := by
      rcases hst with ⟨rfl, rfl⟩ | ⟨rfl, rfl⟩
      · rw [← rrRun_drop, ← rrRun_drop, ← rrInit_drop, ← rrInit_drop, reset_same_core p q h]
      · rw [← rrpRun_drop, ← rrpRun_drop, ← rrInit_drop, ← rrInit_drop, reset_same_core p q h]
    have hp := congrArg SimState.p key
    simp only [dropRR] at hp
    have hc : (dropRR s).completed = (dropRR t).completed := by rw [key]
    have ht : (dropRR s).current_time = (dropRR t).current_time := by rw [key]
    have ho : (dropRR s).oob = (dropRR t).oob := by rw [key]
    exact ⟨by rw [← metrics_drop, hp, metrics_drop], hc, ht, ho⟩
  · unfold simulate_FCFS
    rw [reset_fcfsLoop, reset_reset]
  · intro r hr
    have := simulate_SJF_some _ r fuel hr
    rw [this, reset_sjfRun]
    show simulate_SJF (reset_processes (reset_processes p)) fuel = _
    rw [reset_reset, hr, this]
  · intro r hr
    have := outcomeOf_finished _ r hr
    rw [this, reset_rrRun, reset_reset]
    rw [← this]
    exact hr
  · intro r hr
    have := outcomeOf_finished _ r hr
    rw [this, reset_rrpRun, reset_reset]
    rw [← this]
    exact hr

set_option maxRecDepth 100000 in
/-- On `twoLongProcesses` with quantum 1 no run of `simulate_RR` gives a result:
the loop leaves after 120 iterations with accesses outside the arrays behind it. -/
theorem twoLongProcesses_no_result (fuel : Nat) (res : List Process) :
    simulate_RR (reset_processes twoLongProcesses) 1 fuel ≠ Outcome.finished res := by
  have h : simulate_RR (reset_processes twoLongProcesses) 1 120 = Outcome.overflow := by
    decide
  intro hres
  rcases le_total fuel 120 with hle | hle
  · have := simulate_RR_mono _ 1 fuel 120 (by rw [hres]; exact fun e => by cases e) hle
    rw [h, hres] at this
    cases this
  · have := simulate_RR_mono _ 1 120 fuel (by rw [h]; exact fun e => by cases e) hle
    rw [h, hres] at this
    cases this

set_option maxRecDepth 100000 in
/-- C13 as stated fails when the slices do not fit the queue.  On
`twoLongProcesses` with quantum 1 the 99th dispatch of `simulate_RR` writes
`queue[100]`, outside the array of `MAX_PROCESSES` cells, before any process is
completed; from there on the run has no defined course, and no run gives a result
in which each process has completed once. -/
theorem metrics_immutability_overflow :
    (rrRun 1 98 (rrInit (reset_processes twoLongProcesses))).oob = false ∧
    (rrRun 1 99 (rrInit (reset_processes twoLongProcesses))).oob = true ∧
    (rrRun 1 99 (rrInit (reset_processes twoLongProcesses))).queue.length = 101 ∧
    (rrRun 1 99 (rrInit (reset_processes twoLongProcesses))).completed = 0 ∧
    ¬ ∃ fuel res,
      simulate_RR (reset_processes twoLongProcesses) 1 fuel = Outcome.finished res := by
  refine ⟨by decide, by decide, by decide, by decide, ?_⟩
  rintro ⟨fuel, res, h⟩
  exact twoLongProcesses_no_result fuel res h

/-- C13, metrics immutability, for runs of the Round Robin variants in which no
access has left the arrays.  FCFS writes each record in its own iteration only:
the records of a prefix of the array are those of the run on that prefix alone.
In the loop of SJF, and in the loops of Round Robin and Round Robin with penalty
as long as no access has left the arrays, a record that is marked completed after
`k` iterations is the same record, in all its fields, after any `m` further
iterations.  In both Round Robin loops, in a state inside the arrays, the process
at the head of a queue that is not empty, the one the next dispatch takes, is not
completed, and the counter `completed` equals the number of records marked
completed, so that no process is completed twice. -/
theorem metrics_immutability (p : List Process) (quantum penalty : Int) (k m i : Nat)
    (x : Process) :
    (∀ rest, (simulate_FCFS (p ++ rest)).take p.length = simulate_FCFS p) ∧
    ((sjfRun k (sjfInit (reset_processes p))).p[i]? = some x → x.is_completed ≠ 0 →
      (sjfRun (k + m) (sjfInit (reset_processes p))).p[i]? = some x) ∧
    ((rrRun quantum (k + m) (rrInit (reset_processes p))).oob = false →
      (rrRun quantum k (rrInit (reset_processes p))).p[i]? = some x → x.is_completed ≠ 0 →
      (rrRun quantum (k + m) (rrInit (reset_processes p))).p[i]? = some x) ∧
    ((rrpRun quantum penalty (k + m) (rrInit (reset_processes p))).oob = false →
      (rrpRun quantum penalty k (rrInit (reset_processes p))).p[i]? = some x →
      x.is_completed ≠ 0 →
      (rrpRun quantum penalty (k + m) (rrInit (reset_processes p))).p[i]? = some x) ∧
    (∀ s, s = rrRun quantum k (rrInit (reset_processes p)) ∨
        s = rrpRun quantum penalty k (rrInit (reset_processes p)) →
      s.oob = false →
      (s.head ≠ s.queue.length →
        ∃ y, s.p[s.queue.getD s.head 0]? = some y ∧ y.is_completed = 0) ∧
      s.completed = s.p.countP (fun y => decide (y.is_completed ≠ 0))) := by
  refine ⟨?_, ?_, ?_, ?_, ?_⟩
  · intro rest
    obtain ⟨t1, h1⟩ := fcfsLoop_append p rest 0
    unfold simulate_FCFS
    rw [h1, ← fcfsLoop_length p 0, List.take_left]
  · intro hx hc
    rw [sjfRun_add]
    exact sjfRun_completed_fixed m _ i x hx hc
  · intro _ hx hc
    rw [rrRun_add]
    exact rrRun_completed_fixed quantum m _ (queueCore_rrRun p quantum k) i x hx hc
  · intro _ hx hc
    rw [rrpRun_add]
    exact rrpRun_completed_fixed quantum penalty m _ (queueCore_rrpRun p quantum penalty k)
      i x hx hc
  · intro s hs _
    have h : QueueCore none s := by
      rcases hs with rfl | rfl
      · exact queueCore_rrRun p quantum k
      · exact queueCore_rrpRun p quantum penalty k
    exact ⟨head_uncompleted s h, completed_count s h⟩

/-- Witness of C13 on arrivals 0 and 4 with bursts 8 and 1, quantum 4: the second
process is completed at tick 5 in the second iteration of `simulate_RR`, the run
stays inside the arrays, and the record is the same after the third iteration. -/
theorem metrics_immutability_witness :
    (rrRun 4 (2 + 1) (rrInit (reset_processes smallWorkload))).oob = false ∧
    (rrRun 4 2 (rrInit (reset_processes smallWorkload))).p[1]?
      = some ⟨2, 4, 1, 0, 0, 0, 1, 5, 1⟩ ∧
    (rrRun 4 (2 + 1) (rrInit (reset_processes smallWorkload))).p[1]?
      = some ⟨2, 4, 1, 0, 0, 0, 1, 5, 1⟩ :=
  ⟨by decide, by decide,
   (metrics_immutability smallWorkload 4 1 2 1 1 ⟨2, 4, 1, 0, 0, 0, 1, 5, 1⟩).2.2.1
     (by decide) (by decide) (by decide)⟩

/-- The ready-queue property of a state: `head ≤ tail`, the pending part
`queue[head .. tail)` holds no index twice, and every index in it is that of a
process of the array which is not completed. -/
def ReadyQueueOk (s : SimState) : Prop :=
  s.head ≤ s.queue.length ∧ (s.queue.drop s.head).Nodup ∧
  ∀ j ∈ s.queue.drop s.head, ∃ x, s.p[j]? = some x ∧ x.is_completed = 0

set_option maxRecDepth 100000 in
/-- C14 as stated fails when the slices do not fit the queue.  On
`twoLongProcesses` with quantum 1 (bursts and quantum positive) the state on entry
to the 100th iteration of `simulate_RR` has `head = 99` and `tail = 101`: the
pending part `queue[99 .. 101)` reaches past the last cell `queue[99]` of the
array, the write to `queue[100]` having left it. -/
theorem ready_queue_overflow :
    (∀ x ∈ twoLongProcesses, 0 < x.burst_time) ∧
    (rrRun 1 99 (rrInit (reset_processes twoLongProcesses))).head = 99 ∧
    (rrRun 1 99 (rrInit (reset_processes twoLongProcesses))).queue.length = 101 ∧
    MAX_PROCESSES < (rrRun 1 99 (rrInit (reset_processes twoLongProcesses))).queue.length ∧
    (rrRun 1 99 (rrInit (reset_processes twoLongProcesses))).oob = true ∧
    (rrRun 1 99 (rrInit (reset_processes twoLongProcesses))).completed
      < (rrRun 1 99 (rrInit (reset_processes twoLongProcesses))).p.length := by
  refine ⟨by decide, by decide, by decide, by decide, by decide, by decide⟩

/-- C14, ready-queue invariant, as long as no access has left the arrays.  On
entry to every iteration of the main loop of `simulate_RR` and of
`simulate_RR_with_penalty`, that is in the state reached after any number `fuel`
of iterations, if no access has left the arrays then `head ≤ tail`, the pending
part `queue[head .. tail)` of the queue holds no index twice, and every index in
it is that of a process of the array which is not completed.  The hypotheses
`burst_time > 0` and `quantum > 0` are not needed. -/
theorem ready_queue_invariant (p : List Process) (quantum penalty : Int) (fuel : Nat) :
    ((rrRun quantum fuel (rrInit (reset_processes p))).oob = false →
      ReadyQueueOk (rrRun quantum fuel (rrInit (reset_processes p)))) ∧
    ((rrpRun quantum penalty fuel (rrInit (reset_processes p))).oob = false →
      ReadyQueueOk (rrpRun quantum penalty fuel (rrInit (reset_processes p)))) := by
  have key : ∀ s, QueueCore none s → ReadyQueueOk s := by
    intro s h
    refine ⟨h.hd, h.nodup, fun j hj => ?_⟩
    obtain ⟨x, hx, hx0, _⟩ := h.cells j hj
    exact ⟨x, hx, hx0⟩
  exact ⟨fun _ => key _ (queueCore_rrRun p quantum fuel),
    fun _ => key _ (queueCore_rrpRun p quantum penalty fuel)⟩

/-- Witness of C14 on arrivals 0 and 4 with bursts 8 and 1, quantum 4 and penalty
1, after the first iteration: both runs are inside the arrays, and the queue of
`simulate_RR` holds the second process and the first one behind it. -/
theorem ready_queue_invariant_witness :
    (rrRun 4 1 (rrInit (reset_processes smallWorkload))).oob = false ∧
    (rrpRun 4 1 1 (rrInit (reset_processes smallWorkload))).oob = false ∧
    (rrRun 4 1 (rrInit (reset_processes smallWorkload))).queue.drop
      (rrRun 4 1 (rrInit (reset_processes smallWorkload))).head = [1, 0] ∧
    ReadyQueueOk (rrRun 4 1 (rrInit (reset_processes smallWorkload))) ∧
    ReadyQueueOk (rrpRun 4 1 1 (rrInit (reset_processes smallWorkload))) :=
  ⟨by decide, by decide, by decide,
   (ready_queue_invariant smallWorkload 4 1 1).1 (by decide),
   (ready_queue_invariant smallWorkload 4 1 1).2 (by decide)⟩

set_option maxRecDepth 100000 in
/-- C15 as stated fails in two ways.  After `simulate_FCFS` on the freshly reset
workload of `main` no process is marked completed: the first record still has
`is_completed = 0`, with its finish time 20 in place.  And when the slices do not
fit the queue, on `twoLongProcesses` with quantum 1, the 99th dispatch of
`simulate_RR` writes `queue[100]`, outside the array, with both flags still 0;
from there on the run has no defined course, and no run gives a result with the
flags set. -/
theorem fcfs_leaves_flag_unset :
    (∃ x ∈ simulate_FCFS (reset_processes mainWorkload),
      x.pid = 1 ∧ x.finish_time = 20 ∧ x.is_completed = 0) ∧
    ((rrRun 1 99 (rrInit (reset_processes twoLongProcesses))).oob = true ∧
      (∀ x ∈ (rrRun 1 99 (rrInit (reset_processes twoLongProcesses))).p,
        x.is_completed = 0) ∧
      ¬ ∃ fuel res,
        simulate_RR (reset_processes twoLongProcesses) 1 fuel = Outcome.finished res) := by
  refine ⟨by decide, by decide, by decide, ?_⟩
  rintro ⟨fuel, res, h⟩
  exact twoLongProcesses_no_result fuel res h

/-- C15, the result is a fully completed process set, amended.  `simulate_FCFS`
does not write `is_completed`: after it every flag of a freshly reset set is still
0.  For SJF, when the run returns, and for both Round Robin loops, in any state
inside the arrays in which the loop condition `completed < n` fails, hence in
every result they return, every process of the array has `is_completed = 1`. -/
theorem result_fully_completed (p : List Process) (quantum penalty : Int) (fuel : Nat) :
    (∀ x ∈ simulate_FCFS (reset_processes p), x.is_completed = 0) ∧
    (∀ res, simulate_SJF (reset_processes p) fuel = some res →
      ∀ x ∈ res, x.is_completed = 1) ∧
    (∀ s, s = rrRun quantum fuel (rrInit (reset_processes p)) ∨
        s = rrpRun quantum penalty fuel (rrInit (reset_processes p)) →
      s.oob = false → ¬ s.completed < s.p.length → ∀ x ∈ s.p, x.is_completed = 1) ∧
    (∀ res, simulate_RR (reset_processes p) quantum fuel = Outcome.finished res ∨
        simulate_RR_with_penalty (reset_processes p) quantum penalty fuel
          = Outcome.finished res →
      ∀ x ∈ res, x.is_completed = 1) := by
  have hstate : ∀ s, s = rrRun quantum fuel (rrInit (reset_processes p)) ∨
        s = rrpRun quantum penalty fuel (rrInit (reset_processes p)) →
      ¬ s.completed < s.p.length → ∀ x ∈ s.p, x.is_completed = 1 := by
    intro s hs hdone
    have h0 : ∀ x ∈ reset_processes p, FlagSet x :=
      fun x hx => Or.inl (reset_uncompleted p x hx)
    rcases hs with rfl | rfl
    · exact all_marked _ _ (queueCore_rrRun p quantum fuel).count
        (rrRun_keeps FlagSet quantum (afterSlice_flagSet quantum) _ h0 fuel) hdone
    · exact all_marked _ _ (queueCore_rrpRun p quantum penalty fuel).count
        (rrpRun_keeps FlagSet quantum penalty (afterSlice_flagSet quantum) _ h0 fuel) hdone
  have hout : ∀ s res, outcomeOf s = Outcome.finished res →
      ¬ s.completed < s.p.length ∧ res = s.p := by
    intro s res h
    unfold outcomeOf at h
    split at h
    · exact absurd h (by simp)
    · next hd =>
      split at h
      · exact absurd h (by simp)
      · exact ⟨hd, (Outcome.finished.inj h).symm⟩
  refine ⟨fcfsLoop_uncompleted _ 0 (reset_uncompleted p), ?_, fun s hs _ => hstate s hs, ?_⟩
  · intro res hres
    unfold simulate_SJF at hres
    simp only at hres
    split at hres
    · exact absurd hres (by simp)
    · next hd =>
      obtain rfl := Option.some.inj hres
      exact all_marked _ _ (sjfMarks_run p fuel).1 (sjfMarks_run p fuel).2 hd
  · intro res hres
    rcases hres with h | h
    · obtain ⟨hd, rfl⟩ := hout _ res h
      exact hstate _ (Or.inl rfl) hd
    · obtain ⟨hd, rfl⟩ := hout _ res h
      exact hstate _ (Or.inr rfl) hd

/-- Witness of C15 on arrivals 0 and 4 with bursts 8 and 1, quantum 4: after 3
iterations `simulate_RR` has left its loop inside the arrays, and both processes
are marked completed. -/
theorem result_fully_completed_witness :
    (rrRun 4 3 (rrInit (reset_processes smallWorkload))).oob = false ∧
    ¬ (rrRun 4 3 (rrInit (reset_processes smallWorkload))).completed
      < (rrRun 4 3 (rrInit (reset_processes smallWorkload))).p.length ∧
    (∃ res, simulate_RR (reset_processes smallWorkload) 4 3 = Outcome.finished res) ∧
    ∀ x ∈ (rrRun 4 3 (rrInit (reset_processes smallWorkload))).p, x.is_completed = 1 :=
  ⟨by decide, by decide, ⟨_, rfl⟩,
   (result_fully_completed smallWorkload 4 1 3).2.2.1 _ (Or.inl rfl) (by decide) (by decide)⟩

/-- The plain Round Robin run on two processes with arrivals 0 and 4, bursts 8 and
1, quantum 4, never idles: it ends after three dispatches. -/
theorem rrExample_never_idles : NeverIdle 4 (reset_processes rrExample) := by
  intro k
  rcases Nat.lt_or_ge k 3 with hk | hk
  · interval_cases k <;> decide
  · obtain ⟨d, rfl⟩ := Nat.exists_eq_add_of_le hk
    rw [rrRun_add, rrRun_done 4 d _ (by decide)]
    decide

/-- C16, zero penalty degenerates to plain Round Robin.  For every process set and
quantum on which `simulate_RR` never takes its idle branch,
`simulate_RR_with_penalty` with penalty 0 goes through the same states as
`simulate_RR`, `last_pid` apart: after any number `fuel` of iterations the process
arrays, the clocks and the counters agree, and the two functions give the same
outcome, hence the same `finish_time`, `waiting_time` and `turnaround_time` for
every process.  Unique positive pids, positive bursts and a positive quantum are
not needed. -/
theorem zero_penalty_is_round_robin (p : List Process) (quantum : Int)
    (hidle : NeverIdle quantum (reset_processes p)) (fuel : Nat) :
    simulate_RR_with_penalty (reset_processes p) quantum 0 fuel
      = simulate_RR (reset_processes p) quantum fuel ∧
    (rrpRun quantum 0 fuel (rrInit (reset_processes p))).p
      = (rrRun quantum fuel (rrInit (reset_processes p))).p ∧
    (rrpRun quantum 0 fuel (rrInit (reset_processes p))).current_time
      = (rrRun quantum fuel (rrInit (reset_processes p))).current_time ∧
    (rrpRun quantum 0 fuel (rrInit (reset_processes p))).completed
      = (rrRun quantum fuel (rrInit (reset_processes p))).completed := by
  obtain ⟨l, hl⟩ := zero_penalty_follows quantum (reset_processes p) hidle fuel
  unfold simulate_RR_with_penalty simulate_RR
  rw [hl]
  exact ⟨rfl, rfl, rfl, rfl⟩

set_option maxRecDepth 100000 in
/-- Witness of C16: arrivals 0 and 4, bursts 8 and 1, quantum 4; both functions
complete the processes at ticks 9 and 5. -/
theorem zero_penalty_is_round_robin_witness :
    NeverIdle 4 (reset_processes rrExample) ∧
    simulate_RR (reset_processes rrExample) 4 3
      = Outcome.finished [⟨1, 0, 8, 0, 0, 1, 9, 9, 1⟩, ⟨2, 4, 1, 0, 0, 0, 1, 5, 1⟩] ∧
    (simulate_RR_with_penalty (reset_processes rrExample) 4 0 3
      = simulate_RR (reset_processes rrExample) 4 3 ∧
    (rrpRun 4 0 3 (rrInit (reset_processes rrExample))).p
      = (rrRun 4 3 (rrInit (reset_processes rrExample))).p ∧
    (rrpRun 4 0 3 (rrInit (reset_processes rrExample))).current_time
      = (rrRun 4 3 (rrInit (reset_processes rrExample))).current_time ∧
    (rrpRun 4 0 3 (rrInit (reset_processes rrExample))).completed
      = (rrRun 4 3 (rrInit (reset_processes rrExample))).completed) :=
  ⟨rrExample_never_idles, by decide,
    zero_penalty_is_round_robin rrExample 4 rrExample_never_idles 3⟩

/-- The process set of the counterexample to C17: 101 processes that all arrive at
tick 0 with burst 1. -/
def crowd : List Process :=
  (List.range 101).map (fun (i : Nat) => mkProcess (Int.ofNat i + 1) 0 1)

/-- Large quantum against FCFS, computed over the integers, for at most
`MAX_PROCESSES` processes.  For a process set sorted by arrival time with bursts above 0 and a quantum that is
at least every burst, `simulate_RR` returns, and whenever it returns every process
has the `finish_time`, `waiting_time` and `turnaround_time` that `simulate_FCFS`
gives it.  The hypothesis that the arrival times are not negative is not
needed. -/
theorem large_quantum_exact (p : List Process) (quantum : Int)
    (hs : p.Pairwise (fun a b => a.arrival_time ≤ b.arrival_time))
    (_ha : ∀ x ∈ p, 0 ≤ x.arrival_time)
    (hb : ∀ x ∈ p, 0 < x.burst_time) (hq : ∀ x ∈ p, x.burst_time ≤ quantum)
    (hn : p.length ≤ MAX_PROCESSES) :
    (∃ fuel res, simulate_RR (reset_processes p) quantum fuel = Outcome.finished res) ∧
    (∀ fuel res, simulate_RR (reset_processes p) quantum fuel = Outcome.finished res →
      res.map metricsOf = (simulate_FCFS (reset_processes p)).map metricsOf) := by
  have hc := covered_reset p quantum hs hb hq hn
  refine ⟨?_, ?_⟩
  · have hfin : ∀ fuel, ¬ (rrRun quantum fuel (rrInit (reset_processes p))).completed
          < (rrRun quantum fuel (rrInit (reset_processes p))).p.length →
        ∃ res, simulate_RR (reset_processes p) quantum fuel = Outcome.finished res := by
      intro fuel hdone
      obtain ⟨m, k, h⟩ := inOrder_rrRun quantum _ hc fuel
      refine ⟨(rrRun quantum fuel (rrInit (reset_processes p))).p, ?_⟩
      unfold simulate_RR outcomeOf
      rw [if_neg hdone, (inOrder_done _ m k _ h hdone).2]
      rfl
    cases p with
    | nil => exact ⟨0, hfin 0 (by simp [rrRun, rrInit, forProcs, reset_processes])⟩
    | cons x rest =>
      have hq0 : 0 < quantum := by
        have h1 := hb x (List.mem_cons_self _ _)
        have h2 := hq x (List.mem_cons_self _ _)
        omega
      have h0 := runInv_init (x :: rest) hb
      exact ⟨_, hfin _ (rrRun_terminates quantum _ hq0 _ _ h0 (Int.self_le_toNat _))⟩
  · intro fuel res hres
    obtain ⟨m, k, h⟩ := inOrder_rrRun quantum _ hc fuel
    rw [outcomeOf_finished _ res hres]
    exact (inOrder_done _ m k _ h (outcomeOf_finished_done _ res hres)).1

theorem rrRun32_induct (quantum : Int) (P : SimState → Prop)
    (hstep : ∀ s, P s → s.completed < s.p.length → P (rrIter32 quantum s)) :
    ∀ fuel s, P s → P (rrRun32 quantum fuel s) := by
  intro fuel
  induction fuel with
  | zero => exact fun s h => h
  | succ n ih =>
    intro s h
    simp only [rrRun32]
    split
    · rename_i hc
      exact ih _ (hstep s h hc)
    · exact h

theorem rrTicks32_oob (k : Nat) (s : SimState) (h : s.oob = true) :
    (rrTicks32 k s).oob = true := by
  induction k generalizing s with
  | zero => exact h
  | succ k ih => exact ih _ (forProcs_oob ArrivalBody.tick _ 0 _ h)

theorem rrIter32_oob (quantum : Int) (s : SimState) (h : s.oob = true) :
    (rrIter32 quantum s).oob = true := by
  unfold rrIter32
  split
  · exact forProcs_oob ArrivalBody.late _ 0 _ h
  · unfold rrDispatch32 runSlice32 rrSettle32
    simp only
    have := rrTicks32_oob (sliceOf quantum (s.p.getD (s.queue.getD s.head 0) default)).toNat
      { s with head := s.head + 1 } h
    split
    · exact this
    · simp only [push, this, Bool.true_or]

/-- A run of `simulate_RR` that has left the arrays gives no result, in 32-bit
arithmetic as over the integers. -/
theorem simulate_RR32_oob (p : List Process) (quantum : Int) (h : (rrInit p).oob = true)
    (fuel : Nat) (res : List Process) : simulate_RR32 p quantum fuel ≠ Outcome.finished res := by
  have ho : (rrRun32 quantum fuel (rrInit p)).oob = true :=
    rrRun32_induct quantum (fun s => s.oob = true) (fun s hs _ => rrIter32_oob quantum s hs)
      fuel _ h
  unfold simulate_RR32 outcomeOf
  rw [ho]
  split <;> simp

theorem fcfsLoop32_length (p : List Process) (t : Int) :
    (fcfsLoop32 p t).length = p.length := by
  induction p generalizing t with
  | nil => rfl
  | cons y rest ih => simp only [fcfsLoop32, List.length_cons, ih]

/-- Two processes arriving at tick 2147483647 with burst 1 each. -/
def lateTwins : List Process := [mkProcess 1 2147483647 1, mkProcess 2 2147483647 1]

/-- On `lateTwins` the loop of `simulate_RR` idles through its first 2147483646
iterations: nothing is queued and the clock counts the iterations. -/
theorem lateTwins_idle (j : Nat) (hj : j ≤ 2147483646) :
    rrRun 1 j (rrInit (reset_processes lateTwins))
      = { rrStart (reset_processes lateTwins) with current_time := (j : Int) } := by
  induction j with
  | zero => rfl
  | succ j ih =>
    rw [rrRun_add 1 j 1, ih (by omega)]
    have h1 : ¬ (2147483647 : Int) ≤ (j : Int) + 1 := by omega
    simp only [rrRun, rrIter, rrIdle, rrStart, lateTwins, reset_processes, resetProcess,
      mkProcess, List.map_cons, List.map_nil, List.length_cons, List.length_nil, forProcs,
      arriveLate, h1, if_false, Nat.cast_add, Nat.cast_one]
    simp

set_option maxRecDepth 100000 in
/-- C17 as stated fails in two ways.  On `lateTwins` with quantum 1 (sorted,
arrivals not negative, bursts positive and covered by the quantum) the clock
overflows at the first tick after 2147483647: in 32-bit arithmetic FCFS sets the
clock back to the arrival time for the second process and gives both processes
finish time -2147483648, waiting time 0 and turnaround time 1, while
`simulate_RR` runs on from the wrapped clock and returns the second process with
finish time -2147483647, waiting time 1 and turnaround time 2.  And for more than
`MAX_PROCESSES` processes, 101 processes arriving at tick 0 with burst 1 and
quantum 1, FCFS serves them all, but the initial arrival loop of `simulate_RR`
writes the last of them to `queue[100]` and `in_queue[100]`, outside the arrays,
so no run of `simulate_RR` gives a result. -/
theorem large_quantum_overflow :
    ((lateTwins.Pairwise (fun a b => a.arrival_time ≤ b.arrival_time) ∧
        ∀ x ∈ lateTwins, 0 ≤ x.arrival_time ∧ 0 < x.burst_time ∧ x.burst_time ≤ 1) ∧
      (simulate_FCFS32 (reset_processes lateTwins)).map metricsOf
        = [(-2147483648, 0, 1), (-2147483648, 0, 1)] ∧
      ∃ fuel res, simulate_RR32 (reset_processes lateTwins) 1 fuel = Outcome.finished res ∧
        res.map metricsOf = [(-2147483648, 0, 1), (-2147483647, 1, 2)]) ∧
    ((crowd.Pairwise (fun a b => a.arrival_time ≤ b.arrival_time) ∧
        ∀ x ∈ crowd, 0 ≤ x.arrival_time ∧ 0 < x.burst_time ∧ x.burst_time ≤ 1) ∧
      (simulate_FCFS32 (reset_processes crowd)).length = 101 ∧
      (rrInit (reset_processes crowd)).oob = true ∧
      ¬ ∃ fuel res, simulate_RR32 (reset_processes crowd) 1 fuel = Outcome.finished res) := by
  constructor
  · refine ⟨by decide, by decide, ?_⟩
    have hS : rrRun 1 (2147483646 + 1) (rrInit (reset_processes lateTwins))
        = rrRun 1 1 { rrStart (reset_processes lateTwins) with
            current_time := ((2147483646 : Nat) : Int) } := by
      rw [rrRun_add 1 2147483646 1, lateTwins_idle 2147483646 (le_refl _)]
    have hfit : FitsRR (reset_processes lateTwins) 1 (2147483646 + 1) := by
      apply fitsRR_of_final lateTwins 1 (by decide) (by decide)
      rw [hS]
      decide
    have hb := rrRun32_exact lateTwins 1 (2147483646 + 1) hfit
    refine ⟨2147483646 + 1 + 2,
      [⟨1, 2147483647, 1, 0, 0, 0, 1, -2147483648, 1⟩,
       ⟨2, 2147483647, 1, 0, 0, 1, 2, -2147483647, 1⟩], ?_, ?_⟩
    · unfold simulate_RR32
      rw [rrRun32_add 1 (2147483646 + 1) 2, hb, hS]
      exact (by decide :
        outcomeOf (rrRun32 1 2 (rrRun 1 1 { rrStart (reset_processes lateTwins) with
            current_time := ((2147483646 : Nat) : Int) }))
          = Outcome.finished
              [⟨1, 2147483647, 1, 0, 0, 0, 1, -2147483648, 1⟩,
               ⟨2, 2147483647, 1, 0, 0, 1, 2, -2147483647, 1⟩])
    · decide
  · have hmem : ∀ x ∈ crowd, x.arrival_time = 0 ∧ x.burst_time = 1 := by
      intro x hx
      simp only [crowd, List.mem_map] at hx
      obtain ⟨i, _, rfl⟩ := hx
      exact ⟨rfl, rfl⟩
    have hoob : (rrInit (reset_processes crowd)).oob = true := by decide
    refine ⟨⟨?_, ?_⟩, ?_, hoob, ?_⟩
    · apply List.pairwise_of_forall_mem_list
      intro a ha b hb
      rw [(hmem a ha).1, (hmem b hb).1]
    · intro x hx
      obtain ⟨h1, h2⟩ := hmem x hx
      omega
    · unfold simulate_FCFS32
      rw [fcfsLoop32_length]
      unfold reset_processes crowd
      rw [List.length_map, List.length_map, List.length_range]
    · rintro ⟨fuel, res, h⟩
      exact simulate_RR32_oob _ 1 hoob fuel res h

/-- With a quantum that covers every burst, no `int` operation of `simulate_RR`
overflows when none of `simulate_FCFS` does. -/
theorem fitsRR_of_fitsFCFS (p : List Process) (quantum : Int)
    (hs : p.Pairwise (fun a b => a.arrival_time ≤ b.arrival_time))
    (ha : ∀ x ∈ p, 0 ≤ x.arrival_time)
    (hb : ∀ x ∈ p, 0 < x.burst_time) (hq : ∀ x ∈ p, x.burst_time ≤ quantum)
    (hn : p.length ≤ MAX_PROCESSES) (hfit : FitsFCFS (reset_processes p)) (fuel : Nat) :
    FitsRR (reset_processes p) quantum fuel := by
  cases p with
  | nil =>
    intro k _
    have : rrRun quantum k (rrInit (reset_processes [])) = rrInit (reset_processes []) :=
      rrRun_done quantum k _ (by simp [rrInit, forProcs, reset_processes])
    rw [this]
    exact ⟨by decide, fun x hx => by simp [rrInit, forProcs, reset_processes] at hx⟩
  | cons x0 rest =>
    have hq0 : 0 < quantum := by
      have h1 := hb x0 (List.mem_cons_self _ _)
      have h2 := hq x0 (List.mem_cons_self _ _)
      omega
    obtain ⟨⟨f0, res0, h0⟩, hall⟩ := large_quantum_exact (x0 :: rest) quantum hs ha hb hq hn
    have hdom : ∀ x ∈ x0 :: rest,
        0 ≤ x.arrival_time ∧ 0 < x.burst_time ∧ x.burst_time ≤ INT_MAX := by
      intro x hx
      refine ⟨ha x hx, hb x hx, ?_⟩
      obtain ⟨i, hi⟩ := List.mem_iff_getElem?.1 hx
      have hr : (reset_processes (x0 :: rest))[i]? = some (resetProcess x) := by
        unfold reset_processes
        rw [List.getElem?_map, hi]
        rfl
      have hrec := fcfs_record _ i _ hr
      have hf := (hfit _ (List.getElem?_mem hrec)).2.2.2.2
      have h1 := ha x hx
      have h2 := hb x hx
      have h3 : max (prevFinish (simulate_FCFS (reset_processes (x0 :: rest))) i) x.arrival_time
          + x.burst_time ≤ INT_MAX := hf
      have h4 := le_max_right
        (prevFinish (simulate_FCFS (reset_processes (x0 :: rest))) i) x.arrival_time
      omega
    have hp0 := outcomeOf_finished _ _ h0
    have hdone := outcomeOf_finished_done _ _ h0
    have hfinal : (rrRun quantum f0 (rrInit (reset_processes (x0 :: rest)))).current_time
        ≤ INT_MAX := by
      rcases rrRun_endsAtFinish (x0 :: rest) quantum f0 hdone with ⟨-, he⟩ | ⟨z, hz, -, hzf⟩
      · rw [he]; decide
      · have hm := hall f0 res0 h0
        rw [hp0] at hm
        have hz2 : metricsOf z ∈ (simulate_FCFS (reset_processes (x0 :: rest))).map metricsOf := by
          rw [← hm]
          exact List.mem_map_of_mem _ hz
        obtain ⟨y, hy, hyz⟩ := List.mem_map.1 hz2
        have hyf : y.finish_time = z.finish_time := congrArg Prod.fst hyz
        have := (hfit y hy).2.2.2.2
        rw [← hzf, ← hyf]
        exact this
    apply fitsRR_of_final (x0 :: rest) quantum hq0 hdom fuel
    have h1 := rrRun_clock_le quantum f0
      (rrRun quantum fuel (rrInit (reset_processes (x0 :: rest))))
    rw [← rrRun_add, Nat.add_comm, rrRun_add, rrRun_done quantum fuel _ hdone] at h1
    omega

/-- C17, large quantum degenerates to FCFS, for at most `MAX_PROCESSES` processes
and when no `int` operation of FCFS overflows (`FitsFCFS`).  For a process set
sorted by arrival time with arrivals at or after 0, bursts above 0 and a quantum
that is at least every burst, `simulate_RR` in 32-bit arithmetic returns, and
whenever it returns every process has the `finish_time`, `waiting_time` and
`turnaround_time` that `simulate_FCFS` in 32-bit arithmetic gives it. -/
theorem large_quantum_is_fcfs (p : List Process) (quantum : Int)
    (hs : p.Pairwise (fun a b => a.arrival_time ≤ b.arrival_time))
    (ha : ∀ x ∈ p, 0 ≤ x.arrival_time)
    (hb : ∀ x ∈ p, 0 < x.burst_time) (hq : ∀ x ∈ p, x.burst_time ≤ quantum)
    (hn : p.length ≤ MAX_PROCESSES) (hfit : FitsFCFS (reset_processes p)) :
    (∃ fuel res, simulate_RR32 (reset_processes p) quantum fuel = Outcome.finished res) ∧
    (∀ fuel res, simulate_RR32 (reset_processes p) quantum fuel = Outcome.finished res →
      res.map metricsOf = (simulate_FCFS32 (reset_processes p)).map metricsOf) := by
  obtain ⟨⟨f0, res0, h0⟩, hall⟩ := large_quantum_exact p quantum hs ha hb hq hn
  have hf := fitsRR_of_fitsFCFS p quantum hs ha hb hq hn hfit
  rw [simulate_FCFS32_exact _ hfit]
  refine ⟨⟨f0, res0, ?_⟩, fun fuel res hres => ?_⟩
  · rw [simulate_RR32_exact p quantum f0 (hf f0)]
    exact h0
  · rw [simulate_RR32_exact p quantum fuel (hf fuel)] at hres
    exact hall fuel res hres

/-- Witness of C17: arrivals 0, 2, 4 with bursts 5, 3, 2 and quantum 5. -/
theorem large_quantum_is_fcfs_witness :
    FitsFCFS (reset_processes fcfsExample) ∧
    (∃ fuel res, simulate_RR32 (reset_processes fcfsExample) 5 fuel = Outcome.finished res) ∧
    (∀ fuel res, simulate_RR32 (reset_processes fcfsExample) 5 fuel = Outcome.finished res →
      res.map metricsOf = (simulate_FCFS32 (reset_processes fcfsExample)).map metricsOf) :=
  ⟨by decide, large_quantum_is_fcfs fcfsExample 5 (by decide) (by decide) (by decide)
    (by decide) (by decide) (by decide)⟩

/-- Mutual exclusion for the non-preemptive policies, computed over the integers.
For bursts above 0: after `simulate_FCFS` the execution intervals
`[finish_time - burst_time, finish_time)` of the processes at any two distinct
positions do not overlap and each starts at or after the arrival of its process;
in the loop of `simulate_SJF` the same holds, after any number of iterations, of
the processes completed so far, hence of all processes of the array the run
returns. -/
theorem mutual_exclusion_exact (p : List Process) (hb : ∀ x ∈ p, 0 < x.burst_time) :
    (∀ (i j : Nat) (a b : Process), i ≠ j → (simulate_FCFS p)[i]? = some a → (simulate_FCFS p)[j]? = some b →
      NoOverlap a b) ∧
    (∀ x ∈ simulate_FCFS p, StartsAfterArrival x) ∧
    (∀ (fuel i j : Nat) (a b : Process), i ≠ j →
      (sjfRun fuel (sjfInit (reset_processes p))).p[i]? = some a →
      (sjfRun fuel (sjfInit (reset_processes p))).p[j]? = some b →
      a.is_completed ≠ 0 → b.is_completed ≠ 0 →
      NoOverlap a b ∧ StartsAfterArrival a) ∧
    (∀ (fuel : Nat) (res : List Process), simulate_SJF (reset_processes p) fuel = some res →
      (∀ (i j : Nat) (a b : Process), i ≠ j → res[i]? = some a → res[j]? = some b → NoOverlap a b) ∧
      (∀ x ∈ res, StartsAfterArrival x)) := by
  refine ⟨?_, ?_, ?_, ?_⟩
  · intro i j a b hij ha hb2
    have hp := fcfsLoop_pairwise p 0 hb
    rcases Nat.lt_or_gt_of_ne hij with h | h
    · exact Or.inl (pairwise_getElem? hp h ha hb2)
    · exact Or.inr (pairwise_getElem? hp h hb2 ha)
  · intro x hx
    have := (fcfsLoop_mem p 0 x hx).2
    unfold StartsAfterArrival
    omega
  · intro fuel i j a b hij ha hb2 hac hbc
    have h := sjfExcl_run p hb fuel
    exact ⟨h.apart i j a b hij ha hb2 hac hbc, (h.past a (List.getElem?_mem ha) hac).2⟩
  · intro fuel res hres
    unfold simulate_SJF at hres
    simp only at hres
    split at hres
    · exact absurd hres (by simp)
    · next hd =>
      obtain rfl := Option.some.inj hres
      have h := sjfExcl_run p hb fuel
      have hall := all_marked _ _ (sjfMarks_run p fuel).1 (sjfMarks_run p fuel).2 hd
      have hne : ∀ x ∈ (sjfRun fuel (sjfInit (reset_processes p))).p, x.is_completed ≠ 0 :=
        fun x hx => by rw [hall x hx]; decide
      exact ⟨fun i j a b hij ha hb2 => h.apart i j a b hij ha hb2
          (hne a (List.getElem?_mem ha)) (hne b (List.getElem?_mem hb2)),
        fun x hx => (h.past x hx (hne x hx)).2⟩

/-- C18 as stated fails on `clockOverflow`, whose bursts are positive.  In 32-bit
arithmetic FCFS leaves the second process with `finish_time = -2147483648` and
burst 1: its execution interval starts at `-2147483649`, before its arrival at
time 0. -/
theorem mutual_exclusion_overflow :
    (∀ x ∈ clockOverflow, 0 < x.burst_time) ∧
    (simulate_FCFS32 clockOverflow).map
        (fun x => (x.arrival_time, x.finish_time - x.burst_time, x.finish_time))
      = [(0, 0, 2147483647), (0, -2147483649, -2147483648)] ∧
    ¬ (∀ x ∈ simulate_FCFS32 clockOverflow, StartsAfterArrival x) := by
  refine ⟨by decide, by decide, ?_⟩
  unfold StartsAfterArrival
  decide

/-- C18, single-CPU mutual exclusion for the non-preemptive policies, for runs in
which no `int` operation overflows.  For bursts above 0, in 32-bit arithmetic:
after `simulate_FCFS`, when the values it computes all fit in an `int`, the
execution intervals `[finish_time - burst_time, finish_time)` of the processes at
any two distinct positions do not overlap and each starts at or after the arrival
of its process; in the loop of `simulate_SJF` the same holds, after any number
`fuel` of iterations without overflow, of the processes completed so far, hence of
all processes of the array the run returns. -/
theorem mutual_exclusion (p : List Process) (hb : ∀ x ∈ p, 0 < x.burst_time) :
    (FitsFCFS p →
      (∀ (i j : Nat) (a b : Process), i ≠ j → (simulate_FCFS32 p)[i]? = some a →
        (simulate_FCFS32 p)[j]? = some b → NoOverlap a b) ∧
      (∀ x ∈ simulate_FCFS32 p, StartsAfterArrival x)) ∧
    (∀ fuel : Nat, FitsSJF (reset_processes p) fuel →
      (∀ (i j : Nat) (a b : Process), i ≠ j →
        (sjfRun32 fuel (sjfInit (reset_processes p))).p[i]? = some a →
        (sjfRun32 fuel (sjfInit (reset_processes p))).p[j]? = some b →
        a.is_completed ≠ 0 → b.is_completed ≠ 0 →
        NoOverlap a b ∧ StartsAfterArrival a) ∧
      (∀ res : List Process, simulate_SJF32 (reset_processes p) fuel = some res →
        (∀ (i j : Nat) (a b : Process), i ≠ j → res[i]? = some a → res[j]? = some b →
          NoOverlap a b) ∧
        (∀ x ∈ res, StartsAfterArrival x))) := by
  obtain ⟨h1, h2, h3, h4⟩ := mutual_exclusion_exact p hb
  refine ⟨fun hf => ?_, fun fuel hf => ?_⟩
  · rw [simulate_FCFS32_exact p hf]
    exact ⟨h1, h2⟩
  · rw [simulate_SJF32_exact _ fuel hf, sjfRun32_exact fuel _ hf]
    exact ⟨h3 fuel, h4 fuel⟩

/-- Witness of C18 on arrivals 0 and 4 with bursts 8 and 1: no operation
overflows, and `simulate_SJF` returns after 2 iterations. -/
theorem mutual_exclusion_witness :
    (∀ x ∈ smallWorkload, 0 < x.burst_time) ∧
    (FitsFCFS smallWorkload ∧
      (∀ (i j : Nat) (a b : Process), i ≠ j → (simulate_FCFS32 smallWorkload)[i]? = some a →
        (simulate_FCFS32 smallWorkload)[j]? = some b → NoOverlap a b) ∧
      (∀ x ∈ simulate_FCFS32 smallWorkload, StartsAfterArrival x)) ∧
    (FitsSJF (reset_processes smallWorkload) 2 ∧
      (∃ res, simulate_SJF32 (reset_processes smallWorkload) 2 = some res) ∧
      (∀ res : List Process, simulate_SJF32 (reset_processes smallWorkload) 2 = some res →
        (∀ (i j : Nat) (a b : Process), i ≠ j → res[i]? = some a → res[j]? = some b →
          NoOverlap a b) ∧
        (∀ x ∈ res, StartsAfterArrival x))) :=
  ⟨by decide,
   ⟨by decide, (mutual_exclusion smallWorkload (by decide)).1 (by decide)⟩,
   ⟨by decide, ⟨_, rfl⟩, ((mutual_exclusion smallWorkload (by decide)).2 2 (by decide)).2⟩⟩

set_option maxRecDepth 100000 in
/-- C19 as stated fails when the sum exceeds `MAX_PROCESSES`.  On
`twoLongProcesses` with quantum 1 (bursts and quantum positive) the sum of
`ceil(burst_time / quantum)` is 120; the 99th dispatch of `simulate_RR` writes
`queue[100]`, outside the array, while the loop is still running, and no run gives
a result: there is no final `tail` of 120 writes to the array. -/
theorem queue_capacity_overflow :
    (∀ x ∈ twoLongProcesses, 0 < x.burst_time) ∧
    queueDemand 1 twoLongProcesses = 120 ∧
    (rrRun 1 99 (rrInit (reset_processes twoLongProcesses))).queue.length = 101 ∧
    (rrRun 1 99 (rrInit (reset_processes twoLongProcesses))).oob = true ∧
    (rrRun 1 99 (rrInit (reset_processes twoLongProcesses))).completed
      < (rrRun 1 99 (rrInit (reset_processes twoLongProcesses))).p.length ∧
    ¬ ∃ fuel res,
      simulate_RR (reset_processes twoLongProcesses) 1 fuel = Outcome.finished res := by
  refine ⟨by decide, by decide, by decide, by decide, by decide, ?_⟩
  rintro ⟨fuel, res, h⟩
  exact twoLongProcesses_no_result fuel res h

/-- C19, queue capacity, for runs that stay inside the arrays.  For bursts and
quantum above 0, let the demand be the sum over the processes of
`ceil(burst_time / quantum)`.  If the demand is at most `MAX_PROCESSES`, no access
of `simulate_RR` leaves the arrays, the loop leaves after some number of
iterations, and in any state in which it has left the final `tail` equals the
demand.  In any state in which the loop has left inside the arrays `tail` equals
the demand, which is then at most `MAX_PROCESSES`.  If the demand exceeds
`MAX_PROCESSES`, the run comes to an access outside the arrays.  One process of
burst 101 with quantum 1 has a demand of 101: `n ≤ 100` is not enough. -/
theorem queue_capacity (p : List Process) (quantum : Int)
    (hb : ∀ x ∈ p, 0 < x.burst_time) (hq : 0 < quantum) :
    (queueDemand quantum p ≤ MAX_PROCESSES →
      (∀ fuel, (rrRun quantum fuel (rrInit (reset_processes p))).oob = false) ∧
      (∃ fuel, ¬ (rrRun quantum fuel (rrInit (reset_processes p))).completed
          < (rrRun quantum fuel (rrInit (reset_processes p))).p.length) ∧
      (∀ fuel s, s = rrRun quantum fuel (rrInit (reset_processes p)) →
        ¬ s.completed < s.p.length → (s.queue.length : Int) = queueDemand quantum p)) ∧
    (∀ fuel s, s = rrRun quantum fuel (rrInit (reset_processes p)) →
      ¬ s.completed < s.p.length → s.oob = false →
      (s.queue.length : Int) = queueDemand quantum p ∧
      queueDemand quantum p ≤ MAX_PROCESSES ∧
      ∀ j, j < s.queue.length → j < MAX_PROCESSES) ∧
    ((MAX_PROCESSES : Int) < queueDemand quantum p →
      ∃ fuel, (rrRun quantum fuel (rrInit (reset_processes p))).oob = true) ∧
    ([mkProcess 1 0 101].length ≤ MAX_PROCESSES ∧
      (MAX_PROCESSES : Int) < queueDemand 1 [mkProcess 1 0 101]) := by
  have hterm : ∃ fuel, ¬ (rrRun quantum fuel (rrInit (reset_processes p))).completed
      < (rrRun quantum fuel (rrInit (reset_processes p))).p.length := by
    have h0 := runInv_init p hb
    exact ⟨_, rrRun_terminates quantum _ hq _ _ h0 (Int.self_le_toNat _)⟩
  have hlen : ∀ fuel, ¬ (rrRun quantum fuel (rrInit (reset_processes p))).completed
      < (rrRun quantum fuel (rrInit (reset_processes p))).p.length →
      ((rrRun quantum fuel (rrInit (reset_processes p))).queue.length : Int)
        = queueDemand quantum p := by
    intro fuel hdone
    have ht := tally_rrRun quantum hq p hb fuel
    have := ht.writes
    rw [futureWrites_done quantum _ ht.queue hdone] at this
    omega
  have hspill : ∀ fuel, ¬ (rrRun quantum fuel (rrInit (reset_processes p))).completed
      < (rrRun quantum fuel (rrInit (reset_processes p))).p.length →
      (MAX_PROCESSES : Int) < queueDemand quantum p →
      (rrRun quantum fuel (rrInit (reset_processes p))).oob = true := by
    intro fuel hdone hbig
    have ht := tally_rrRun quantum hq p hb fuel
    apply ht.spill
    have := hlen fuel hdone
    have : (MAX_PROCESSES : Int) <
        ((rrRun quantum fuel (rrInit (reset_processes p))).queue.length : Int) := by omega
    exact_mod_cast this
  refine ⟨fun hcap => ⟨fun fuel => ?_, hterm, ?_⟩, ?_, ?_, by decide, by decide⟩
  · exact (fits_rrRun quantum _ hq hcap fuel _ (fits_init quantum hq p hb hcap)).cap.in_bounds
  · intro fuel s hs hdone
    subst hs
    exact hlen fuel hdone
  · intro fuel s hs hdone ho
    subst hs
    have hcap : queueDemand quantum p ≤ MAX_PROCESSES := by
      by_contra hc
      rw [hspill fuel hdone (by omega)] at ho
      exact absurd ho (by decide)
    refine ⟨hlen fuel hdone, hcap, fun j hj => ?_⟩
    have h1 := hlen fuel hdone
    have : ((rrRun quantum fuel (rrInit (reset_processes p))).queue.length : Int)
        ≤ MAX_PROCESSES := by omega
    have : (rrRun quantum fuel (rrInit (reset_processes p))).queue.length
        ≤ MAX_PROCESSES := by exact_mod_cast this
    omega
  · intro hbig
    obtain ⟨fuel, hdone⟩ := hterm
    exact ⟨fuel, hspill fuel hdone hbig⟩

/-- Witness of C19 on two processes with bursts 8 and 1, quantum 4: the demand is 3
and the loop has left after 3 iterations with `tail = 3`. -/
theorem queue_capacity_witness :
    (∀ x ∈ rrExample, 0 < x.burst_time) ∧ (0 : Int) < 4 ∧
    queueDemand 4 rrExample = 3 ∧
    (rrRun 4 3 (rrInit (reset_processes rrExample))).oob = false ∧
    ¬ (rrRun 4 3 (rrInit (reset_processes rrExample))).completed
      < (rrRun 4 3 (rrInit (reset_processes rrExample))).p.length ∧
    ((rrRun 4 3 (rrInit (reset_processes rrExample))).queue.length : Int)
      = queueDemand 4 rrExample ∧
    queueDemand 4 rrExample ≤ MAX_PROCESSES ∧
    ∀ j, j < (rrRun 4 3 (rrInit (reset_processes rrExample))).queue.length →
      j < MAX_PROCESSES :=
  ⟨by decide, by decide, by decide, by decide, by decide,
   (queue_capacity rrExample 4 (by decide) (by decide)).2.1 3 _ rfl (by decide) (by decide)⟩

end Scheduler
